import Mathlib

/-!
# Picol: a shallow embedding of `picol.c` and proofs about it

The C program is embedded function by function, under the names of the source.

Conventions of the embedding.

* A C string is a `List Char` (the bytes before the terminating NUL); reading the
  byte at an offset at or past the end of the list yields the NUL character, as
  reading the terminator does in C.  `strcmp(a,b) == 0` is equality of lists.
* Pointers into the program text are offsets (`picolParser.p`, `start`, `end_`).
* `int` values are `Int`.  No length or counter of the program comes near `2^31`
  unless a text of that size is supplied, so wrap-around is not modelled.
* Every `while` loop of the source is a recursive function that spends one unit of
  fuel per iteration, and every (mutually) recursive C function spends one unit per
  call.  A result `none` means that the fuel given did not suffice (or, where said
  so explicitly, that the C program would dereference a NULL pointer or read memory
  that it has freed); `some r` means that the C function returns, with the state `r`.
* Memory is not modelled, with one exception.  `picolCommandCallProc` evaluates the
  text that `cmd->body` points to without copying it, and `picolRegisterCommand`
  frees that text when the command is registered again.  The field `freed` of
  `picolInterp`, which is not in the C structure, records these calls of `free`, and
  the evaluation of a procedure body (`picolEvalBody`) has no result once the
  parser is about to read a body that has been freed.
* `double`, `strtod` and the `"%.12g"` conversion belong to the C library and not to
  the program; they are a parameter (`DoubleOps`) of the embedding.
* `printf` output is not part of the state.
-/

namespace Picol

/-! ## Strings and characters -/

/-- A C string: its bytes up to the NUL terminator (not included). -/
abbrev CStr := List Char

/-- The byte of a C string at an offset: `s[k]`, the terminator past the end. -/
def charAt (s : CStr) (k : Nat) : Char := s.getD k '\x00'

/-- C `isupper` in the "C" locale. -/
def isupper (c : Char) : Bool := decide ('A' ≤ c ∧ c ≤ 'Z')

/-- Effect of `snprintf(buf, size, ...)` with a formatted text `s`: at most
`size - 1` bytes are stored. -/
def snprintf (size : Nat) (s : CStr) : CStr := s.take (size - 1)

/-! ## The C library's floating point, as a parameter -/

/-- The operations on `double` that `picol.c` uses, together with `strtod` and the
`"%.12g"` conversion of `snprintf`. -/
structure DoubleOps (D : Type) where
  /-- Conversion of an `int` to `double` (the program converts only 0 and 1). -/
  ofInt : Int → D
  neg : D → D
  add : D → D → D
  sub : D → D → D
  mul : D → D → D
  div : D → D → D
  lt : D → D → Bool
  gt : D → D → Bool
  le : D → D → Bool
  ge : D → D → Bool
  eq : D → D → Bool
  ne : D → D → Bool
  /-- Truth value of a `double` used as a C condition (`d != 0`). -/
  nonzero : D → Bool
  /-- The function `strtod(s, &e)`: the value, and the number of bytes `e - s`
  consumed (0 when no conversion is performed). -/
  strtod : CStr → D × Nat
  /-- The text produced by the conversion `"%.12g"`. -/
  fmt12g : D → CStr

/-! ## Data structures -/

/-- `#define PICOL_MAX_RECURSION_LEVEL 128` -/
def PICOL_MAX_RECURSION_LEVEL : Int := 128

/-- `enum {PICOL_OK, PICOL_ERR, PICOL_RETURN, PICOL_BREAK, PICOL_CONTINUE}` -/
inductive picolRetCode where
  | PICOL_OK
  | PICOL_ERR
  | PICOL_RETURN
  | PICOL_BREAK
  | PICOL_CONTINUE
  deriving DecidableEq, Repr

export picolRetCode (PICOL_OK PICOL_ERR PICOL_RETURN PICOL_BREAK PICOL_CONTINUE)

/-- `enum {PT_ESC, PT_STR, PT_CMD, PT_VAR, PT_SEP, PT_EOL, PT_EOF}` -/
inductive picolTokenType where
  | PT_ESC
  | PT_STR
  | PT_CMD
  | PT_VAR
  | PT_SEP
  | PT_EOL
  | PT_EOF
  deriving DecidableEq, Repr

export picolTokenType (PT_ESC PT_STR PT_CMD PT_VAR PT_SEP PT_EOL PT_EOF)

/-- `struct picolParser`.  The pointers `p`, `start`, `end` are offsets into `text`
(`end_` stands for the field `end`); `start` and `end` are NULL after
`picolInitParser`, which the embedding renders as offset 0. -/
structure picolParser where
  text : CStr
  p : Nat
  len : Int
  start : Int
  end_ : Int
  type : picolTokenType
  insidequote : Bool
  deriving DecidableEq, Repr

/-- `struct picolVar` (the `next` pointer is the tail of the list holding it). -/
structure picolVar where
  name : CStr
  val : CStr
  deriving DecidableEq, Repr

/-- The type `picolCmdFunc`: the command implementations of `picol.c`. -/
inductive picolCmdFunc where
  | picolCommandExpr
  | picolCommandSet
  | picolCommandPuts
  | picolCommandIf
  | picolCommandWhile
  | picolCommandRetCodes
  | picolCommandProc
  | picolCommandReturn
  | picolCommandCallProc
  deriving DecidableEq, Repr

/-- `struct picolCmd`; `arglist` and `body` may be NULL (`none`). -/
structure picolCmd where
  name : CStr
  func : picolCmdFunc
  arglist : Option CStr
  body : Option CStr
  deriving DecidableEq, Repr

/-- `struct picolCallFrame`: `top vars` is a frame whose `parent` is NULL,
`child vars parent` a frame with a parent. -/
inductive picolCallFrame where
  | top (vars : List picolVar)
  | child (vars : List picolVar) (parent : picolCallFrame)
  deriving DecidableEq, Repr

/-- `struct picolInterp` (with a non-NULL `callframe`).  The field `freed` is not in
the C structure: it lists, newest first, the names of the commands whose `arglist`
and `body` have been passed to `free` by `picolRegisterCommand`. -/
structure picolInterp where
  level : Int
  callframe : picolCallFrame
  commands : List picolCmd
  result : CStr
  freed : List CStr
  deriving DecidableEq, Repr

/-! ## The tokenizer -/

/-- `picolInitParser` -/
def picolInitParser (text : CStr) : picolParser :=
  { text := text, p := 0, len := text.length, start := 0, end_ := 0,
    insidequote := false, type := PT_EOL }

/-- The byte `*p->p`. -/
def picolParser.cur (p : picolParser) : Char := charAt p.text p.p

/-- The statement pair `p->p++; p->len--;`. -/
def picolParser.adv (p : picolParser) : picolParser :=
  { p with p := p.p + 1, len := p.len - 1 }

/-- The loop of `picolParseSep`. -/
def picolParseSepLoop : Nat → picolParser → Option picolParser
  | 0, _ => none
  | n + 1, p =>
    if p.cur = ' ' ∨ p.cur = '\t' then picolParseSepLoop n p.adv else some p

/-- `picolParseSep` -/
def picolParseSep (n : Nat) (p : picolParser) : Option picolParser :=
  (picolParseSepLoop n { p with start := p.p }).map fun q =>
    { q with end_ := (q.p : Int) - 1, type := PT_SEP }

/-- The loop of `picolParseEol`. -/
def picolParseEolLoop : Nat → picolParser → Option picolParser
  | 0, _ => none
  | n + 1, p =>
    if p.cur = ' ' ∨ p.cur = '\t' ∨ p.cur = '\n' ∨ p.cur = '\r' ∨ p.cur = ';' then
      picolParseEolLoop n p.adv
    else some p

/-- `picolParseEol` -/
def picolParseEol (n : Nat) (p : picolParser) : Option picolParser :=
  (picolParseEolLoop n { p with start := p.p }).map fun q =>
    { q with end_ := (q.p : Int) - 1, type := PT_EOL }

/-- The `while (1)` loop of `picolParseCommand`, with its locals `level`, `blevel`. -/
def picolParseCommandLoop : Nat → picolParser → Int → Int → Option picolParser
  | 0, _, _, _ => none
  | n + 1, p, level, blevel =>
    if p.len = 0 then some p
    else if p.cur = '[' ∧ blevel = 0 then picolParseCommandLoop n p.adv (level + 1) blevel
    else if p.cur = ']' ∧ blevel = 0 then
      if level - 1 = 0 then some p else picolParseCommandLoop n p.adv (level - 1) blevel
    else if p.cur = '\\' then
      picolParseCommandLoop n (if p.len ≥ 2 then p.adv else p).adv level blevel
    else if p.cur = '{' then picolParseCommandLoop n p.adv level (blevel + 1)
    else if p.cur = '}' then
      picolParseCommandLoop n p.adv level (if blevel ≠ 0 then blevel - 1 else blevel)
    else picolParseCommandLoop n p.adv level blevel

/-- `picolParseCommand` -/
def picolParseCommand (n : Nat) (p : picolParser) : Option picolParser :=
  let p1 := p.adv
  (picolParseCommandLoop n { p1 with start := p1.p } 1 0).map fun q =>
    let q1 := { q with end_ := (q.p : Int) - 1, type := PT_CMD }
    if q1.cur = ']' then q1.adv else q1

/-- The identifier test of `picolParseVar`. -/
def isVarChar (c : Char) : Bool :=
  decide (('a' ≤ c ∧ c ≤ 'z') ∨ ('A' ≤ c ∧ c ≤ 'Z') ∨ ('0' ≤ c ∧ c ≤ '9') ∨ c = '_')

/-- The loop of `picolParseVar`. -/
def picolParseVarLoop : Nat → picolParser → Option picolParser
  | 0, _ => none
  | n + 1, p => if isVarChar p.cur then picolParseVarLoop n p.adv else some p

/-- `picolParseVar` -/
def picolParseVar (n : Nat) (p : picolParser) : Option picolParser :=
  let p1 := p.adv
  (picolParseVarLoop n { p1 with start := p1.p }).map fun q =>
    if q.start = q.p then
      { q with start := (q.p : Int) - 1, end_ := (q.p : Int) - 1, type := PT_STR }
    else
      { q with end_ := (q.p : Int) - 1, type := PT_VAR }

/-- The `while (1)` loop of `picolParseBrace`, with its local `level`. -/
def picolParseBraceLoop : Nat → picolParser → Int → Option picolParser
  | 0, _, _ => none
  | n + 1, p, level =>
    if p.len ≥ 2 ∧ p.cur = '\\' then picolParseBraceLoop n p.adv.adv level
    else if p.len = 0 ∨ p.cur = '}' then
      if level - 1 = 0 ∨ p.len = 0 then
        let q := { p with end_ := (p.p : Int) - 1 }
        let q1 := if q.len ≠ (0 : Int) then q.adv else q
        some { q1 with type := PT_STR }
      else picolParseBraceLoop n p.adv (level - 1)
    else if p.cur = '{' then picolParseBraceLoop n p.adv (level + 1)
    else picolParseBraceLoop n p.adv level

/-- `picolParseBrace` -/
def picolParseBrace (n : Nat) (p : picolParser) : Option picolParser :=
  let p1 := p.adv
  picolParseBraceLoop n { p1 with start := p1.p } 1

/-- The `while (1)` loop of `picolParseString`. -/
def picolParseStringLoop : Nat → picolParser → Option picolParser
  | 0, _ => none
  | n + 1, p =>
    if p.len = 0 then some { p with end_ := (p.p : Int) - 1, type := PT_ESC }
    else if p.cur = '\\' then
      picolParseStringLoop n (if p.len ≥ 2 then p.adv else p).adv
    else if p.cur = '$' ∨ p.cur = '[' then
      some { p with end_ := (p.p : Int) - 1, type := PT_ESC }
    else if p.cur = ' ' ∨ p.cur = '\t' ∨ p.cur = '\n' ∨ p.cur = '\r' ∨ p.cur = ';' then
      if ¬ p.insidequote then some { p with end_ := (p.p : Int) - 1, type := PT_ESC }
      else picolParseStringLoop n p.adv
    else if p.cur = '"' then
      if p.insidequote then
        some { { p with end_ := (p.p : Int) - 1, type := PT_ESC }.adv with
               insidequote := false }
      else picolParseStringLoop n p.adv
    else picolParseStringLoop n p.adv

/-- `picolParseString` -/
def picolParseString (n : Nat) (p : picolParser) : Option picolParser :=
  let newword := p.type = PT_SEP ∨ p.type = PT_EOL ∨ p.type = PT_STR
  if newword ∧ p.cur = '{' then picolParseBrace n p
  else
    let p1 := if newword ∧ p.cur = '"' then { p.adv with insidequote := true } else p
    picolParseStringLoop n { p1 with start := p1.p }

/-- The loop of `picolParseComment`. -/
def picolParseCommentLoop : Nat → picolParser → Option picolParser
  | 0, _ => none
  | n + 1, p =>
    if p.len ≠ 0 ∧ p.cur ≠ '\n' then picolParseCommentLoop n p.adv else some p

/-- `picolParseComment` -/
def picolParseComment (n : Nat) (p : picolParser) : Option picolParser :=
  picolParseCommentLoop n p

/-- `picolGetToken` (one unit of fuel per iteration of its `while (1)`). -/
def picolGetToken : Nat → picolParser → Option picolParser
  | 0, _ => none
  | n + 1, p =>
    if p.len = 0 then
      some { p with type := if p.type ≠ PT_EOL ∧ p.type ≠ PT_EOF then PT_EOL else PT_EOF }
    else if p.cur = ' ' ∨ p.cur = '\t' then
      if p.insidequote then picolParseString n p else picolParseSep n p
    else if p.cur = '\n' ∨ p.cur = '\r' ∨ p.cur = ';' then
      if p.insidequote then picolParseString n p else picolParseEol n p
    else if p.cur = '[' then picolParseCommand n p
    else if p.cur = '$' then picolParseVar n p
    else if p.cur = '#' then
      if p.type = PT_EOL then (picolParseComment n p).bind fun q => picolGetToken n q
      else picolParseString n p
    else picolParseString n p

/-- The token text copied by `picolEval`: `tlen = p.end-p.start+1` bytes from
`p.start`, with `tlen` raised to 0 when negative. -/
def picolParser.token (p : picolParser) : CStr :=
  (p.text.drop p.start.toNat).take (p.end_ - p.start + 1).toNat

/-! ## Interpreter state, variables and commands -/

/-- `picolInitInterp` -/
def picolInitInterp : picolInterp :=
  { level := 0, callframe := .top [], result := [], commands := [], freed := [] }

/-- `picolSetResult` -/
def picolSetResult (i : picolInterp) (s : CStr) : picolInterp :=
  { i with result := s }

/-- The field `vars` of a call frame. -/
def picolCallFrame.vars : picolCallFrame → List picolVar
  | .top vs => vs
  | .child vs _ => vs

/-- The field `parent` of a call frame (`none` is NULL). -/
def picolCallFrame.parent : picolCallFrame → Option picolCallFrame
  | .top _ => none
  | .child _ p => some p

/-- The walk `while(cf->parent) cf = cf->parent;`. -/
def picolCallFrame.topFrame : picolCallFrame → picolCallFrame
  | .top vs => .top vs
  | .child _ p => p.topFrame

/-- The frame in which `picolGetVar` and `picolSetVar` look a name up:
`if (isupper(name[0])) while(cf->parent) cf = cf->parent;`. -/
def picolVarFrame (i : picolInterp) (name : CStr) : picolCallFrame :=
  if isupper (charAt name 0) then i.callframe.topFrame else i.callframe

/-- The search loop of `picolGetVar` over a list of variables. -/
def picolFindVar : List picolVar → CStr → Option picolVar
  | [], _ => none
  | v :: vs, name => if v.name = name then some v else picolFindVar vs name

/-- `picolGetVar` (`none` is NULL). -/
def picolGetVar (i : picolInterp) (name : CStr) : Option picolVar :=
  picolFindVar (picolVarFrame i name).vars name

/-- The variable list after `v->val = xstrdup(val)` on the first variable called
`name`. -/
def picolReplaceVal : List picolVar → CStr → CStr → List picolVar
  | [], _, _ => []
  | v :: vs, name, val =>
    if v.name = name then { v with val := val } :: vs
    else v :: picolReplaceVal vs name val

/-- What `picolSetVar` does to the variable list of the frame it selected. -/
def picolSetVarIn (vars : List picolVar) (name val : CStr) : List picolVar :=
  match picolFindVar vars name with
  | some _ => picolReplaceVal vars name val
  | none => { name := name, val := val } :: vars

/-- Replace the variable list of the frame itself. -/
def picolCallFrame.setVars : picolCallFrame → List picolVar → picolCallFrame
  | .top _, vs => .top vs
  | .child _ p, vs => .child vs p

/-- Apply `f` to the variable list of the parentless frame of the chain. -/
def picolCallFrame.mapTop (f : List picolVar → List picolVar) :
    picolCallFrame → picolCallFrame
  | .top vs => .top (f vs)
  | .child vs p => .child vs (p.mapTop f)

/-- `picolSetVar` -/
def picolSetVar (i : picolInterp) (name val : CStr) : picolInterp :=
  if isupper (charAt name 0) then
    { i with callframe := i.callframe.mapTop fun vs => picolSetVarIn vs name val }
  else
    { i with callframe := i.callframe.setVars (picolSetVarIn i.callframe.vars name val) }

/-- The search loop of `picolGetCommand`. -/
def picolFindCmd : List picolCmd → CStr → Option picolCmd
  | [], _ => none
  | c :: cs, name => if c.name = name then some c else picolFindCmd cs name

/-- `picolGetCommand` (`none` is NULL). -/
def picolGetCommand (i : picolInterp) (name : CStr) : Option picolCmd :=
  picolFindCmd i.commands name

/-- The command list after the first command called `name` is replaced by its image
under `f` (an assignment through the pointer that `picolGetCommand` returned). -/
def picolUpdateCmd (f : picolCmd → picolCmd) : List picolCmd → CStr → List picolCmd
  | [], _ => []
  | c :: cs, name => if c.name = name then f c :: cs else c :: picolUpdateCmd f cs name

/-- `picolRegisterCommand` -/
def picolRegisterCommand (i : picolInterp) (name : CStr) (f : picolCmdFunc) :
    picolInterp :=
  match picolGetCommand i name with
  | none =>
    { i with commands :=
        { name := name, func := f, arglist := none, body := none } :: i.commands }
  | some _ =>
    let reset : picolCmd → picolCmd := fun c =>
      { name := c.name, func := f, arglist := none, body := none }
    { i with commands := picolUpdateCmd reset i.commands name, freed := name :: i.freed }

/-- `picolDropCallFrame`; `none` when the frame has no parent (the C code then
leaves `callframe` NULL, which happens only in `picolFreeInterp`). -/
def picolDropCallFrame (i : picolInterp) : Option picolInterp :=
  match i.callframe with
  | .top _ => none
  | .child _ p => some { i with callframe := p }

/-! ## Escape processing -/

/-- The `PT_ESC` branch of `picolEval`: the in-place loop that turns a backslash
and the character after it into one character. -/
def picolEscape : CStr → CStr
  | [] => []
  | [c] => [c]
  | c :: d :: rest =>
    if c = '\\' then
      (if d = 'n' then '\n' else if d = 't' then '\t' else if d = 'r' then '\r' else d)
        :: picolEscape rest
    else c :: picolEscape (d :: rest)

/-! ## The expression evaluator -/

section Eval

variable {D : Type} (F : DoubleOps D)

/-- The state that a call of `picolExpr` leaves: the returned value, the
interpreter, the cursor `*p` (an offset into the expression) and the flag `*err`. -/
structure picolExprResult (D : Type) where
  val : D
  interp : picolInterp
  p : Nat
  err : Bool

/-- The loop `while (**p && strchr(" \t\r\n", **p)) (*p)++;` of `picolExpr`. -/
def picolExprSkip : Nat → CStr → Nat → Option Nat
  | 0, _, _ => none
  | n + 1, s, p =>
    if charAt s p ≠ '\x00' ∧
        (charAt s p = ' ' ∨ charAt s p = '\t' ∨ charAt s p = '\r' ∨ charAt s p = '\n') then
      picolExprSkip n s (p + 1)
    else some p

/-- Step 2 of `picolExpr`: the operator at the cursor, as `(op, oprec, len)`;
`none` is the final `else break`. -/
def picolExprOp (s : CStr) (p : Nat) : Option (Char × Int × Nat) :=
  let c := charAt s p
  let d := charAt s (p + 1)
  if c = '|' ∧ d = '|' then some ('o', 0, 2)
  else if c = '&' ∧ d = '&' then some ('a', 1, 2)
  else if c = '*' ∨ c = '/' then some (c, 4, 1)
  else if c = '+' ∨ c = '-' then some (c, 3, 1)
  else if c = '<' ∧ d = '=' then some ('L', 2, 2)
  else if c = '>' ∧ d = '=' then some ('G', 2, 2)
  else if c = '=' ∧ d = '=' then some ('E', 2, 2)
  else if c = '!' ∧ d = '=' then some ('N', 2, 2)
  else if c = '<' then some ('<', 2, 1)
  else if c = '>' then some ('>', 2, 1)
  else none

/-- The `switch(op)` of `picolExpr`: the new value of `a`. -/
def picolExprApply (op : Char) (a b : D) : D :=
  if op = '+' then F.add a b
  else if op = '-' then F.sub a b
  else if op = '*' then F.mul a b
  else if op = '/' then F.div a b
  else if op = '<' then F.ofInt (if F.lt a b then 1 else 0)
  else if op = '>' then F.ofInt (if F.gt a b then 1 else 0)
  else if op = 'L' then F.ofInt (if F.le a b then 1 else 0)
  else if op = 'G' then F.ofInt (if F.ge a b then 1 else 0)
  else if op = 'E' then F.ofInt (if F.eq a b then 1 else 0)
  else if op = 'N' then F.ofInt (if F.ne a b then 1 else 0)
  else if op = 'o' then F.ofInt (if F.nonzero a || F.nonzero b then 1 else 0)
  else if op = 'a' then F.ofInt (if F.nonzero a && F.nonzero b then 1 else 0)
  else a

mutual

/-- `picolExpr(i, p, err, prec)` on the expression text `s`, from the cursor `p`
and the flag `err`. -/
def picolExpr : Nat → picolInterp → CStr → Nat → Bool → Int → Option (picolExprResult D)
  | 0, _, _, _, _, _ => none
  | n + 1, i, s, p, err, prec =>
    let i1 := { i with level := i.level + 1 }
    if i1.level > PICOL_MAX_RECURSION_LEVEL then
      some { val := F.ofInt 0, interp := { i1 with level := i1.level - 1 }, p := p,
             err := true }
    else
      (picolExprSkip n s p).bind fun p1 =>
      (if charAt s p1 = '(' then
          (picolExpr n i1 s (p1 + 1) err 0).bind fun r =>
          (picolExprSkip n s r.p).bind fun p2 =>
          if charAt s p2 = ')' then some { r with p := p2 + 1 }
          else some { r with p := p2, err := true }
        else if charAt s p1 = '-' then
          (picolExpr n i1 s (p1 + 1) err 5).bind fun r => some { r with val := F.neg r.val }
        else if charAt s p1 = '+' then picolExpr n i1 s (p1 + 1) err 5
        else
          some { val := (F.strtod (s.drop p1)).1, interp := i1,
                 p := p1 + (F.strtod (s.drop p1)).2,
                 err := if (F.strtod (s.drop p1)).2 = 0 then true else err }).bind fun r =>
      (picolExprSkip n s r.p).bind fun p3 =>
      (picolExprLoop n r.interp s p3 r.err prec r.val).bind fun r1 =>
      some { r1 with interp := { r1.interp with level := r1.interp.level - 1 } }

/-- The `while (1)` loop of `picolExpr` (steps 2 and 3), with the accumulator `a`. -/
def picolExprLoop : Nat → picolInterp → CStr → Nat → Bool → Int → D →
    Option (picolExprResult D)
  | 0, _, _, _, _, _, _ => none
  | n + 1, i, s, p, err, prec, a =>
    match picolExprOp s p with
    | none => some { val := a, interp := i, p := p, err := err }
    | some o =>
      if o.2.1 < prec then some { val := a, interp := i, p := p, err := err }
      else
        (picolExpr n i s (p + o.2.2) err (o.2.1 + 1)).bind fun r =>
        (picolExprSkip n s r.p).bind fun p1 =>
        picolExprLoop n r.interp s p1 r.err prec (picolExprApply F o.1 a r.val)

end

/-! ## Commands that do not evaluate scripts -/

/-- `picolArityErr` -/
def picolArityErr (i : picolInterp) (name : CStr) : picolRetCode × picolInterp :=
  (PICOL_ERR, picolSetResult i (snprintf 1024 ("Wrong number of args for ".toList ++ name)))

/-- The expression built by `picolCommandExpr`: `argv[1..]` joined by one space. -/
def picolExprJoin : List CStr → CStr
  | [] => []
  | [a] => a
  | a :: b :: rest => a ++ ' ' :: picolExprJoin (b :: rest)

/-- The loop `while (*p == ' ') p++;` of `picolCommandExpr`. -/
def picolExprTrail : Nat → CStr → Nat → Option Nat
  | 0, _, _ => none
  | n + 1, s, p => if charAt s p = ' ' then picolExprTrail n s (p + 1) else some p

/-- `picolCommandExpr` -/
def picolCommandExpr (n : Nat) (i : picolInterp) (argv : List CStr) :
    Option (picolRetCode × picolInterp) :=
  if argv.length < 2 then some (picolArityErr i (argv.getD 0 []))
  else
    let expr := picolExprJoin (argv.drop 1)
    (picolExpr F n i expr 0 false 0).bind fun r =>
    (picolExprTrail n expr r.p).bind fun p1 =>
    if (if charAt expr p1 ≠ '\x00' then true else r.err) then
      some (PICOL_ERR, picolSetResult r.interp "Error in expression".toList)
    else some (PICOL_OK, picolSetResult r.interp (snprintf 64 (F.fmt12g r.val)))

/-- `picolCommandSet` -/
def picolCommandSet (i : picolInterp) (argv : List CStr) : picolRetCode × picolInterp :=
  if argv.length = 3 then
    let i1 := picolSetVar i (argv.getD 1 []) (argv.getD 2 [])
    (PICOL_OK, picolSetResult i1 (argv.getD 2 []))
  else if argv.length = 2 then
    match picolGetVar i (argv.getD 1 []) with
    | none =>
      (PICOL_ERR, picolSetResult i (snprintf 1024
        ("Can't read \"".toList ++ argv.getD 1 [] ++ "\": no such variable".toList)))
    | some v => (PICOL_OK, picolSetResult i v.val)
  else picolArityErr i (argv.getD 0 [])

/-- `picolCommandPuts` (the text written by `printf` is not part of the state). -/
def picolCommandPuts (i : picolInterp) (argv : List CStr) : picolRetCode × picolInterp :=
  let nonl := decide (argv.length = 3 ∧ argv.getD 1 [] = "-nonewline".toList)
  if argv.length ≠ 2 ∧ ¬ nonl then picolArityErr i (argv.getD 0 [])
  else (PICOL_OK, i)

/-- `picolCommandRetCodes` -/
def picolCommandRetCodes (i : picolInterp) (argv : List CStr) :
    picolRetCode × picolInterp :=
  if argv.length ≠ 1 then picolArityErr i (argv.getD 0 [])
  else if argv.getD 0 [] = "break".toList then (PICOL_BREAK, i)
  else if argv.getD 0 [] = "continue".toList then (PICOL_CONTINUE, i)
  else (PICOL_OK, i)

/-- `picolCommandProc` -/
def picolCommandProc (i : picolInterp) (argv : List CStr) : picolRetCode × picolInterp :=
  if argv.length ≠ 4 then picolArityErr i (argv.getD 0 [])
  else
    let i1 := picolRegisterCommand i (argv.getD 1 []) .picolCommandCallProc
    let store : picolCmd → picolCmd := fun c =>
      { name := c.name, func := c.func, arglist := some (argv.getD 2 []),
        body := some (argv.getD 3 []) }
    (PICOL_OK, { i1 with commands := picolUpdateCmd store i1.commands (argv.getD 1 []) })

/-- `picolCommandReturn` -/
def picolCommandReturn (i : picolInterp) (argv : List CStr) :
    picolRetCode × picolInterp :=
  if argv.length ≠ 1 ∧ argv.length ≠ 2 then picolArityErr i (argv.getD 0 [])
  else (PICOL_RETURN, picolSetResult i (if argv.length = 2 then argv.getD 1 [] else []))

/-! ## Binding the parameters of a procedure -/

/-- How the parameter loop of `picolCommandCallProc` ends: it is left normally
(`done`), by `goto arityerr`, or by `goto err` with the text put in `errbuf`. -/
inductive picolArgsExit where
  | done (i : picolInterp) (arity : Int)
  | arityerr (i : picolInterp)
  | err (i : picolInterp) (errbuf : CStr)

/-- The inner loop `while(*p != ' ' && *p != '\0') p++;` of `picolCommandCallProc`. -/
def picolArgsScan : Nat → CStr → Nat → Option Nat
  | 0, _, _ => none
  | n + 1, s, p =>
    if charAt s p ≠ ' ' ∧ charAt s p ≠ '\x00' then picolArgsScan n s (p + 1) else some p

/-- The outer `while(1)` loop of `picolCommandCallProc` over the copy of `arglist`;
`p` is the offset of the cursor and `arity` the count of parameters bound. -/
def picolArgsLoop : Nat → picolInterp → List CStr → CStr → Nat → Int →
    Option picolArgsExit
  | 0, _, _, _, _, _ => none
  | n + 1, i, argv, alist, p, arity =>
    (picolArgsScan n alist p).bind fun p1 =>
    if charAt alist p1 ≠ '\x00' ∧ p1 = p then picolArgsLoop n i argv alist (p1 + 1) arity
    else if p1 = p then some (.done i arity)
    else
      let start := (alist.drop p).take (p1 - p)
      if arity + 1 > (argv.length : Int) - 1 then some (.arityerr i)
      else if isupper (charAt start 0) then
        some (.err i (snprintf 1024 ("Procedure parameter '".toList ++ start ++
          "' can't be a global (upcase first character)".toList)))
      else
        let i1 := picolSetVar i start (argv.getD (arity + 1).toNat [])
        if charAt alist p1 = '\x00' then some (.done i1 (arity + 1))
        else picolArgsLoop n i1 argv alist (p1 + 1) (arity + 1)

/-! ## The evaluator -/

/-- The end of the token loop of `picolEval`: the new `argv` when the text `t` of a
token is a new argument (`prevtype` is `PT_SEP` or `PT_EOL`) or is concatenated to
the last argument.  `none`: there is no last argument (`argv[argc-1]` with
`argc == 0`). -/
def picolAppendArg (argv : List CStr) (prevtype : picolTokenType) (t : CStr) :
    Option (List CStr) :=
  if prevtype = PT_SEP ∨ prevtype = PT_EOL then some (argv ++ [t])
  else
    match argv.getLast? with
    | none => none
    | some last => some (argv.dropLast ++ [last ++ t])

/-- The text stored by `snprintf(errbuf,sizeof(errbuf),"No such variable '%s'",t)`. -/
def picolNoSuchVar (t : CStr) : CStr :=
  snprintf 1024 ("No such variable '".toList ++ t ++ "'".toList)

/-- The text stored by `snprintf(errbuf,sizeof(errbuf),"No such command '%s'",argv[0])`. -/
def picolNoSuchCmd (t : CStr) : CStr :=
  snprintf 1024 ("No such command '".toList ++ t ++ "'".toList)

/-- The text stored at the label `arityerr` of `picolCommandCallProc`. -/
def picolWrongArgNum (name : CStr) : CStr :=
  snprintf 1024 ("Proc '".toList ++ name ++ "' called with wrong arg num".toList)

/-- The labels `arityerr`/`err` of `picolCommandCallProc`: store the message, drop
the frame of the call and return `PICOL_ERR`. -/
def picolCallProcErr (i : picolInterp) (errbuf : CStr) :
    Option (picolRetCode × picolInterp) :=
  (picolDropCallFrame (picolSetResult i errbuf)).bind fun i1 => some (PICOL_ERR, i1)

/-- The test that the model makes before the parser of a procedure body reads the
text.  `name` is the name of the command that holds the body and `k` the number of
times its body had been freed when the call began; the body that is being parsed
has been freed when the count is no longer `k`.  Nothing is read of a text that
has no input left after a token of type `PT_EOL` or `PT_EOF`: `picolGetToken` then
looks at `p->len` only and `picolEval` leaves its loop.  In every other state
`picolGetToken` reads `*p->p`, or `picolEval` copies the token from the text. -/
def picolBodyFreed (i : picolInterp) (name : CStr) (k : Nat) (p : picolParser) : Bool :=
  decide (i.freed.count name ≠ k) &&
    !(decide (p.len = 0) && (decide (p.type = PT_EOL) || decide (p.type = PT_EOF)))

mutual

/-- `picolEval` -/
def picolEval : Nat → picolInterp → CStr → Option (picolRetCode × picolInterp)
  | 0, _, _ => none
  | n + 1, i, t =>
    let i1 := picolSetResult i []
    let i2 := { i1 with level := i1.level + 1 }
    if i2.level > PICOL_MAX_RECURSION_LEVEL then
      some (PICOL_ERR,
        picolSetResult { i2 with level := i2.level - 1 } "Nesting too deep".toList)
    else
      (picolEvalLoop n i2 (picolInitParser t) []).bind fun r =>
      some (r.1, { r.2 with level := r.2.level - 1 })

/-- The `while(1)` loop of `picolEval` over the tokens, from the parser state `p0`
and the words `argv` gathered so far; the result is `retcode` and the interpreter
at the label `err` (before `i->level--`). -/
def picolEvalLoop : Nat → picolInterp → picolParser → List CStr →
    Option (picolRetCode × picolInterp)
  | 0, _, _, _ => none
  | n + 1, i, p0, argv =>
    (picolGetToken n p0).bind fun p =>
    if p.type = PT_EOF then some (PICOL_OK, i)
    else if p.type = PT_VAR then
      match picolGetVar i p.token with
      | none => some (PICOL_ERR, picolSetResult i (picolNoSuchVar p.token))
      | some v =>
        (picolAppendArg argv p0.type v.val).bind fun argv1 => picolEvalLoop n i p argv1
    else if p.type = PT_CMD then
      (picolEval n i p.token).bind fun r =>
      if r.1 ≠ PICOL_OK then some r
      else
        (picolAppendArg argv p0.type r.2.result).bind fun argv1 =>
        picolEvalLoop n r.2 p argv1
    else if p.type = PT_ESC then
      (picolAppendArg argv p0.type (picolEscape p.token)).bind fun argv1 =>
      picolEvalLoop n i p argv1
    else if p.type = PT_SEP then picolEvalLoop n i p argv
    else if p.type = PT_EOL then
      if argv.length ≠ 0 then
        match picolGetCommand i (argv.getD 0 []) with
        | none => some (PICOL_ERR, picolSetResult i (picolNoSuchCmd (argv.getD 0 [])))
        | some c =>
          (picolCallFunc n i argv c).bind fun r =>
          if r.1 ≠ PICOL_OK then some r else picolEvalLoop n r.2 p []
      else picolEvalLoop n i p []
    else
      (picolAppendArg argv p0.type p.token).bind fun argv1 => picolEvalLoop n i p argv1

/-- The call `c->func(i,argc,argv,c)` of `picolEval`. -/
def picolCallFunc : Nat → picolInterp → List CStr → picolCmd →
    Option (picolRetCode × picolInterp)
  | 0, _, _, _ => none
  | n + 1, i, argv, c =>
    match c.func with
    | .picolCommandExpr => picolCommandExpr F n i argv
    | .picolCommandSet => some (picolCommandSet i argv)
    | .picolCommandPuts => some (picolCommandPuts i argv)
    | .picolCommandIf => picolCommandIf n i argv 1
    | .picolCommandWhile => picolCommandWhile n i argv
    | .picolCommandRetCodes => some (picolCommandRetCodes i argv)
    | .picolCommandProc => some (picolCommandProc i argv)
    | .picolCommandReturn => some (picolCommandReturn i argv)
    | .picolCommandCallProc => picolCommandCallProc n i argv c

/-- `picolExprExpansion` -/
def picolExprExpansion : Nat → picolInterp → CStr → Option (picolRetCode × picolInterp)
  | 0, _, _ => none
  | n + 1, i, s => picolEval n i ("expr ".toList ++ s)

/-- `picolCommandIf`: the `while (1)` loop from the value `j` of its index (the
command starts with `j = 1`). -/
def picolCommandIf : Nat → picolInterp → List CStr → Nat →
    Option (picolRetCode × picolInterp)
  | 0, _, _, _ => none
  | n + 1, i, argv, j =>
    if j ≥ argv.length then some (picolArityErr i (argv.getD 0 []))
    else
      (picolExprExpansion n i (argv.getD j [])).bind fun r =>
      if r.1 ≠ PICOL_OK then some r
      else if j + 1 ≥ argv.length then some (picolArityErr r.2 (argv.getD 0 []))
      else if F.nonzero (F.strtod r.2.result).1 then picolEval n r.2 (argv.getD (j + 1) [])
      else if j + 2 ≥ argv.length then some (PICOL_OK, r.2)
      else if argv.getD (j + 2) [] = "else".toList then
        if j + 2 + 1 < argv.length then picolEval n r.2 (argv.getD (j + 2 + 1) [])
        else some (picolArityErr r.2 (argv.getD 0 []))
      else if argv.getD (j + 2) [] ≠ "elseif".toList then
        some (picolArityErr r.2 (argv.getD 0 []))
      else picolCommandIf n r.2 argv (j + 2 + 1)

/-- `picolCommandWhile` -/
def picolCommandWhile : Nat → picolInterp → List CStr →
    Option (picolRetCode × picolInterp)
  | 0, _, _ => none
  | n + 1, i, argv =>
    if argv.length ≠ 3 then some (picolArityErr i (argv.getD 0 []))
    else picolWhileLoop n i argv

/-- The `while(1)` loop of `picolCommandWhile`. -/
def picolWhileLoop : Nat → picolInterp → List CStr → Option (picolRetCode × picolInterp)
  | 0, _, _ => none
  | n + 1, i, argv =>
    (picolExprExpansion n i (argv.getD 1 [])).bind fun r =>
    if r.1 ≠ PICOL_OK then some r
    else if ¬ F.nonzero (F.strtod r.2.result).1 then some (PICOL_OK, r.2)
    else
      (picolEval n r.2 (argv.getD 2 [])).bind fun r2 =>
      if r2.1 = PICOL_CONTINUE ∨ r2.1 = PICOL_OK then picolWhileLoop n r2.2 argv
      else if r2.1 = PICOL_BREAK then some (PICOL_OK, r2.2)
      else some r2

/-- The call `picolEval(i,body)` of `picolCommandCallProc`: `picolEval` on a text
that is not a copy but the text `cmd->body` of the command called `name`, which a
registration of that name during the evaluation frees. -/
def picolEvalBody : Nat → picolInterp → CStr → CStr → Option (picolRetCode × picolInterp)
  | 0, _, _, _ => none
  | n + 1, i, name, t =>
    let i1 := picolSetResult i []
    let i2 := { i1 with level := i1.level + 1 }
    if i2.level > PICOL_MAX_RECURSION_LEVEL then
      some (PICOL_ERR,
        picolSetResult { i2 with level := i2.level - 1 } "Nesting too deep".toList)
    else
      (picolEvalBodyLoop n i2 (picolInitParser t) [] name (i.freed.count name)).bind fun r =>
      some (r.1, { r.2 with level := r.2.level - 1 })

/-- The `while(1)` loop of `picolEval` when the text is the body of the command
called `name`: the loop `picolEvalLoop`, with no result (`none`) when the body has
been freed and the iteration would read it (`picolBodyFreed`). -/
def picolEvalBodyLoop : Nat → picolInterp → picolParser → List CStr → CStr → Nat →
    Option (picolRetCode × picolInterp)
  | 0, _, _, _, _, _ => none
  | n + 1, i, p0, argv, name, k =>
    if picolBodyFreed i name k p0 then none
    else
    (picolGetToken n p0).bind fun p =>
    if p.type = PT_EOF then some (PICOL_OK, i)
    else if p.type = PT_VAR then
      match picolGetVar i p.token with
      | none => some (PICOL_ERR, picolSetResult i (picolNoSuchVar p.token))
      | some v =>
        (picolAppendArg argv p0.type v.val).bind fun argv1 =>
        picolEvalBodyLoop n i p argv1 name k
    else if p.type = PT_CMD then
      (picolEval n i p.token).bind fun r =>
      if r.1 ≠ PICOL_OK then some r
      else
        (picolAppendArg argv p0.type r.2.result).bind fun argv1 =>
        picolEvalBodyLoop n r.2 p argv1 name k
    else if p.type = PT_ESC then
      (picolAppendArg argv p0.type (picolEscape p.token)).bind fun argv1 =>
      picolEvalBodyLoop n i p argv1 name k
    else if p.type = PT_SEP then picolEvalBodyLoop n i p argv name k
    else if p.type = PT_EOL then
      if argv.length ≠ 0 then
        match picolGetCommand i (argv.getD 0 []) with
        | none => some (PICOL_ERR, picolSetResult i (picolNoSuchCmd (argv.getD 0 [])))
        | some c =>
          (picolCallFunc n i argv c).bind fun r =>
          if r.1 ≠ PICOL_OK then some r else picolEvalBodyLoop n r.2 p [] name k
      else picolEvalBodyLoop n i p [] name k
    else
      (picolAppendArg argv p0.type p.token).bind fun argv1 =>
      picolEvalBodyLoop n i p argv1 name k

/-- `picolCommandCallProc`.  `none` also stands for the NULL dereferences of the C
code: `xstrdup(alist)` or `picolEval(i,body)` on a command without `arglist` or
`body`.  The parameter list is copied before it is used; the body is not, and it is
evaluated by `picolEvalBody`. -/
def picolCommandCallProc : Nat → picolInterp → List CStr → picolCmd →
    Option (picolRetCode × picolInterp)
  | 0, _, _, _ => none
  | n + 1, i, argv, cmd =>
    cmd.arglist.bind fun alist =>
    (picolArgsLoop n { i with callframe := .child [] i.callframe } argv alist 0 0).bind
      fun x =>
    match x with
    | .arityerr i2 => picolCallProcErr i2 (picolWrongArgNum (argv.getD 0 []))
    | .err i2 errbuf => picolCallProcErr i2 errbuf
    | .done i2 arity =>
      if arity ≠ (argv.length : Int) - 1 then
        picolCallProcErr i2 (picolWrongArgNum (argv.getD 0 []))
      else
        cmd.body.bind fun body =>
        (picolEvalBody n i2 cmd.name body).bind fun r =>
        (picolDropCallFrame r.2).bind fun i4 =>
        some (if r.1 = PICOL_RETURN then PICOL_OK else r.1, i4)

end

/-- `picolRegisterCoreCommands` -/
def picolRegisterCoreCommands (i : picolInterp) : picolInterp :=
  let i := picolRegisterCommand i "expr".toList .picolCommandExpr
  let i := picolRegisterCommand i "set".toList .picolCommandSet
  let i := picolRegisterCommand i "puts".toList .picolCommandPuts
  let i := picolRegisterCommand i "if".toList .picolCommandIf
  let i := picolRegisterCommand i "while".toList .picolCommandWhile
  let i := picolRegisterCommand i "break".toList .picolCommandRetCodes
  let i := picolRegisterCommand i "continue".toList .picolCommandRetCodes
  let i := picolRegisterCommand i "proc".toList .picolCommandProc
  picolRegisterCommand i "return".toList .picolCommandReturn

end Eval

/-! ## An instance of the floating point parameter, to run examples

Exact arithmetic on integers.  It agrees with IEEE-754 `double`, `strtod` and
`"%.12g"` as long as every literal is a decimal integer, every value is an integer
of fewer than twelve digits and every division is exact. -/

/-- C `isspace` in the "C" locale. -/
def isspace (c : Char) : Bool :=
  decide (c = ' ' ∨ c = '\t' ∨ c = '\n' ∨ c = '\x0b' ∨ c = '\x0c' ∨ c = '\r')

/-- C `isdigit`. -/
def isdigit (c : Char) : Bool := decide ('0' ≤ c ∧ c ≤ '9')

/-- The decimal digits of a natural number, most significant first, before `acc`. -/
def natDigits : Nat → Nat → CStr → CStr
  | 0, _, acc => acc
  | fuel + 1, k, acc =>
    let acc1 := Char.ofNat (48 + k % 10) :: acc
    if k / 10 = 0 then acc1 else natDigits fuel (k / 10) acc1

/-- Decimal text of an integer. -/
def intFmt (v : Int) : CStr :=
  if v < 0 then '-' :: natDigits (v.natAbs + 1) v.natAbs []
  else natDigits (v.natAbs + 1) v.natAbs []

/-- Value of a run of decimal digits. -/
def digitsVal (ds : CStr) : Nat := ds.foldl (fun a c => 10 * a + (c.toNat - 48)) 0

/-- `strtod` restricted to decimal integers: white space, an optional sign, digits. -/
def intStrtod (s : CStr) : Int × Nat :=
  let ws := (s.takeWhile isspace).length
  let s1 := s.drop ws
  let sg := if charAt s1 0 = '-' ∨ charAt s1 0 = '+' then 1 else 0
  let ds := (s1.drop sg).takeWhile isdigit
  if ds.length = 0 then (0, 0)
  else ((if charAt s1 0 = '-' then -1 else 1) * (digitsVal ds : Int), ws + sg + ds.length)

/-- The integer instance of `DoubleOps`. -/
def intDouble : DoubleOps Int where
  ofInt := id
  neg := fun a => -a
  add := fun a b => a + b
  sub := fun a b => a - b
  mul := fun a b => a * b
  div := fun a b => Int.tdiv a b
  lt := fun a b => decide (a < b)
  gt := fun a b => decide (a > b)
  le := fun a b => decide (a ≤ b)
  ge := fun a b => decide (a ≥ b)
  eq := fun a b => decide (a = b)
  ne := fun a b => decide (a ≠ b)
  nonzero := fun a => decide (a ≠ 0)
  strtod := intStrtod
  fmt12g := intFmt

/-- The interpreter of the test program: `picolInitInterp` followed by
`picolRegisterCoreCommands`. -/
def picolCoreInterp : picolInterp := picolRegisterCoreCommands picolInitInterp

/-! ## Definitions used to state the properties -/

/-- `OLe a b`: whenever the computation `a` yields a result, `b` yields the same. -/
structure OLe {α : Type} (a b : Option α) : Prop where
  le : ∀ r, a = some r → b = some r

/-- `Post a Q`: every result of the computation `a` satisfies `Q`. -/
structure Post {α : Type} (a : Option α) (Q : α → Prop) : Prop where
  out : ∀ r, a = some r → Q r

section
variable {D : Type} (F : DoubleOps D)

/-- The statement that one more unit of fuel preserves every result of the evaluator,
for all functions of its mutual recursion. -/
def EvalMonoAt (n : Nat) : Prop :=
  (∀ i t, OLe (picolEval F n i t) (picolEval F (n + 1) i t)) ∧
  (∀ i p argv, OLe (picolEvalLoop F n i p argv) (picolEvalLoop F (n + 1) i p argv)) ∧
  (∀ i argv c, OLe (picolCallFunc F n i argv c) (picolCallFunc F (n + 1) i argv c)) ∧
  (∀ i s, OLe (picolExprExpansion F n i s) (picolExprExpansion F (n + 1) i s)) ∧
  (∀ i argv j, OLe (picolCommandIf F n i argv j) (picolCommandIf F (n + 1) i argv j)) ∧
  (∀ i argv, OLe (picolCommandWhile F n i argv) (picolCommandWhile F (n + 1) i argv)) ∧
  (∀ i argv, OLe (picolWhileLoop F n i argv) (picolWhileLoop F (n + 1) i argv)) ∧
  (∀ i argv c, OLe (picolCommandCallProc F n i argv c)
    (picolCommandCallProc F (n + 1) i argv c)) ∧
  (∀ i name t, OLe (picolEvalBody F n i name t) (picolEvalBody F (n + 1) i name t)) ∧
  (∀ i p argv name k, OLe (picolEvalBodyLoop F n i p argv name k)
    (picolEvalBodyLoop F (n + 1) i p argv name k))

end

/-! ### Relations between the interpreter before and after a computation -/

/-- The relation `R` holds between the interpreter at entry and at exit of every
elementary step of the evaluator, and is kept by the two brackets of the evaluator:
the increment and decrement of `level`, and the push and drop of a call frame. -/
structure EvalClosed (R : picolInterp → picolInterp → Prop) : Prop where
  refl : ∀ i, R i i
  trans : ∀ a b c, R a b → R b c → R a c
  result : ∀ i s, R i (picolSetResult i s)
  setVar : ∀ i name val, R i (picolSetVar i name val)
  proc : ∀ i argv, R i (picolCommandProc i argv).2
  level : ∀ i j, R { i with level := i.level + 1 } j → R i { j with level := j.level - 1 }
  frame : ∀ i j k, R { i with callframe := .child [] i.callframe } j →
    picolDropCallFrame j = some k → R i k

/-- The interpreter that a parameter loop of `picolCommandCallProc` ends with. -/
def picolArgsExit.interp : picolArgsExit → picolInterp
  | .done i _ => i
  | .arityerr i => i
  | .err i _ => i

section
variable {D : Type} (F : DoubleOps D)

/-- Every function of the evaluator, run with fuel `n`, relates the interpreter it
receives to the one it returns by `R`. -/
def EvalKeeps (R : picolInterp → picolInterp → Prop) (n : Nat) : Prop :=
  (∀ i t, Post (picolEval F n i t) fun r => R i r.2) ∧
  (∀ i p argv, Post (picolEvalLoop F n i p argv) fun r => R i r.2) ∧
  (∀ i argv c, Post (picolCallFunc F n i argv c) fun r => R i r.2) ∧
  (∀ i s, Post (picolExprExpansion F n i s) fun r => R i r.2) ∧
  (∀ i argv j, Post (picolCommandIf F n i argv j) fun r => R i r.2) ∧
  (∀ i argv, Post (picolCommandWhile F n i argv) fun r => R i r.2) ∧
  (∀ i argv, Post (picolWhileLoop F n i argv) fun r => R i r.2) ∧
  (∀ i argv c, Post (picolCommandCallProc F n i argv c) fun r => R i r.2) ∧
  (∀ i name t, Post (picolEvalBody F n i name t) fun r => R i r.2) ∧
  (∀ i p argv name k, Post (picolEvalBodyLoop F n i p argv name k) fun r => R i r.2)

end

/-- The relation between the interpreter at entry and at exit of an evaluation, as
to the bodies freed: no name has been freed fewer times at exit than at entry. -/
def FreedGrows (i j : picolInterp) : Prop :=
  ∀ name : CStr, i.freed.count name ≤ j.freed.count name

/-- Two variable lists give the same answer to every lookup of a name that does not
start with an uppercase letter. -/
def LocalsAgree (vs ws : List picolVar) : Prop :=
  ∀ name, isupper (charAt name 0) = false → picolFindVar ws name = picolFindVar vs name

/-- `FramesBelow f g`: the chain `g` is the chain `f` after variables were set from
a frame above it.  Both have the same length, every frame with a parent has the
same variables, and the parentless frame answers every lookup of a name without an
uppercase first letter as before. -/
def FramesBelow : picolCallFrame → picolCallFrame → Prop
  | .top vs, .top ws => LocalsAgree vs ws
  | .child vs p, .child ws q => vs = ws ∧ FramesBelow p q
  | _, _ => False

/-- `SameFrame f g`: the current frame `g` is the frame `f` that was current before:
both are parentless, or both have a parent and the chains of frames under them
are related by `FramesBelow`. -/
def SameFrame : picolCallFrame → picolCallFrame → Prop
  | .top _, .top _ => True
  | .child _ p, .child _ q => FramesBelow p q
  | _, _ => False

/-- The number of frames of a chain. -/
def picolCallFrame.depth : picolCallFrame → Nat
  | .top _ => 1
  | .child _ p => p.depth + 1

/-- The relation between the interpreter at entry and at exit of an evaluation:
the level is the same and the current frame is the same frame. -/
def LevelFrameKept (i j : picolInterp) : Prop :=
  j.level = i.level ∧ SameFrame i.callframe j.callframe

/-! ### Commands made of plain words -/

/-- The words of the next command of a text, when that command is made of plain
tokens only (`PT_ESC`, `PT_STR` and separators, no substitution): the token loop of
`picolEval` run from the parser state `p0` up to the `PT_EOL` token that ends the
first non-empty command.  The result holds the fuel left, the parser state at that
token and the words. -/
def picolPlainWords : Nat → picolParser → List CStr → Option (Nat × picolParser × List CStr)
  | 0, _, _ => none
  | n + 1, p0, argv =>
    (picolGetToken n p0).bind fun p =>
    if p.type = PT_ESC then
      (picolAppendArg argv p0.type (picolEscape p.token)).bind fun argv1 =>
      picolPlainWords n p argv1
    else if p.type = PT_STR then
      (picolAppendArg argv p0.type p.token).bind fun argv1 => picolPlainWords n p argv1
    else if p.type = PT_SEP then picolPlainWords n p argv
    else if p.type = PT_EOL then
      if argv.length ≠ 0 then some (n, p, argv) else picolPlainWords n p []
    else none

/-- The words of a text that consists of one command made of plain tokens: the
result of `picolPlainWords`, provided the token after the command is `PT_EOF`.
The fuel returned is the fuel left when the command is called. -/
def picolSingleCommand (n : Nat) (t : CStr) : Option (Nat × List CStr) :=
  (picolPlainWords n (picolInitParser t) []).bind fun x =>
  (picolGetToken (x.1 - 1) x.2.1).bind fun q =>
  if q.type = PT_EOF ∧ 0 < x.1 then some (x.1, x.2.2) else none

/-- The variable lists of the frames of a chain that have a parent, from the current
frame on. -/
def picolCallFrame.locals : picolCallFrame → List (List picolVar)
  | .top _ => []
  | .child vs p => vs :: p.locals

section
variable {D : Type} (F : DoubleOps D)

/-- Successive calls of `picolEval` on one interpreter, as the test program makes
them, each with fuel `n`: the codes returned and the interpreter left by the last. -/
def picolEvalSeq (n : Nat) : picolInterp → List CStr → Option (List picolRetCode × picolInterp)
  | i, [] => some ([], i)
  | i, t :: ts =>
    (picolEval F n i t).bind fun r =>
    (picolEvalSeq n r.2 ts).bind fun x => some (r.1 :: x.1, x.2)

end

/-- The text made of `N` characters `[`, then the text `s`, then `N` characters `]`. -/
def picolDeepText (N : Nat) (s : CStr) : CStr :=
  List.replicate N '[' ++ s ++ List.replicate N ']'

/-- A text without brackets, braces and backslashes. -/
def picolPlainText (s : CStr) : Prop :=
  ∀ c ∈ s, c ≠ '[' ∧ c ≠ ']' ∧ c ≠ '\\' ∧ c ≠ '{' ∧ c ≠ '}'

/-- The parser after `m` repetitions of `p->p++; p->len--;`. -/
def picolParser.advN (p : picolParser) (m : Nat) : picolParser :=
  { p with p := p.p + m, len := p.len - m }

/-! ### Big-step statements about `if` and `while` -/

section
variable {D : Type} (F : DoubleOps D)

/-- `picolEval` on the text `t`, entered with the interpreter `i`, returns `r`
(a code and an interpreter). -/
def picolEvalReturns (i : picolInterp) (t : CStr) (r : picolRetCode × picolInterp) : Prop :=
  ∃ n, picolEval F n i t = some r

/-- The call `picolEval(i,body)` of `picolCommandCallProc`, on the body `t` of the
command called `name` and entered with the interpreter `i`, returns `r`. -/
def picolEvalBodyReturns (i : picolInterp) (name t : CStr)
    (r : picolRetCode × picolInterp) : Prop :=
  ∃ n, picolEvalBody F n i name t = some r

/-- The evaluation of the condition `c` by `picolExprExpansion`, entered with the
interpreter `i`, returns `r`. -/
def picolCondReturns (i : picolInterp) (c : CStr) (r : picolRetCode × picolInterp) : Prop :=
  ∃ n, picolExprExpansion F n i c = some r

/-- The test `strtod(i->result,NULL)` that `if` and `while` make on the result of a
condition: the value is not zero. -/
def picolTruth (s : CStr) : Bool := F.nonzero (F.strtod s).1

/-- The loop of `picolCommandIf`, entered with its index at `j`, returns `r`. -/
def picolIfReturnsAt (i : picolInterp) (argv : List CStr) (j : Nat)
    (r : picolRetCode × picolInterp) : Prop :=
  ∃ n, picolCommandIf F n i argv j = some r

/-- The command `if` called with the words `argv` returns `r`. -/
def picolIfReturns (i : picolInterp) (argv : List CStr) (r : picolRetCode × picolInterp) :
    Prop :=
  picolIfReturnsAt F i argv 1 r

/-- The command `while` called with the words `argv` returns `r`. -/
def picolWhileReturns (i : picolInterp) (argv : List CStr)
    (r : picolRetCode × picolInterp) : Prop :=
  ∃ n, picolCommandWhile F n i argv = some r

/-- `picolIfZeros i branches j`: the conditions of the branches `(condition, body)`,
evaluated one after the other from the interpreter `i`, each return `PICOL_OK` with
a result whose value is zero, and leave the interpreter `j`.  No body is
evaluated. -/
inductive picolIfZeros : picolInterp → List (CStr × CStr) → picolInterp → Prop where
  | nil (i : picolInterp) : picolIfZeros i [] i
  | cons (i : picolInterp) (c b : CStr) (r : picolRetCode × picolInterp)
      (rest : List (CStr × CStr)) (j : picolInterp) :
      picolCondReturns F i c r → r.1 = PICOL_OK → picolTruth F r.2.result = false →
      picolIfZeros r.2 rest j → picolIfZeros i ((c, b) :: rest) j

end

/-- The words `c1 b1 elseif c2 b2 elseif ... ck bk elseif` of branches each followed
by the word `elseif`. -/
def picolIfSkipped : List (CStr × CStr) → List CStr
  | [] => []
  | (c, b) :: rest => c :: b :: "elseif".toList :: picolIfSkipped rest

/-! ### A declarative account of expressions -/

/-- The characters that `picolExpr` skips around operands and operators: those of
the string `" \t\r\n"`. -/
def isExprSpace (c : Char) : Bool := decide (c = ' ' ∨ c = '\t' ∨ c = '\r' ∨ c = '\n')

/-- The number of characters of `isExprSpace` that a text starts with. -/
def picolCountSpaces : CStr → Nat
  | [] => 0
  | c :: cs => if isExprSpace c then picolCountSpaces cs + 1 else 0

/-- The first offset from `p` on at which the text `s` has no character of
`isExprSpace`. -/
def picolSkip (s : CStr) (p : Nat) : Nat := p + picolCountSpaces (s.drop p)

section
variable {D : Type} (F : DoubleOps D)

/-- The expressions of section 4.5 of the specification, as a relation.

`ExprDeriv F s none prec p v q d`: from the offset `p`, the text `s` holds an
expression read with minimum precedence `prec`; its value is `v`, it ends at the
offset `q` (white space after it included; at `q` stands no operator of precedence
`prec` or more) and reading it takes `d` nested invocations of the evaluator.

`ExprDeriv F s (some a) prec p v q d`: the same for the rest of an expression, read
from the offset `p` (where an operator is expected) when the operands read so far
have the value `a`; `d` counts the nested invocations for the right operands.

An operand is a literal, of which `strtod` consumes at least one character, an
expression of minimum precedence 0 between parentheses, or `-` or `+` followed by
an expression of minimum precedence 5.  An operator of precedence `oprec` not
below `prec` is followed by a right operand, which is an expression of minimum
precedence `oprec + 1`. -/
inductive ExprDeriv (s : CStr) : Option D → Int → Nat → D → Nat → Nat → Prop where
  | literal (prec : Int) (p : Nat) (v : D) (q d : Nat) :
      charAt s (picolSkip s p) ≠ '(' → charAt s (picolSkip s p) ≠ '-' →
      charAt s (picolSkip s p) ≠ '+' →
      (F.strtod (s.drop (picolSkip s p))).2 ≠ 0 →
      ExprDeriv s (some (F.strtod (s.drop (picolSkip s p))).1) prec
        (picolSkip s (picolSkip s p + (F.strtod (s.drop (picolSkip s p))).2)) v q d →
      ExprDeriv s none prec p v q (d + 1)
  | paren (prec : Int) (p : Nat) (v1 : D) (q1 d1 : Nat) (v : D) (q d : Nat) :
      charAt s (picolSkip s p) = '(' →
      ExprDeriv s none 0 (picolSkip s p + 1) v1 q1 d1 →
      charAt s (picolSkip s q1) = ')' →
      ExprDeriv s (some v1) prec (picolSkip s (picolSkip s q1 + 1)) v q d →
      ExprDeriv s none prec p v q (max d1 d + 1)
  | neg (prec : Int) (p : Nat) (v1 : D) (q1 d1 : Nat) (v : D) (q d : Nat) :
      charAt s (picolSkip s p) = '-' →
      ExprDeriv s none 5 (picolSkip s p + 1) v1 q1 d1 →
      ExprDeriv s (some (F.neg v1)) prec (picolSkip s q1) v q d →
      ExprDeriv s none prec p v q (max d1 d + 1)
  | pos (prec : Int) (p : Nat) (v1 : D) (q1 d1 : Nat) (v : D) (q d : Nat) :
      charAt s (picolSkip s p) = '+' →
      ExprDeriv s none 5 (picolSkip s p + 1) v1 q1 d1 →
      ExprDeriv s (some v1) prec (picolSkip s q1) v q d →
      ExprDeriv s none prec p v q (max d1 d + 1)
  | stop (prec : Int) (a : D) (p : Nat) :
      (∀ o, picolExprOp s p = some o → o.2.1 < prec) →
      ExprDeriv s (some a) prec p a p 0
  | step (prec : Int) (a : D) (p : Nat) (o : Char × Int × Nat) (b : D) (q1 d1 : Nat)
      (v : D) (q d : Nat) :
      picolExprOp s p = some o → ¬ o.2.1 < prec →
      ExprDeriv s none (o.2.1 + 1) (p + o.2.2) b q1 d1 →
      ExprDeriv s (some (picolExprApply F o.1 a b)) prec (picolSkip s q1) v q d →
      ExprDeriv s (some a) prec p v q (max d1 d)

/-- From the offset `q` the text `s` holds only characters `' '` up to its
terminator, which stands at the offset `e`. -/
def picolOnlySpaces (s : CStr) (q e : Nat) : Prop :=
  q ≤ e ∧ (∀ k, q ≤ k → k < e → charAt s k = ' ') ∧ charAt s e = '\x00'

/-- The text `s` is consumed entirely as one well-formed expression of value `v`
that takes at most `room` nested invocations of the evaluator: it holds an
expression of minimum precedence 0 from its start, followed by characters `' '`
only. -/
def picolWellFormed (s : CStr) (room : Int) (v : D) : Prop :=
  ∃ (q d e : Nat), ExprDeriv F s none 0 0 v q d ∧ (d : Int) ≤ room ∧ picolOnlySpaces s q e

end

section
variable {D : Type} (F : DoubleOps D)

/-- Step 1 of `picolExpr`, the left operand, read at the offset `p1` (after the
white space) by an invocation that has fuel `n` left for its calls. -/
def picolExprOperand (n : Nat) (i1 : picolInterp) (s : CStr) (p1 : Nat) (err : Bool) :
    Option (picolExprResult D) :=
  if charAt s p1 = '(' then
    (picolExpr F n i1 s (p1 + 1) err 0).bind fun r =>
    (picolExprSkip n s r.p).bind fun p2 =>
    if charAt s p2 = ')' then some { r with p := p2 + 1 }
    else some { r with p := p2, err := true }
  else if charAt s p1 = '-' then
    (picolExpr F n i1 s (p1 + 1) err 5).bind fun r => some { r with val := F.neg r.val }
  else if charAt s p1 = '+' then picolExpr F n i1 s (p1 + 1) err 5
  else
    some { val := (F.strtod (s.drop p1)).1, interp := i1,
           p := p1 + (F.strtod (s.drop p1)).2,
           err := if (F.strtod (s.drop p1)).2 = 0 then true else err }

end

section
variable {D : Type} (F : DoubleOps D)

/-- What a call of `picolExpr` or of its loop guarantees: the interpreter is returned
as it was received, a raised error flag stays raised, and when the flag is not
raised at the end the text read is an expression in the sense of `ExprDeriv`, whose
nesting fits under the limit. -/
def ExprSoundAt (n : Nat) : Prop :=
  (∀ i s p err prec r, picolExpr F n i s p err prec = some r →
    r.interp = i ∧ (err = true → r.err = true) ∧
    (r.err = false → ∃ d, ExprDeriv F s none prec p r.val r.p d ∧
      i.level + (d : Int) ≤ PICOL_MAX_RECURSION_LEVEL)) ∧
  (∀ i s p err prec a r, picolExprLoop F n i s p err prec a = some r →
    r.interp = i ∧ (err = true → r.err = true) ∧
    (r.err = false → ∃ d, ExprDeriv F s (some a) prec p r.val r.p d ∧
      (d = 0 ∨ i.level + (d : Int) ≤ PICOL_MAX_RECURSION_LEVEL)))

end

/-- The binary operators as section 4.5 of the specification lists them, each with
the code under which `picolExprApply` computes it and with its precedence: `||` 0,
`&&` 1, the comparisons 2, `+` and `-` 3, `*` and `/` 4.  The theorem
`picolExprOp_specBinOps` compares this table with `picolExprOp`. -/
def picolSpecBinOps : List (CStr × Char × Int) :=
  [("||".toList, 'o', 0), ("&&".toList, 'a', 1),
   ("<".toList, '<', 2), (">".toList, '>', 2), ("<=".toList, 'L', 2),
   (">=".toList, 'G', 2), ("==".toList, 'E', 2), ("!=".toList, 'N', 2),
   ("+".toList, '+', 3), ("-".toList, '-', 3), ("*".toList, '*', 4), ("/".toList, '/', 4)]

section
variable {D : Type} (F : DoubleOps D)

/-- The text `lit` is an unsigned decimal literal of value `v`: it is not empty, it
holds decimal digits and `'.'` only, and `strtod` reads it in full, with the value
`v`, when it ends the text and when a space follows it. -/
def picolUnsignedLiteral (lit : CStr) (v : D) : Prop :=
  lit ≠ [] ∧ (∀ c ∈ lit, isdigit c = true ∨ c = '.') ∧
  F.strtod lit = (v, lit.length) ∧ ∀ r, F.strtod (lit ++ ' ' :: r) = (v, lit.length)

end

/-- The expression text `a op1 b op2 c`, its five parts separated by one space. -/
def picolInfixText (a op1 b op2 c : CStr) : CStr :=
  a ++ ' ' :: (op1 ++ ' ' :: (b ++ ' ' :: (op2 ++ ' ' :: c)))

/-- The expression text `-a op b`: a minus sign, then the three parts separated by one
space. -/
def picolNegText (a op b : CStr) : CStr :=
  '-' :: (a ++ ' ' :: (op ++ ' ' :: b))

/-! ### Procedure parameters -/

/-- The parameter names of an argument list as the specification words them: the
list is cut at its spaces, and the pieces that are not empty are the names. -/
def picolParams (alist : CStr) : List CStr :=
  (alist.splitOn ' ').filter fun w => decide (w ≠ [])

/-- The text stored by `snprintf(errbuf,sizeof(errbuf),"Procedure parameter '%s' can't
be a global (upcase first character)", start)`. -/
def picolUpcaseParam (name : CStr) : CStr :=
  snprintf 1024 ("Procedure parameter '".toList ++ name ++
    "' can't be a global (upcase first character)".toList)

/-- The binding of parameters as the specification words it: for each parameter
name in turn, a call that has no argument left for it fails with the arity error,
a name with an uppercase first character is rejected, and otherwise the name is
bound to the next argument, `argv[arity+1]`. -/
def picolBindParams (argv : List CStr) : picolInterp → Int → List CStr → picolArgsExit
  | i, arity, [] => .done i arity
  | i, arity, w :: ws =>
    if arity + 1 > (argv.length : Int) - 1 then .arityerr i
    else if isupper (charAt w 0) then .err i (picolUpcaseParam w)
    else picolBindParams argv (picolSetVar i w (argv.getD (arity + 1).toNat [])) (arity + 1) ws

/-! ### The command table -/

/-- No two entries of the command table have the same name. -/
def picolNamesNodup (i : picolInterp) : Prop :=
  (i.commands.map fun c => c.name).Nodup

/-- The command table with every entry called `name` replaced by `c`. -/
def picolReplaceCmd (cs : List picolCmd) (name : CStr) (c : picolCmd) : List picolCmd :=
  cs.map fun d => if d.name = name then c else d

/-- The relation between two states of the interpreter that keeps "the command
table has no two entries with the same name". -/
def NamesNodupKept (i j : picolInterp) : Prop :=
  picolNamesNodup i → picolNamesNodup j

/-! ### The token loop of `picolEval`, one iteration at a time -/

/-- How one iteration of the `while(1)` loop of `picolEval` ends: the loop goes on
(`continue`, or the end of the loop body) with an interpreter, a parser state and the
words of the current command, or it is left (`break` at `PT_EOF`, or `goto err`)
with a return code and an interpreter. -/
inductive picolLoopNext where
  | goOn (i : picolInterp) (p : picolParser) (argv : List CStr)
  | stop (r : picolRetCode × picolInterp)
  deriving DecidableEq

section
variable {D : Type} (F : DoubleOps D)

/-- The body of the `while(1)` loop of `picolEval`: one iteration, from the
interpreter `i`, the parser state `p0` and the words `argv`, with the fuel `n` for
the tokenizer and for the calls that the iteration makes. -/
def picolEvalIter (n : Nat) (i : picolInterp) (p0 : picolParser) (argv : List CStr) :
    Option picolLoopNext :=
  (picolGetToken n p0).bind fun p =>
  if p.type = PT_EOF then some (.stop (PICOL_OK, i))
  else if p.type = PT_VAR then
    match picolGetVar i p.token with
    | none => some (.stop (PICOL_ERR, picolSetResult i (picolNoSuchVar p.token)))
    | some v =>
      (picolAppendArg argv p0.type v.val).bind fun argv1 => some (.goOn i p argv1)
  else if p.type = PT_CMD then
    (picolEval F n i p.token).bind fun r =>
    if r.1 ≠ PICOL_OK then some (.stop r)
    else
      (picolAppendArg argv p0.type r.2.result).bind fun argv1 => some (.goOn r.2 p argv1)
  else if p.type = PT_ESC then
    (picolAppendArg argv p0.type (picolEscape p.token)).bind fun argv1 =>
    some (.goOn i p argv1)
  else if p.type = PT_SEP then some (.goOn i p argv)
  else if p.type = PT_EOL then
    if argv.length ≠ 0 then
      match picolGetCommand i (argv.getD 0 []) with
      | none => some (.stop (PICOL_ERR, picolSetResult i (picolNoSuchCmd (argv.getD 0 []))))
      | some c =>
        (picolCallFunc F n i argv c).bind fun r =>
        if r.1 ≠ PICOL_OK then some (.stop r) else some (.goOn r.2 p [])
    else some (.goOn i p [])
  else
    (picolAppendArg argv p0.type p.token).bind fun argv1 => some (.goOn i p argv1)

/-- `picolEvalReaches F i p argv j q words`: the token loop of `picolEval`, run from
the interpreter `i`, the parser state `p` and the words `argv`, comes after some
iterations (possibly none), none of which leaves the loop, to the interpreter `j`,
the parser state `q` and the words `words`. -/
inductive picolEvalReaches :
    picolInterp → picolParser → List CStr → picolInterp → picolParser → List CStr → Prop where
  | here (i : picolInterp) (p : picolParser) (argv : List CStr) :
      picolEvalReaches i p argv i p argv
  | next (n : Nat) (i : picolInterp) (p : picolParser) (argv : List CStr)
      (i1 : picolInterp) (p1 : picolParser) (argv1 : List CStr)
      (j : picolInterp) (q : picolParser) (words : List CStr) :
      picolEvalIter F n i p argv = some (.goOn i1 p1 argv1) →
      picolEvalReaches i1 p1 argv1 j q words →
      picolEvalReaches i p argv j q words

/-- The evaluation of the text `t` by `picolEval`, entered with the interpreter `i`
at a level below the limit, comes in its token loop to the interpreter `j`, the
parser state `q` and the words `words`. -/
def picolEvalComesTo (i : picolInterp) (t : CStr) (j : picolInterp) (q : picolParser)
    (words : List CStr) : Prop :=
  i.level + 1 ≤ PICOL_MAX_RECURSION_LEVEL ∧
  picolEvalReaches F { picolSetResult i [] with level := i.level + 1 } (picolInitParser t) []
    j q words

/-- The token loop after `k` iterations from the interpreter `i`, the parser state
`p` and the words `argv`, each run with the fuel `n`; `none` when an iteration
leaves the loop or lacks fuel. -/
def picolEvalTrace (n : Nat) : Nat → picolInterp → picolParser → List CStr →
    Option (picolInterp × picolParser × List CStr)
  | 0, i, p, argv => some (i, p, argv)
  | k + 1, i, p, argv =>
    match picolEvalIter F n i p argv with
    | some (.goOn i1 p1 argv1) => picolEvalTrace n k i1 p1 argv1
    | _ => none

/-- The call of the command `c` with the words `argv`, entered with the interpreter
`i`, returns `r`. -/
def picolCallReturns (i : picolInterp) (argv : List CStr) (c : picolCmd)
    (r : picolRetCode × picolInterp) : Prop :=
  ∃ n, picolCallFunc F n i argv c = some r

end

/-! ### Escape processing: the loop of the source and the decoder of the specification -/

/-- The character that the `switch(*src)` of the `PT_ESC` branch stores for the
character `d` after a backslash. -/
def picolEscapeChar (d : Char) : Char :=
  if d = 'n' then '\n' else if d = 't' then '\t' else if d = 'r' then '\r' else d

/-- The loop `while (*src) { ... }` of the `PT_ESC` branch of `picolEval`, as it is
written: it works in place on the buffer `t`, `src` and `dst` being the offsets of
the two pointers; after the loop `*dst = '\0'` cuts the buffer, and the result is
the string that `t` then holds. -/
def picolEscapeLoop : Nat → CStr → Nat → Nat → Option CStr
  | 0, _, _, _ => none
  | n + 1, t, src, dst =>
    if charAt t src ≠ '\x00' then
      if charAt t src = '\\' ∧ charAt t (src + 1) ≠ '\x00' then
        picolEscapeLoop n (t.set dst (picolEscapeChar (charAt t (src + 1)))) (src + 1 + 1)
          (dst + 1)
      else picolEscapeLoop n (t.set dst (charAt t src)) (src + 1) (dst + 1)
    else some (t.take dst)

/-- The reference decoder of the specification, applied left to right: a backslash
followed by `n`, `t` or `r` becomes a newline, a tab or a carriage return; a
backslash followed by any other character becomes that character alone; a
backslash that is the last character is kept; every other character is copied. -/
def picolDecodeRef : CStr → CStr
  | [] => []
  | [c] => [c]
  | c :: d :: rest =>
    if c = '\\' then
      if d = 'n' then '\n' :: picolDecodeRef rest
      else if d = 't' then '\t' :: picolDecodeRef rest
      else if d = 'r' then '\r' :: picolDecodeRef rest
      else d :: picolDecodeRef rest
    else c :: picolDecodeRef (d :: rest)

/-! ### Plain words and balanced braces -/

/-- A character that `picolParseString` makes part of a word without looking at what
is around it: not a backslash, `$`, `[`, a white space character, `;` or `"`. -/
def picolOrdinary (c : Char) : Bool :=
  decide (c ≠ '\\' ∧ c ≠ '$' ∧ c ≠ '[' ∧ c ≠ ' ' ∧ c ≠ '\t' ∧ c ≠ '\n' ∧ c ≠ '\r' ∧
    c ≠ ';' ∧ c ≠ '"')

/-- The brace scanner of the specification over the text between the braces, with
`depth` braces open inside it: a backslash hides the character after it (and must
have one), `{` opens a brace, `}` closes one that is open, and at the end no brace
is open. -/
def picolBraceScan : CStr → Nat → Bool
  | [], depth => decide (depth = 0)
  | c :: rest, depth =>
    if c = '\\' then
      match rest with
      | [] => false
      | _ :: rest2 => picolBraceScan rest2 depth
    else if c = '{' then picolBraceScan rest (depth + 1)
    else if c = '}' then decide (depth ≠ 0) && picolBraceScan rest (depth - 1)
    else picolBraceScan rest depth

/-- A text that the brace scanner accepts as balanced. -/
def picolBalanced (x : CStr) : Prop := picolBraceScan x 0 = true

instance picolBalanced.decidable (x : CStr) : Decidable (picolBalanced x) :=
  inferInstanceAs (Decidable (picolBraceScan x 0 = true))

/-! ### The fragments of a word -/

section
variable {D : Type} (F : DoubleOps D)

/-- The next token as a fragment of a word, by the words of the specification: the
text that the token stands for (the value of the variable for `PT_VAR`, the result
of the evaluation for a `PT_CMD` that returns `PICOL_OK`, the decoded text for
`PT_ESC`, the text itself for `PT_STR`), with the interpreter and the parser state
after it; `none` when the next token is not a fragment, or its substitution fails. -/
def picolFragment (n : Nat) (i : picolInterp) (p0 : picolParser) :
    Option (CStr × picolInterp × picolParser) :=
  (picolGetToken n p0).bind fun p =>
  if p.type = PT_VAR then (picolGetVar i p.token).map fun v => (v.val, i, p)
  else if p.type = PT_CMD then
    (picolEval F n i p.token).bind fun r =>
    if r.1 = PICOL_OK then some (r.2.result, r.2, p) else none
  else if p.type = PT_ESC then some (picolEscape p.token, i, p)
  else if p.type = PT_STR then some (p.token, i, p)
  else none

/-- `picolFragments F i p xs j q`: from the interpreter `i` and the parser state `p`,
the next tokens are fragments that follow one another with no separator between
them, their substituted texts are `xs` in order, and after the last of them the
interpreter is `j` and the parser state `q`. -/
inductive picolFragments :
    picolInterp → picolParser → List CStr → picolInterp → picolParser → Prop where
  | nil (i : picolInterp) (p : picolParser) : picolFragments i p [] i p
  | cons (n : Nat) (i : picolInterp) (p : picolParser) (x : CStr) (i1 : picolInterp)
      (p1 : picolParser) (xs : List CStr) (j : picolInterp) (q : picolParser) :
      picolFragment F n i p = some (x, i1, p1) →
      picolFragments i1 p1 xs j q →
      picolFragments i p (x :: xs) j q

end

/-! ### The characters of an end of command, and the command scanner -/

/-- A character that the loop of `picolParseEol` passes over: a space, a tab, a
newline, a carriage return or a semicolon. -/
def picolEolChar (c : Char) : Bool :=
  decide (c = ' ' ∨ c = '\t' ∨ c = '\n' ∨ c = '\r' ∨ c = ';')

/-- The command scanner of the specification, over the text that follows a `[`, with
`level` brackets open inside it and `blevel` braces open: the number of characters
before the `]` that matches the `[`, `none` when there is none.  A `[` and a `]` are
counted only while no brace is open, a backslash skips the character after it, a
`{` opens a brace and a `}` closes one when one is open. -/
def picolCmdScan : CStr → Nat → Nat → Option Nat
  | [], _, _ => none
  | c :: rest, level, blevel =>
    if c = '[' ∧ blevel = 0 then (picolCmdScan rest (level + 1) blevel).map fun m => m + 1
    else if c = ']' ∧ blevel = 0 then
      if level = 0 then some 0
      else (picolCmdScan rest (level - 1) blevel).map fun m => m + 1
    else if c = '\\' then
      match rest with
      | [] => none
      | _ :: rest2 => (picolCmdScan rest2 level blevel).map fun m => m + 2
    else if c = '{' then (picolCmdScan rest level (blevel + 1)).map fun m => m + 1
    else if c = '}' then
      (picolCmdScan rest level (if blevel ≠ 0 then blevel - 1 else blevel)).map fun m => m + 1
    else (picolCmdScan rest level blevel).map fun m => m + 1

/-- Where the command scanner stops: at the matching `]`, or at the end of the text
when there is none. -/
def picolCmdEnd (body : CStr) (level blevel : Nat) : Nat :=
  (picolCmdScan body level blevel).getD body.length

/-! ### The tokenizer's invariant and the token stream -/

/-- The invariant of a parser state: the remaining length is not negative, and the
cursor offset plus the remaining length is the length of the text. -/
def picolParserOk (p : picolParser) : Prop :=
  0 ≤ p.len ∧ (p.p : Int) + p.len = (p.text.length : Int)

instance picolParserOk.decidable (p : picolParser) : Decidable (picolParserOk p) :=
  inferInstanceAs (Decidable (0 ≤ p.len ∧ (p.p : Int) + p.len = (p.text.length : Int)))

/-- The parser state after `k` calls of `picolGetToken`, each with the fuel `n`. -/
def picolTokenStream (n : Nat) : Nat → picolParser → Option picolParser
  | 0, p => some p
  | k + 1, p => (picolGetToken n p).bind fun q => picolTokenStream n k q

/-- The number of calls of `picolGetToken` after which a parser state is sure to be
at `PT_EOF`: the remaining length plus two, less the tokens of the end already
emitted. -/
def picolCallsLeft (p : picolParser) : Nat :=
  if p.len = 0 then (if p.type = PT_EOF then 0 else if p.type = PT_EOL then 1 else 2)
  else p.len.toNat + 2

/-- The expression text `a op b`, its three parts separated by one space. -/
def picolBinText (a op b : CStr) : CStr :=
  a ++ ' ' :: (op ++ ' ' :: b)

/-- The text made of `N` characters `(`, then `1`, then `N` characters `)`. -/
def picolParenText (N : Nat) : CStr :=
  List.replicate N '(' ++ '1' :: List.replicate N ')'

/-- The texts `T(0) = set x 1` and `T(k+1) = set x [T(k)]` of nested command
substitutions. -/
def picolNestText : Nat → CStr
  | 0 => "set x 1".toList
  | k + 1 => "set x [".toList ++ picolNestText k ++ "]".toList

/-! ### Self-recursive procedures -/

/-- An identifier: a text that is not empty, made of letters, digits and
underscores. -/
def picolIdent (p : CStr) : Prop := p ≠ [] ∧ ∀ c ∈ p, isVarChar c = true

instance picolIdent.decidable (p : CStr) : Decidable (picolIdent p) :=
  inferInstanceAs (Decidable (p ≠ [] ∧ ∀ c ∈ p, isVarChar c = true))

/-- The body ` p ` of the procedure that `proc p {} { p }` defines. -/
def picolSelfBody (p : CStr) : CStr := ' ' :: (p ++ [' '])

/-- The text `proc p {} { p }`. -/
def picolSelfProcText (p : CStr) : CStr :=
  "proc ".toList ++ p ++ " \x7b\x7d \x7b".toList ++ picolSelfBody p ++ "\x7d".toList

/-- The command that `proc p {} { p }` stores: no parameters, and the body ` p `. -/
def picolSelfCmd (p : CStr) : picolCmd :=
  { name := p, func := .picolCommandCallProc, arglist := some [],
    body := some (picolSelfBody p) }

/-! ## Fuel: more fuel never changes a result -/

theorem picolParseSepLoop_mono {n m : Nat} {p r : picolParser}
    (h : picolParseSepLoop n p = some r) (hnm : n ≤ m) : picolParseSepLoop m p = some r := by
  induction n generalizing m p with
  | zero => simp [picolParseSepLoop] at h
  | succ n ih =>
    obtain ⟨m, rfl⟩ : ∃ k, m = k + 1 := ⟨m - 1, by omega⟩
    simp only [picolParseSepLoop] at h ⊢
    split_ifs at h ⊢
    · exact ih h (by omega)
    · exact h

theorem picolParseEolLoop_mono {n m : Nat} {p r : picolParser}
    (h : picolParseEolLoop n p = some r) (hnm : n ≤ m) : picolParseEolLoop m p = some r := by
  induction n generalizing m p with
  | zero => simp [picolParseEolLoop] at h
  | succ n ih =>
    obtain ⟨m, rfl⟩ : ∃ k, m = k + 1 := ⟨m - 1, by omega⟩
    simp only [picolParseEolLoop] at h ⊢
    split_ifs at h ⊢
    · exact ih h (by omega)
    · exact h

theorem picolParseCommandLoop_mono {n m : Nat} {p r : picolParser} {l b : Int}
    (h : picolParseCommandLoop n p l b = some r) (hnm : n ≤ m) :
    picolParseCommandLoop m p l b = some r := by
  induction n generalizing m p l b with
  | zero => simp [picolParseCommandLoop] at h
  | succ n ih =>
    obtain ⟨m, rfl⟩ : ∃ k, m = k + 1 := ⟨m - 1, by omega⟩
    simp only [picolParseCommandLoop] at h ⊢
    split_ifs at h ⊢ <;> first | exact h | exact ih h (by omega)

theorem picolParseVarLoop_mono {n m : Nat} {p r : picolParser}
    (h : picolParseVarLoop n p = some r) (hnm : n ≤ m) : picolParseVarLoop m p = some r := by
  induction n generalizing m p with
  | zero => simp [picolParseVarLoop] at h
  | succ n ih =>
    obtain ⟨m, rfl⟩ : ∃ k, m = k + 1 := ⟨m - 1, by omega⟩
    simp only [picolParseVarLoop] at h ⊢
    split_ifs at h ⊢ <;> first | exact h | exact ih h (by omega)

theorem picolParseBraceLoop_mono {n m : Nat} {p r : picolParser} {l : Int}
    (h : picolParseBraceLoop n p l = some r) (hnm : n ≤ m) :
    picolParseBraceLoop m p l = some r := by
  induction n generalizing m p l with
  | zero => simp [picolParseBraceLoop] at h
  | succ n ih =>
    obtain ⟨m, rfl⟩ : ∃ k, m = k + 1 := ⟨m - 1, by omega⟩
    simp only [picolParseBraceLoop] at h ⊢
    split_ifs at h ⊢ <;> first | exact h | exact ih h (by omega)

theorem picolParseStringLoop_mono {n m : Nat} {p r : picolParser}
    (h : picolParseStringLoop n p = some r) (hnm : n ≤ m) :
    picolParseStringLoop m p = some r := by
  induction n generalizing m p with
  | zero => simp [picolParseStringLoop] at h
  | succ n ih =>
    obtain ⟨m, rfl⟩ : ∃ k, m = k + 1 := ⟨m - 1, by omega⟩
    simp only [picolParseStringLoop] at h ⊢
    split_ifs at h ⊢ <;> first | exact h | exact ih h (by omega)

theorem picolParseCommentLoop_mono {n m : Nat} {p r : picolParser}
    (h : picolParseCommentLoop n p = some r) (hnm : n ≤ m) :
    picolParseCommentLoop m p = some r := by
  induction n generalizing m p with
  | zero => simp [picolParseCommentLoop] at h
  | succ n ih =>
    obtain ⟨m, rfl⟩ : ∃ k, m = k + 1 := ⟨m - 1, by omega⟩
    simp only [picolParseCommentLoop] at h ⊢
    split_ifs at h ⊢ <;> first | exact h | exact ih h (by omega)

theorem picolParseSep_mono {n m : Nat} {p r : picolParser}
    (h : picolParseSep n p = some r) (hnm : n ≤ m) : picolParseSep m p = some r := by
  simp only [picolParseSep, Option.map_eq_some'] at h ⊢
  obtain ⟨q, hq, rfl⟩ := h
  exact ⟨q, picolParseSepLoop_mono hq hnm, rfl⟩

theorem picolParseEol_mono {n m : Nat} {p r : picolParser}
    (h : picolParseEol n p = some r) (hnm : n ≤ m) : picolParseEol m p = some r := by
  simp only [picolParseEol, Option.map_eq_some'] at h ⊢
  obtain ⟨q, hq, rfl⟩ := h
  exact ⟨q, picolParseEolLoop_mono hq hnm, rfl⟩

theorem picolParseCommand_mono {n m : Nat} {p r : picolParser}
    (h : picolParseCommand n p = some r) (hnm : n ≤ m) : picolParseCommand m p = some r := by
  simp only [picolParseCommand, Option.map_eq_some'] at h ⊢
  obtain ⟨q, hq, rfl⟩ := h
  exact ⟨q, picolParseCommandLoop_mono hq hnm, rfl⟩

theorem picolParseVar_mono {n m : Nat} {p r : picolParser}
    (h : picolParseVar n p = some r) (hnm : n ≤ m) : picolParseVar m p = some r := by
  simp only [picolParseVar, Option.map_eq_some'] at h ⊢
  obtain ⟨q, hq, rfl⟩ := h
  exact ⟨q, picolParseVarLoop_mono hq hnm, rfl⟩

theorem picolParseString_mono {n m : Nat} {p r : picolParser}
    (h : picolParseString n p = some r) (hnm : n ≤ m) : picolParseString m p = some r := by
  simp only [picolParseString, picolParseBrace] at h ⊢
  split_ifs at h ⊢ <;>
    first
    | exact picolParseBraceLoop_mono h hnm
    | exact picolParseStringLoop_mono h hnm

theorem picolGetToken_mono {n m : Nat} {p r : picolParser}
    (h : picolGetToken n p = some r) (hnm : n ≤ m) : picolGetToken m p = some r := by
  induction n generalizing m p with
  | zero => simp [picolGetToken] at h
  | succ n ih =>
    obtain ⟨m, rfl⟩ : ∃ k, m = k + 1 := ⟨m - 1, by omega⟩
    have hm : n ≤ m := by omega
    simp only [picolGetToken, picolParseComment] at h ⊢
    split_ifs at h ⊢ <;>
      first
      | exact h
      | exact picolParseString_mono h hm
      | exact picolParseSep_mono h hm
      | exact picolParseEol_mono h hm
      | exact picolParseCommand_mono h hm
      | exact picolParseVar_mono h hm
      | (cases hq : picolParseCommentLoop n p with
         | none => simp [hq] at h
         | some q =>
           rw [hq] at h
           rw [picolParseCommentLoop_mono hq hm]
           exact ih h hm)

theorem OLe_refl {α : Type} (a : Option α) : OLe a a := ⟨fun _ h => h⟩

theorem OLe_bind {α β : Type} {a b : Option α} {f g : α → Option β}
    (h : OLe a b) (hfg : ∀ x, OLe (f x) (g x)) : OLe (a.bind f) (b.bind g) := by
  constructor
  intro r hr
  cases ha : a with
  | none => simp [ha] at hr
  | some x =>
    rw [ha] at hr
    rw [h.le x ha]
    exact (hfg x).le r hr

theorem OLe_ite {α : Type} {c : Prop} [Decidable c] {a b a' b' : Option α}
    (h1 : OLe a a') (h2 : OLe b b') : OLe (if c then a else b) (if c then a' else b') := by
  split_ifs
  · exact h1
  · exact h2

theorem OLe_none {α : Type} (b : Option α) : OLe none b := ⟨fun _ h => by cases h⟩

theorem picolExprSkip_mono {n m : Nat} {s : CStr} {p r : Nat}
    (h : picolExprSkip n s p = some r) (hnm : n ≤ m) : picolExprSkip m s p = some r := by
  induction n generalizing m p with
  | zero => simp [picolExprSkip] at h
  | succ n ih =>
    obtain ⟨m, rfl⟩ : ∃ k, m = k + 1 := ⟨m - 1, by omega⟩
    simp only [picolExprSkip] at h ⊢
    split_ifs at h ⊢ <;> first | exact h | exact ih h (by omega)

theorem picolExprTrail_mono {n m : Nat} {s : CStr} {p r : Nat}
    (h : picolExprTrail n s p = some r) (hnm : n ≤ m) : picolExprTrail m s p = some r := by
  induction n generalizing m p with
  | zero => simp [picolExprTrail] at h
  | succ n ih =>
    obtain ⟨m, rfl⟩ : ∃ k, m = k + 1 := ⟨m - 1, by omega⟩
    simp only [picolExprTrail] at h ⊢
    split_ifs at h ⊢ <;> first | exact h | exact ih h (by omega)

theorem picolArgsScan_mono {n m : Nat} {s : CStr} {p r : Nat}
    (h : picolArgsScan n s p = some r) (hnm : n ≤ m) : picolArgsScan m s p = some r := by
  induction n generalizing m p with
  | zero => simp [picolArgsScan] at h
  | succ n ih =>
    obtain ⟨m, rfl⟩ : ∃ k, m = k + 1 := ⟨m - 1, by omega⟩
    simp only [picolArgsScan] at h ⊢
    split_ifs at h ⊢ <;> first | exact h | exact ih h (by omega)

theorem picolArgsLoop_mono_step (n : Nat) : ∀ i argv alist p arity,
    OLe (picolArgsLoop n i argv alist p arity) (picolArgsLoop (n + 1) i argv alist p arity) := by
  induction n with
  | zero => intros; exact OLe_none _
  | succ n ih =>
    have hs : ∀ s p, OLe (picolArgsScan n s p) (picolArgsScan (n + 1) s p) :=
      fun s p => ⟨fun r h => picolArgsScan_mono h (Nat.le_succ n)⟩
    intro i argv alist p arity
    rw [picolArgsLoop, picolArgsLoop]
    repeat' first
      | exact OLe_refl _
      | apply ih
      | apply hs
      | apply OLe_bind
      | apply OLe_ite
      | intro _

section
variable {D : Type} (F : DoubleOps D)

theorem picolExpr_mono_step (n : Nat) :
    (∀ i s p err prec, OLe (picolExpr F n i s p err prec) (picolExpr F (n + 1) i s p err prec)) ∧
    (∀ i s p err prec a, OLe (picolExprLoop F n i s p err prec a)
      (picolExprLoop F (n + 1) i s p err prec a)) := by
  induction n with
  | zero => constructor <;> intros <;> exact OLe_none _
  | succ n ih =>
    obtain ⟨ihE, ihL⟩ := ih
    have hs : ∀ s p, OLe (picolExprSkip n s p) (picolExprSkip (n + 1) s p) :=
      fun s p => ⟨fun r h => picolExprSkip_mono h (Nat.le_succ n)⟩
    constructor
    · intro i s p err prec
      rw [picolExpr, picolExpr]
      repeat' first
        | exact OLe_refl _
        | apply ihE
        | apply ihL
        | apply hs
        | apply OLe_bind
        | apply OLe_ite
        | intro _
    · intro i s p err prec a
      rw [picolExprLoop, picolExprLoop]
      split
      · exact OLe_refl _
      · repeat' first
        | exact OLe_refl _
          | apply ihE
          | apply ihL
          | apply hs
          | apply OLe_bind
          | apply OLe_ite
          | intro _

theorem picolCommandExpr_mono_step (n : Nat) (i : picolInterp) (argv : List CStr) :
    OLe (picolCommandExpr F n i argv) (picolCommandExpr F (n + 1) i argv) := by
  have hs : ∀ s p, OLe (picolExprTrail n s p) (picolExprTrail (n + 1) s p) :=
    fun s p => ⟨fun r h => picolExprTrail_mono h (Nat.le_succ n)⟩
  unfold picolCommandExpr
  repeat' first
    | exact OLe_refl _
    | apply (picolExpr_mono_step F n).1
    | apply hs
    | apply OLe_bind
    | apply OLe_ite
    | intro _

/-! ### Unfolding equations of the evaluator -/

theorem picolEval_zero (i : picolInterp) (t : CStr) : picolEval F 0 i t = none := rfl

theorem picolEval_succ (n : Nat) (i : picolInterp) (t : CStr) :
    picolEval F (n + 1) i t =
      if (i.level + 1 > PICOL_MAX_RECURSION_LEVEL) then
        some (PICOL_ERR, picolSetResult
          { picolSetResult i [] with level := i.level + 1 - 1 } "Nesting too deep".toList)
      else
        (picolEvalLoop F n { picolSetResult i [] with level := i.level + 1 }
          (picolInitParser t) []).bind fun r =>
        some (r.1, { r.2 with level := r.2.level - 1 }) := rfl

theorem picolEvalLoop_zero (i : picolInterp) (p : picolParser) (argv : List CStr) :
    picolEvalLoop F 0 i p argv = none := rfl

theorem picolEvalLoop_succ (n : Nat) (i : picolInterp) (p0 : picolParser) (argv : List CStr) :
    picolEvalLoop F (n + 1) i p0 argv =
    (picolGetToken n p0).bind fun p =>
    if p.type = PT_EOF then some (PICOL_OK, i)
    else if p.type = PT_VAR then
      match picolGetVar i p.token with
      | none => some (PICOL_ERR, picolSetResult i (picolNoSuchVar p.token))
      | some v =>
        (picolAppendArg argv p0.type v.val).bind fun argv1 => picolEvalLoop F n i p argv1
    else if p.type = PT_CMD then
      (picolEval F n i p.token).bind fun r =>
      if r.1 ≠ PICOL_OK then some r
      else
        (picolAppendArg argv p0.type r.2.result).bind fun argv1 =>
        picolEvalLoop F n r.2 p argv1
    else if p.type = PT_ESC then
      (picolAppendArg argv p0.type (picolEscape p.token)).bind fun argv1 =>
      picolEvalLoop F n i p argv1
    else if p.type = PT_SEP then picolEvalLoop F n i p argv
    else if p.type = PT_EOL then
      if argv.length ≠ 0 then
        match picolGetCommand i (argv.getD 0 []) with
        | none => some (PICOL_ERR, picolSetResult i (picolNoSuchCmd (argv.getD 0 [])))
        | some c =>
          (picolCallFunc F n i argv c).bind fun r =>
          if r.1 ≠ PICOL_OK then some r else picolEvalLoop F n r.2 p []
      else picolEvalLoop F n i p []
    else
      (picolAppendArg argv p0.type p.token).bind fun argv1 =>
      picolEvalLoop F n i p argv1 := rfl

theorem picolCallFunc_zero (i : picolInterp) (argv : List CStr) (c : picolCmd) :
    picolCallFunc F 0 i argv c = none := rfl

theorem picolCallFunc_succ (n : Nat) (i : picolInterp) (argv : List CStr) (c : picolCmd) :
    picolCallFunc F (n + 1) i argv c =
    match c.func with
    | .picolCommandExpr => picolCommandExpr F n i argv
    | .picolCommandSet => some (picolCommandSet i argv)
    | .picolCommandPuts => some (picolCommandPuts i argv)
    | .picolCommandIf => picolCommandIf F n i argv 1
    | .picolCommandWhile => picolCommandWhile F n i argv
    | .picolCommandRetCodes => some (picolCommandRetCodes i argv)
    | .picolCommandProc => some (picolCommandProc i argv)
    | .picolCommandReturn => some (picolCommandReturn i argv)
    | .picolCommandCallProc => picolCommandCallProc F n i argv c := rfl

theorem picolExprExpansion_zero (i : picolInterp) (s : CStr) :
    picolExprExpansion F 0 i s = none := rfl

theorem picolExprExpansion_succ (n : Nat) (i : picolInterp) (s : CStr) :
    picolExprExpansion F (n + 1) i s = picolEval F n i ("expr ".toList ++ s) := rfl

theorem picolCommandIf_zero (i : picolInterp) (argv : List CStr) (j : Nat) :
    picolCommandIf F 0 i argv j = none := rfl

theorem picolCommandIf_succ (n : Nat) (i : picolInterp) (argv : List CStr) (j : Nat) :
    picolCommandIf F (n + 1) i argv j =
    if j ≥ argv.length then some (picolArityErr i (argv.getD 0 []))
    else
      (picolExprExpansion F n i (argv.getD j [])).bind fun r =>
      if r.1 ≠ PICOL_OK then some r
      else if j + 1 ≥ argv.length then some (picolArityErr r.2 (argv.getD 0 []))
      else if F.nonzero (F.strtod r.2.result).1 then
        picolEval F n r.2 (argv.getD (j + 1) [])
      else if j + 2 ≥ argv.length then some (PICOL_OK, r.2)
      else if argv.getD (j + 2) [] = "else".toList then
        if j + 2 + 1 < argv.length then picolEval F n r.2 (argv.getD (j + 2 + 1) [])
        else some (picolArityErr r.2 (argv.getD 0 []))
      else if argv.getD (j + 2) [] ≠ "elseif".toList then
        some (picolArityErr r.2 (argv.getD 0 []))
      else picolCommandIf F n r.2 argv (j + 2 + 1) := rfl

theorem picolCommandWhile_zero (i : picolInterp) (argv : List CStr) :
    picolCommandWhile F 0 i argv = none := rfl

theorem picolCommandWhile_succ (n : Nat) (i : picolInterp) (argv : List CStr) :
    picolCommandWhile F (n + 1) i argv =
    if argv.length ≠ 3 then some (picolArityErr i (argv.getD 0 []))
    else picolWhileLoop F n i argv := rfl

theorem picolWhileLoop_zero (i : picolInterp) (argv : List CStr) :
    picolWhileLoop F 0 i argv = none := rfl

theorem picolWhileLoop_succ (n : Nat) (i : picolInterp) (argv : List CStr) :
    picolWhileLoop F (n + 1) i argv =
    (picolExprExpansion F n i (argv.getD 1 [])).bind fun r =>
    if r.1 ≠ PICOL_OK then some r
    else if ¬ F.nonzero (F.strtod r.2.result).1 then some (PICOL_OK, r.2)
    else
      (picolEval F n r.2 (argv.getD 2 [])).bind fun r2 =>
      if r2.1 = PICOL_CONTINUE ∨ r2.1 = PICOL_OK then picolWhileLoop F n r2.2 argv
      else if r2.1 = PICOL_BREAK then some (PICOL_OK, r2.2)
      else some r2 := rfl

theorem picolCommandCallProc_zero (i : picolInterp) (argv : List CStr) (c : picolCmd) :
    picolCommandCallProc F 0 i argv c = none := rfl

theorem picolCommandCallProc_succ (n : Nat) (i : picolInterp) (argv : List CStr)
    (cmd : picolCmd) :
    picolCommandCallProc F (n + 1) i argv cmd =
    cmd.arglist.bind fun alist =>
    (picolArgsLoop n { i with callframe := .child [] i.callframe } argv alist 0 0).bind
      fun x =>
    match x with
    | .arityerr i2 => picolCallProcErr i2 (picolWrongArgNum (argv.getD 0 []))
    | .err i2 errbuf => picolCallProcErr i2 errbuf
    | .done i2 arity =>
      if arity ≠ (argv.length : Int) - 1 then
        picolCallProcErr i2 (picolWrongArgNum (argv.getD 0 []))
      else
        cmd.body.bind fun body =>
        (picolEvalBody F n i2 cmd.name body).bind fun r =>
        (picolDropCallFrame r.2).bind fun i4 =>
        some (if r.1 = PICOL_RETURN then PICOL_OK else r.1, i4) := rfl

theorem picolEvalBody_zero (i : picolInterp) (name t : CStr) :
    picolEvalBody F 0 i name t = none := rfl

theorem picolEvalBody_succ (n : Nat) (i : picolInterp) (name t : CStr) :
    picolEvalBody F (n + 1) i name t =
      if (i.level + 1 > PICOL_MAX_RECURSION_LEVEL) then
        some (PICOL_ERR, picolSetResult
          { picolSetResult i [] with level := i.level + 1 - 1 } "Nesting too deep".toList)
      else
        (picolEvalBodyLoop F n { picolSetResult i [] with level := i.level + 1 }
          (picolInitParser t) [] name (i.freed.count name)).bind fun r =>
        some (r.1, { r.2 with level := r.2.level - 1 }) := rfl

theorem picolEvalBodyLoop_zero (i : picolInterp) (p : picolParser) (argv : List CStr)
    (name : CStr) (k : Nat) : picolEvalBodyLoop F 0 i p argv name k = none := rfl

theorem picolEvalBodyLoop_succ (n : Nat) (i : picolInterp) (p0 : picolParser)
    (argv : List CStr) (name : CStr) (k : Nat) :
    picolEvalBodyLoop F (n + 1) i p0 argv name k =
    if picolBodyFreed i name k p0 then none
    else
    (picolGetToken n p0).bind fun p =>
    if p.type = PT_EOF then some (PICOL_OK, i)
    else if p.type = PT_VAR then
      match picolGetVar i p.token with
      | none => some (PICOL_ERR, picolSetResult i (picolNoSuchVar p.token))
      | some v =>
        (picolAppendArg argv p0.type v.val).bind fun argv1 =>
        picolEvalBodyLoop F n i p argv1 name k
    else if p.type = PT_CMD then
      (picolEval F n i p.token).bind fun r =>
      if r.1 ≠ PICOL_OK then some r
      else
        (picolAppendArg argv p0.type r.2.result).bind fun argv1 =>
        picolEvalBodyLoop F n r.2 p argv1 name k
    else if p.type = PT_ESC then
      (picolAppendArg argv p0.type (picolEscape p.token)).bind fun argv1 =>
      picolEvalBodyLoop F n i p argv1 name k
    else if p.type = PT_SEP then picolEvalBodyLoop F n i p argv name k
    else if p.type = PT_EOL then
      if argv.length ≠ 0 then
        match picolGetCommand i (argv.getD 0 []) with
        | none => some (PICOL_ERR, picolSetResult i (picolNoSuchCmd (argv.getD 0 [])))
        | some c =>
          (picolCallFunc F n i argv c).bind fun r =>
          if r.1 ≠ PICOL_OK then some r else picolEvalBodyLoop F n r.2 p [] name k
      else picolEvalBodyLoop F n i p [] name k
    else
      (picolAppendArg argv p0.type p.token).bind fun argv1 =>
      picolEvalBodyLoop F n i p argv1 name k := rfl

attribute [local irreducible] picolEval picolEvalLoop picolCallFunc picolExprExpansion picolCommandIf picolCommandWhile picolWhileLoop picolCommandCallProc picolEvalBody picolEvalBodyLoop picolGetToken picolArgsLoop picolCommandExpr in
theorem eval_mono_step (n : Nat) : EvalMonoAt F n := by
  induction n with
  | zero =>
    refine ⟨?_, ?_, ?_, ?_, ?_, ?_, ?_, ?_, ?_, ?_⟩ <;> intros
    · rw [picolEval_zero]; exact OLe_none _
    · rw [picolEvalLoop_zero]; exact OLe_none _
    · rw [picolCallFunc_zero]; exact OLe_none _
    · rw [picolExprExpansion_zero]; exact OLe_none _
    · rw [picolCommandIf_zero]; exact OLe_none _
    · rw [picolCommandWhile_zero]; exact OLe_none _
    · rw [picolWhileLoop_zero]; exact OLe_none _
    · rw [picolCommandCallProc_zero]; exact OLe_none _
    · rw [picolEvalBody_zero]; exact OLe_none _
    · rw [picolEvalBodyLoop_zero]; exact OLe_none _
  | succ n ih =>
    obtain ⟨ihE, ihL, ihF, ihX, ihI, ihW, ihWL, ihP, ihB, ihBL⟩ := ih
    have hT : ∀ p, OLe (picolGetToken n p) (picolGetToken (n + 1) p) :=
      fun p => ⟨fun r h => picolGetToken_mono h (Nat.le_succ n)⟩
    have hCE := picolCommandExpr_mono_step F n
    have hAL := picolArgsLoop_mono_step n
    refine ⟨?_, ?_, ?_, ?_, ?_, ?_, ?_, ?_, ?_, ?_⟩
    · intro i t
      rw [picolEval_succ, picolEval_succ]
      repeat' first
        | exact OLe_refl _
        | apply ihL
        | apply OLe_bind
        | apply OLe_ite
        | intro _
    · intro i p argv
      rw [picolEvalLoop_succ, picolEvalLoop_succ]
      repeat' first
        | exact OLe_refl _
        | apply ihL
        | apply ihE
        | apply ihF
        | apply hT
        | apply OLe_bind
        | apply OLe_ite
        | intro _
        | split
    · intro i argv c
      rw [picolCallFunc_succ, picolCallFunc_succ]
      split <;> first
        | exact OLe_refl _
        | apply hCE
        | apply ihI
        | apply ihW
        | apply ihP
    · intro i s
      rw [picolExprExpansion_succ, picolExprExpansion_succ]
      apply ihE
    · intro i argv j
      rw [picolCommandIf_succ, picolCommandIf_succ]
      repeat' first
        | exact OLe_refl _
        | apply ihI
        | apply ihE
        | apply ihX
        | apply OLe_bind
        | apply OLe_ite
        | intro _
    · intro i argv
      rw [picolCommandWhile_succ, picolCommandWhile_succ]
      exact OLe_ite (OLe_refl _) (ihWL _ _)
    · intro i argv
      rw [picolWhileLoop_succ, picolWhileLoop_succ]
      repeat' first
        | exact OLe_refl _
        | apply ihWL
        | apply ihE
        | apply ihX
        | apply OLe_bind
        | apply OLe_ite
        | intro _
    · intro i argv c
      rw [picolCommandCallProc_succ, picolCommandCallProc_succ]
      repeat' first
        | exact OLe_refl _
        | apply ihB
        | apply hAL
        | apply OLe_bind
        | apply OLe_ite
        | intro _
        | split
    · intro i name t
      rw [picolEvalBody_succ, picolEvalBody_succ]
      repeat' first
        | exact OLe_refl _
        | apply ihBL
        | apply OLe_bind
        | apply OLe_ite
        | intro _
    · intro i p argv name k
      rw [picolEvalBodyLoop_succ, picolEvalBodyLoop_succ]
      repeat' first
        | exact OLe_refl _
        | apply ihBL
        | apply ihE
        | apply ihF
        | apply hT
        | apply OLe_bind
        | apply OLe_ite
        | intro _
        | split

end

/-! ## Fuel: results are stable under any larger fuel -/

theorem OLe_of_steps {α : Type} (f : Nat → Option α) (hstep : ∀ n, OLe (f n) (f (n + 1)))
    {n m : Nat} (hnm : n ≤ m) {r : α} (h : f n = some r) : f m = some r := by
  induction m with
  | zero =>
    have : n = 0 := by omega
    subst this
    exact h
  | succ m ih =>
    rcases Nat.lt_or_ge n (m + 1) with hlt | hge
    · exact (hstep m).le r (ih (by omega))
    · have : n = m + 1 := by omega
      subst this
      exact h

section
variable {D : Type} (F : DoubleOps D)

theorem picolEval_mono {n m : Nat} {i : picolInterp} {t : CStr}
    {r : picolRetCode × picolInterp} (h : picolEval F n i t = some r) (hnm : n ≤ m) :
    picolEval F m i t = some r :=
  OLe_of_steps (fun k => picolEval F k i t) (fun k => (eval_mono_step F k).1 i t) hnm h

theorem picolEvalLoop_mono {n m : Nat} {i : picolInterp} {p : picolParser}
    {argv : List CStr} {r : picolRetCode × picolInterp}
    (h : picolEvalLoop F n i p argv = some r) (hnm : n ≤ m) :
    picolEvalLoop F m i p argv = some r :=
  OLe_of_steps (fun k => picolEvalLoop F k i p argv)
    (fun k => (eval_mono_step F k).2.1 i p argv) hnm h

theorem picolCallFunc_mono {n m : Nat} {i : picolInterp} {argv : List CStr} {c : picolCmd}
    {r : picolRetCode × picolInterp}
    (h : picolCallFunc F n i argv c = some r) (hnm : n ≤ m) :
    picolCallFunc F m i argv c = some r :=
  OLe_of_steps (fun k => picolCallFunc F k i argv c)
    (fun k => (eval_mono_step F k).2.2.1 i argv c) hnm h

theorem picolExprExpansion_mono {n m : Nat} {i : picolInterp} {s : CStr}
    {r : picolRetCode × picolInterp}
    (h : picolExprExpansion F n i s = some r) (hnm : n ≤ m) :
    picolExprExpansion F m i s = some r :=
  OLe_of_steps (fun k => picolExprExpansion F k i s)
    (fun k => (eval_mono_step F k).2.2.2.1 i s) hnm h

theorem picolCommandIf_mono {n m : Nat} {i : picolInterp} {argv : List CStr} {j : Nat}
    {r : picolRetCode × picolInterp}
    (h : picolCommandIf F n i argv j = some r) (hnm : n ≤ m) :
    picolCommandIf F m i argv j = some r :=
  OLe_of_steps (fun k => picolCommandIf F k i argv j)
    (fun k => (eval_mono_step F k).2.2.2.2.1 i argv j) hnm h

theorem picolCommandWhile_mono {n m : Nat} {i : picolInterp} {argv : List CStr}
    {r : picolRetCode × picolInterp}
    (h : picolCommandWhile F n i argv = some r) (hnm : n ≤ m) :
    picolCommandWhile F m i argv = some r :=
  OLe_of_steps (fun k => picolCommandWhile F k i argv)
    (fun k => (eval_mono_step F k).2.2.2.2.2.1 i argv) hnm h

theorem picolWhileLoop_mono {n m : Nat} {i : picolInterp} {argv : List CStr}
    {r : picolRetCode × picolInterp}
    (h : picolWhileLoop F n i argv = some r) (hnm : n ≤ m) :
    picolWhileLoop F m i argv = some r :=
  OLe_of_steps (fun k => picolWhileLoop F k i argv)
    (fun k => (eval_mono_step F k).2.2.2.2.2.2.1 i argv) hnm h

theorem picolCommandCallProc_mono {n m : Nat} {i : picolInterp} {argv : List CStr}
    {c : picolCmd} {r : picolRetCode × picolInterp}
    (h : picolCommandCallProc F n i argv c = some r) (hnm : n ≤ m) :
    picolCommandCallProc F m i argv c = some r :=
  OLe_of_steps (fun k => picolCommandCallProc F k i argv c)
    (fun k => (eval_mono_step F k).2.2.2.2.2.2.2.1 i argv c) hnm h

theorem picolEvalBody_mono {n m : Nat} {i : picolInterp} {name t : CStr}
    {r : picolRetCode × picolInterp} (h : picolEvalBody F n i name t = some r) (hnm : n ≤ m) :
    picolEvalBody F m i name t = some r :=
  OLe_of_steps (fun k => picolEvalBody F k i name t)
    (fun k => (eval_mono_step F k).2.2.2.2.2.2.2.2.1 i name t) hnm h

theorem picolEvalBodyLoop_mono {n m : Nat} {i : picolInterp} {p : picolParser}
    {argv : List CStr} {name : CStr} {c : Nat} {r : picolRetCode × picolInterp}
    (h : picolEvalBodyLoop F n i p argv name c = some r) (hnm : n ≤ m) :
    picolEvalBodyLoop F m i p argv name c = some r :=
  OLe_of_steps (fun k => picolEvalBodyLoop F k i p argv name c)
    (fun k => (eval_mono_step F k).2.2.2.2.2.2.2.2.2 i p argv name c) hnm h

theorem picolExpr_mono {n m : Nat} {i : picolInterp} {s : CStr} {p : Nat} {err : Bool}
    {prec : Int} {r : picolExprResult D}
    (h : picolExpr F n i s p err prec = some r) (hnm : n ≤ m) :
    picolExpr F m i s p err prec = some r :=
  OLe_of_steps (fun k => picolExpr F k i s p err prec)
    (fun k => (picolExpr_mono_step F k).1 i s p err prec) hnm h

theorem picolExprLoop_mono {n m : Nat} {i : picolInterp} {s : CStr} {p : Nat} {err : Bool}
    {prec : Int} {a : D} {r : picolExprResult D}
    (h : picolExprLoop F n i s p err prec a = some r) (hnm : n ≤ m) :
    picolExprLoop F m i s p err prec a = some r :=
  OLe_of_steps (fun k => picolExprLoop F k i s p err prec a)
    (fun k => (picolExpr_mono_step F k).2 i s p err prec a) hnm h

theorem picolCommandExpr_mono {n m : Nat} {i : picolInterp} {argv : List CStr}
    {r : picolRetCode × picolInterp}
    (h : picolCommandExpr F n i argv = some r) (hnm : n ≤ m) :
    picolCommandExpr F m i argv = some r :=
  OLe_of_steps (fun k => picolCommandExpr F k i argv)
    (fun k => picolCommandExpr_mono_step F k i argv) hnm h

end

theorem picolArgsLoop_mono {n m : Nat} {i : picolInterp} {argv : List CStr} {alist : CStr}
    {p : Nat} {arity : Int} {r : picolArgsExit}
    (h : picolArgsLoop n i argv alist p arity = some r) (hnm : n ≤ m) :
    picolArgsLoop m i argv alist p arity = some r :=
  OLe_of_steps (fun k => picolArgsLoop k i argv alist p arity)
    (fun k => picolArgsLoop_mono_step k i argv alist p arity) hnm h

/-! ## Rules for postconditions -/

theorem Post_none {α : Type} (Q : α → Prop) : Post (none : Option α) Q :=
  ⟨fun _ h => by cases h⟩

theorem Post_some {α : Type} {Q : α → Prop} {x : α} (h : Q x) : Post (some x) Q :=
  ⟨fun r hr => by cases hr; exact h⟩

theorem Post_bind {α β : Type} {a : Option α} {f : α → Option β} {P : α → Prop}
    {Q : β → Prop} (ha : Post a P) (hf : ∀ x, P x → Post (f x) Q) : Post (a.bind f) Q := by
  constructor
  intro r hr
  cases h : a with
  | none => simp [h] at hr
  | some x =>
    rw [h] at hr
    exact (hf x (ha.out x h)).out r hr

theorem Post_ite {α : Type} {c : Prop} [Decidable c] {a b : Option α} {Q : α → Prop}
    (h1 : c → Post a Q) (h2 : ¬ c → Post b Q) : Post (if c then a else b) Q := by
  split_ifs with h
  · exact h1 h
  · exact h2 h

theorem Post_weaken {α : Type} {a : Option α} {P Q : α → Prop} (h : Post a P)
    (hPQ : ∀ x, P x → Q x) : Post a Q :=
  ⟨fun r hr => hPQ r (h.out r hr)⟩

theorem Post_trivial {α : Type} (a : Option α) : Post a fun _ => True :=
  ⟨fun _ _ => True.intro⟩

/-! ## Every relation closed under the elementary steps is kept by the evaluator -/

section
variable {D : Type} (F : DoubleOps D) {R : picolInterp → picolInterp → Prop}

theorem picolArityErr_keeps (hR : EvalClosed R) (i : picolInterp) (name : CStr) :
    R i (picolArityErr i name).2 := hR.result _ _

theorem picolCommandSet_keeps (hR : EvalClosed R) (i : picolInterp) (argv : List CStr) :
    R i (picolCommandSet i argv).2 := by
  unfold picolCommandSet
  split_ifs
  · exact hR.trans _ _ _ (hR.setVar _ _ _) (hR.result _ _)
  · split
    · exact hR.result _ _
    · exact hR.result _ _
  · exact picolArityErr_keeps hR _ _

theorem picolCommandPuts_keeps (hR : EvalClosed R) (i : picolInterp) (argv : List CStr) :
    R i (picolCommandPuts i argv).2 := by
  unfold picolCommandPuts
  simp only
  split_ifs
  · exact picolArityErr_keeps hR _ _
  · exact hR.refl _

theorem picolCommandRetCodes_keeps (hR : EvalClosed R) (i : picolInterp)
    (argv : List CStr) : R i (picolCommandRetCodes i argv).2 := by
  unfold picolCommandRetCodes
  split_ifs
  · exact picolArityErr_keeps hR _ _
  · exact hR.refl _
  · exact hR.refl _
  · exact hR.refl _

theorem picolCommandReturn_keeps (hR : EvalClosed R) (i : picolInterp)
    (argv : List CStr) : R i (picolCommandReturn i argv).2 := by
  unfold picolCommandReturn
  split_ifs
  · exact picolArityErr_keeps hR _ _
  · exact hR.result _ _
  · exact hR.result _ _

theorem picolArgsLoop_keeps (hR : EvalClosed R) (n : Nat) :
    ∀ i argv alist p arity,
      Post (picolArgsLoop n i argv alist p arity) fun x => R i x.interp := by
  induction n with
  | zero => intros; exact Post_none _
  | succ n ih =>
    intro i argv alist p arity
    rw [picolArgsLoop]
    refine Post_bind (Post_trivial _) fun p1 _ => ?_
    refine Post_ite (fun _ => ih _ _ _ _ _) fun _ => ?_
    refine Post_ite (fun _ => Post_some (hR.refl _)) fun _ => ?_
    refine Post_ite (fun _ => Post_some (hR.refl _)) fun _ => ?_
    refine Post_ite (fun _ => Post_some (hR.refl _)) fun _ => ?_
    refine Post_ite (fun _ => Post_some (hR.setVar _ _ _)) fun _ => ?_
    exact Post_weaken (ih _ _ _ _ _) fun x hx => hR.trans _ _ _ (hR.setVar _ _ _) hx

theorem picolExpr_keeps (hR : EvalClosed R) (n : Nat) :
    (∀ i s p err prec, Post (picolExpr F n i s p err prec) fun r => R i r.interp) ∧
    (∀ i s p err prec a, Post (picolExprLoop F n i s p err prec a) fun r => R i r.interp) := by
  induction n with
  | zero => constructor <;> intros <;> exact Post_none _
  | succ n ih =>
    obtain ⟨ihE, ihL⟩ := ih
    constructor
    · intro i s p err prec
      rw [picolExpr]
      refine Post_ite (fun _ => Post_some (hR.level _ _ (hR.refl _))) fun _ => ?_
      refine Post_bind (Post_trivial _) fun p1 _ => ?_
      refine Post_bind (P := fun r => R { i with level := i.level + 1 } r.interp) ?_ ?_
      · refine Post_ite (fun _ => ?_) fun _ => ?_
        · refine Post_bind (ihE _ _ _ _ _) fun r hr => ?_
          refine Post_bind (Post_trivial _) fun p2 _ => ?_
          exact Post_ite (fun _ => Post_some hr) fun _ => Post_some hr
        · refine Post_ite (fun _ => ?_) fun _ => ?_
          · exact Post_bind (ihE _ _ _ _ _) fun r hr => Post_some hr
          · exact Post_ite (fun _ => ihE _ _ _ _ _) fun _ => Post_some (hR.refl _)
      · intro r hr
        refine Post_bind (Post_trivial _) fun p3 _ => ?_
        refine Post_bind (ihL _ _ _ _ _ _) fun r1 hr1 => ?_
        exact Post_some (hR.level _ _ (hR.trans _ _ _ hr hr1))
    · intro i s p err prec a
      rw [picolExprLoop]
      split
      · exact Post_some (hR.refl _)
      · refine Post_ite (fun _ => Post_some (hR.refl _)) fun _ => ?_
        refine Post_bind (ihE _ _ _ _ _) fun r hr => ?_
        refine Post_bind (Post_trivial _) fun p1 _ => ?_
        exact Post_weaken (ihL _ _ _ _ _ _) fun x hx => hR.trans _ _ _ hr hx

theorem picolCommandExpr_keeps (hR : EvalClosed R) (n : Nat) (i : picolInterp)
    (argv : List CStr) : Post (picolCommandExpr F n i argv) fun r => R i r.2 := by
  unfold picolCommandExpr
  refine Post_ite (fun _ => Post_some (picolArityErr_keeps hR _ _)) fun _ => ?_
  refine Post_bind ((picolExpr_keeps F hR n).1 _ _ _ _ _) fun r hr => ?_
  refine Post_bind (Post_trivial _) fun p1 _ => ?_
  exact Post_ite (fun _ => Post_some (hR.trans _ _ _ hr (hR.result _ _)))
    fun _ => Post_some (hR.trans _ _ _ hr (hR.result _ _))

theorem picolCallProcErr_keeps (hR : EvalClosed R) (i j : picolInterp) (errbuf : CStr)
    (h : R { i with callframe := .child [] i.callframe } j) :
    Post (picolCallProcErr j errbuf) fun r => R i r.2 := by
  unfold picolCallProcErr
  constructor
  intro r hr
  cases hd : picolDropCallFrame (picolSetResult j errbuf) with
  | none => simp [hd] at hr
  | some k =>
    simp only [hd, Option.some_bind, Option.some.injEq] at hr
    subst hr
    exact hR.frame i _ k (hR.trans _ _ _ h (hR.result _ _)) hd

attribute [local irreducible] picolEval picolEvalLoop picolCallFunc picolExprExpansion picolCommandIf picolCommandWhile picolWhileLoop picolCommandCallProc picolEvalBody picolEvalBodyLoop picolGetToken picolArgsLoop picolCommandExpr in
theorem eval_keeps (hR : EvalClosed R) (n : Nat) : EvalKeeps F R n := by
  induction n with
  | zero =>
    refine ⟨?_, ?_, ?_, ?_, ?_, ?_, ?_, ?_, ?_, ?_⟩ <;> intros
    · rw [picolEval_zero]; exact Post_none _
    · rw [picolEvalLoop_zero]; exact Post_none _
    · rw [picolCallFunc_zero]; exact Post_none _
    · rw [picolExprExpansion_zero]; exact Post_none _
    · rw [picolCommandIf_zero]; exact Post_none _
    · rw [picolCommandWhile_zero]; exact Post_none _
    · rw [picolWhileLoop_zero]; exact Post_none _
    · rw [picolCommandCallProc_zero]; exact Post_none _
    · rw [picolEvalBody_zero]; exact Post_none _
    · rw [picolEvalBodyLoop_zero]; exact Post_none _
  | succ n ih =>
    obtain ⟨ihE, ihL, ihF, ihX, ihI, ihW, ihWL, ihP, ihB, ihBL⟩ := ih
    have tr := hR.trans
    refine ⟨?_, ?_, ?_, ?_, ?_, ?_, ?_, ?_, ?_, ?_⟩
    · intro i t
      rw [picolEval_succ]
      refine Post_ite (fun _ => Post_some ?_) fun _ => ?_
      · exact tr _ _ _ (hR.result i [])
          (tr _ _ _ (hR.level _ _ (hR.refl _)) (hR.result _ _))
      · refine Post_bind (ihL _ _ _) fun r hr => Post_some ?_
        exact tr _ _ _ (hR.result i []) (hR.level _ _ hr)
    · intro i p0 argv
      rw [picolEvalLoop_succ]
      refine Post_bind (Post_trivial _) fun p _ => ?_
      refine Post_ite (fun _ => Post_some (hR.refl _)) fun _ => ?_
      refine Post_ite (fun _ => ?_) fun _ => ?_
      · split
        · exact Post_some (hR.result _ _)
        · exact Post_bind (Post_trivial _) fun argv1 _ => ihL _ _ _
      refine Post_ite (fun _ => ?_) fun _ => ?_
      · refine Post_bind (ihE _ _) fun r hr => ?_
        refine Post_ite (fun _ => Post_some hr) fun _ => ?_
        refine Post_bind (Post_trivial _) fun argv1 _ => ?_
        exact Post_weaken (ihL _ _ _) fun x hx => tr _ _ _ hr hx
      refine Post_ite (fun _ => ?_) fun _ => ?_
      · exact Post_bind (Post_trivial _) fun argv1 _ => ihL _ _ _
      refine Post_ite (fun _ => ihL _ _ _) fun _ => ?_
      refine Post_ite (fun _ => ?_) fun _ => ?_
      · refine Post_ite (fun _ => ?_) fun _ => ihL _ _ _
        split
        · exact Post_some (hR.result _ _)
        · refine Post_bind (ihF _ _ _) fun r hr => ?_
          refine Post_ite (fun _ => Post_some hr) fun _ => ?_
          exact Post_weaken (ihL _ _ _) fun x hx => tr _ _ _ hr hx
      · exact Post_bind (Post_trivial _) fun argv1 _ => ihL _ _ _
    · intro i argv c
      rw [picolCallFunc_succ]
      split
      · exact picolCommandExpr_keeps F hR n i argv
      · exact Post_some (picolCommandSet_keeps hR _ _)
      · exact Post_some (picolCommandPuts_keeps hR _ _)
      · exact ihI _ _ _
      · exact ihW _ _
      · exact Post_some (picolCommandRetCodes_keeps hR _ _)
      · exact Post_some (hR.proc _ _)
      · exact Post_some (picolCommandReturn_keeps hR _ _)
      · exact ihP _ _ _
    · intro i s
      rw [picolExprExpansion_succ]
      exact ihE _ _
    · intro i argv j
      rw [picolCommandIf_succ]
      refine Post_ite (fun _ => Post_some (picolArityErr_keeps hR _ _)) fun _ => ?_
      refine Post_bind (ihX _ _) fun r hr => ?_
      have ar : R i (picolArityErr r.2 (argv.getD 0 [])).2 :=
        tr _ _ _ hr (picolArityErr_keeps hR _ _)
      have ev : ∀ t, Post (picolEval F n r.2 t) fun x => R i x.2 :=
        fun t => Post_weaken (ihE _ _) fun x hx => tr _ _ _ hr hx
      refine Post_ite (fun _ => Post_some hr) fun _ => ?_
      refine Post_ite (fun _ => Post_some ar) fun _ => ?_
      refine Post_ite (fun _ => ev _) fun _ => ?_
      refine Post_ite (fun _ => Post_some hr) fun _ => ?_
      refine Post_ite (fun _ => ?_) fun _ => ?_
      · exact Post_ite (fun _ => ev _) fun _ => Post_some ar
      refine Post_ite (fun _ => Post_some ar) fun _ => ?_
      exact Post_weaken (ihI _ _ _) fun x hx => tr _ _ _ hr hx
    · intro i argv
      rw [picolCommandWhile_succ]
      exact Post_ite (fun _ => Post_some (picolArityErr_keeps hR _ _)) fun _ => ihWL _ _
    · intro i argv
      rw [picolWhileLoop_succ]
      refine Post_bind (ihX _ _) fun r hr => ?_
      refine Post_ite (fun _ => Post_some hr) fun _ => ?_
      refine Post_ite (fun _ => Post_some hr) fun _ => ?_
      refine Post_bind (ihE _ _) fun r2 hr2 => ?_
      have h2 : R i r2.2 := tr _ _ _ hr hr2
      refine Post_ite (fun _ => ?_) fun _ => ?_
      · exact Post_weaken (ihWL _ _) fun x hx => tr _ _ _ h2 hx
      · exact Post_ite (fun _ => Post_some h2) fun _ => Post_some h2
    · intro i argv cmd
      rw [picolCommandCallProc_succ]
      cases cmd.arglist with
      | none => exact Post_none _
      | some alist =>
        rw [Option.some_bind]
        refine Post_bind (picolArgsLoop_keeps hR n _ _ _ _ _) fun x hx => ?_
        cases x with
        | arityerr i2 => exact picolCallProcErr_keeps hR i i2 _ hx
        | err i2 errbuf => exact picolCallProcErr_keeps hR i i2 _ hx
        | done i2 arity =>
          refine Post_ite (fun _ => picolCallProcErr_keeps hR i i2 _ hx) fun _ => ?_
          cases cmd.body with
          | none => exact Post_none _
          | some body =>
            rw [Option.some_bind]
            refine Post_bind (ihB _ _ _) fun r hr => ?_
            constructor
            intro x hx2
            cases hd : picolDropCallFrame r.2 with
            | none => simp [hd] at hx2
            | some k =>
              simp only [hd, Option.some_bind, Option.some.injEq] at hx2
              subst hx2
              exact hR.frame i _ k (tr _ _ _ hx hr) hd
    · intro i name t
      rw [picolEvalBody_succ]
      refine Post_ite (fun _ => Post_some ?_) fun _ => ?_
      · exact tr _ _ _ (hR.result i [])
          (tr _ _ _ (hR.level _ _ (hR.refl _)) (hR.result _ _))
      · refine Post_bind (ihBL _ _ _ _ _) fun r hr => Post_some ?_
        exact tr _ _ _ (hR.result i []) (hR.level _ _ hr)
    · intro i p0 argv name k
      rw [picolEvalBodyLoop_succ]
      refine Post_ite (fun _ => Post_none _) fun _ => ?_
      refine Post_bind (Post_trivial _) fun p _ => ?_
      refine Post_ite (fun _ => Post_some (hR.refl _)) fun _ => ?_
      refine Post_ite (fun _ => ?_) fun _ => ?_
      · split
        · exact Post_some (hR.result _ _)
        · exact Post_bind (Post_trivial _) fun argv1 _ => ihBL _ _ _ _ _
      refine Post_ite (fun _ => ?_) fun _ => ?_
      · refine Post_bind (ihE _ _) fun r hr => ?_
        refine Post_ite (fun _ => Post_some hr) fun _ => ?_
        refine Post_bind (Post_trivial _) fun argv1 _ => ?_
        exact Post_weaken (ihBL _ _ _ _ _) fun x hx => tr _ _ _ hr hx
      refine Post_ite (fun _ => ?_) fun _ => ?_
      · exact Post_bind (Post_trivial _) fun argv1 _ => ihBL _ _ _ _ _
      refine Post_ite (fun _ => ihBL _ _ _ _ _) fun _ => ?_
      refine Post_ite (fun _ => ?_) fun _ => ?_
      · refine Post_ite (fun _ => ?_) fun _ => ihBL _ _ _ _ _
        split
        · exact Post_some (hR.result _ _)
        · refine Post_bind (ihF _ _ _) fun r hr => ?_
          refine Post_ite (fun _ => Post_some hr) fun _ => ?_
          exact Post_weaken (ihBL _ _ _ _ _) fun x hx => tr _ _ _ hr hx
      · exact Post_bind (Post_trivial _) fun argv1 _ => ihBL _ _ _ _ _

end

/-! ## Variables and call frames -/

theorem picolFindVar_replaceVal_self (vs : List picolVar) (name val : CStr)
    (h : picolFindVar vs name ≠ none) :
    picolFindVar (picolReplaceVal vs name val) name = some { name := name, val := val } := by
  induction vs with
  | nil => simp [picolFindVar] at h
  | cons v vs ih =>
    simp only [picolReplaceVal]
    by_cases hv : v.name = name
    · simp [hv, picolFindVar]
    · simp only [hv, if_false, picolFindVar]
      simp only [picolFindVar, hv, if_false] at h
      exact ih h

theorem picolFindVar_replaceVal_ne (vs : List picolVar) (name val other : CStr)
    (h : other ≠ name) :
    picolFindVar (picolReplaceVal vs name val) other = picolFindVar vs other := by
  induction vs with
  | nil => rfl
  | cons v vs ih =>
    simp only [picolReplaceVal]
    by_cases hv : v.name = name
    · have hne : ¬ v.name = other := fun e => h (e ▸ hv)
      simp [hv, picolFindVar, hne, h.symm]
    · simp only [hv, if_false, picolFindVar, ih]

theorem picolFindVar_setVarIn_self (vs : List picolVar) (name val : CStr) :
    picolFindVar (picolSetVarIn vs name val) name = some { name := name, val := val } := by
  unfold picolSetVarIn
  split
  · next v hv => exact picolFindVar_replaceVal_self vs name val (by simp [hv])
  · simp [picolFindVar]

theorem picolFindVar_setVarIn_ne (vs : List picolVar) (name val other : CStr)
    (h : other ≠ name) :
    picolFindVar (picolSetVarIn vs name val) other = picolFindVar vs other := by
  unfold picolSetVarIn
  split
  · exact picolFindVar_replaceVal_ne vs name val other h
  · simp [picolFindVar, h.symm]

theorem topFrame_mapTop (f : List picolVar → List picolVar) (cf : picolCallFrame) :
    (cf.mapTop f).topFrame = .top (f cf.topFrame.vars) := by
  induction cf with
  | top vs => rfl
  | child vs p ih => simpa [picolCallFrame.mapTop, picolCallFrame.topFrame] using ih

theorem locals_mapTop (f : List picolVar → List picolVar) (cf : picolCallFrame) :
    (cf.mapTop f).locals = cf.locals := by
  induction cf with
  | top vs => rfl
  | child vs p ih => simp [picolCallFrame.mapTop, picolCallFrame.locals, ih]

theorem depth_mapTop (f : List picolVar → List picolVar) (cf : picolCallFrame) :
    (cf.mapTop f).depth = cf.depth := by
  induction cf with
  | top vs => rfl
  | child vs p ih => simp [picolCallFrame.mapTop, picolCallFrame.depth, ih]

theorem vars_setVars (cf : picolCallFrame) (vs : List picolVar) : (cf.setVars vs).vars = vs := by
  cases cf <;> rfl

/-- After `picolSetVar`, `picolGetVar` finds the name with the value just set. -/
theorem picolGetVar_setVar_self (i : picolInterp) (name val : CStr) :
    picolGetVar (picolSetVar i name val) name = some { name := name, val := val } := by
  unfold picolGetVar picolVarFrame picolSetVar
  by_cases hu : isupper (charAt name 0) = true
  · simp only [hu, if_true, topFrame_mapTop, picolCallFrame.vars]
    exact picolFindVar_setVarIn_self _ _ _
  · simp only [hu, if_false, vars_setVars, Bool.false_eq_true]
    exact picolFindVar_setVarIn_self _ _ _

theorem picolGetVar_setResult (i : picolInterp) (s name : CStr) :
    picolGetVar (picolSetResult i s) name = picolGetVar i name := rfl

/-! ### The relations `FramesBelow` and `SameFrame` -/

theorem LocalsAgree_refl (vs : List picolVar) : LocalsAgree vs vs := fun _ _ => rfl

theorem LocalsAgree_trans {a b c : List picolVar} (h1 : LocalsAgree a b)
    (h2 : LocalsAgree b c) : LocalsAgree a c :=
  fun name hn => (h2 name hn).trans (h1 name hn)

theorem FramesBelow_refl (cf : picolCallFrame) : FramesBelow cf cf := by
  induction cf with
  | top vs => exact LocalsAgree_refl vs
  | child vs p ih => exact ⟨rfl, ih⟩

theorem FramesBelow_trans {a b c : picolCallFrame} (h1 : FramesBelow a b)
    (h2 : FramesBelow b c) : FramesBelow a c := by
  induction a generalizing b c with
  | top vs =>
    cases b with
    | top ws =>
      cases c with
      | top us => exact LocalsAgree_trans h1 h2
      | child us r => exact h2.elim
    | child ws q => exact h1.elim
  | child vs p ih =>
    cases b with
    | top ws => exact h1.elim
    | child ws q =>
      cases c with
      | top us => exact h2.elim
      | child us r => exact ⟨h1.1.trans h2.1, ih h1.2 h2.2⟩

theorem FramesBelow_sameFrame {a b : picolCallFrame} (h : FramesBelow a b) :
    SameFrame a b := by
  cases a with
  | top vs =>
    cases b with
    | top ws => exact True.intro
    | child ws q => exact h.elim
  | child vs p =>
    cases b with
    | top ws => exact h.elim
    | child ws q => exact h.2

theorem FramesBelow_depth_eq {a b : picolCallFrame} (h : FramesBelow a b) :
    b.depth = a.depth := by
  induction a generalizing b with
  | top vs =>
    cases b with
    | top ws => rfl
    | child ws q => exact h.elim
  | child vs p ih =>
    cases b with
    | top ws => exact h.elim
    | child ws q => simp [picolCallFrame.depth, ih h.2]

theorem SameFrame_refl (cf : picolCallFrame) : SameFrame cf cf := by
  cases cf with
  | top vs => exact True.intro
  | child vs p => exact FramesBelow_refl p

theorem SameFrame_trans {a b c : picolCallFrame} (h1 : SameFrame a b)
    (h2 : SameFrame b c) : SameFrame a c := by
  cases a with
  | top vs =>
    cases b with
    | top ws =>
      cases c with
      | top us => exact True.intro
      | child us r => exact h2.elim
    | child ws q => exact h1.elim
  | child vs p =>
    cases b with
    | top ws => exact h1.elim
    | child ws q =>
      cases c with
      | top us => exact h2.elim
      | child us r => exact FramesBelow_trans h1 h2

theorem SameFrame_depth_eq {a b : picolCallFrame} (h : SameFrame a b) :
    b.depth = a.depth := by
  cases a with
  | top vs =>
    cases b with
    | top ws => rfl
    | child ws q => exact h.elim
  | child vs p =>
    cases b with
    | top ws => exact h.elim
    | child ws q => simp [picolCallFrame.depth, FramesBelow_depth_eq h]

theorem FramesBelow_mapTop_global (cf : picolCallFrame) (name val : CStr)
    (hu : isupper (charAt name 0) = true) :
    FramesBelow cf (cf.mapTop fun vs => picolSetVarIn vs name val) := by
  induction cf with
  | top vs =>
    intro other ho
    exact picolFindVar_setVarIn_ne vs name val other (fun e => by rw [e, hu] at ho; cases ho)
  | child vs p ih => exact ⟨rfl, ih⟩

theorem SameFrame_setVar (i : picolInterp) (name val : CStr) :
    SameFrame i.callframe (picolSetVar i name val).callframe := by
  unfold picolSetVar
  by_cases hu : isupper (charAt name 0) = true
  · simp only [hu, if_true]
    cases h : i.callframe with
    | top vs => exact True.intro
    | child vs p => exact FramesBelow_mapTop_global p name val hu
  · simp only [hu, if_false, Bool.false_eq_true]
    cases h : i.callframe with
    | top vs => exact True.intro
    | child vs p => exact FramesBelow_refl p

theorem picolSetVar_level (i : picolInterp) (name val : CStr) :
    (picolSetVar i name val).level = i.level := by
  unfold picolSetVar
  split <;> rfl

theorem picolCommandProc_level_frame (i : picolInterp) (argv : List CStr) :
    (picolCommandProc i argv).2.level = i.level ∧
    (picolCommandProc i argv).2.callframe = i.callframe := by
  unfold picolCommandProc picolArityErr picolSetResult picolRegisterCommand
  split_ifs
  · exact ⟨rfl, rfl⟩
  · simp only
    split <;> exact ⟨rfl, rfl⟩

/-- The level and the current frame are kept by every step of the evaluator. -/
theorem levelFrameKept_closed : EvalClosed LevelFrameKept where
  refl := fun i => ⟨rfl, SameFrame_refl _⟩
  trans := fun a b c h1 h2 => ⟨h2.1.trans h1.1, SameFrame_trans h1.2 h2.2⟩
  result := fun i s => ⟨rfl, SameFrame_refl _⟩
  setVar := fun i name val => ⟨picolSetVar_level i name val, SameFrame_setVar i name val⟩
  proc := fun i argv => by
    obtain ⟨h1, h2⟩ := picolCommandProc_level_frame i argv
    exact ⟨h1, by rw [h2]; exact SameFrame_refl _⟩
  level := fun i j h => by
    obtain ⟨h1, h2⟩ := h
    refine ⟨?_, h2⟩
    show j.level - 1 = i.level
    have : j.level = i.level + 1 := h1
    omega
  frame := fun i j k h hd => by
    obtain ⟨h1, h2⟩ := h
    unfold picolDropCallFrame at hd
    cases hj : j.callframe with
    | top vs => rw [hj] at hd; cases hd
    | child vs p =>
      rw [hj] at hd
      simp only [Option.some.injEq] at hd
      subst hd
      rw [hj] at h2
      exact ⟨h1, FramesBelow_sameFrame h2⟩

/-! ## Evaluation of a command made of plain words -/

section
variable {D : Type} (F : DoubleOps D)

attribute [local irreducible] picolEval picolEvalLoop picolCallFunc picolGetToken in
/-- On a command made of plain words the token loop of `picolEval` gathers the words,
looks the command up, calls it and, when it returns `PICOL_OK`, goes on. -/
theorem picolEvalLoop_plainWords (n : Nat) :
    ∀ (i : picolInterp) (p0 : picolParser) (argv : List CStr) (k : Nat) (p : picolParser)
      (words : List CStr),
      picolPlainWords n p0 argv = some (k, p, words) →
      picolEvalLoop F n i p0 argv =
        match picolGetCommand i (words.getD 0 []) with
        | none => some (PICOL_ERR, picolSetResult i (picolNoSuchCmd (words.getD 0 [])))
        | some c =>
          (picolCallFunc F k i words c).bind fun r =>
          if r.1 ≠ PICOL_OK then some r else picolEvalLoop F k r.2 p [] := by
  induction n with
  | zero => intro i p0 argv k p words h; simp [picolPlainWords] at h
  | succ n ih =>
    intro i p0 argv k p words h
    rw [picolPlainWords] at h
    rw [picolEvalLoop_succ]
    cases hg : picolGetToken n p0 with
    | none => simp [hg] at h
    | some q =>
      rw [hg, Option.some_bind] at h
      rw [Option.some_bind]
      by_cases h1 : q.type = PT_ESC
      · simp only [h1, if_true] at h
        simp only [h1, if_true, reduceCtorEq, if_false]
        cases ha : picolAppendArg argv p0.type (picolEscape q.token) with
        | none => simp [ha] at h
        | some argv1 =>
          rw [ha, Option.some_bind] at h
          rw [Option.some_bind]
          exact ih _ _ _ _ _ _ h
      · simp only [h1, if_false] at h
        by_cases h2 : q.type = PT_STR
        · simp only [h2, if_true] at h
          simp only [h2, reduceCtorEq, if_false]
          cases ha : picolAppendArg argv p0.type q.token with
          | none => simp [ha] at h
          | some argv1 =>
            rw [ha, Option.some_bind] at h
            rw [Option.some_bind]
            exact ih _ _ _ _ _ _ h
        · simp only [h2, if_false] at h
          by_cases h3 : q.type = PT_SEP
          · simp only [h3, if_true] at h
            simp only [h3, reduceCtorEq, if_false, if_true]
            exact ih _ _ _ _ _ _ h
          · simp only [h3, if_false] at h
            by_cases h4 : q.type = PT_EOL
            · simp only [h4, if_true] at h
              simp only [h4, reduceCtorEq, if_false, if_true]
              by_cases h5 : argv.length ≠ 0
              · rw [if_pos h5] at h
                simp only [Option.some.injEq, Prod.mk.injEq] at h
                obtain ⟨rfl, rfl, rfl⟩ := h
                rw [if_pos h5]
              · rw [if_neg h5] at h
                rw [if_neg h5]
                exact ih _ _ _ _ _ _ h
            · simp [h4] at h

attribute [local irreducible] picolEval picolEvalLoop picolCallFunc picolGetToken in
/-- On a text made of one command of plain words, the token loop of `picolEval` looks
the command up, calls it and returns what it returns. -/
theorem picolEvalLoop_singleCommand (n : Nat) (i : picolInterp) (t : CStr) (k : Nat)
    (words : List CStr) (h : picolSingleCommand n t = some (k, words)) :
    picolEvalLoop F n i (picolInitParser t) [] =
      match picolGetCommand i (words.getD 0 []) with
      | none => some (PICOL_ERR, picolSetResult i (picolNoSuchCmd (words.getD 0 [])))
      | some c => picolCallFunc F k i words c := by
  unfold picolSingleCommand at h
  cases hp : picolPlainWords n (picolInitParser t) [] with
  | none => simp [hp] at h
  | some x =>
    obtain ⟨k1, p, w⟩ := x
    rw [hp, Option.some_bind] at h
    cases hg : picolGetToken (k1 - 1) p with
    | none => simp [hg] at h
    | some q =>
      simp only [hg, Option.some_bind] at h
      split_ifs at h with hq
      simp only [Option.some.injEq, Prod.mk.injEq] at h
      obtain ⟨rfl, rfl⟩ := h
      rw [picolEvalLoop_plainWords F n i _ _ _ _ _ hp]
      split
      · rfl
      · next c _ =>
        cases hc : picolCallFunc F k1 i w c with
        | none => rfl
        | some r =>
          rw [Option.some_bind]
          split_ifs with hr
          · rfl
          · obtain ⟨k2, rfl⟩ : ∃ k2, k1 = k2 + 1 := ⟨k1 - 1, by omega⟩
            rw [picolEvalLoop_succ]
            simp only [Nat.add_sub_cancel] at hg
            rw [hg, Option.some_bind]
            simp only [hq.1, if_true]
            have : r.1 = PICOL_OK := by
              by_contra hne
              exact hr hne
            rw [← this]

end

/-! ## C1: the level and the current frame are restored -/

section
variable {D : Type} (F : DoubleOps D)

theorem picolSingleCommand_set_x_42 :
    picolSingleCommand 19 "set x 42".toList =
      some (13, ["set".toList, "x".toList, "42".toList]) := by decide!

/-- At a level below the limit, and with `set` bound to `picolCommandSet`, the text
`set x 42` evaluates to `PICOL_OK` with result `42`. -/
theorem picolEval_set_x_42 (j : picolInterp) (c : picolCmd)
    (hl : j.level < PICOL_MAX_RECURSION_LEVEL)
    (hc : picolGetCommand j "set".toList = some c) (hf : c.func = .picolCommandSet) :
    ∃ k, picolEval F 20 j "set x 42".toList = some (PICOL_OK, k) ∧ k.result = "42".toList := by
  rw [picolEval_succ]
  have hl2 : ¬ (j.level + 1 > PICOL_MAX_RECURSION_LEVEL) := by
    unfold PICOL_MAX_RECURSION_LEVEL at hl ⊢
    omega
  rw [if_neg hl2]
  rw [picolEvalLoop_singleCommand F 19 _ _ 13 _ picolSingleCommand_set_x_42]
  have hc2 : picolGetCommand { picolSetResult j [] with level := j.level + 1 }
      ((["set".toList, "x".toList, "42".toList] : List CStr).getD 0 []) = some c := hc
  rw [hc2]
  simp only
  rw [picolCallFunc_succ, hf]
  simp only [Option.some_bind]
  exact ⟨_, rfl, rfl⟩

/-- **C1.** Whenever `picolEval` returns, with whatever code, the level equals its
value at entry and the current call frame is the frame that was current at entry:
the chain of frames has the same length, and the frames under the current one are
as they were, up to the variables with an uppercase first letter of the parentless
frame.  `picolExpr` returns with the level it was entered with.  After an
evaluation from level 0 that returns `PICOL_ERR`, and with `set` still bound to the
built-in, evaluating `set x 42` (with any fuel from 20 on) returns `PICOL_OK` with
result `42`.  The evaluations that return are those of the C program with a defined
behaviour: a procedure that goes on parsing its body after the body was freed (it
was defined again from inside the call) has no result, see `picolEvalBody`. -/
theorem C1_level_and_frame_restored :
    (∀ (n : Nat) (i : picolInterp) (t : CStr) (r : picolRetCode × picolInterp),
      picolEval F n i t = some r →
        r.2.level = i.level ∧ SameFrame i.callframe r.2.callframe ∧
          r.2.callframe.depth = i.callframe.depth) ∧
    (∀ (n : Nat) (i : picolInterp) (s : CStr) (p : Nat) (err : Bool) (prec : Int)
      (r : picolExprResult D),
      picolExpr F n i s p err prec = some r → r.interp.level = i.level) ∧
    (∀ (n : Nat) (i j : picolInterp) (t : CStr) (c : picolCmd),
      i.level = 0 → picolEval F n i t = some (PICOL_ERR, j) →
      picolGetCommand j "set".toList = some c → c.func = .picolCommandSet →
      ∀ m, 20 ≤ m →
        ∃ k, picolEval F m j "set x 42".toList = some (PICOL_OK, k) ∧
          k.result = "42".toList) := by
  refine ⟨?_, ?_, ?_⟩
  · intro n i t r h
    have hk := ((eval_keeps F levelFrameKept_closed n).1 i t).out r h
    exact ⟨hk.1, hk.2, SameFrame_depth_eq hk.2⟩
  · intro n i s p err prec r h
    exact (((picolExpr_keeps F levelFrameKept_closed n).1 i s p err prec).out r h).1
  · intro n i j t c hi h hc hf m hm
    have hk := ((eval_keeps F levelFrameKept_closed n).1 i t).out _ h
    have hl : j.level < PICOL_MAX_RECURSION_LEVEL := by
      have : j.level = 0 := hk.1.trans hi
      rw [this]
      decide
    obtain ⟨k, hk1, hk2⟩ := picolEval_set_x_42 F j c hl hc hf
    exact ⟨k, picolEval_mono F hk1 hm, hk2⟩

end

/-- Witness of C1: the unknown command `nosuchcmd` makes the evaluation from level 0
fail, and `set x 42` succeeds afterwards. -/
theorem C1_witness :
    picolEval intDouble 30 picolCoreInterp "nosuchcmd".toList =
        some (PICOL_ERR, picolSetResult picolCoreInterp (picolNoSuchCmd "nosuchcmd".toList)) ∧
      ∃ k, picolEval intDouble 30
          (picolSetResult picolCoreInterp (picolNoSuchCmd "nosuchcmd".toList))
          "set x 42".toList = some (PICOL_OK, k) ∧ k.result = "42".toList :=
  ⟨by decide!,
   (C1_level_and_frame_restored intDouble).2.2 30 picolCoreInterp
     (picolSetResult picolCoreInterp (picolNoSuchCmd "nosuchcmd".toList))
     "nosuchcmd".toList
     { name := "set".toList, func := .picolCommandSet, arglist := none, body := none }
     (by decide!) (by decide!) (by decide!) rfl 30 (by decide)⟩

/-! ## C2: nesting of command substitutions beyond the limit -/

theorem charAt_append_left (a b : CStr) (j : Nat) (h : j < a.length) :
    charAt (a ++ b) j = charAt a j := by
  unfold charAt
  rw [List.getD_eq_getElem?_getD, List.getD_eq_getElem?_getD, List.getElem?_append_left h]

theorem charAt_append_right (a b : CStr) (j : Nat) (h : a.length ≤ j) :
    charAt (a ++ b) j = charAt b (j - a.length) := by
  unfold charAt
  rw [List.getD_eq_getElem?_getD, List.getD_eq_getElem?_getD, List.getElem?_append_right h]

theorem charAt_replicate (m : Nat) (c : Char) (j : Nat) (h : j < m) :
    charAt (List.replicate m c) j = c := by
  unfold charAt
  rw [List.getD_eq_getElem?_getD, List.getElem?_replicate]
  simp [h]

theorem charAt_mem (s : CStr) (j : Nat) (h : j < s.length) : charAt s j ∈ s := by
  unfold charAt
  rw [List.getD_eq_getElem?_getD, List.getElem?_eq_getElem h]
  exact List.getElem_mem h

theorem advN_zero (p : picolParser) : p.advN 0 = p := by
  cases p
  simp [picolParser.advN]

theorem advN_succ (p : picolParser) (m : Nat) : p.adv.advN m = p.advN (m + 1) := by
  cases p
  simp only [picolParser.advN, picolParser.adv, picolParser.mk.injEq, true_and, and_true]
  constructor
  · omega
  · push_cast
    omega

/-- A run of `m` characters `[` met at brace depth 0 raises the bracket depth by `m`. -/
theorem picolParseCommandLoop_open (m : Nat) :
    ∀ (n : Nat) (p : picolParser) (lvl : Int),
      (∀ j, j < m → charAt p.text (p.p + j) = '[') → (m : Int) < p.len →
      picolParseCommandLoop (n + m) p lvl 0 = picolParseCommandLoop n (p.advN m) (lvl + m) 0 := by
  induction m with
  | zero => intro n p lvl _ _; simp [advN_zero]
  | succ m ih =>
    intro n p lvl hc hl
    have h0 : p.cur = '[' := by simpa [picolParser.cur] using hc 0 (by omega)
    have hlen : p.len ≠ 0 := by push_cast at hl; omega
    have e : n + (m + 1) = (n + m) + 1 := by omega
    rw [e, picolParseCommandLoop]
    simp only [hlen, if_false, h0, true_and, if_true]
    rw [ih n p.adv (lvl + 1)]
    · rw [advN_succ]
      congr 1
      push_cast
      omega
    · intro j hj
      have := hc (j + 1) (by omega)
      simpa [picolParser.adv, Nat.add_assoc, Nat.add_comm 1 j] using this
    · simp only [picolParser.adv]
      push_cast at hl
      omega

/-- A run of `m` characters that are no bracket, brace or backslash leaves the
depths as they are. -/
theorem picolParseCommandLoop_plain (m : Nat) :
    ∀ (n : Nat) (p : picolParser) (lvl : Int),
      (∀ j, j < m → charAt p.text (p.p + j) ≠ '[' ∧ charAt p.text (p.p + j) ≠ ']' ∧
        charAt p.text (p.p + j) ≠ '\\' ∧ charAt p.text (p.p + j) ≠ '{' ∧
        charAt p.text (p.p + j) ≠ '}') → (m : Int) ≤ p.len →
      picolParseCommandLoop (n + m) p lvl 0 = picolParseCommandLoop n (p.advN m) lvl 0 := by
  induction m with
  | zero => intro n p lvl _ _; simp [advN_zero]
  | succ m ih =>
    intro n p lvl hc hl
    have h0 := hc 0 (by omega)
    simp only [Nat.add_zero] at h0
    have hlen : p.len ≠ 0 := by push_cast at hl; omega
    have e : n + (m + 1) = (n + m) + 1 := by omega
    rw [e, picolParseCommandLoop]
    simp only [hlen, if_false, picolParser.cur, h0.1, h0.2.1, h0.2.2.1, h0.2.2.2.1,
      h0.2.2.2.2, false_and]
    rw [ih n p.adv lvl]
    · rw [advN_succ]
    · intro j hj
      have := hc (j + 1) (by omega)
      simpa [picolParser.adv, Nat.add_assoc, Nat.add_comm 1 j] using this
    · simp only [picolParser.adv]
      push_cast at hl
      omega

/-- A run of `m` characters `]` met at brace depth 0 and bracket depth above `m`
lowers the bracket depth by `m`. -/
theorem picolParseCommandLoop_close (m : Nat) :
    ∀ (n : Nat) (p : picolParser) (lvl : Int),
      (∀ j, j < m → charAt p.text (p.p + j) = ']') → (m : Int) ≤ p.len → (m : Int) < lvl →
      picolParseCommandLoop (n + m) p lvl 0 = picolParseCommandLoop n (p.advN m) (lvl - m) 0 := by
  induction m with
  | zero => intro n p lvl _ _ _; simp [advN_zero]
  | succ m ih =>
    intro n p lvl hc hl hlv
    have h0 : p.cur = ']' := by simpa [picolParser.cur] using hc 0 (by omega)
    have hlen : p.len ≠ 0 := by push_cast at hl; omega
    have hne : ¬ (lvl - 1 = 0) := by push_cast at hlv; omega
    have e : n + (m + 1) = (n + m) + 1 := by omega
    rw [e, picolParseCommandLoop]
    simp only [hlen, if_false, h0, true_and, if_true, hne, reduceCtorEq, Char.reduceEq,
      false_and]
    rw [ih n p.adv (lvl - 1)]
    · rw [advN_succ]
      congr 1
      push_cast
      omega
    · intro j hj
      have := hc (j + 1) (by omega)
      simpa [picolParser.adv, Nat.add_assoc, Nat.add_comm 1 j] using this
    · simp only [picolParser.adv]
      push_cast at hl
      omega
    · push_cast at hlv
      omega

theorem picolDeepText_length (N : Nat) (s : CStr) :
    (picolDeepText N s).length = N + s.length + N := by
  simp only [picolDeepText, List.length_append, List.length_replicate]

theorem picolDeepText_charAt_open (N : Nat) (s : CStr) (j : Nat) (h : j < N) :
    charAt (picolDeepText N s) j = '[' := by
  unfold picolDeepText
  rw [List.append_assoc, charAt_append_left _ _ _ (by simpa using h)]
  exact charAt_replicate N '[' j h

theorem picolDeepText_charAt_mid (N : Nat) (s : CStr) (j : Nat) (h : j < s.length) :
    charAt (picolDeepText N s) (N + j) ∈ s := by
  unfold picolDeepText
  rw [List.append_assoc, charAt_append_right _ _ _ (by simp),
    charAt_append_left _ _ _ (by simpa using h)]
  simp only [List.length_replicate, Nat.add_sub_cancel_left]
  exact charAt_mem s j h

theorem picolDeepText_charAt_close (N : Nat) (s : CStr) (j : Nat) (h : j < N) :
    charAt (picolDeepText N s) (N + s.length + j) = ']' := by
  unfold picolDeepText
  rw [charAt_append_right _ _ _ (by simp)]
  simp only [List.length_append, List.length_replicate, Nat.add_sub_cancel_left]
  exact charAt_replicate N ']' j h

theorem picolDeepText_inner (N : Nat) (s : CStr) :
    ((picolDeepText (N + 1) s).drop 1).take (N + s.length + N) = picolDeepText N s := by
  have e : picolDeepText (N + 1) s = '[' :: (picolDeepText N s ++ [']']) := by
    simp only [picolDeepText, List.replicate_succ, List.cons_append, List.append_assoc]
    congr 3
    rw [← List.replicate_succ, List.replicate_succ']
  rw [e, List.drop_succ_cons, List.drop_zero, ← picolDeepText_length N s, List.take_left']
  rfl

theorem picolGetToken_bracket (n : Nat) (p : picolParser) (hl : p.len ≠ 0)
    (hc : p.cur = '[') : picolGetToken (n + 1) p = picolParseCommand n p := by
  rw [picolGetToken]
  simp only [hl, if_false, hc, Char.reduceEq, or_self, if_true]

theorem picolParseCommandLoop_end (n : Nat) (p : picolParser) (hl : p.len ≠ 0)
    (hc : p.cur = ']') : picolParseCommandLoop (n + 1) p 1 0 = some p := by
  rw [picolParseCommandLoop]
  simp only [hl, if_false, hc, Char.reduceEq, false_and, true_and, sub_self, if_true]

/-- The scan of `picolParseCommand` over a text that starts with `N + 1` characters
`[`, goes on with a plain text `s` and ends with `N + 1` characters `]` stops on the
last character. -/
theorem picolParseCommandLoop_deep (N : Nat) (s : CStr) (hs : picolPlainText s) (r : Nat)
    (p : picolParser) (ht : p.text = picolDeepText (N + 1) s) (hp : p.p = 1)
    (hl : p.len = (N + s.length + N + 1 : Nat)) :
    picolParseCommandLoop ((((r + 1) + N) + s.length) + N) p 1 0 =
      some (((p.advN N).advN s.length).advN N) := by
  rw [picolParseCommandLoop_open N]
  rotate_left
  · intro j hj
    rw [ht, hp, Nat.add_comm]
    exact picolDeepText_charAt_open _ _ _ (by omega)
  · rw [hl]
    push_cast
    omega
  rw [picolParseCommandLoop_plain s.length]
  rotate_left
  · intro j hj
    simp only [picolParser.advN, ht, hp]
    have hm := picolDeepText_charAt_mid (N + 1) s j hj
    have e : 1 + N + j = N + 1 + j := by omega
    rw [e]
    exact hs _ hm
  · simp only [picolParser.advN, hl]
    push_cast
    omega
  rw [picolParseCommandLoop_close N]
  rotate_left
  · intro j hj
    simp only [picolParser.advN, ht, hp]
    have e : 1 + N + s.length + j = N + 1 + s.length + j := by omega
    rw [e]
    exact picolDeepText_charAt_close _ _ _ (by omega)
  · simp only [picolParser.advN, hl]
    push_cast
    omega
  · omega
  have e1 : (1 : Int) + (N : Int) - (N : Int) = 1 := by omega
  rw [e1]
  apply picolParseCommandLoop_end
  · simp only [picolParser.advN, hl]
    push_cast
    omega
  · simp only [picolParser.cur, picolParser.advN, ht, hp]
    have e : 1 + N + s.length + N = N + 1 + s.length + N := by omega
    rw [e]
    exact picolDeepText_charAt_close _ _ _ (by omega)

/-- The first token of a text that starts with `N + 1` characters `[`, goes on with a
plain text `s` and ends with `N + 1` characters `]` is the command substitution of
the text with one `[` and one `]` less. -/
theorem picolGetToken_deep (N : Nat) (s : CStr) (hs : picolPlainText s) (n : Nat)
    (hn : N + s.length + N + 2 ≤ n) :
    ∃ P, picolGetToken n (picolInitParser (picolDeepText (N + 1) s)) = some P ∧
      P.type = PT_CMD ∧ P.token = picolDeepText N s := by
  obtain ⟨r, rfl⟩ : ∃ r, n = ((((r + 1) + N) + s.length) + N) + 1 :=
    ⟨n - (N + s.length + N + 2), by omega⟩
  have hlen : (picolDeepText (N + 1) s).length = (N + 1) + s.length + (N + 1) :=
    picolDeepText_length _ _
  have hcur0 : charAt (picolDeepText (N + 1) s) 0 = '[' :=
    picolDeepText_charAt_open _ _ _ (by omega)
  rw [picolGetToken_bracket]
  rotate_left
  · simp only [picolInitParser, hlen]
    push_cast
    omega
  · exact hcur0
  unfold picolParseCommand
  simp only
  rw [picolParseCommandLoop_deep N s hs r _ rfl rfl]
  rotate_left
  · simp only [picolParser.adv, picolInitParser, hlen]
    push_cast
    omega
  have hlast : charAt (picolDeepText (N + 1) s) (0 + 1 + N + s.length + N) = ']' := by
    have e : 0 + 1 + N + s.length + N = N + 1 + s.length + N := by omega
    rw [e]
    exact picolDeepText_charAt_close _ _ _ (by omega)
  simp only [Option.map_some', picolParser.cur, picolParser.advN, picolParser.adv,
    picolInitParser, hlast, if_true]
  refine ⟨_, rfl, rfl, ?_⟩
  simp only [picolParser.token]
  have e1 : ((0 + 1 : Nat) : Int).toNat = 1 := by simp
  have e2 : ((((0 + 1 + N + s.length + N : Nat) : Int) - 1) - ((0 + 1 : Nat) : Int) + 1).toNat
      = N + s.length + N := by
    push_cast
    omega
  rw [e1, e2]
  exact picolDeepText_inner N s

section
variable {D : Type} (F : DoubleOps D)

attribute [local irreducible] picolEval picolEvalLoop picolGetToken in
/-- Evaluating `N` characters `[`, a plain text and `N` characters `]` at a level
that is fewer than `N` levels below the limit fails with `Nesting too deep`, and
changes only the result. -/
theorem picolEval_deep (s : CStr) (hs : picolPlainText s) (N : Nat) :
    ∀ (i : picolInterp) (n : Nat), PICOL_MAX_RECURSION_LEVEL ≤ i.level + N →
      N + s.length + N + 4 ≤ n →
      picolEval F n i (picolDeepText N s) =
        some (PICOL_ERR, picolSetResult i "Nesting too deep".toList) := by
  induction N with
  | zero =>
    intro i n hi hn
    obtain ⟨n, rfl⟩ : ∃ k, n = k + 1 := ⟨n - 1, by omega⟩
    rw [picolEval_succ]
    have h : i.level + 1 > PICOL_MAX_RECURSION_LEVEL := by
      unfold PICOL_MAX_RECURSION_LEVEL at hi ⊢
      push_cast at hi
      omega
    rw [if_pos h]
    simp [picolSetResult]
  | succ N ih =>
    intro i n hi hn
    obtain ⟨n, rfl⟩ : ∃ k, n = k + 2 := ⟨n - 2, by omega⟩
    rw [picolEval_succ]
    by_cases h : i.level + 1 > PICOL_MAX_RECURSION_LEVEL
    · rw [if_pos h]
      simp [picolSetResult]
    · rw [if_neg h, picolEvalLoop_succ]
      obtain ⟨P, hP, hty, htok⟩ := picolGetToken_deep N s hs n (by omega)
      rw [hP, Option.some_bind]
      simp only [hty, reduceCtorEq, if_false, if_true, htok]
      rw [ih _ n (by
        show PICOL_MAX_RECURSION_LEVEL ≤ i.level + 1 + (N : Int)
        push_cast at hi
        omega) (by omega)]
      simp [picolSetResult]

/-- **C2.** For every `N` from 128 (the value of `PICOL_MAX_RECURSION_LEVEL`) on and
every text `s` without brackets, braces and backslashes (such as `set x 1`),
evaluating from level 0 the text made of `N` characters `[`, then `s`, then `N`
characters `]` returns, with any fuel from `2 N + |s| + 4` on, the code `PICOL_ERR`
and the result `Nesting too deep`; only the result of the interpreter has changed,
so the level is 0 again. -/
theorem C2_nesting_too_deep (s : CStr) (hs : picolPlainText s) (N : Nat) (hN : 128 ≤ N)
    (i : picolInterp) (hi : i.level = 0) (n : Nat) (hn : N + s.length + N + 4 ≤ n) :
    picolEval F n i (picolDeepText N s) =
        some (PICOL_ERR, picolSetResult i "Nesting too deep".toList) ∧
      (picolSetResult i "Nesting too deep".toList).result = "Nesting too deep".toList ∧
      (picolSetResult i "Nesting too deep".toList).level = 0 := by
  refine ⟨picolEval_deep F s hs N i n ?_ hn, rfl, hi⟩
  rw [hi]
  unfold PICOL_MAX_RECURSION_LEVEL
  omega

end

/-- Witness of C2: 128 brackets around `set x 1`, on the interpreter of the test
program. -/
theorem C2_witness :
    picolEval intDouble 300 picolCoreInterp (picolDeepText 128 "set x 1".toList) =
        some (PICOL_ERR, picolSetResult picolCoreInterp "Nesting too deep".toList) ∧
      (picolSetResult picolCoreInterp "Nesting too deep".toList).result =
        "Nesting too deep".toList ∧
      (picolSetResult picolCoreInterp "Nesting too deep".toList).level = 0 :=
  C2_nesting_too_deep intDouble "set x 1".toList (by unfold picolPlainText; decide) 128
    (by decide) picolCoreInterp rfl 300 (by decide)

/-! ## C5: `set` followed by a read of the same name -/

/-- **C5.** In every interpreter state, for every name and value, the command `set`
called with the two arguments `name` and `val` returns `PICOL_OK` with result `val`,
and the command `set` called next with the one argument `name` returns `PICOL_OK`
with result exactly `val`. -/
theorem C5_set_then_read (i : picolInterp) (cmd name val : CStr) :
    (picolCommandSet i [cmd, name, val]).1 = PICOL_OK ∧
    (picolCommandSet i [cmd, name, val]).2.result = val ∧
    (picolCommandSet (picolCommandSet i [cmd, name, val]).2 [cmd, name]).1 = PICOL_OK ∧
    (picolCommandSet (picolCommandSet i [cmd, name, val]).2 [cmd, name]).2.result = val := by
  have h1 : picolCommandSet i [cmd, name, val] =
      (PICOL_OK, picolSetResult (picolSetVar i name val) val) := rfl
  have h2 : picolCommandSet (picolSetResult (picolSetVar i name val) val) [cmd, name] =
      (PICOL_OK, picolSetResult (picolSetResult (picolSetVar i name val) val) val) := by
    have hg : picolGetVar (picolSetResult (picolSetVar i name val) val) name =
        some { name := name, val := val } := by
      rw [picolGetVar_setResult]
      exact picolGetVar_setVar_self i name val
    simp [picolCommandSet, hg]
  rw [h1, h2]
  exact ⟨rfl, rfl, rfl, rfl⟩

/-! ## C3: names with an uppercase first letter live in the parentless frame -/

/-- **C3.** For a name whose first character is an uppercase letter, at every depth
of call frames: `picolGetVar` answers with the binding of the parentless frame;
after `picolSetVar` the parentless frame binds the name to the value, its other
bindings are as before, the variables of every other frame are as before, and
`picolGetVar` finds the value.  Example (integer arithmetic): after `set Counter 0`
and the definition of a procedure doing `set Counter [expr $Counter+1]`, three calls
leave `Counter` equal to `3` in the parentless frame. -/
theorem C3_uppercase_names_are_global :
    (∀ (i : picolInterp) (name val : CStr), isupper (charAt name 0) = true →
      picolGetVar i name = picolFindVar i.callframe.topFrame.vars name ∧
      picolFindVar (picolSetVar i name val).callframe.topFrame.vars name =
        some { name := name, val := val } ∧
      (∀ other, other ≠ name →
        picolFindVar (picolSetVar i name val).callframe.topFrame.vars other =
          picolFindVar i.callframe.topFrame.vars other) ∧
      (picolSetVar i name val).callframe.locals = i.callframe.locals ∧
      (picolSetVar i name val).callframe.depth = i.callframe.depth ∧
      picolGetVar (picolSetVar i name val) name = some { name := name, val := val }) ∧
    (picolEvalSeq intDouble 60 picolCoreInterp
        ["set Counter 0".toList,
         "proc inc {} { set Counter [expr $Counter+1] }".toList,
         "inc; inc; inc".toList]).bind
      (fun x => some (x.1, picolFindVar x.2.callframe.topFrame.vars "Counter".toList)) =
      some ([PICOL_OK, PICOL_OK, PICOL_OK],
        some { name := "Counter".toList, val := "3".toList }) := by
  refine ⟨?_, by decide!⟩
  intro i name val hu
  have hcf : (picolSetVar i name val).callframe =
      i.callframe.mapTop fun vs => picolSetVarIn vs name val := by
    unfold picolSetVar
    rw [if_pos hu]
  refine ⟨?_, ?_, ?_, ?_, ?_, picolGetVar_setVar_self i name val⟩
  · unfold picolGetVar picolVarFrame
    rw [if_pos hu]
  · rw [hcf, topFrame_mapTop]
    exact picolFindVar_setVarIn_self _ _ _
  · intro other ho
    rw [hcf, topFrame_mapTop]
    exact picolFindVar_setVarIn_ne _ _ _ _ ho
  · rw [hcf, locals_mapTop]
  · rw [hcf, depth_mapTop]

/-- Witness of C3: the name `G` set from a procedure frame. -/
theorem C3_witness :
    picolGetVar (picolSetVar (picolInterp.mk 1 (.child [] (.top [])) [] [] [])
      "G".toList "99".toList) "G".toList = some { name := "G".toList, val := "99".toList } :=
  (C3_uppercase_names_are_global.1 (picolInterp.mk 1 (.child [] (.top [])) [] [] [])
    "G".toList "99".toList (by decide)).2.2.2.2.2

/-! ## C4: a call does not touch the local names of the parentless frame -/

section
variable {D : Type} (F : DoubleOps D) {R : picolInterp → picolInterp → Prop}

attribute [local irreducible] picolEval picolEvalBody picolArgsLoop in
/-- What a procedure call returns is the interpreter `j` reached inside the frame of
the call, with that frame dropped, where `j` is related by `R` to the interpreter
in which the frame was pushed. -/
theorem picolCommandCallProc_inside (hR : EvalClosed R) (n : Nat) (i : picolInterp)
    (argv : List CStr) (cmd : picolCmd) (r : picolRetCode × picolInterp)
    (h : picolCommandCallProc F n i argv cmd = some r) :
    ∃ j, R { i with callframe := .child [] i.callframe } j ∧
      picolDropCallFrame j = some r.2 := by
  cases n with
  | zero => rw [picolCommandCallProc_zero] at h; cases h
  | succ n =>
    rw [picolCommandCallProc_succ] at h
    have herr : ∀ (i2 : picolInterp) (errbuf : CStr),
        R { i with callframe := .child [] i.callframe } i2 →
        picolCallProcErr i2 errbuf = some r →
        ∃ j, R { i with callframe := .child [] i.callframe } j ∧
          picolDropCallFrame j = some r.2 := by
      intro i2 errbuf h2 he
      unfold picolCallProcErr at he
      cases hd : picolDropCallFrame (picolSetResult i2 errbuf) with
      | none => simp [hd] at he
      | some k =>
        simp only [hd, Option.some_bind, Option.some.injEq] at he
        subst he
        exact ⟨_, hR.trans _ _ _ h2 (hR.result _ _), hd⟩
    cases ha : cmd.arglist with
    | none => simp [ha] at h
    | some alist =>
      rw [ha, Option.some_bind] at h
      cases hl : picolArgsLoop n { i with callframe := .child [] i.callframe } argv alist 0 0 with
      | none => simp [hl] at h
      | some x =>
        rw [hl, Option.some_bind] at h
        have hx := (picolArgsLoop_keeps hR n _ _ _ _ _).out x hl
        cases x with
        | arityerr i2 => exact herr i2 _ hx h
        | err i2 errbuf => exact herr i2 _ hx h
        | done i2 arity =>
          simp only at h
          split_ifs at h with hne
          · exact herr i2 _ hx h
          · cases hb : cmd.body with
            | none => simp [hb] at h
            | some body =>
              rw [hb, Option.some_bind] at h
              cases he : picolEvalBody F n i2 cmd.name body with
              | none => simp [he] at h
              | some r2 =>
                rw [he, Option.some_bind] at h
                have hr2 :=
                  ((eval_keeps F hR n).2.2.2.2.2.2.2.2.1 i2 cmd.name body).out r2 he
                cases hd : picolDropCallFrame r2.2 with
                | none => simp [hd] at h
                | some k =>
                  simp only [hd, Option.some_bind, Option.some.injEq] at h
                  subst h
                  exact ⟨r2.2, hR.trans _ _ _ hx hr2, hd⟩

/-- **C4.** A call of a user procedure (any argument list, any body, any arguments)
made while the current frame is the parentless frame returns with the parentless
frame current again, in which every name that does not start with an uppercase
letter, so every name starting with a lowercase letter, is bound to the same value
as before the call, or is unbound as before the call.  The call evaluates the body
in place, as the C code does (`picolEvalBody`); it has no result, and the C program
no defined behaviour, when the body goes on being parsed after it was freed. -/
theorem C4_call_keeps_top_locals (n : Nat) (i : picolInterp) (argv : List CStr)
    (cmd : picolCmd) (r : picolRetCode × picolInterp) (vs : List picolVar)
    (htop : i.callframe = .top vs)
    (h : picolCommandCallProc F n i argv cmd = some r) :
    ∃ ws, r.2.callframe = .top ws ∧
      ∀ name, isupper (charAt name 0) = false →
        picolFindVar ws name = picolFindVar vs name := by
  obtain ⟨j, hj, hd⟩ := picolCommandCallProc_inside F levelFrameKept_closed n i argv cmd r h
  have hs : SameFrame (.child [] i.callframe) j.callframe := hj.2
  unfold picolDropCallFrame at hd
  cases hc : j.callframe with
  | top ws => rw [hc] at hd; cases hd
  | child ws q =>
    rw [hc] at hd hs
    simp only [Option.some.injEq] at hd
    rw [htop] at hs
    have hq : FramesBelow (.top vs) q := hs
    cases q with
    | top us =>
      refine ⟨us, ?_, hq⟩
      rw [← hd]
    | child us q2 => exact hq.elim

end

/-- Witness of C4: the test `proc local scope`; the call of `lf`, whose body sets
`z`, leaves the `z` of the parentless frame equal to `outer`. -/
theorem C4_witness :
    ∃ ws, (PICOL_OK, picolInterp.mk 1 (.top [⟨"z".toList, "outer".toList⟩])
        picolCoreInterp.commands "inner".toList []).2.callframe = .top ws ∧
      ∀ name, isupper (charAt name 0) = false →
        picolFindVar ws name = picolFindVar [⟨"z".toList, "outer".toList⟩] name :=
  C4_call_keeps_top_locals intDouble 40
    (picolInterp.mk 1 (.top [⟨"z".toList, "outer".toList⟩]) picolCoreInterp.commands [] [])
    ["lf".toList]
    (picolCmd.mk "lf".toList .picolCommandCallProc (some []) (some " set z inner ".toList))
    (PICOL_OK, picolInterp.mk 1 (.top [⟨"z".toList, "outer".toList⟩])
      picolCoreInterp.commands "inner".toList [])
    [⟨"z".toList, "outer".toList⟩] rfl (by decide!)

/-! ## The command `if`: one round of its loop -/

theorem getD_append_front (front rest : List CStr) (m : Nat) :
    (front ++ rest).getD (front.length + m) [] = rest.getD m [] := by
  rw [List.getD_eq_getElem?_getD, List.getD_eq_getElem?_getD,
    List.getElem?_append_right (by omega)]
  simp

theorem picolIfSkipped_length (pre : List (CStr × CStr)) :
    (picolIfSkipped pre).length = 3 * pre.length := by
  induction pre with
  | nil => rfl
  | cons x rest ih =>
    obtain ⟨c, b⟩ := x
    simp only [picolIfSkipped, List.length_cons, ih]
    omega

section
variable {D : Type} (F : DoubleOps D)

theorem picolIf_noCond (i : picolInterp) (argv : List CStr) (j : Nat)
    (hj : j ≥ argv.length) :
    picolIfReturnsAt F i argv j (picolArityErr i (argv.getD 0 [])) :=
  ⟨1, by rw [picolCommandIf_succ, if_pos hj]⟩

theorem picolIf_condFails (i : picolInterp) (argv : List CStr) (j : Nat)
    (r : picolRetCode × picolInterp) (hj : j < argv.length)
    (hc : picolCondReturns F i (argv.getD j []) r) (hr : r.1 ≠ PICOL_OK) :
    picolIfReturnsAt F i argv j r := by
  obtain ⟨n, hn⟩ := hc
  refine ⟨n + 1, ?_⟩
  rw [picolCommandIf_succ, if_neg (by omega), hn, Option.some_bind, if_pos hr]

theorem picolIf_noBody (i : picolInterp) (argv : List CStr) (j : Nat)
    (r : picolRetCode × picolInterp) (hj : j < argv.length) (hj1 : j + 1 ≥ argv.length)
    (hc : picolCondReturns F i (argv.getD j []) r) (hr : r.1 = PICOL_OK) :
    picolIfReturnsAt F i argv j (picolArityErr r.2 (argv.getD 0 [])) := by
  obtain ⟨n, hn⟩ := hc
  refine ⟨n + 1, ?_⟩
  rw [picolCommandIf_succ, if_neg (by omega), hn, Option.some_bind,
    if_neg (by simp [hr]), if_pos hj1]

theorem picolIf_taken (i : picolInterp) (argv : List CStr) (j : Nat)
    (r r2 : picolRetCode × picolInterp) (hj1 : j + 1 < argv.length)
    (hc : picolCondReturns F i (argv.getD j []) r) (hr : r.1 = PICOL_OK)
    (ht : picolTruth F r.2.result = true)
    (hb : picolEvalReturns F r.2 (argv.getD (j + 1) []) r2) :
    picolIfReturnsAt F i argv j r2 := by
  obtain ⟨n, hn⟩ := hc
  obtain ⟨m, hm⟩ := hb
  refine ⟨max n m + 1, ?_⟩
  rw [picolCommandIf_succ, if_neg (by omega),
    picolExprExpansion_mono F hn (le_max_left n m), Option.some_bind,
    if_neg (by simp [hr]), if_neg (by omega)]
  unfold picolTruth at ht
  rw [if_pos ht]
  exact picolEval_mono F hm (le_max_right n m)

theorem picolIf_zero_end (i : picolInterp) (argv : List CStr) (j : Nat)
    (r : picolRetCode × picolInterp) (hj1 : j + 1 < argv.length) (hj2 : j + 2 ≥ argv.length)
    (hc : picolCondReturns F i (argv.getD j []) r) (hr : r.1 = PICOL_OK)
    (ht : picolTruth F r.2.result = false) :
    picolIfReturnsAt F i argv j (PICOL_OK, r.2) := by
  obtain ⟨n, hn⟩ := hc
  refine ⟨n + 1, ?_⟩
  unfold picolTruth at ht
  rw [picolCommandIf_succ, if_neg (by omega), hn, Option.some_bind,
    if_neg (by simp [hr]), if_neg (by omega), if_neg (by simp [ht]), if_pos hj2]

theorem picolIf_zero_else (i : picolInterp) (argv : List CStr) (j : Nat)
    (r r2 : picolRetCode × picolInterp) (hj3 : j + 2 + 1 < argv.length)
    (hc : picolCondReturns F i (argv.getD j []) r) (hr : r.1 = PICOL_OK)
    (ht : picolTruth F r.2.result = false)
    (hw : argv.getD (j + 2) [] = "else".toList)
    (hb : picolEvalReturns F r.2 (argv.getD (j + 2 + 1) []) r2) :
    picolIfReturnsAt F i argv j r2 := by
  obtain ⟨n, hn⟩ := hc
  obtain ⟨m, hm⟩ := hb
  refine ⟨max n m + 1, ?_⟩
  unfold picolTruth at ht
  rw [picolCommandIf_succ, if_neg (by omega),
    picolExprExpansion_mono F hn (le_max_left n m), Option.some_bind,
    if_neg (by simp [hr]), if_neg (by omega), if_neg (by simp [ht]), if_neg (by omega),
    if_pos hw, if_pos hj3]
  exact picolEval_mono F hm (le_max_right n m)

theorem picolIf_zero_else_noBody (i : picolInterp) (argv : List CStr) (j : Nat)
    (r : picolRetCode × picolInterp) (hj2 : j + 2 < argv.length)
    (hj3 : ¬ j + 2 + 1 < argv.length)
    (hc : picolCondReturns F i (argv.getD j []) r) (hr : r.1 = PICOL_OK)
    (ht : picolTruth F r.2.result = false)
    (hw : argv.getD (j + 2) [] = "else".toList) :
    picolIfReturnsAt F i argv j (picolArityErr r.2 (argv.getD 0 [])) := by
  obtain ⟨n, hn⟩ := hc
  refine ⟨n + 1, ?_⟩
  unfold picolTruth at ht
  rw [picolCommandIf_succ, if_neg (by omega), hn, Option.some_bind,
    if_neg (by simp [hr]), if_neg (by omega), if_neg (by simp [ht]), if_neg (by omega),
    if_pos hw, if_neg hj3]

theorem picolIf_zero_badWord (i : picolInterp) (argv : List CStr) (j : Nat)
    (r : picolRetCode × picolInterp) (hj2 : j + 2 < argv.length)
    (hc : picolCondReturns F i (argv.getD j []) r) (hr : r.1 = PICOL_OK)
    (ht : picolTruth F r.2.result = false)
    (hw1 : argv.getD (j + 2) [] ≠ "else".toList)
    (hw2 : argv.getD (j + 2) [] ≠ "elseif".toList) :
    picolIfReturnsAt F i argv j (picolArityErr r.2 (argv.getD 0 [])) := by
  obtain ⟨n, hn⟩ := hc
  refine ⟨n + 1, ?_⟩
  unfold picolTruth at ht
  rw [picolCommandIf_succ, if_neg (by omega), hn, Option.some_bind,
    if_neg (by simp [hr]), if_neg (by omega), if_neg (by simp [ht]), if_neg (by omega),
    if_neg hw1, if_pos hw2]

theorem picolIf_zero_elseif (i : picolInterp) (argv : List CStr) (j : Nat)
    (r r2 : picolRetCode × picolInterp) (hj2 : j + 2 < argv.length)
    (hc : picolCondReturns F i (argv.getD j []) r) (hr : r.1 = PICOL_OK)
    (ht : picolTruth F r.2.result = false)
    (hw : argv.getD (j + 2) [] = "elseif".toList)
    (hb : picolIfReturnsAt F r.2 argv (j + 2 + 1) r2) :
    picolIfReturnsAt F i argv j r2 := by
  obtain ⟨n, hn⟩ := hc
  obtain ⟨m, hm⟩ := hb
  refine ⟨max n m + 1, ?_⟩
  unfold picolTruth at ht
  have hne : argv.getD (j + 2) [] ≠ "else".toList := by
    rw [hw]
    decide
  rw [picolCommandIf_succ, if_neg (by omega),
    picolExprExpansion_mono F hn (le_max_left n m), Option.some_bind,
    if_neg (by simp [hr]), if_neg (by omega), if_neg (by simp [ht]), if_neg (by omega),
    if_neg hne, if_neg (not_not.mpr hw)]
  exact picolCommandIf_mono F hm (le_max_right n m)

/-- Branches whose conditions are zero and which are each followed by `elseif` are
passed over: the loop of `if` goes on at the word after them. -/
theorem picolIf_skip (i j : picolInterp) (pre : List (CStr × CStr))
    (hz : picolIfZeros F i pre j) :
    ∀ (front last : List CStr) (r : picolRetCode × picolInterp),
      picolIfReturnsAt F j (front ++ (picolIfSkipped pre ++ last))
        (front.length + 3 * pre.length) r →
      picolIfReturnsAt F i (front ++ (picolIfSkipped pre ++ last)) front.length r := by
  induction hz with
  | nil i => intro front last r h; simpa using h
  | cons i c b r0 rest j hc hr ht _ ih =>
    intro front last r h
    have e : front ++ (picolIfSkipped ((c, b) :: rest) ++ last) =
        (front ++ [c, b, "elseif".toList]) ++ (picolIfSkipped rest ++ last) := by
      simp [picolIfSkipped]
    have hlen : (front ++ (picolIfSkipped ((c, b) :: rest) ++ last)).length =
        front.length + 3 + ((picolIfSkipped rest).length + last.length) := by
      simp [picolIfSkipped]
      omega
    have h0 : (front ++ (picolIfSkipped ((c, b) :: rest) ++ last)).getD front.length [] = c := by
      have := getD_append_front front (picolIfSkipped ((c, b) :: rest) ++ last) 0
      simpa [picolIfSkipped] using this
    have h2 : (front ++ (picolIfSkipped ((c, b) :: rest) ++ last)).getD (front.length + 2) []
        = "elseif".toList := by
      have := getD_append_front front (picolIfSkipped ((c, b) :: rest) ++ last) 2
      simpa [picolIfSkipped] using this
    refine picolIf_zero_elseif F i _ front.length r0 r (by rw [hlen]; omega)
      (by rw [h0]; exact hc) hr ht h2 ?_
    have ih2 := ih (front ++ [c, b, "elseif".toList]) last r
    rw [← e] at ih2
    have e3 : (front ++ [c, b, "elseif".toList]).length = front.length + 2 + 1 := by simp
    rw [e3] at ih2
    apply ih2
    have e4 : front.length + 2 + 1 + 3 * rest.length = front.length + 3 * (rest.length + 1) := by
      omega
    rw [e4]
    simpa using h

end

/-! ## C8: the arity errors of `if` -/

section
variable {D : Type} (F : DoubleOps D)

theorem picolArityErr_if (i : picolInterp) :
    picolArityErr i "if".toList =
      (PICOL_ERR, picolSetResult i "Wrong number of args for if".toList) := by
  unfold picolArityErr
  congr 2

theorem picolIfWords_getD_zero (ws : List CStr) :
    ("if".toList :: ws : List CStr).getD 0 [] = "if".toList := rfl

/-- At the end of branches passed over, the last words `last` are read by the loop of
`if` at the index that follows these branches. -/
theorem picolIf_after_skip (i j : picolInterp) (pre : List (CStr × CStr))
    (hz : picolIfZeros F i pre j) (last : List CStr) (r : picolRetCode × picolInterp)
    (h : picolIfReturnsAt F j ("if".toList :: (picolIfSkipped pre ++ last))
      (1 + 3 * pre.length) r) :
    picolIfReturns F i ("if".toList :: (picolIfSkipped pre ++ last)) r :=
  picolIf_skip F i j pre hz ["if".toList] last r h

theorem picolIfWords_length (pre : List (CStr × CStr)) (last : List CStr) :
    ("if".toList :: (picolIfSkipped pre ++ last) : List CStr).length =
      1 + 3 * pre.length + last.length := by
  simp only [List.length_cons, List.length_append, picolIfSkipped_length]
  omega

theorem picolIfWords_getD (pre : List (CStr × CStr)) (last : List CStr) (m : Nat) :
    ("if".toList :: (picolIfSkipped pre ++ last) : List CStr).getD (1 + 3 * pre.length + m) []
      = last.getD m [] := by
  have h := getD_append_front ("if".toList :: picolIfSkipped pre) last m
  simp only [List.length_cons, picolIfSkipped_length, List.cons_append] at h
  rw [← h]
  congr 1
  omega

/-- **C8 (amended).** When the conditions of the branches `pre`, each followed by
`elseif`, all evaluate to zero with code `PICOL_OK` (from the interpreter `i` to the
interpreter `j`), the command `if` returns `PICOL_ERR` with the result
`Wrong number of args for if` in these cases: the words end where a condition is
expected (`if` alone, or `elseif` as last word); the next condition evaluates with
code `PICOL_OK` but no body follows it; the next condition is zero and the word
after its body is neither `else` nor `elseif`; the next condition is zero and
`else` is the last word. -/
theorem C8_if_arity_errors (i j : picolInterp) (pre : List (CStr × CStr))
    (hz : picolIfZeros F i pre j) :
    picolIfReturns F i ("if".toList :: (picolIfSkipped pre ++ []))
      (PICOL_ERR, picolSetResult j "Wrong number of args for if".toList) ∧
    (∀ (c : CStr) (r : picolRetCode × picolInterp),
      picolCondReturns F j c r → r.1 = PICOL_OK →
      picolIfReturns F i ("if".toList :: (picolIfSkipped pre ++ [c]))
        (PICOL_ERR, picolSetResult r.2 "Wrong number of args for if".toList)) ∧
    (∀ (c b w : CStr) (rest : List CStr) (r : picolRetCode × picolInterp),
      picolCondReturns F j c r → r.1 = PICOL_OK → picolTruth F r.2.result = false →
      w ≠ "else".toList → w ≠ "elseif".toList →
      picolIfReturns F i ("if".toList :: (picolIfSkipped pre ++ c :: b :: w :: rest))
        (PICOL_ERR, picolSetResult r.2 "Wrong number of args for if".toList)) ∧
    (∀ (c b : CStr) (r : picolRetCode × picolInterp),
      picolCondReturns F j c r → r.1 = PICOL_OK → picolTruth F r.2.result = false →
      picolIfReturns F i ("if".toList :: (picolIfSkipped pre ++ [c, b, "else".toList]))
        (PICOL_ERR, picolSetResult r.2 "Wrong number of args for if".toList)) := by
  refine ⟨?_, ?_, ?_, ?_⟩
  · have h := picolIf_noCond F j ("if".toList :: (picolIfSkipped pre ++ []))
      (1 + 3 * pre.length) (by rw [picolIfWords_length]; simp)
    rw [picolIfWords_getD_zero, picolArityErr_if] at h
    exact picolIf_after_skip F i j pre hz _ _ h
  · intro c r hc hr
    have h0 := picolIfWords_getD pre [c] 0
    rw [Nat.add_zero] at h0
    have h := picolIf_noBody F j ("if".toList :: (picolIfSkipped pre ++ [c]))
      (1 + 3 * pre.length) r (by rw [picolIfWords_length]; simp)
      (by rw [picolIfWords_length]; simp) (by rw [h0]; exact hc) hr
    rw [picolIfWords_getD_zero, picolArityErr_if] at h
    exact picolIf_after_skip F i j pre hz _ _ h
  · intro c b w rest r hc hr ht hw1 hw2
    have h0 := picolIfWords_getD pre (c :: b :: w :: rest) 0
    rw [Nat.add_zero] at h0
    have h2 := picolIfWords_getD pre (c :: b :: w :: rest) 2
    have h := picolIf_zero_badWord F j
      ("if".toList :: (picolIfSkipped pre ++ c :: b :: w :: rest))
      (1 + 3 * pre.length) r (by rw [picolIfWords_length]; simp)
      (by rw [h0]; exact hc) hr ht (by rw [h2]; exact hw1) (by rw [h2]; exact hw2)
    rw [picolIfWords_getD_zero, picolArityErr_if] at h
    exact picolIf_after_skip F i j pre hz _ _ h
  · intro c b r hc hr ht
    have h0 := picolIfWords_getD pre [c, b, "else".toList] 0
    rw [Nat.add_zero] at h0
    have h2 := picolIfWords_getD pre [c, b, "else".toList] 2
    have h := picolIf_zero_else_noBody F j
      ("if".toList :: (picolIfSkipped pre ++ [c, b, "else".toList]))
      (1 + 3 * pre.length) r (by rw [picolIfWords_length]; simp)
      (by rw [picolIfWords_length]; simp) (by rw [h0]; exact hc) hr ht (by rw [h2]; rfl)
    rw [picolIfWords_getD_zero, picolArityErr_if] at h
    exact picolIf_after_skip F i j pre hz _ _ h

end

/-- Counterexample to C8 as stated: the words `if 1 {} junk` have a word other than
`else` or `elseif` after a body, and `if 0 {} else {} junk` has an extra word after
a complete form; both return `PICOL_OK`, as command calls and as texts given to
`picolEval` on the interpreter of the test program. -/
theorem C8_counterexample :
    (picolCommandIf intDouble 40 picolCoreInterp
        ["if".toList, "1".toList, [], "junk".toList] 1).bind (fun r => some r.1)
      = some PICOL_OK ∧
    (picolEval intDouble 60 picolCoreInterp "if 1 {} junk".toList).bind
        (fun r => some (r.1, r.2.result)) = some (PICOL_OK, []) ∧
    (picolEval intDouble 60 picolCoreInterp "if 0 {} else {} junk".toList).bind
        (fun r => some (r.1, r.2.result)) = some (PICOL_OK, []) := by
  decide!

/-- Witness of C8 (amended): `if 0 x elseif` on the interpreter of the test program. -/
theorem C8_witness :
    picolIfReturns intDouble picolCoreInterp
      ("if".toList :: (picolIfSkipped [("0".toList, "x".toList)] ++ []))
      (PICOL_ERR, picolSetResult (picolSetResult picolCoreInterp "0".toList)
        "Wrong number of args for if".toList) :=
  (C8_if_arity_errors intDouble picolCoreInterp (picolSetResult picolCoreInterp "0".toList)
    [("0".toList, "x".toList)]
    (picolIfZeros.cons picolCoreInterp "0".toList "x".toList
      (PICOL_OK, picolSetResult picolCoreInterp "0".toList) [] _
      ⟨30, by decide!⟩ rfl (by decide!) (picolIfZeros.nil _))).1

/-! ## C9: the branch that `if` evaluates -/

section
variable {D : Type} (F : DoubleOps D)

theorem picolCondReturns_unique {i : picolInterp} {c : CStr}
    {r r2 : picolRetCode × picolInterp} (h1 : picolCondReturns F i c r)
    (h2 : picolCondReturns F i c r2) : r = r2 := by
  obtain ⟨n, hn⟩ := h1
  obtain ⟨m, hm⟩ := h2
  have a := picolExprExpansion_mono F hn (le_max_left n m)
  have b := picolExprExpansion_mono F hm (le_max_right n m)
  rw [a] at b
  exact Option.some.inj b

theorem picolEvalReturns_unique {i : picolInterp} {t : CStr}
    {r r2 : picolRetCode × picolInterp} (h1 : picolEvalReturns F i t r)
    (h2 : picolEvalReturns F i t r2) : r = r2 := by
  obtain ⟨n, hn⟩ := h1
  obtain ⟨m, hm⟩ := h2
  have a := picolEval_mono F hn (le_max_left n m)
  have b := picolEval_mono F hm (le_max_right n m)
  rw [a] at b
  exact Option.some.inj b

theorem picolIfReturns_unique {i : picolInterp} {argv : List CStr}
    {r r2 : picolRetCode × picolInterp} (h1 : picolIfReturns F i argv r)
    (h2 : picolIfReturns F i argv r2) : r = r2 := by
  obtain ⟨n, hn⟩ := h1
  obtain ⟨m, hm⟩ := h2
  have a := picolCommandIf_mono F hn (le_max_left n m)
  have b := picolCommandIf_mono F hm (le_max_right n m)
  rw [a] at b
  exact Option.some.inj b

theorem picolWhileReturns_unique {i : picolInterp} {argv : List CStr}
    {r r2 : picolRetCode × picolInterp} (h1 : picolWhileReturns F i argv r)
    (h2 : picolWhileReturns F i argv r2) : r = r2 := by
  obtain ⟨n, hn⟩ := h1
  obtain ⟨m, hm⟩ := h2
  have a := picolCommandWhile_mono F hn (le_max_left n m)
  have b := picolCommandWhile_mono F hm (le_max_right n m)
  rw [a] at b
  exact Option.some.inj b

/-- **C9.** Let the conditions of the branches `pre` of an `if`, each followed by
`elseif`, evaluate in order to zero with code `PICOL_OK`, from the interpreter `i`
to the interpreter `j`, and let the next condition `c` evaluate with code
`PICOL_OK` from `j`.  If the value of `c` is not zero, `if` returns what the
evaluation of the body of `c` returns (code and interpreter, so the result too),
whatever words follow.  If it is zero and the words end with `else e`, `if` returns
what the evaluation of `e` returns.  If it is zero and the words end with the body
of `c`, `if` returns `PICOL_OK` with the interpreter left by the condition: no body
is evaluated.  What `if` returns is determined by its words and the interpreter. -/
theorem C9_if_branch_taken (i j : picolInterp) (pre : List (CStr × CStr))
    (hz : picolIfZeros F i pre j) :
    (∀ (c b : CStr) (rest : List CStr) (r r2 : picolRetCode × picolInterp),
      picolCondReturns F j c r → r.1 = PICOL_OK → picolTruth F r.2.result = true →
      picolEvalReturns F r.2 b r2 →
      picolIfReturns F i ("if".toList :: (picolIfSkipped pre ++ c :: b :: rest)) r2) ∧
    (∀ (c b e : CStr) (r r2 : picolRetCode × picolInterp),
      picolCondReturns F j c r → r.1 = PICOL_OK → picolTruth F r.2.result = false →
      picolEvalReturns F r.2 e r2 →
      picolIfReturns F i
        ("if".toList :: (picolIfSkipped pre ++ [c, b, "else".toList, e])) r2) ∧
    (∀ (c b : CStr) (r : picolRetCode × picolInterp),
      picolCondReturns F j c r → r.1 = PICOL_OK → picolTruth F r.2.result = false →
      picolIfReturns F i ("if".toList :: (picolIfSkipped pre ++ [c, b])) (PICOL_OK, r.2)) ∧
    (∀ (argv : List CStr) (r r2 : picolRetCode × picolInterp),
      picolIfReturns F i argv r → picolIfReturns F i argv r2 → r = r2) := by
  refine ⟨?_, ?_, ?_, fun argv r r2 h1 h2 => picolIfReturns_unique F h1 h2⟩
  · intro c b rest r r2 hc hr ht hb
    have h0 := picolIfWords_getD pre (c :: b :: rest) 0
    rw [Nat.add_zero] at h0
    have h1 := picolIfWords_getD pre (c :: b :: rest) 1
    have h := picolIf_taken F j ("if".toList :: (picolIfSkipped pre ++ c :: b :: rest))
      (1 + 3 * pre.length) r r2 (by rw [picolIfWords_length]; simp)
      (by rw [h0]; exact hc) hr ht (by rw [h1]; exact hb)
    exact picolIf_after_skip F i j pre hz _ _ h
  · intro c b e r r2 hc hr ht hb
    have h0 := picolIfWords_getD pre [c, b, "else".toList, e] 0
    rw [Nat.add_zero] at h0
    have h2 := picolIfWords_getD pre [c, b, "else".toList, e] 2
    have h3 := picolIfWords_getD pre [c, b, "else".toList, e] (2 + 1)
    have h := picolIf_zero_else F j
      ("if".toList :: (picolIfSkipped pre ++ [c, b, "else".toList, e]))
      (1 + 3 * pre.length) r r2 (by rw [picolIfWords_length]; simp)
      (by rw [h0]; exact hc) hr ht (by rw [h2]; rfl) (by rw [← Nat.add_assoc] at h3; rw [h3]; exact hb)
    exact picolIf_after_skip F i j pre hz _ _ h
  · intro c b r hc hr ht
    have h0 := picolIfWords_getD pre [c, b] 0
    rw [Nat.add_zero] at h0
    have h := picolIf_zero_end F j ("if".toList :: (picolIfSkipped pre ++ [c, b]))
      (1 + 3 * pre.length) r (by rw [picolIfWords_length]; simp)
      (by rw [picolIfWords_length]; simp) (by rw [h0]; exact hc) hr ht
    exact picolIf_after_skip F i j pre hz _ _ h

end

/-- Witness of C9: the test `if elseif`, `if {0} { set r a } elseif {1} { set r b }
else { set r c }`, whose second body is the one evaluated. -/
theorem C9_witness :
    picolIfReturns intDouble picolCoreInterp
      ("if".toList :: (picolIfSkipped [("0".toList, " set r a ".toList)] ++
        "1".toList :: " set r b ".toList :: ["else".toList, " set r c ".toList]))
      (PICOL_OK, picolSetResult (picolSetVar picolCoreInterp "r".toList "b".toList)
        "b".toList) :=
  (C9_if_branch_taken intDouble picolCoreInterp (picolSetResult picolCoreInterp "0".toList)
    [("0".toList, " set r a ".toList)]
    (picolIfZeros.cons picolCoreInterp "0".toList " set r a ".toList
      (PICOL_OK, picolSetResult picolCoreInterp "0".toList) [] _
      ⟨30, by decide!⟩ rfl (by decide!) (picolIfZeros.nil _))).1
    "1".toList " set r b ".toList ["else".toList, " set r c ".toList]
    (PICOL_OK, picolSetResult picolCoreInterp "1".toList)
    (PICOL_OK, picolSetResult (picolSetVar picolCoreInterp "r".toList "b".toList) "b".toList)
    ⟨30, by decide!⟩ rfl (by decide!) ⟨30, by decide!⟩

/-! ## C10: the loop of `while` -/

section
variable {D : Type} (F : DoubleOps D)

theorem picolWhile_unfold (n : Nat) (i : picolInterp) (w c b : CStr) :
    picolCommandWhile F (n + 1) i [w, c, b] = picolWhileLoop F n i [w, c, b] := by
  rw [picolCommandWhile_succ, if_neg (by simp)]

theorem picolWhile_of_loop {i : picolInterp} {w c b : CStr} {r : picolRetCode × picolInterp}
    {n : Nat} (h : picolWhileLoop F n i [w, c, b] = some r) :
    picolWhileReturns F i [w, c, b] r :=
  ⟨n + 1, by rw [picolWhile_unfold]; exact h⟩

/-- **C10.** In `while c b` (the words `w c b` with any command name `w`): a code
other than `PICOL_OK` from the evaluation of the condition is returned, with no
evaluation of the body; when the condition evaluates to zero `while` returns
`PICOL_OK`; when it is not zero the body is evaluated, and then the code
`PICOL_BREAK` makes `while` return `PICOL_OK`, the codes `PICOL_RETURN` and
`PICOL_ERR` are returned unchanged, and after the codes `PICOL_OK` and
`PICOL_CONTINUE` the condition is tested again: `while` returns exactly what
`while c b` returns when started from the interpreter left by the body. -/
theorem C10_while_codes (i : picolInterp) (w c b : CStr) :
    (∀ r, picolCondReturns F i c r → r.1 ≠ PICOL_OK → picolWhileReturns F i [w, c, b] r) ∧
    (∀ r, picolCondReturns F i c r → r.1 = PICOL_OK → picolTruth F r.2.result = false →
      picolWhileReturns F i [w, c, b] (PICOL_OK, r.2)) ∧
    (∀ r r2, picolCondReturns F i c r → r.1 = PICOL_OK → picolTruth F r.2.result = true →
      picolEvalReturns F r.2 b r2 → r2.1 = PICOL_BREAK →
      picolWhileReturns F i [w, c, b] (PICOL_OK, r2.2)) ∧
    (∀ r r2, picolCondReturns F i c r → r.1 = PICOL_OK → picolTruth F r.2.result = true →
      picolEvalReturns F r.2 b r2 → (r2.1 = PICOL_RETURN ∨ r2.1 = PICOL_ERR) →
      picolWhileReturns F i [w, c, b] r2) ∧
    (∀ r r2 r3, picolCondReturns F i c r → r.1 = PICOL_OK → picolTruth F r.2.result = true →
      picolEvalReturns F r.2 b r2 → (r2.1 = PICOL_OK ∨ r2.1 = PICOL_CONTINUE) →
      (picolWhileReturns F i [w, c, b] r3 ↔ picolWhileReturns F r2.2 [w, c, b] r3)) := by
  have hc1 : ([w, c, b] : List CStr).getD 1 [] = c := rfl
  have hb2 : ([w, c, b] : List CStr).getD 2 [] = b := rfl
  refine ⟨?_, ?_, ?_, ?_, ?_⟩
  · intro r ⟨n, hn⟩ hr
    apply picolWhile_of_loop F (n := n + 1)
    rw [picolWhileLoop_succ, hc1, hn, Option.some_bind, if_pos hr]
  · intro r ⟨n, hn⟩ hr ht
    apply picolWhile_of_loop F (n := n + 1)
    unfold picolTruth at ht
    rw [picolWhileLoop_succ, hc1, hn, Option.some_bind, if_neg (by simp [hr]),
      if_pos (by simp [ht])]
  · intro r r2 ⟨n, hn⟩ hr ht ⟨m, hm⟩ h2
    apply picolWhile_of_loop F (n := max n m + 1)
    unfold picolTruth at ht
    rw [picolWhileLoop_succ, hc1, hb2, picolExprExpansion_mono F hn (le_max_left n m),
      Option.some_bind, if_neg (by simp [hr]), if_neg (by simp [ht]),
      picolEval_mono F hm (le_max_right n m), Option.some_bind,
      if_neg (by simp [h2]), if_pos h2]
  · intro r r2 ⟨n, hn⟩ hr ht ⟨m, hm⟩ h2
    apply picolWhile_of_loop F (n := max n m + 1)
    unfold picolTruth at ht
    rw [picolWhileLoop_succ, hc1, hb2, picolExprExpansion_mono F hn (le_max_left n m),
      Option.some_bind, if_neg (by simp [hr]), if_neg (by simp [ht]),
      picolEval_mono F hm (le_max_right n m), Option.some_bind,
      if_neg (by rcases h2 with h | h <;> simp [h]),
      if_neg (by rcases h2 with h | h <;> simp [h])]
  · intro r r2 r3 hcond hr ht hbody h2
    have h2' : r2.1 = PICOL_CONTINUE ∨ r2.1 = PICOL_OK := h2.symm
    unfold picolTruth at ht
    constructor
    · rintro ⟨k, hk⟩
      cases k with
      | zero => rw [picolCommandWhile_zero] at hk; cases hk
      | succ k =>
        rw [picolWhile_unfold] at hk
        cases k with
        | zero => rw [picolWhileLoop_zero] at hk; cases hk
        | succ k =>
          rw [picolWhileLoop_succ, hc1, hb2] at hk
          cases hx : picolExprExpansion F k i c with
          | none => rw [hx] at hk; cases hk
          | some x =>
            have ex : x = r := picolCondReturns_unique F ⟨k, hx⟩ hcond
            subst ex
            rw [hx, Option.some_bind, if_neg (by simp [hr]), if_neg (by simp [ht])] at hk
            cases hy : picolEval F k x.2 b with
            | none => rw [hy] at hk; cases hk
            | some y =>
              have ey : y = r2 := picolEvalReturns_unique F ⟨k, hy⟩ hbody
              subst ey
              rw [hy, Option.some_bind, if_pos h2'] at hk
              exact picolWhile_of_loop F hk
    · rintro ⟨k, hk⟩
      obtain ⟨n, hn⟩ := hcond
      obtain ⟨m, hm⟩ := hbody
      cases k with
      | zero => rw [picolCommandWhile_zero] at hk; cases hk
      | succ k =>
        rw [picolWhile_unfold] at hk
        apply picolWhile_of_loop F (n := max (max n m) k + 1)
        rw [picolWhileLoop_succ, hc1, hb2,
          picolExprExpansion_mono F hn (le_trans (le_max_left n m) (le_max_left _ k)),
          Option.some_bind, if_neg (by simp [hr]), if_neg (by simp [ht]),
          picolEval_mono F hm (le_trans (le_max_right n m) (le_max_left _ k)),
          Option.some_bind, if_pos h2']
        exact picolWhileLoop_mono F hk (le_max_right _ k)

end

/-- Witness of C10: `while {0} {}` on the interpreter of the test program returns
`PICOL_OK` at the first test of the condition, whose value is zero. -/
theorem C10_witness :
    picolWhileReturns intDouble picolCoreInterp ["while".toList, "0".toList, []]
      (PICOL_OK, picolSetResult picolCoreInterp "0".toList) :=
  (C10_while_codes intDouble picolCoreInterp "while".toList "0".toList []).2.1
    (PICOL_OK, picolSetResult picolCoreInterp "0".toList) ⟨30, by decide!⟩ rfl (by decide!)

/-! ## The expression evaluator and the relation `ExprDeriv` -/

theorem drop_eq_charAt_cons (s : CStr) (p : Nat) (h : p < s.length) :
    s.drop p = charAt s p :: s.drop (p + 1) := by
  unfold charAt
  rw [List.getD_eq_getElem?_getD, List.getElem?_eq_getElem h]
  simp

theorem charAt_of_length_le (s : CStr) (p : Nat) (h : s.length ≤ p) :
    charAt s p = '\x00' := by
  unfold charAt
  rw [List.getD_eq_getElem?_getD, List.getElem?_eq_none h]
  rfl

theorem picolSkip_of_not_space (s : CStr) (p : Nat) (h : isExprSpace (charAt s p) = false) :
    picolSkip s p = p := by
  unfold picolSkip
  rcases Nat.lt_or_ge p s.length with hl | hl
  · rw [drop_eq_charAt_cons s p hl]
    simp [picolCountSpaces, h]
  · rw [List.drop_eq_nil_of_le hl]
    rfl

theorem picolSkip_of_space (s : CStr) (p : Nat) (h : isExprSpace (charAt s p) = true) :
    picolSkip s p = picolSkip s (p + 1) := by
  unfold picolSkip
  rcases Nat.lt_or_ge p s.length with hl | hl
  · rw [drop_eq_charAt_cons s p hl]
    simp only [picolCountSpaces, h, if_true]
    omega
  · rw [charAt_of_length_le s p hl] at h
    exact absurd h (by decide)

theorem picolSkip_ge (s : CStr) (p : Nat) : p ≤ picolSkip s p := by
  unfold picolSkip
  omega

theorem picolSkip_not_space (s : CStr) (p : Nat) :
    isExprSpace (charAt s (picolSkip s p)) = false := by
  unfold picolSkip
  generalize hk : s.length - p = k
  induction k generalizing p with
  | zero =>
    rw [List.drop_eq_nil_of_le (by omega)]
    simp only [picolCountSpaces, Nat.add_zero]
    rw [charAt_of_length_le s p (by omega)]
    decide
  | succ k ih =>
    have hl : p < s.length := by omega
    rw [drop_eq_charAt_cons s p hl]
    simp only [picolCountSpaces]
    split_ifs with hc
    · have := ih (p + 1) (by omega)
      have e : p + (picolCountSpaces (List.drop (p + 1) s) + 1) =
          p + 1 + picolCountSpaces (List.drop (p + 1) s) := by omega
      rw [e]
      exact this
    · simpa using hc

theorem picolSkip_idem (s : CStr) (p : Nat) : picolSkip s (picolSkip s p) = picolSkip s p :=
  picolSkip_of_not_space s _ (picolSkip_not_space s p)

theorem isExprSpace_iff (c : Char) :
    (c ≠ '\x00' ∧ (c = ' ' ∨ c = '\t' ∨ c = '\r' ∨ c = '\n')) ↔ isExprSpace c = true := by
  unfold isExprSpace
  simp only [decide_eq_true_eq]
  constructor
  · exact fun h => h.2
  · intro h
    refine ⟨?_, h⟩
    rcases h with h | h | h | h <;> rw [h] <;> decide

/-- With enough fuel, the white space loop of `picolExpr` stops at `picolSkip`. -/
theorem picolExprSkip_eq (s : CStr) (n : Nat) :
    ∀ p, s.length - p < n → picolExprSkip n s p = some (picolSkip s p) := by
  induction n with
  | zero => intro p h; omega
  | succ n ih =>
    intro p h
    rw [picolExprSkip]
    by_cases hc : isExprSpace (charAt s p) = true
    · rw [if_pos ((isExprSpace_iff _).2 hc), picolSkip_of_space s p hc]
      have hl : p < s.length := by
        by_contra hge
        rw [charAt_of_length_le s p (by omega)] at hc
        exact absurd hc (by decide)
      exact ih (p + 1) (by omega)
    · rw [if_neg (fun h => hc ((isExprSpace_iff _).1 h))]
      rw [picolSkip_of_not_space s p (by simpa using hc)]

/-- Whatever the fuel, a result of the white space loop of `picolExpr` is
`picolSkip`. -/
theorem picolExprSkip_some (s : CStr) (n p q : Nat) (h : picolExprSkip n s p = some q) :
    q = picolSkip s p := by
  have h1 := picolExprSkip_mono h (Nat.le_add_right n (s.length - p + 1))
  rw [picolExprSkip_eq s _ p (by omega)] at h1
  exact (Option.some.inj h1).symm

/-! ## The expression evaluator and the expressions of section 4.5 -/

section
variable {D : Type} (F : DoubleOps D)

theorem picolExpr_zero (i : picolInterp) (s : CStr) (p : Nat) (err : Bool) (prec : Int) :
    picolExpr F 0 i s p err prec = none := rfl

theorem picolExpr_succ (n : Nat) (i : picolInterp) (s : CStr) (p : Nat) (err : Bool)
    (prec : Int) :
    picolExpr F (n + 1) i s p err prec =
      if i.level + 1 > PICOL_MAX_RECURSION_LEVEL then
        some { val := F.ofInt 0, interp := { i with level := i.level + 1 - 1 }, p := p,
               err := true }
      else
        (picolExprSkip n s p).bind fun p1 =>
        (picolExprOperand F n { i with level := i.level + 1 } s p1 err).bind fun r =>
        (picolExprSkip n s r.p).bind fun p3 =>
        (picolExprLoop F n r.interp s p3 r.err prec r.val).bind fun r1 =>
        some { r1 with interp := { r1.interp with level := r1.interp.level - 1 } } := rfl

theorem picolExprLoop_zero (i : picolInterp) (s : CStr) (p : Nat) (err : Bool) (prec : Int)
    (a : D) : picolExprLoop F 0 i s p err prec a = none := rfl

theorem picolExprLoop_succ (n : Nat) (i : picolInterp) (s : CStr) (p : Nat) (err : Bool)
    (prec : Int) (a : D) :
    picolExprLoop F (n + 1) i s p err prec a =
      match picolExprOp s p with
      | none => some { val := a, interp := i, p := p, err := err }
      | some o =>
        if o.2.1 < prec then some { val := a, interp := i, p := p, err := err }
        else
          (picolExpr F n i s (p + o.2.2) err (o.2.1 + 1)).bind fun r =>
          (picolExprSkip n s r.p).bind fun p1 =>
          picolExprLoop F n r.interp s p1 r.err prec (picolExprApply F o.1 a r.val) := rfl

theorem picolInterp_level_restore (i : picolInterp) :
    ({ i with level := i.level + 1 - 1 } : picolInterp) = i := by
  cases i
  simp

attribute [local irreducible] picolExpr picolExprLoop in
theorem picolExpr_sound (n : Nat) : ExprSoundAt F n := by
  induction n with
  | zero =>
    constructor
    · intro i s p err prec r h; rw [picolExpr_zero] at h; cases h
    · intro i s p err prec a r h; rw [picolExprLoop_zero] at h; cases h
  | succ n ih =>
    obtain ⟨ihE, ihL⟩ := ih
    constructor
    · intro i s p err prec r h
      rw [picolExpr_succ] at h
      split_ifs at h with hov
      · simp only [Option.some.injEq] at h
        subst h
        exact ⟨picolInterp_level_restore i, fun _ => rfl, fun h => by cases h⟩
      · simp only [Option.bind_eq_some] at h
        obtain ⟨p1, hp1, rop, hop, p3, hp3, r1, hl, hr⟩ := h
        simp only [Option.some.injEq] at hr
        have hp1' := picolExprSkip_some s n p p1 hp1
        have hp3' := picolExprSkip_some s n _ p3 hp3
        subst hp1' hp3'
        obtain ⟨hLi, hLe, hLd⟩ := ihL _ _ _ _ _ _ _ hl
        -- the operand
        have hopS : rop.interp = { i with level := i.level + 1 } ∧ (err = true → rop.err = true) ∧
            (rop.err = false → ∀ v q d, ExprDeriv F s (some rop.val) prec (picolSkip s rop.p) v q d →
              (d = 0 ∨ i.level + 1 + (d : Int) ≤ PICOL_MAX_RECURSION_LEVEL) →
              ∃ d', ExprDeriv F s none prec p v q d' ∧
                i.level + (d' : Int) ≤ PICOL_MAX_RECURSION_LEVEL) := by
          unfold picolExprOperand at hop
          split_ifs at hop with c1 c2 c3 c4
          · simp only [Option.bind_eq_some] at hop
            obtain ⟨r0, h0, p2, hp2, hcl⟩ := hop
            have hp2' := picolExprSkip_some s n _ p2 hp2
            subst hp2'
            obtain ⟨h0i, h0e, h0d⟩ := ihE _ _ _ _ _ _ h0
            split_ifs at hcl with c5
            · simp only [Option.some.injEq] at hcl
              subst hcl
              refine ⟨h0i, h0e, ?_⟩
              intro he v q d hd hlev
              obtain ⟨d1, hd1, hl1⟩ := h0d he
              refine ⟨max d1 d + 1, ExprDeriv.paren prec p r0.val r0.p d1 v q d c1 hd1 c5 hd, ?_⟩
              simp only at hl1
              rcases hlev with hz | hlev
              · subst hz
                simp only [Nat.zero_le, max_eq_left]
                push_cast
                omega
              · rcases le_total d1 d with hle | hle
                · rw [max_eq_right hle]; push_cast; omega
                · rw [max_eq_left hle]; push_cast; omega
            · simp only [Option.some.injEq] at hcl
              subst hcl
              exact ⟨h0i, fun _ => rfl, fun h => by cases h⟩
          · simp only [Option.bind_eq_some] at hop
            obtain ⟨r0, h0, hcl⟩ := hop
            obtain ⟨h0i, h0e, h0d⟩ := ihE _ _ _ _ _ _ h0
            simp only [Option.some.injEq] at hcl
            subst hcl
            refine ⟨h0i, h0e, ?_⟩
            intro he v q d hd hlev
            obtain ⟨d1, hd1, hl1⟩ := h0d he
            refine ⟨max d1 d + 1, ExprDeriv.neg prec p r0.val r0.p d1 v q d c2 hd1 hd, ?_⟩
            simp only at hl1
            rcases hlev with hz | hlev
            · subst hz
              simp only [Nat.zero_le, max_eq_left]
              push_cast
              omega
            · rcases le_total d1 d with hle | hle
              · rw [max_eq_right hle]; push_cast; omega
              · rw [max_eq_left hle]; push_cast; omega
          · obtain ⟨h0i, h0e, h0d⟩ := ihE _ _ _ _ _ _ hop
            refine ⟨h0i, h0e, ?_⟩
            intro he v q d hd hlev
            obtain ⟨d1, hd1, hl1⟩ := h0d he
            refine ⟨max d1 d + 1, ExprDeriv.pos prec p rop.val rop.p d1 v q d c3 hd1 hd, ?_⟩
            simp only at hl1
            rcases hlev with hz | hlev
            · subst hz
              simp only [Nat.zero_le, max_eq_left]
              push_cast
              omega
            · rcases le_total d1 d with hle | hle
              · rw [max_eq_right hle]; push_cast; omega
              · rw [max_eq_left hle]; push_cast; omega
          · simp only [Option.some.injEq] at hop
            subst hop
            exact ⟨rfl, fun _ => rfl, fun h => by cases h⟩
          · simp only [Option.some.injEq] at hop
            subst hop
            refine ⟨rfl, fun he => he, ?_⟩
            intro he v q d hd hlev
            refine ⟨d + 1, ExprDeriv.literal prec p v q d c1 c2 c3 c4 hd, ?_⟩
            rcases hlev with hz | hlev
            · subst hz
              push_cast
              omega
            · push_cast
              omega
        obtain ⟨hOi, hOe, hOd⟩ := hopS
        subst hr
        refine ⟨?_, fun he => hLe (hOe he), ?_⟩
        · simp only [hLi, hOi]
          exact picolInterp_level_restore i
        · intro he
          simp only at he
          have hrop : rop.err = false := by
            cases hre : rop.err with
            | false => rfl
            | true => rw [hLe hre] at he; cases he
          obtain ⟨d, hd, hlev⟩ := hLd he
          rw [hOi] at hlev
          exact hOd hrop _ _ d hd (by
            rcases hlev with hz | hlev
            · exact Or.inl hz
            · exact Or.inr hlev)
    · intro i s p err prec a r h
      rw [picolExprLoop_succ] at h
      cases ho : picolExprOp s p with
      | none =>
        rw [ho] at h
        simp only [Option.some.injEq] at h
        subst h
        exact ⟨rfl, fun he => he, fun _ => ⟨0, ExprDeriv.stop prec a p
          (fun o hn => by rw [ho] at hn; cases hn), Or.inl rfl⟩⟩
      | some o =>
        rw [ho] at h
        simp only at h
        split_ifs at h with hlow
        · simp only [Option.some.injEq] at h
          subst h
          exact ⟨rfl, fun he => he, fun _ => ⟨0, ExprDeriv.stop prec a p
            (fun o2 hn => by rw [ho] at hn; cases hn; exact hlow), Or.inl rfl⟩⟩
        · simp only [Option.bind_eq_some] at h
          obtain ⟨r0, h0, p1, hp1, hl⟩ := h
          have hp1' := picolExprSkip_some s n _ p1 hp1
          subst hp1'
          obtain ⟨h0i, h0e, h0d⟩ := ihE _ _ _ _ _ _ h0
          obtain ⟨hLi, hLe, hLd⟩ := ihL _ _ _ _ _ _ _ hl
          refine ⟨hLi.trans h0i, fun he => hLe (h0e he), ?_⟩
          intro he
          have hr0 : r0.err = false := by
            cases hre : r0.err with
            | false => rfl
            | true => rw [hLe hre] at he; cases he
          obtain ⟨d1, hd1, hl1⟩ := h0d hr0
          obtain ⟨d, hd, hlev⟩ := hLd he
          rw [h0i] at hlev
          refine ⟨max d1 d, ExprDeriv.step prec a p o r0.val r0.p d1 r.val r.p d ho hlow hd1 hd,
            Or.inr ?_⟩
          rcases hlev with hz | hlev
          · subst hz
            simpa using hl1
          · rcases le_total d1 d with hle | hle
            · rw [max_eq_right hle]; exact hlev
            · rw [max_eq_left hle]; exact hl1

end

section
variable {D : Type} (F : DoubleOps D)

theorem picolExprSkip_big (s : CStr) (n p : Nat) (h : s.length < n) :
    picolExprSkip n s p = some (picolSkip s p) :=
  picolExprSkip_eq s n p (by omega)

theorem picolInterp_level_restore2 (i : picolInterp) :
    ({ level := i.level + 1 - 1, callframe := i.callframe, commands := i.commands,
       result := i.result, freed := i.freed } : picolInterp) = i :=
  picolInterp_level_restore i

/-- Reading an expression takes at least one invocation of the evaluator. -/
theorem ExprDeriv_none_pos {s : CStr} {acc : Option D} {prec : Int} {p : Nat} {v : D}
    {q d : Nat} (h : ExprDeriv F s acc prec p v q d) (ha : acc = none) : 1 ≤ d := by
  cases h with
  | literal => omega
  | paren => omega
  | neg => omega
  | pos => omega
  | stop => cases ha
  | step => cases ha

attribute [local irreducible] picolExpr picolExprLoop in
/-- An expression in the sense of `ExprDeriv` whose nesting fits under the limit is
read by `picolExpr` (and the rest of an expression by its loop), given enough
fuel: the value and the end offset are those of the relation, the interpreter and
the error flag are returned as received. -/
theorem picolExpr_complete {s : CStr} {acc : Option D} {prec : Int} {p : Nat} {v : D}
    {q d : Nat} (h : ExprDeriv F s acc prec p v q d) :
    match acc with
    | none => ∀ (i : picolInterp) (err : Bool),
        i.level + (d : Int) ≤ PICOL_MAX_RECURSION_LEVEL →
        ∃ n, picolExpr F n i s p err prec =
          some { val := v, interp := i, p := q, err := err }
    | some a => ∀ (i : picolInterp) (err : Bool),
        (d = 0 ∨ i.level + (d : Int) ≤ PICOL_MAX_RECURSION_LEVEL) →
        ∃ n, picolExprLoop F n i s p err prec a =
          some { val := v, interp := i, p := q, err := err } := by
  induction h with
  | literal prec p v q d c1 c2 c3 c4 _ ih =>
    intro i err hlev
    simp only at ih
    obtain ⟨n2, h2⟩ := ih { i with level := i.level + 1 } err (by
      rcases Nat.eq_zero_or_pos d with hz | hp
      · exact Or.inl hz
      · right; push_cast at hlev; simp only; omega)
    refine ⟨n2 + s.length + 1 + 1, ?_⟩
    have hbig : s.length < n2 + s.length + 1 := by omega
    rw [picolExpr_succ, if_neg (by push_cast at hlev; omega), picolExprSkip_big s _ p hbig,
      Option.some_bind]
    unfold picolExprOperand
    rw [if_neg c1, if_neg c2, if_neg c3, Option.some_bind]
    simp only [if_neg c4]
    rw [picolExprSkip_big s _ _ hbig, Option.some_bind,
      picolExprLoop_mono F h2 (by omega), Option.some_bind]
    simp [picolInterp_level_restore2]
  | paren prec p v1 q1 d1 v q d c1 _ c5 _ ih1 ih2 =>
    intro i err hlev
    simp only at ih1 ih2
    have hm1 : d1 ≤ max d1 d := le_max_left _ _
    have hm2 : d ≤ max d1 d := le_max_right _ _
    obtain ⟨n1, h1⟩ := ih1 { i with level := i.level + 1 } err (by
      push_cast at hlev; simp only; omega)
    obtain ⟨n2, h2⟩ := ih2 { i with level := i.level + 1 } err (by
      right; push_cast at hlev; simp only; omega)
    refine ⟨n1 + n2 + s.length + 1 + 1, ?_⟩
    have hbig : s.length < n1 + n2 + s.length + 1 := by omega
    rw [picolExpr_succ, if_neg (by push_cast at hlev; omega), picolExprSkip_big s _ p hbig,
      Option.some_bind]
    unfold picolExprOperand
    rw [if_pos c1, picolExpr_mono F h1 (by omega), Option.some_bind]
    simp only
    rw [picolExprSkip_big s _ _ hbig, Option.some_bind, if_pos c5, Option.some_bind]
    simp only
    rw [picolExprSkip_big s _ _ hbig, Option.some_bind,
      picolExprLoop_mono F h2 (by omega), Option.some_bind]
    simp [picolInterp_level_restore2]
  | neg prec p v1 q1 d1 v q d c2 _ _ ih1 ih2 =>
    intro i err hlev
    simp only at ih1 ih2
    have hm1 : d1 ≤ max d1 d := le_max_left _ _
    have hm2 : d ≤ max d1 d := le_max_right _ _
    obtain ⟨n1, h1⟩ := ih1 { i with level := i.level + 1 } err (by
      push_cast at hlev; simp only; omega)
    obtain ⟨n2, h2⟩ := ih2 { i with level := i.level + 1 } err (by
      right; push_cast at hlev; simp only; omega)
    refine ⟨n1 + n2 + s.length + 1 + 1, ?_⟩
    have hbig : s.length < n1 + n2 + s.length + 1 := by omega
    have c1 : ¬ charAt s (picolSkip s p) = '(' := by rw [c2]; decide
    rw [picolExpr_succ, if_neg (by push_cast at hlev; omega), picolExprSkip_big s _ p hbig,
      Option.some_bind]
    unfold picolExprOperand
    rw [if_neg c1, if_pos c2, picolExpr_mono F h1 (by omega), Option.some_bind,
      Option.some_bind]
    simp only
    rw [picolExprSkip_big s _ _ hbig, Option.some_bind,
      picolExprLoop_mono F h2 (by omega), Option.some_bind]
    simp [picolInterp_level_restore2]
  | pos prec p v1 q1 d1 v q d c3 _ _ ih1 ih2 =>
    intro i err hlev
    simp only at ih1 ih2
    have hm1 : d1 ≤ max d1 d := le_max_left _ _
    have hm2 : d ≤ max d1 d := le_max_right _ _
    obtain ⟨n1, h1⟩ := ih1 { i with level := i.level + 1 } err (by
      push_cast at hlev; simp only; omega)
    obtain ⟨n2, h2⟩ := ih2 { i with level := i.level + 1 } err (by
      right; push_cast at hlev; simp only; omega)
    refine ⟨n1 + n2 + s.length + 1 + 1, ?_⟩
    have hbig : s.length < n1 + n2 + s.length + 1 := by omega
    have c1 : ¬ charAt s (picolSkip s p) = '(' := by rw [c3]; decide
    have c2 : ¬ charAt s (picolSkip s p) = '-' := by rw [c3]; decide
    rw [picolExpr_succ, if_neg (by push_cast at hlev; omega), picolExprSkip_big s _ p hbig,
      Option.some_bind]
    unfold picolExprOperand
    rw [if_neg c1, if_neg c2, if_pos c3, picolExpr_mono F h1 (by omega), Option.some_bind]
    simp only
    rw [picolExprSkip_big s _ _ hbig, Option.some_bind,
      picolExprLoop_mono F h2 (by omega), Option.some_bind]
    simp [picolInterp_level_restore2]
  | stop prec a p hst =>
    intro i err _
    refine ⟨1, ?_⟩
    rw [picolExprLoop_succ]
    cases ho : picolExprOp s p with
    | none => rfl
    | some o =>
      simp only
      rw [if_pos (hst o ho)]
  | step prec a p o b q1 d1 v q d ho hlow hr _ ih1 ih2 =>
    intro i err hlev
    simp only at ih1 ih2
    have hm1 : d1 ≤ max d1 d := le_max_left _ _
    have hm2 : d ≤ max d1 d := le_max_right _ _
    have hpos : 1 ≤ d1 := ExprDeriv_none_pos F hr rfl
    have hlev2 : i.level + ((max d1 d : Nat) : Int) ≤ PICOL_MAX_RECURSION_LEVEL := by
      rcases hlev with hz | hlev
      · omega
      · exact hlev
    obtain ⟨n1, h1⟩ := ih1 i err (by omega)
    obtain ⟨n2, h2⟩ := ih2 i err (by right; omega)
    refine ⟨n1 + n2 + s.length + 1 + 1, ?_⟩
    have hbig : s.length < n1 + n2 + s.length + 1 := by omega
    rw [picolExprLoop_succ, ho]
    simp only
    rw [if_neg hlow, picolExpr_mono F h1 (by omega), Option.some_bind]
    simp only
    rw [picolExprSkip_big s _ _ hbig, Option.some_bind]
    exact picolExprLoop_mono F h2 (by omega)

end

section
variable {D : Type} (F : DoubleOps D)

theorem picolExprOp_len (s : CStr) (p : Nat) :
    (picolExprOp s p).elim True (fun o => 1 ≤ o.2.2) := by
  unfold picolExprOp
  simp only
  generalize charAt s p = c
  generalize charAt s (p + 1) = d
  repeat' split
  all_goals first | trivial | exact Nat.le_refl 1 | exact Nat.le_succ 1

theorem picolExprOp_some (s : CStr) (p : Nat) (o : Char × Int × Nat)
    (h : picolExprOp s p = some o) : p < s.length ∧ 1 ≤ o.2.2 := by
  constructor
  · by_contra hge
    unfold picolExprOp at h
    simp only at h
    rw [charAt_of_length_le s p (by omega)] at h
    simp at h
  · have k := picolExprOp_len s p
    rw [h] at k
    exact k

attribute [local irreducible] picolExpr picolExprLoop in
/-- `picolExpr` and its loop return on every text, from every offset, given enough
fuel, and do not move the cursor backwards. -/
theorem picolExpr_total_aux (s : CStr) (m : Nat) :
    ∀ p, s.length - p = m →
      (∀ (i : picolInterp) (err : Bool) (prec : Int) (a : D),
        ∃ n r, picolExprLoop F n i s p err prec a = some r ∧ p ≤ r.p) ∧
      (∀ (i : picolInterp) (err : Bool) (prec : Int),
        ∃ n r, picolExpr F n i s p err prec = some r ∧ p ≤ r.p) := by
  induction m using Nat.strong_induction_on with
  | _ m ih =>
    have hloop : ∀ p, s.length - p = m → ∀ (i : picolInterp) (err : Bool) (prec : Int) (a : D),
        ∃ n r, picolExprLoop F n i s p err prec a = some r ∧ p ≤ r.p := by
      intro p hp i err prec a
      cases ho : picolExprOp s p with
      | none =>
        have e := picolExprLoop_succ F 0 i s p err prec a
        rw [ho] at e
        exact ⟨1, _, e, le_refl p⟩
      | some o =>
        by_cases hlow : o.2.1 < prec
        · have e := picolExprLoop_succ F 0 i s p err prec a
          rw [ho] at e
          simp only at e
          rw [if_pos hlow] at e
          exact ⟨1, _, e, le_refl p⟩
        · obtain ⟨hlt, hlen⟩ := picolExprOp_some s p o ho
          obtain ⟨n1, r1, h1, hp1⟩ :=
            (ih (s.length - (p + o.2.2)) (by omega) (p + o.2.2) rfl).2 i err (o.2.1 + 1)
          have hsk := picolSkip_ge s r1.p
          obtain ⟨n2, r2, h2, hp2⟩ :=
            (ih (s.length - picolSkip s r1.p) (by omega) (picolSkip s r1.p) rfl).1
              r1.interp r1.err prec (picolExprApply F o.1 a r1.val)
          refine ⟨n1 + n2 + s.length + 1 + 1, r2, ?_, by omega⟩
          rw [picolExprLoop_succ, ho]
          simp only
          rw [if_neg hlow, picolExpr_mono F h1 (by omega), Option.some_bind,
            picolExprSkip_big s _ _ (by omega), Option.some_bind]
          exact picolExprLoop_mono F h2 (by omega)
    have hloopLe : ∀ p', p' ≥ 0 → s.length - p' ≤ m →
        ∀ (i : picolInterp) (err : Bool) (prec : Int) (a : D),
        ∃ n r, picolExprLoop F n i s p' err prec a = some r ∧ p' ≤ r.p := by
      intro p' _ hp'
      rcases Nat.lt_or_ge (s.length - p') m with hlt | hge
      · exact (ih _ hlt p' rfl).1
      · exact hloop p' (by omega)
    intro p hp
    refine ⟨hloop p hp, ?_⟩
    intro i err prec
    by_cases hov : i.level + 1 > PICOL_MAX_RECURSION_LEVEL
    · have e := picolExpr_succ F 0 i s p err prec
      rw [if_pos hov] at e
      exact ⟨1, _, e, le_refl p⟩
    · have hs1 := picolSkip_ge s p
      -- the operand
      have hop : ∃ n r, picolExprOperand F n { i with level := i.level + 1 } s
          (picolSkip s p) err = some r ∧ p ≤ r.p ∧
          ∀ k, n ≤ k → picolExprOperand F k { i with level := i.level + 1 } s
            (picolSkip s p) err = some r := by
        by_cases c1 : charAt s (picolSkip s p) = '('
        · have hlt : picolSkip s p < s.length := by
            by_contra hge
            rw [charAt_of_length_le s _ (by omega)] at c1
            exact absurd c1 (by decide)
          obtain ⟨n1, r1, h1, hp1⟩ :=
            (ih (s.length - (picolSkip s p + 1)) (by omega) (picolSkip s p + 1) rfl).2
              { i with level := i.level + 1 } err 0
          have hsk := picolSkip_ge s r1.p
          by_cases c5 : charAt s (picolSkip s r1.p) = ')'
          · refine ⟨n1 + s.length + 1, { r1 with p := picolSkip s r1.p + 1 }, ?_, ?_, ?_⟩
            · unfold picolExprOperand
              rw [if_pos c1, picolExpr_mono F h1 (by omega), Option.some_bind,
                picolExprSkip_big s _ _ (by omega), Option.some_bind, if_pos c5]
            · simp only; omega
            · intro k hk
              unfold picolExprOperand
              rw [if_pos c1, picolExpr_mono F h1 (by omega), Option.some_bind,
                picolExprSkip_big s _ _ (by omega), Option.some_bind, if_pos c5]
          · refine ⟨n1 + s.length + 1, { r1 with p := picolSkip s r1.p, err := true }, ?_, ?_, ?_⟩
            · unfold picolExprOperand
              rw [if_pos c1, picolExpr_mono F h1 (by omega), Option.some_bind,
                picolExprSkip_big s _ _ (by omega), Option.some_bind, if_neg c5]
            · simp only; omega
            · intro k hk
              unfold picolExprOperand
              rw [if_pos c1, picolExpr_mono F h1 (by omega), Option.some_bind,
                picolExprSkip_big s _ _ (by omega), Option.some_bind, if_neg c5]
        · by_cases c2 : charAt s (picolSkip s p) = '-'
          · have hlt : picolSkip s p < s.length := by
              by_contra hge
              rw [charAt_of_length_le s _ (by omega)] at c2
              exact absurd c2 (by decide)
            obtain ⟨n1, r1, h1, hp1⟩ :=
              (ih (s.length - (picolSkip s p + 1)) (by omega) (picolSkip s p + 1) rfl).2
                { i with level := i.level + 1 } err 5
            refine ⟨n1, { r1 with val := F.neg r1.val }, ?_, ?_, ?_⟩
            · unfold picolExprOperand
              rw [if_neg c1, if_pos c2, h1, Option.some_bind]
            · simp only; omega
            · intro k hk
              unfold picolExprOperand
              rw [if_neg c1, if_pos c2, picolExpr_mono F h1 hk, Option.some_bind]
          · by_cases c3 : charAt s (picolSkip s p) = '+'
            · have hlt : picolSkip s p < s.length := by
                by_contra hge
                rw [charAt_of_length_le s _ (by omega)] at c3
                exact absurd c3 (by decide)
              obtain ⟨n1, r1, h1, hp1⟩ :=
                (ih (s.length - (picolSkip s p + 1)) (by omega) (picolSkip s p + 1) rfl).2
                  { i with level := i.level + 1 } err 5
              refine ⟨n1, r1, ?_, ?_, ?_⟩
              · unfold picolExprOperand
                rw [if_neg c1, if_neg c2, if_pos c3, h1]
              · omega
              · intro k hk
                unfold picolExprOperand
                rw [if_neg c1, if_neg c2, if_pos c3, picolExpr_mono F h1 hk]
            · refine ⟨0, picolExprResult.mk (F.strtod (s.drop (picolSkip s p))).1
                  { i with level := i.level + 1 }
                  (picolSkip s p + (F.strtod (s.drop (picolSkip s p))).2)
                  (if (F.strtod (s.drop (picolSkip s p))).2 = 0 then true else err),
                ?_, ?_, ?_⟩
              · unfold picolExprOperand
                rw [if_neg c1, if_neg c2, if_neg c3]
              · simp only; omega
              · intro k _
                unfold picolExprOperand
                rw [if_neg c1, if_neg c2, if_neg c3]
      obtain ⟨n1, r1, _, hp1, h1k⟩ := hop
      have hsk := picolSkip_ge s r1.p
      obtain ⟨n2, r2, h2, hp2⟩ := hloopLe (picolSkip s r1.p) (Nat.zero_le _) (by omega)
        r1.interp r1.err prec r1.val
      have e := picolExpr_succ F (n1 + n2 + s.length + 1) i s p err prec
      rw [if_neg hov, picolExprSkip_big s _ _ (by omega), Option.some_bind,
        h1k _ (by omega), Option.some_bind, picolExprSkip_big s _ _ (by omega),
        Option.some_bind, picolExprLoop_mono F h2 (by omega), Option.some_bind] at e
      exact ⟨_, _, e, by simp only; omega⟩

/-- `picolExpr` returns on every text, from every offset and in every state, given
enough fuel. -/
theorem picolExpr_total (i : picolInterp) (s : CStr) (p : Nat) (err : Bool) (prec : Int) :
    ∃ n r, picolExpr F n i s p err prec = some r :=
  let ⟨n, r, h, _⟩ := (picolExpr_total_aux F s (s.length - p) p rfl).2 i err prec
  ⟨n, r, h⟩

end

theorem picolExprTrail_total (s : CStr) :
    ∀ (m p : Nat), s.length - p ≤ m →
      ∃ n q, picolExprTrail n s p = some q ∧ p ≤ q ∧
        (∀ k, p ≤ k → k < q → charAt s k = ' ') ∧ charAt s q ≠ ' ' := by
  intro m
  induction m with
  | zero =>
    intro p hp
    have h0 : charAt s p ≠ ' ' := by
      rw [charAt_of_length_le s p (by omega)]
      decide
    refine ⟨1, p, ?_, le_refl p, ?_, h0⟩
    · simp only [picolExprTrail]
      rw [if_neg h0]
    · intro k h1 h2
      omega
  | succ m ih =>
    intro p hp
    by_cases h0 : charAt s p = ' '
    · have hlt : p < s.length := by
        by_contra hge
        rw [charAt_of_length_le s p (by omega)] at h0
        exact absurd h0 (by decide)
      obtain ⟨n, q, h1, h2, h3, h4⟩ := ih (p + 1) (by omega)
      refine ⟨n + 1, q, ?_, by omega, ?_, h4⟩
      · simp only [picolExprTrail]
        rw [if_pos h0]
        exact h1
      · intro k hk1 hk2
        rcases Nat.eq_or_lt_of_le hk1 with e | e
        · rw [← e]
          exact h0
        · exact h3 k (by omega) hk2
    · refine ⟨1, p, ?_, le_refl p, ?_, h0⟩
      · simp only [picolExprTrail]
        rw [if_neg h0]
      · intro k h1 h2
        omega

theorem picolOnlySpaces_end {s : CStr} {p q e : Nat} (hpq : p ≤ q)
    (hsp : ∀ k, p ≤ k → k < q → charAt s k = ' ') (hq : charAt s q ≠ ' ')
    (h : picolOnlySpaces s p e) : q = e := by
  obtain ⟨h1, h2, h3⟩ := h
  rcases Nat.lt_trichotomy q e with c | c | c
  · exact absurd (h2 q hpq c) hq
  · exact c
  · have := hsp e h1 c
    rw [h3] at this
    exact absurd this (by decide)


/-! ## C7: syntax errors of `expr` -/

section
variable {D : Type} (F : DoubleOps D)

/-- C7: with enough fuel the `expr` command, called with at least one argument,
returns.  When the space-joined text of its arguments is consumed entirely as one
well-formed expression that fits under the nesting limit, it returns `PICOL_OK` (and
the result is the formatted value); when the text is not, it returns `PICOL_ERR` and
the result is exactly `Error in expression`. -/
theorem C7_expr_syntax_errors (i : picolInterp) (argv : List CStr)
    (h : 2 ≤ argv.length) :
    ∃ n r, picolCommandExpr F n i argv = some r ∧
      ((∃ v, picolWellFormed F (picolExprJoin (argv.drop 1))
            (PICOL_MAX_RECURSION_LEVEL - i.level) v ∧
          r = (PICOL_OK, picolSetResult i (snprintf 64 (F.fmt12g v)))) ∨
       ((¬ ∃ v, picolWellFormed F (picolExprJoin (argv.drop 1))
            (PICOL_MAX_RECURSION_LEVEL - i.level) v) ∧
          r = (PICOL_ERR, picolSetResult i "Error in expression".toList))) := by
  obtain ⟨n1, r1, h1⟩ := picolExpr_total F i (picolExprJoin (argv.drop 1)) 0 false 0
  obtain ⟨n2, q, h2, hq1, hq2, hq3⟩ :=
    picolExprTrail_total (picolExprJoin (argv.drop 1)) _ r1.p (le_refl _)
  obtain ⟨hi, _, hd⟩ := (picolExpr_sound F n1).1 _ _ _ _ _ _ h1
  have hrun : ∀ k, n1 + n2 ≤ k → picolCommandExpr F k i argv =
      if (if charAt (picolExprJoin (argv.drop 1)) q ≠ '\x00' then true else r1.err) then
        some (PICOL_ERR, picolSetResult i "Error in expression".toList)
      else some (PICOL_OK, picolSetResult i (snprintf 64 (F.fmt12g r1.val))) := by
    intro k hk
    unfold picolCommandExpr
    rw [if_neg (by omega)]
    simp only
    rw [picolExpr_mono F h1 (by omega), Option.some_bind,
      picolExprTrail_mono h2 (by omega), Option.some_bind, hi]
  by_cases hok : charAt (picolExprJoin (argv.drop 1)) q = '\x00' ∧ r1.err = false
  · obtain ⟨d, hd1, hd2⟩ := hd hok.2
    have hr := hrun _ (le_refl _)
    rw [if_neg (not_not.mpr hok.1), hok.2, if_neg (by decide)] at hr
    exact ⟨n1 + n2, _, hr,
      Or.inl ⟨r1.val, ⟨r1.p, d, q, hd1, by omega, hq1, hq2, hok.1⟩, rfl⟩⟩
  · have hr := hrun _ (le_refl _)
    have hc : (if charAt (picolExprJoin (argv.drop 1)) q ≠ '\x00' then true else r1.err)
        = true := by
      by_cases c : charAt (picolExprJoin (argv.drop 1)) q = '\x00'
      · rw [if_neg (not_not.mpr c)]
        cases he : r1.err with
        | true => rfl
        | false => exact absurd ⟨c, he⟩ hok
      · rw [if_pos c]
    rw [if_pos hc] at hr
    refine ⟨n1 + n2, _, hr, Or.inr ⟨?_, rfl⟩⟩
    rintro ⟨v, q0, d, e, hw1, hw2, hw3⟩
    obtain ⟨n3, h3⟩ := picolExpr_complete F hw1 i false (by omega)
    have e1 := picolExpr_mono F h1 (Nat.le_max_left n1 n3)
    have e2 := picolExpr_mono F h3 (Nat.le_max_right n1 n3)
    rw [e1] at e2
    cases e2
    have := picolOnlySpaces_end hq1 hq2 hq3 hw3
    subst this
    exact hok ⟨hw3.2.2, rfl⟩

/-- Witness of C7: `expr 1 +` in the interpreter of the test program. -/
theorem C7_witness :
    2 ≤ ["expr".toList, "1".toList, "+".toList].length ∧
    ∃ n r, picolCommandExpr intDouble n picolCoreInterp
        ["expr".toList, "1".toList, "+".toList] = some r ∧
      ((∃ v, picolWellFormed intDouble
            (picolExprJoin (["expr".toList, "1".toList, "+".toList].drop 1))
            (PICOL_MAX_RECURSION_LEVEL - picolCoreInterp.level) v ∧
          r = (PICOL_OK, picolSetResult picolCoreInterp (snprintf 64 (intDouble.fmt12g v)))) ∨
       ((¬ ∃ v, picolWellFormed intDouble
            (picolExprJoin (["expr".toList, "1".toList, "+".toList].drop 1))
            (PICOL_MAX_RECURSION_LEVEL - picolCoreInterp.level) v) ∧
          r = (PICOL_ERR, picolSetResult picolCoreInterp "Error in expression".toList))) :=
  ⟨by decide, C7_expr_syntax_errors intDouble picolCoreInterp
    ["expr".toList, "1".toList, "+".toList] (by decide)⟩

/-- The examples of C7, run: a missing operand, an unmatched parenthesis and text
left after a complete expression give `PICOL_ERR` and `Error in expression`; `1 + 2`
gives `PICOL_OK` and `3`. -/
theorem picolCommandExpr_examples :
    picolCommandExpr intDouble 20 picolCoreInterp ["expr".toList, "1".toList, "+".toList]
      = some (PICOL_ERR, picolSetResult picolCoreInterp "Error in expression".toList) ∧
    picolCommandExpr intDouble 20 picolCoreInterp ["expr".toList, "(1".toList]
      = some (PICOL_ERR, picolSetResult picolCoreInterp "Error in expression".toList) ∧
    picolCommandExpr intDouble 20 picolCoreInterp ["expr".toList, "1".toList, "2".toList]
      = some (PICOL_ERR, picolSetResult picolCoreInterp "Error in expression".toList) ∧
    picolCommandExpr intDouble 20 picolCoreInterp
        ["expr".toList, "1".toList, "+".toList, "2".toList]
      = some (PICOL_OK, picolSetResult picolCoreInterp "3".toList) := by
  decide!

end

/-! ## C6: precedence and associativity -/

theorem charAt_of_drop {s y : CStr} {p : Nat} (h : s.drop p = y) (k : Nat) :
    charAt s (p + k) = charAt y k := by
  subst h
  unfold charAt
  rw [List.getD_eq_getElem?_getD, List.getD_eq_getElem?_getD, List.getElem?_drop]

theorem drop_of_drop_append {s x y : CStr} {p : Nat} (h : s.drop p = x ++ y) :
    s.drop (p + x.length) = y := by
  rw [← List.drop_drop, h, List.drop_left]

theorem drop_of_drop_cons {s y : CStr} {c : Char} {p : Nat} (h : s.drop p = c :: y) :
    s.drop (p + 1) = y := by
  rw [← List.drop_drop, h]
  rfl

theorem picolSkip_of_drop {s y : CStr} {p : Nat} (h : s.drop p = y) :
    picolSkip s p = p + picolCountSpaces y := by
  unfold picolSkip
  rw [h]

theorem picolExprOp_chars (s : CStr) (p : Nat) :
    picolExprOp s p = picolExprOp [charAt s p, charAt s (p + 1)] 0 := rfl

theorem picolExprOp_of_drop {s y : CStr} {p : Nat} (h : s.drop p = y) :
    picolExprOp s p = picolExprOp [charAt y 0, charAt y 1] 0 := by
  rw [picolExprOp_chars, ← charAt_of_drop h 0, ← charAt_of_drop h 1]
  rfl

/-- The table of the specification agrees with `picolExprOp`: where the text of an
operator of the table stands, followed by a space, `picolExprOp` finds that operator,
with the precedence of the table, and consumes its text. -/
theorem picolExprOp_specBinOps (o : CStr × Char × Int) (ho : o ∈ picolSpecBinOps)
    {s r : CStr} {p : Nat} (h : s.drop p = o.1 ++ ' ' :: r) :
    picolExprOp s p = some (o.2.1, o.2.2, o.1.length) := by
  rw [picolExprOp_of_drop h]
  simp only [picolSpecBinOps, List.mem_cons, List.mem_singleton, List.not_mem_nil,
    or_false] at ho
  rcases ho with e | e | e | e | e | e | e | e | e | e | e | e <;> subst e <;> rfl

theorem picolSpecBinOps_prec (o : CStr × Char × Int) (ho : o ∈ picolSpecBinOps) :
    0 ≤ o.2.2 ∧ o.2.2 < 5 := by
  simp only [picolSpecBinOps, List.mem_cons, List.mem_singleton, List.not_mem_nil,
    or_false] at ho
  rcases ho with e | e | e | e | e | e | e | e | e | e | e | e <;> subst e <;> decide

theorem picolCountSpaces_specBinOps (o : CStr × Char × Int) (ho : o ∈ picolSpecBinOps)
    (r : CStr) : picolCountSpaces (o.1 ++ r) = 0 := by
  simp only [picolSpecBinOps, List.mem_cons, List.mem_singleton, List.not_mem_nil,
    or_false] at ho
  rcases ho with e | e | e | e | e | e | e | e | e | e | e | e <;> subst e <;> rfl

theorem picolExprOp_end {s : CStr} {p : Nat} (h : s.drop p = []) :
    picolExprOp s p = none := by
  rw [picolExprOp_of_drop h]
  rfl

theorem picolUnsignedLiteral_head {lit : CStr} (h1 : lit ≠ [])
    (h2 : ∀ c ∈ lit, isdigit c = true ∨ c = '.') (r : CStr) :
    picolCountSpaces (lit ++ r) = 0 ∧ charAt (lit ++ r) 0 ≠ '(' ∧
      charAt (lit ++ r) 0 ≠ '-' ∧ charAt (lit ++ r) 0 ≠ '+' := by
  cases lit with
  | nil => exact absurd rfl h1
  | cons c t =>
    have hc := h2 c (List.mem_cons_self c t)
    have key : isExprSpace c = false ∧ c ≠ '(' ∧ c ≠ '-' ∧ c ≠ '+' := by
      rcases hc with hd | hd
      · refine ⟨?_, ?_, ?_, ?_⟩
        · cases hs : isExprSpace c with
          | false => rfl
          | true =>
            unfold isExprSpace at hs
            rw [decide_eq_true_eq] at hs
            rcases hs with e | e | e | e <;> subst e <;> exact absurd hd (by decide)
        · intro e; subst e; exact absurd hd (by decide)
        · intro e; subst e; exact absurd hd (by decide)
        · intro e; subst e; exact absurd hd (by decide)
      · subst hd
        decide
    refine ⟨?_, key.2.1, key.2.2.1, key.2.2.2⟩
    show (if isExprSpace c then picolCountSpaces (t ++ r) + 1 else 0) = 0
    rw [key.1]
    rfl

section
variable {D : Type} (F : DoubleOps D)

/-- A literal followed by the rest of an expression. -/
theorem ExprDeriv_literal_of_drop {s lit r : CStr} {p p1 p2 : Nat} {v w : D} {prec : Int}
    {q d : Nat} (hskip : picolSkip s p = p1) (hdrop : s.drop p1 = lit ++ r)
    (hlit : picolUnsignedLiteral F lit v) (hr : r = [] ∨ ∃ t, r = ' ' :: t)
    (hp2 : p1 + lit.length + picolCountSpaces r = p2)
    (hnext : ExprDeriv F s (some v) prec p2 w q d) :
    ExprDeriv F s none prec p w q (d + 1) := by
  obtain ⟨h1, h2, h3, h4⟩ := hlit
  obtain ⟨_, k1, k2, k3⟩ := picolUnsignedLiteral_head h1 h2 r
  have hch : charAt s (picolSkip s p) = charAt (lit ++ r) 0 := by
    rw [hskip]
    exact charAt_of_drop hdrop 0
  have hst : F.strtod (s.drop (picolSkip s p)) = (v, lit.length) := by
    rw [hskip, hdrop]
    rcases hr with e | ⟨t, e⟩
    · rw [e, List.append_nil]
      exact h3
    · rw [e]
      exact h4 t
  refine ExprDeriv.literal prec p w q d (by rw [hch]; exact k1) (by rw [hch]; exact k2)
    (by rw [hch]; exact k3) ?_ ?_
  · rw [hst]
    exact fun e => h1 (List.length_eq_zero.mp e)
  · rw [hst]
    simp only
    rw [hskip, picolSkip_of_drop (drop_of_drop_append hdrop), hp2]
    exact hnext

/-- At the end of the text no operator stands. -/
theorem ExprDeriv_stop_of_end {s : CStr} {p : Nat} (h : s.drop p = []) (a : D)
    (prec : Int) : ExprDeriv F s (some a) prec p a p 0 := by
  refine ExprDeriv.stop prec a p ?_
  intro o ho
  rw [picolExprOp_end h] at ho
  cases ho

/-- An operator of the table whose precedence is below the minimum is left. -/
theorem ExprDeriv_stop_of_op {s r : CStr} {p : Nat} (o : CStr × Char × Int)
    (ho : o ∈ picolSpecBinOps) (h : s.drop p = o.1 ++ ' ' :: r) (a : D)
    (prec : Int) (hlow : o.2.2 < prec) : ExprDeriv F s (some a) prec p a p 0 := by
  refine ExprDeriv.stop prec a p ?_
  intro o1 ho1
  rw [picolExprOp_specBinOps o ho h] at ho1
  cases ho1
  exact hlow

/-- An operator of the table whose precedence is not below the minimum is applied to
the operands read so far and to its right operand. -/
theorem ExprDeriv_step_of_op {s r : CStr} {p : Nat} (o : CStr × Char × Int)
    (ho : o ∈ picolSpecBinOps) (h : s.drop p = o.1 ++ ' ' :: r) (a : D)
    (prec : Int) (hhigh : ¬ o.2.2 < prec) {b v : D} {q1 d1 q2 q d : Nat}
    (hright : ExprDeriv F s none (o.2.2 + 1) (p + o.1.length) b q1 d1)
    (hq2 : picolSkip s q1 = q2)
    (hnext : ExprDeriv F s (some (picolExprApply F o.2.1 a b)) prec q2 v q d) :
    ExprDeriv F s (some a) prec p v q (max d1 d) := by
  subst hq2
  exact ExprDeriv.step prec a p (o.2.1, o.2.2, o.1.length) b q1 d1 v q d
    (picolExprOp_specBinOps o ho h) hhigh hright hnext

/-- A literal that ends the text. -/
theorem ExprDeriv_literal_end {s lit : CStr} {p p1 : Nat} {v : D} (prec : Int)
    (hskip : picolSkip s p = p1) (hdrop : s.drop p1 = lit)
    (hlit : picolUnsignedLiteral F lit v) :
    ExprDeriv F s none prec p v (p1 + lit.length) (0 + 1) := by
  have hd : s.drop p1 = lit ++ [] := by rw [List.append_nil]; exact hdrop
  exact ExprDeriv_literal_of_drop F hskip hd hlit (Or.inl rfl) rfl
    (ExprDeriv_stop_of_end F (drop_of_drop_append hd) v prec)

/-- A literal followed by a space and an operator of the table. -/
theorem ExprDeriv_literal_op {s lit r : CStr} {p p1 : Nat} {v w : D} {prec : Int}
    {q d : Nat} (o : CStr × Char × Int) (ho : o ∈ picolSpecBinOps)
    (hskip : picolSkip s p = p1) (hdrop : s.drop p1 = lit ++ ' ' :: (o.1 ++ r))
    (hlit : picolUnsignedLiteral F lit v)
    (hnext : ExprDeriv F s (some v) prec (p1 + lit.length + 1) w q d) :
    ExprDeriv F s none prec p w q (d + 1) := by
  refine ExprDeriv_literal_of_drop F hskip hdrop hlit (Or.inr ⟨_, rfl⟩) ?_ hnext
  show p1 + lit.length + (if isExprSpace ' ' then picolCountSpaces (o.1 ++ r) + 1 else 0) = _
  rw [picolCountSpaces_specBinOps o ho]
  rfl

theorem picolSkip_space_literal {s lit r : CStr} {p : Nat} {v : D}
    (hdrop : s.drop p = ' ' :: (lit ++ r)) (hlit : picolUnsignedLiteral F lit v) :
    picolSkip s p = p + 1 := by
  rw [picolSkip_of_drop hdrop]
  show p + (if isExprSpace ' ' then picolCountSpaces (lit ++ r) + 1 else 0) = _
  rw [(picolUnsignedLiteral_head hlit.1 hlit.2.1 r).1]
  rfl

theorem picolSkip_literal {s lit r : CStr} {p : Nat} {v : D}
    (hdrop : s.drop p = lit ++ r) (hlit : picolUnsignedLiteral F lit v) :
    picolSkip s p = p := by
  rw [picolSkip_of_drop hdrop, (picolUnsignedLiteral_head hlit.1 hlit.2.1 r).1]
  rfl

theorem picolSkip_specBinOps {s r : CStr} {p : Nat} (o : CStr × Char × Int)
    (ho : o ∈ picolSpecBinOps) (hdrop : s.drop p = o.1 ++ r) : picolSkip s p = p := by
  rw [picolSkip_of_drop hdrop, picolCountSpaces_specBinOps o ho]
  rfl

theorem picolSkip_end {s : CStr} {p : Nat} (hdrop : s.drop p = []) : picolSkip s p = p := by
  rw [picolSkip_of_drop hdrop]
  rfl

/-- The expression `a op1 b op2 c` when `op2` does not bind tighter than `op1`. -/
theorem ExprDeriv_infix_left {a b c : CStr} {va vb vc : D} (o1 o2 : CStr × Char × Int)
    (ha : picolUnsignedLiteral F a va) (hb : picolUnsignedLiteral F b vb)
    (hc : picolUnsignedLiteral F c vc) (h1 : o1 ∈ picolSpecBinOps)
    (h2 : o2 ∈ picolSpecBinOps) (hp : o2.2.2 ≤ o1.2.2) :
    ExprDeriv F (picolInfixText a o1.1 b o2.1 c) none 0 0
      (picolExprApply F o2.2.1 (picolExprApply F o1.2.1 va vb) vc)
      (picolInfixText a o1.1 b o2.1 c).length 2 := by
  have d0 : (picolInfixText a o1.1 b o2.1 c).drop 0 =
      a ++ ' ' :: (o1.1 ++ ' ' :: (b ++ ' ' :: (o2.1 ++ ' ' :: c))) := rfl
  have d2 := drop_of_drop_cons (drop_of_drop_append d0)
  have d3 := drop_of_drop_append d2
  have d4 := drop_of_drop_cons d3
  have d6 := drop_of_drop_cons (drop_of_drop_append d4)
  have d7 := drop_of_drop_append d6
  have d8 := drop_of_drop_cons d7
  have d7n : (picolInfixText a o1.1 b o2.1 c).drop
      (0 + a.length + 1 + o1.1.length + 1 + b.length + 1 + o2.1.length) = ' ' :: (c ++ []) := by
    rw [List.append_nil]; exact d7
  have d8n : (picolInfixText a o1.1 b o2.1 c).drop
      (0 + a.length + 1 + o1.1.length + 1 + b.length + 1 + o2.1.length + 1) = c ++ [] := by
    rw [List.append_nil]; exact d8
  have d9 := drop_of_drop_append d8n
  have hlen : (picolInfixText a o1.1 b o2.1 c).length =
      0 + a.length + 1 + o1.1.length + 1 + b.length + 1 + o2.1.length + 1 + c.length := by
    simp only [picolInfixText, List.length_append, List.length_cons]
    omega
  rw [hlen]
  have e : (2 : Nat) = max (0 + 1) (max (0 + 1) 0) + 1 := by decide
  rw [e]
  refine ExprDeriv_literal_op F o1 h1 (picolSkip_literal F d0 ha) d0 ha ?_
  refine ExprDeriv_step_of_op F o1 h1 d2 va 0 (by have := (picolSpecBinOps_prec o1 h1).1; omega)
    (ExprDeriv_literal_op F o2 h2 (picolSkip_space_literal F d3 hb) d4 hb
      (ExprDeriv_stop_of_op F o2 h2 d6 vb _ (by omega)))
    (picolSkip_specBinOps o2 h2 d6) ?_
  exact ExprDeriv_step_of_op F o2 h2 d6 _ 0 (by have := (picolSpecBinOps_prec o2 h2).1; omega)
    (ExprDeriv_literal_end F _ (picolSkip_space_literal F d7n hc) d8 hc)
    (picolSkip_end d9) (ExprDeriv_stop_of_end F d9 _ 0)

/-- The expression `a op1 b op2 c` when `op2` binds tighter than `op1`. -/
theorem ExprDeriv_infix_right {a b c : CStr} {va vb vc : D} (o1 o2 : CStr × Char × Int)
    (ha : picolUnsignedLiteral F a va) (hb : picolUnsignedLiteral F b vb)
    (hc : picolUnsignedLiteral F c vc) (h1 : o1 ∈ picolSpecBinOps)
    (h2 : o2 ∈ picolSpecBinOps) (hp : o1.2.2 < o2.2.2) :
    ExprDeriv F (picolInfixText a o1.1 b o2.1 c) none 0 0
      (picolExprApply F o1.2.1 va (picolExprApply F o2.2.1 vb vc))
      (picolInfixText a o1.1 b o2.1 c).length 3 := by
  have d0 : (picolInfixText a o1.1 b o2.1 c).drop 0 =
      a ++ ' ' :: (o1.1 ++ ' ' :: (b ++ ' ' :: (o2.1 ++ ' ' :: c))) := rfl
  have d2 := drop_of_drop_cons (drop_of_drop_append d0)
  have d3 := drop_of_drop_append d2
  have d4 := drop_of_drop_cons d3
  have d6 := drop_of_drop_cons (drop_of_drop_append d4)
  have d7 := drop_of_drop_append d6
  have d8 := drop_of_drop_cons d7
  have d7n : (picolInfixText a o1.1 b o2.1 c).drop
      (0 + a.length + 1 + o1.1.length + 1 + b.length + 1 + o2.1.length) = ' ' :: (c ++ []) := by
    rw [List.append_nil]; exact d7
  have d8n : (picolInfixText a o1.1 b o2.1 c).drop
      (0 + a.length + 1 + o1.1.length + 1 + b.length + 1 + o2.1.length + 1) = c ++ [] := by
    rw [List.append_nil]; exact d8
  have d9 := drop_of_drop_append d8n
  have hlen : (picolInfixText a o1.1 b o2.1 c).length =
      0 + a.length + 1 + o1.1.length + 1 + b.length + 1 + o2.1.length + 1 + c.length := by
    simp only [picolInfixText, List.length_append, List.length_cons]
    omega
  rw [hlen]
  have e : (3 : Nat) = max (max (0 + 1) 0 + 1) 0 + 1 := by decide
  rw [e]
  refine ExprDeriv_literal_op F o1 h1 (picolSkip_literal F d0 ha) d0 ha ?_
  refine ExprDeriv_step_of_op F o1 h1 d2 va 0 (by have := (picolSpecBinOps_prec o1 h1).1; omega)
    (ExprDeriv_literal_op F o2 h2 (picolSkip_space_literal F d3 hb) d4 hb ?_)
    (picolSkip_end d9) (ExprDeriv_stop_of_end F d9 _ 0)
  exact ExprDeriv_step_of_op F o2 h2 d6 vb _ (by omega)
    (ExprDeriv_literal_end F _ (picolSkip_space_literal F d7n hc) d8 hc)
    (picolSkip_end d9) (ExprDeriv_stop_of_end F d9 _ _)

/-- The expression `-a op b`. -/
theorem ExprDeriv_neg_text {a b : CStr} {va vb : D} (o : CStr × Char × Int)
    (ha : picolUnsignedLiteral F a va) (hb : picolUnsignedLiteral F b vb)
    (ho : o ∈ picolSpecBinOps) :
    ExprDeriv F (picolNegText a o.1 b) none 0 0
      (picolExprApply F o.2.1 (F.neg va) vb) (picolNegText a o.1 b).length 2 := by
  have d0 : (picolNegText a o.1 b).drop 0 = '-' :: (a ++ ' ' :: (o.1 ++ ' ' :: b)) := rfl
  have d1 := drop_of_drop_cons d0
  have d3 := drop_of_drop_cons (drop_of_drop_append d1)
  have d4 := drop_of_drop_append d3
  have d5 := drop_of_drop_cons d4
  have d4n : (picolNegText a o.1 b).drop (0 + 1 + a.length + 1 + o.1.length) =
      ' ' :: (b ++ []) := by
    rw [List.append_nil]; exact d4
  have d5n : (picolNegText a o.1 b).drop (0 + 1 + a.length + 1 + o.1.length + 1) =
      b ++ [] := by
    rw [List.append_nil]; exact d5
  have d6 := drop_of_drop_append d5n
  have hlen : (picolNegText a o.1 b).length =
      0 + 1 + a.length + 1 + o.1.length + 1 + b.length := by
    simp only [picolNegText, List.length_append, List.length_cons]
    omega
  rw [hlen]
  have hs : picolSkip (picolNegText a o.1 b) 0 = 0 := by
    rw [picolSkip_of_drop d0]
    rfl
  have hch : charAt (picolNegText a o.1 b) (picolSkip (picolNegText a o.1 b) 0) = '-' := by
    rw [hs]
    exact charAt_of_drop d0 0
  have e : (2 : Nat) = max (0 + 1) (max (0 + 1) 0) + 1 := by decide
  rw [e]
  refine ExprDeriv.neg 0 0 va (0 + 1 + a.length + 1) (0 + 1) _ _ _ hch ?_ ?_
  · rw [hs]
    exact ExprDeriv_literal_op F o ho (picolSkip_literal F d1 ha) d1 ha
      (ExprDeriv_stop_of_op F o ho d3 va 5 (picolSpecBinOps_prec o ho).2)
  · rw [picolSkip_specBinOps o ho d3]
    exact ExprDeriv_step_of_op F o ho d3 _ 0
      (by have := (picolSpecBinOps_prec o ho).1; omega)
      (ExprDeriv_literal_end F _ (picolSkip_space_literal F d4n hb) d5 hb)
      (picolSkip_end d6) (ExprDeriv_stop_of_end F d6 _ 0)

/-- C6: for unsigned decimal literals `a`, `b`, `c` (read by `strtod` with the values
`va`, `vb`, `vc`) and binary operators `op1`, `op2` of the table `||` 0, `&&` 1,
comparisons 2, `+ -` 3, `* /` 4, with room for three nested invocations under the
recursion limit, `picolExpr` reads the whole text `a op1 b op2 c` without error and
gives `(a op1 b) op2 c` when the precedence of `op2` is at most that of `op1`, and
`a op1 (b op2 c)` when it is greater; it reads the whole text `-a op1 b` and gives
`(-a) op1 b`. -/
theorem C6_expr_precedence (i : picolInterp) (a b c : CStr) (va vb vc : D)
    (o1 o2 : CStr × Char × Int)
    (ha : picolUnsignedLiteral F a va) (hb : picolUnsignedLiteral F b vb)
    (hc : picolUnsignedLiteral F c vc) (h1 : o1 ∈ picolSpecBinOps)
    (h2 : o2 ∈ picolSpecBinOps) (hlev : i.level + 3 ≤ PICOL_MAX_RECURSION_LEVEL) :
    (o2.2.2 ≤ o1.2.2 →
      ∃ n, picolExpr F n i (picolInfixText a o1.1 b o2.1 c) 0 false 0 =
        some { val := picolExprApply F o2.2.1 (picolExprApply F o1.2.1 va vb) vc,
               interp := i, p := (picolInfixText a o1.1 b o2.1 c).length, err := false }) ∧
    (o1.2.2 < o2.2.2 →
      ∃ n, picolExpr F n i (picolInfixText a o1.1 b o2.1 c) 0 false 0 =
        some { val := picolExprApply F o1.2.1 va (picolExprApply F o2.2.1 vb vc),
               interp := i, p := (picolInfixText a o1.1 b o2.1 c).length, err := false }) ∧
    (∃ n, picolExpr F n i (picolNegText a o1.1 b) 0 false 0 =
        some { val := picolExprApply F o1.2.1 (F.neg va) vb,
               interp := i, p := (picolNegText a o1.1 b).length, err := false }) := by
  refine ⟨fun hp => ?_, fun hp => ?_, ?_⟩
  · exact picolExpr_complete F (ExprDeriv_infix_left F o1 o2 ha hb hc h1 h2 hp) i false
      (by push_cast; omega)
  · exact picolExpr_complete F (ExprDeriv_infix_right F o1 o2 ha hb hc h1 h2 hp) i false
      (by push_cast; omega)
  · exact picolExpr_complete F (ExprDeriv_neg_text F o1 ha hb h1) i false
      (by push_cast; omega)

end

/-- Witness of C6: `2 + 3 * 4` is 14, `2 * 3 + 4` is 10 and `-5 + 3` is -2. -/
theorem C6_witness :
    (∃ n, picolExpr intDouble n picolCoreInterp "2 + 3 * 4".toList 0 false 0 =
      some { val := 14, interp := picolCoreInterp, p := 9, err := false }) ∧
    (∃ n, picolExpr intDouble n picolCoreInterp "2 * 3 + 4".toList 0 false 0 =
      some { val := 10, interp := picolCoreInterp, p := 9, err := false }) ∧
    (∃ n, picolExpr intDouble n picolCoreInterp "-5 + 3".toList 0 false 0 =
      some { val := -2, interp := picolCoreInterp, p := 6, err := false }) :=
  ⟨(C6_expr_precedence intDouble picolCoreInterp "2".toList "3".toList "4".toList 2 3 4
      ("+".toList, '+', 3) ("*".toList, '*', 4)
      ⟨by decide, by decide, rfl, fun _ => rfl⟩ ⟨by decide, by decide, rfl, fun _ => rfl⟩
      ⟨by decide, by decide, rfl, fun _ => rfl⟩ (by decide) (by decide) (by decide)).2.1
      (by decide),
   (C6_expr_precedence intDouble picolCoreInterp "2".toList "3".toList "4".toList 2 3 4
      ("*".toList, '*', 4) ("+".toList, '+', 3)
      ⟨by decide, by decide, rfl, fun _ => rfl⟩ ⟨by decide, by decide, rfl, fun _ => rfl⟩
      ⟨by decide, by decide, rfl, fun _ => rfl⟩ (by decide) (by decide) (by decide)).1
      (by decide),
   (C6_expr_precedence intDouble picolCoreInterp "5".toList "3".toList "3".toList 5 3 3
      ("+".toList, '+', 3) ("+".toList, '+', 3)
      ⟨by decide, by decide, rfl, fun _ => rfl⟩ ⟨by decide, by decide, rfl, fun _ => rfl⟩
      ⟨by decide, by decide, rfl, fun _ => rfl⟩ (by decide) (by decide) (by decide)).2.2⟩


/-! ## The parameter loop of `picolCommandCallProc` -/

theorem picolArgsScan_eq (s : CStr) (hs : ∀ c ∈ s, c ≠ '\x00') :
    ∀ (n p : Nat), ((s.drop p).takeWhile fun c => decide (¬ c = ' ')).length < n →
      picolArgsScan n s p =
        some (p + ((s.drop p).takeWhile fun c => decide (¬ c = ' ')).length) := by
  intro n
  induction n with
  | zero => intro p h; omega
  | succ n ih =>
    intro p h
    rcases Nat.lt_or_ge p s.length with hl | hl
    · rw [drop_eq_charAt_cons s p hl] at h ⊢
      have hmem : charAt s p ∈ s := by
        unfold charAt
        rw [List.getD_eq_getElem?_getD, List.getElem?_eq_getElem hl]
        exact List.getElem_mem hl
      have hn := hs _ hmem
      by_cases hc : charAt s p = ' '
      · simp only [picolArgsScan, hc, List.takeWhile_cons]
        simp
      · simp only [picolArgsScan, List.takeWhile_cons, hc, hn, ne_eq, not_false_eq_true,
          and_self, if_true, decide_True, List.length_cons] at h ⊢
        rw [ih (p + 1) (by omega)]
        congr 1
        omega
    · have h0 : charAt s p = '\x00' := charAt_of_length_le s p hl
      simp only [picolArgsScan, h0, List.drop_of_length_le hl]
      simp

theorem picolParams_nil : picolParams [] = [] := rfl

theorem picolParams_space (s : CStr) : picolParams (' ' :: s) = picolParams s := by
  unfold picolParams List.splitOn
  rw [List.splitOnP_cons]
  simp

theorem picolParams_word (w s : CStr) (hw : w ≠ []) (h : ∀ c ∈ w, ¬ c = ' ') :
    picolParams (w ++ ' ' :: s) = w :: picolParams s := by
  unfold picolParams List.splitOn
  rw [List.splitOnP_first _ _ (by simpa using h) ' ' (by simp)]
  simp [hw]

theorem picolParams_single (w : CStr) (hw : w ≠ []) (h : ∀ c ∈ w, ¬ c = ' ') :
    picolParams w = [w] := by
  unfold picolParams List.splitOn
  rw [List.splitOnP_eq_single _ _ (by simpa using h)]
  simp [hw]

theorem takeWhile_notSpace (s : CStr) :
    ∀ c ∈ s.takeWhile (fun c => decide (¬ c = ' ')), ¬ c = ' ' := by
  intro c hc
  simpa using List.mem_takeWhile_imp hc

theorem dropWhile_notSpace (s : CStr) :
    s.dropWhile (fun c => decide (¬ c = ' ')) = [] ∨
      ∃ t, s.dropWhile (fun c => decide (¬ c = ' ')) = ' ' :: t := by
  induction s with
  | nil => exact Or.inl rfl
  | cons c t ih =>
    by_cases hc : c = ' '
    · right
      refine ⟨t, ?_⟩
      rw [List.dropWhile_cons_of_neg (by simpa using hc), hc]
    · rw [List.dropWhile_cons_of_pos (by simpa using hc)]
      exact ih

theorem picolArgsLoop_succ (n : Nat) (i : picolInterp) (argv : List CStr) (alist : CStr)
    (p : Nat) (arity : Int) :
    picolArgsLoop (n + 1) i argv alist p arity =
      (picolArgsScan n alist p).bind fun p1 =>
      if charAt alist p1 ≠ '\x00' ∧ p1 = p then picolArgsLoop n i argv alist (p1 + 1) arity
      else if p1 = p then some (.done i arity)
      else
        if arity + 1 > (argv.length : Int) - 1 then some (.arityerr i)
        else if isupper (charAt ((alist.drop p).take (p1 - p)) 0) then
          some (.err i (picolUpcaseParam ((alist.drop p).take (p1 - p))))
        else
          if charAt alist p1 = '\x00' then
            some (.done (picolSetVar i ((alist.drop p).take (p1 - p))
              (argv.getD (arity + 1).toNat [])) (arity + 1))
          else picolArgsLoop n (picolSetVar i ((alist.drop p).take (p1 - p))
              (argv.getD (arity + 1).toNat [])) argv alist (p1 + 1) (arity + 1) := rfl

/-- The parameter loop of `picolCommandCallProc` binds the space-separated names of
the argument list one after the other, as `picolBindParams` words it. -/
theorem picolArgsLoop_params (alist : CStr) (hs : ∀ c ∈ alist, c ≠ '\x00')
    (argv : List CStr) :
    ∀ (m p n : Nat) (i : picolInterp) (arity : Int),
      alist.length - p ≤ m → alist.length - p + 2 ≤ n →
      picolArgsLoop n i argv alist p arity =
        some (picolBindParams argv i arity (picolParams (alist.drop p))) := by
  intro m
  induction m using Nat.strong_induction_on with
  | _ m ih =>
    intro p n i arity hm hn
    obtain ⟨n, rfl⟩ : ∃ k, n = k + 1 := ⟨n - 1, by omega⟩
    rw [picolArgsLoop_succ]
    have hwlen : ((alist.drop p).takeWhile fun c => decide (¬ c = ' ')).length ≤
        alist.length - p := by
      have := (List.takeWhile_sublist (fun c => decide (¬ c = ' ')) (l := alist.drop p)).length_le
      rw [List.length_drop] at this
      exact this
    rw [picolArgsScan_eq alist hs n p (by omega), Option.some_bind]
    generalize hw : (alist.drop p).takeWhile (fun c => decide (¬ c = ' ')) = w at hwlen ⊢
    have hsplit : alist.drop p = w ++ (alist.drop p).dropWhile (fun c => decide (¬ c = ' ')) := by
      rw [← hw, List.takeWhile_append_dropWhile]
    have hwsp : ∀ c ∈ w, ¬ c = ' ' := by
      rw [← hw]
      exact takeWhile_notSpace _
    have htake : (alist.drop p).take (p + w.length - p) = w := by
      rw [Nat.add_sub_cancel_left, hsplit, List.take_left]
    rw [htake]
    rcases dropWhile_notSpace (alist.drop p) with hd | ⟨t, hd⟩
    · rw [hd, List.append_nil] at hsplit
      have hch : charAt alist (p + w.length) = '\x00' := by
        have h1 : alist.drop p = w ++ [] := by rw [List.append_nil]; exact hsplit
        have := charAt_of_drop (drop_of_drop_append h1) 0
        rw [Nat.add_zero] at this
        rw [this]
        rfl
      rw [hsplit]
      by_cases hw0 : w = []
      · subst hw0
        have hch0 : charAt alist p = '\x00' := hch
        rw [if_neg (fun h => h.1 hch0), if_pos (by simp), picolParams_nil]
        rfl
      · have hne : ¬ (p + w.length = p) := by
          have := List.length_pos.mpr hw0
          omega
        rw [if_neg (fun h => hne h.2), if_neg hne, picolParams_single w hw0 hwsp]
        simp only [picolBindParams, hch, if_true]
        repeat' split
        all_goals rfl
    · rw [hd] at hsplit
      have hch : charAt alist (p + w.length) = ' ' := by
        have := charAt_of_drop (drop_of_drop_append hsplit) 0
        rw [Nat.add_zero] at this
        rw [this]
        rfl
      have hdrop : alist.drop (p + w.length + 1) = t :=
        drop_of_drop_cons (drop_of_drop_append hsplit)
      have hlt : p + w.length < alist.length := by
        by_contra hge
        rw [charAt_of_length_le alist _ (by omega)] at hch
        exact absurd hch (by decide)
      rw [hsplit]
      by_cases hw0 : w = []
      · subst hw0
        rw [if_pos ⟨by rw [hch]; decide, by simp⟩, List.nil_append, picolParams_space]
        have := ih (alist.length - (p + 1)) (by simp at hlt; omega) (p + 1) n i arity
          (le_refl _) (by simp at hlt; omega)
        simp only [List.length_nil, Nat.add_zero] at hdrop ⊢
        rw [this, hdrop]
      · have hne : ¬ (p + w.length = p) := by
          have := List.length_pos.mpr hw0
          omega
        rw [if_neg (fun h => hne h.2), if_neg hne, picolParams_word w t hw0 hwsp]
        have hnn : ¬ (charAt alist (p + w.length) = '\x00') := by rw [hch]; decide
        simp only [picolBindParams, hnn, if_false]
        have := fun j a => ih (alist.length - (p + w.length + 1)) (by omega)
          (p + w.length + 1) n j a (le_refl _) (by omega)
        simp only [this, hdrop]
        repeat' split
        all_goals rfl


/-! ## C11 and C12: calls that fail while the parameters are bound -/

theorem picolSetVar_child (i : picolInterp) (vs : List picolVar) (par : picolCallFrame)
    (name val : CStr) (hi : i.callframe = .child vs par)
    (hn : isupper (charAt name 0) = false) :
    picolSetVar i name val =
      { i with callframe := .child (picolSetVarIn vs name val) par } := by
  unfold picolSetVar
  rw [hn, hi]
  rfl

theorem picolBindParams_cons (argv : List CStr) (i : picolInterp) (arity : Int) (w : CStr)
    (ws : List CStr) :
    picolBindParams argv i arity (w :: ws) =
      if arity + 1 > (argv.length : Int) - 1 then .arityerr i
      else if isupper (charAt w 0) then .err i (picolUpcaseParam w)
      else picolBindParams argv (picolSetVar i w (argv.getD (arity + 1).toNat []))
        (arity + 1) ws := rfl

theorem picolInterp_callframe_eta (i : picolInterp) (vs : List picolVar)
    (par : picolCallFrame) (hi : i.callframe = .child vs par) :
    ({ i with callframe := .child vs par } : picolInterp) = i := by
  cases i
  simp only at hi
  subst hi
  rfl

/-- Binding parameter names without an uppercase first letter touches the variables
of the current frame only; it goes on with the names that follow when there are
arguments for all of them, and fails with the arity error otherwise. -/
theorem picolBindParams_lower (argv : List CStr) (par : picolCallFrame) :
    ∀ (pre rest : List CStr) (i : picolInterp) (vs : List picolVar) (arity : Int),
      (∀ w ∈ pre, isupper (charAt w 0) = false) → i.callframe = .child vs par →
      arity ≤ (argv.length : Int) - 1 →
      ∃ ws, (arity + pre.length ≤ (argv.length : Int) - 1 →
              picolBindParams argv i arity (pre ++ rest) =
                picolBindParams argv { i with callframe := .child ws par }
                  (arity + pre.length) rest) ∧
            (¬ arity + pre.length ≤ (argv.length : Int) - 1 →
              picolBindParams argv i arity (pre ++ rest) =
                .arityerr { i with callframe := .child ws par }) := by
  intro pre
  induction pre with
  | nil =>
    intro rest i vs arity _ hi ha
    refine ⟨vs, fun _ => ?_, fun h => ?_⟩
    · rw [picolInterp_callframe_eta i vs par hi]
      simp
    · simp at h
      omega
  | cons w pre ih =>
    intro rest i vs arity hlow hi ha
    have hw := hlow w (List.mem_cons_self _ _)
    rw [List.cons_append, picolBindParams_cons]
    by_cases h1 : arity + 1 > (argv.length : Int) - 1
    · refine ⟨vs, fun h => ?_, fun _ => ?_⟩
      · simp only [List.length_cons] at h
        push_cast at h
        omega
      · rw [picolInterp_callframe_eta i vs par hi, if_pos h1]
    · obtain ⟨ws, k1, k2⟩ := ih rest
        { i with callframe := .child (picolSetVarIn vs w (argv.getD (arity + 1).toNat [])) par }
        (picolSetVarIn vs w (argv.getD (arity + 1).toNat [])) (arity + 1)
        (fun x hx => hlow x (List.mem_cons_of_mem _ hx)) rfl (by omega)
      have e : (arity + ((w :: pre).length : Int)) = arity + 1 + (pre.length : Int) := by
        simp only [List.length_cons]
        push_cast
        omega
      rw [if_neg h1, hw, if_neg (by decide), picolSetVar_child i vs par w _ hi hw, e]
      exact ⟨ws, k1, k2⟩

theorem picolCallProcErr_child (i : picolInterp) (ws : List picolVar) (errbuf : CStr) :
    picolCallProcErr { i with callframe := .child ws i.callframe } errbuf =
      some (PICOL_ERR, picolSetResult i errbuf) := rfl

section
variable {D : Type} (F : DoubleOps D)

/-- A call with the wrong number of arguments of a procedure whose parameter names
have no uppercase first letter: the arity error, whatever the body. -/
theorem picolCommandCallProc_arity (i : picolInterp) (name : CStr) (args : List CStr)
    (cmd : picolCmd)
    (alist : CStr) (ha : cmd.arglist = some alist) (hnul : ∀ c ∈ alist, c ≠ '\x00')
    (hlow : ∀ w ∈ picolParams alist, isupper (charAt w 0) = false)
    (hm : (picolParams alist).length ≠ args.length)
    (n : Nat) (hn : alist.length + 3 ≤ n) :
    picolCommandCallProc F n i (name :: args) cmd =
      some (PICOL_ERR, picolSetResult i (picolWrongArgNum name)) := by
  have hlen : (((name :: args).length : Nat) : Int) - 1 = (args.length : Int) := by
    simp only [List.length_cons]
    push_cast
    omega
  have hname : (name :: args).getD 0 [] = name := rfl
  obtain ⟨n, rfl⟩ : ∃ k, n = k + 1 := ⟨n - 1, by omega⟩
  rw [picolCommandCallProc_succ, ha, Option.some_bind,
    picolArgsLoop_params alist hnul (name :: args) _ 0 n _ 0 (le_refl _) (by omega), Option.some_bind,
    List.drop_zero]
  obtain ⟨ws, k1, k2⟩ := picolBindParams_lower (name :: args) i.callframe (picolParams alist) []
    { i with callframe := .child [] i.callframe } [] 0 hlow rfl (by omega)
  rw [List.append_nil] at k1 k2
  rw [hname]
  by_cases h : (0 : Int) + (picolParams alist).length ≤ (((name :: args).length : Nat) : Int) - 1
  · rw [k1 h]
    simp only [picolBindParams]
    rw [if_pos (by omega)]
    exact picolCallProcErr_child i ws _
  · rw [k2 h]
    exact picolCallProcErr_child i ws _

/-- A call of a procedure whose parameter list holds a name with an uppercase first
letter, after names without one: the error about that name when the call has an
argument for it, the arity error otherwise; whatever the body. -/
theorem picolCommandCallProc_upcase (i : picolInterp) (name : CStr) (args : List CStr)
    (cmd : picolCmd) (alist : CStr) (pre post : List CStr) (u : CStr)
    (ha : cmd.arglist = some alist) (hnul : ∀ c ∈ alist, c ≠ '\x00')
    (hp : picolParams alist = pre ++ u :: post)
    (hlow : ∀ w ∈ pre, isupper (charAt w 0) = false) (hu : isupper (charAt u 0) = true)
    (n : Nat) (hn : alist.length + 3 ≤ n) :
    picolCommandCallProc F n i (name :: args) cmd =
      some (PICOL_ERR, picolSetResult i
        (if pre.length + 1 ≤ args.length then picolUpcaseParam u
         else picolWrongArgNum name)) := by
  have hlen : (((name :: args).length : Nat) : Int) - 1 = (args.length : Int) := by
    simp only [List.length_cons]
    push_cast
    omega
  have hname : (name :: args).getD 0 [] = name := rfl
  obtain ⟨n, rfl⟩ : ∃ k, n = k + 1 := ⟨n - 1, by omega⟩
  rw [picolCommandCallProc_succ, ha, Option.some_bind,
    picolArgsLoop_params alist hnul (name :: args) _ 0 n _ 0 (le_refl _) (by omega), Option.some_bind,
    List.drop_zero, hp]
  obtain ⟨ws, k1, k2⟩ := picolBindParams_lower (name :: args) i.callframe pre (u :: post)
    { i with callframe := .child [] i.callframe } [] 0 hlow rfl (by omega)
  rw [hname]
  by_cases h : (0 : Int) + pre.length ≤ (((name :: args).length : Nat) : Int) - 1
  · rw [k1 h, picolBindParams_cons]
    by_cases h2 : pre.length + 1 ≤ args.length
    · rw [if_neg (by omega), hu, if_pos rfl, if_pos h2]
      exact picolCallProcErr_child i ws _
    · rw [if_pos (by omega), if_neg h2]
      exact picolCallProcErr_child i ws _
  · rw [k2 h, if_neg (by omega)]
    exact picolCallProcErr_child i ws _

end


/-! ## The command table -/

theorem picolFindCmd_eq_none (cs : List picolCmd) (name : CStr) :
    picolFindCmd cs name = none ↔ name ∉ cs.map fun c => c.name := by
  induction cs with
  | nil => simp [picolFindCmd]
  | cons c cs ih =>
    simp only [picolFindCmd, List.map_cons, List.mem_cons, not_or]
    by_cases h : c.name = name
    · simp [h]
    · rw [if_neg h, ih]
      exact ⟨fun k => ⟨fun e => h e.symm, k⟩, fun k => k.2⟩

theorem picolFindCmd_name (cs : List picolCmd) (name : CStr) (c : picolCmd)
    (h : picolFindCmd cs name = some c) : c.name = name ∧ c ∈ cs := by
  induction cs with
  | nil => simp [picolFindCmd] at h
  | cons d cs ih =>
    simp only [picolFindCmd] at h
    by_cases hd : d.name = name
    · rw [if_pos hd] at h
      cases h
      exact ⟨hd, List.mem_cons_self _ _⟩
    · rw [if_neg hd] at h
      exact ⟨(ih h).1, List.mem_cons_of_mem _ (ih h).2⟩

theorem picolUpdateCmd_names (f : picolCmd → picolCmd) (hf : ∀ c, (f c).name = c.name)
    (cs : List picolCmd) (name : CStr) :
    (picolUpdateCmd f cs name).map (fun c => c.name) = cs.map fun c => c.name := by
  induction cs with
  | nil => rfl
  | cons c cs ih =>
    simp only [picolUpdateCmd]
    by_cases h : c.name = name
    · rw [if_pos h]
      simp [hf]
    · rw [if_neg h]
      simp [ih]

theorem picolFindCmd_updateCmd_self (f : picolCmd → picolCmd)
    (hf : ∀ c, (f c).name = c.name) (cs : List picolCmd) (name : CStr) :
    picolFindCmd (picolUpdateCmd f cs name) name = (picolFindCmd cs name).map f := by
  induction cs with
  | nil => rfl
  | cons c cs ih =>
    simp only [picolUpdateCmd, picolFindCmd]
    by_cases h : c.name = name
    · rw [if_pos h, if_pos h]
      simp only [picolFindCmd, hf, h, if_true, Option.map_some']
    · rw [if_neg h, if_neg h]
      simp only [picolFindCmd, h, if_false]
      exact ih

theorem picolFindCmd_updateCmd_ne (f : picolCmd → picolCmd)
    (hf : ∀ c, (f c).name = c.name) (cs : List picolCmd) (name other : CStr)
    (hne : other ≠ name) :
    picolFindCmd (picolUpdateCmd f cs name) other = picolFindCmd cs other := by
  induction cs with
  | nil => rfl
  | cons c cs ih =>
    simp only [picolUpdateCmd]
    by_cases h : c.name = name
    · rw [if_pos h]
      have h1 : ¬ (f c).name = other := by rw [hf, h]; exact fun e => hne e.symm
      have h2 : ¬ c.name = other := by rw [h]; exact fun e => hne e.symm
      simp only [picolFindCmd, h1, h2, if_false]
    · rw [if_neg h]
      simp only [picolFindCmd]
      rw [ih]

theorem map_eq_self_of_forall {α : Type} (g : α → α) (l : List α) (h : ∀ x ∈ l, g x = x) :
    l.map g = l := by
  induction l with
  | nil => rfl
  | cons a l ih =>
    rw [List.map_cons, h a (List.mem_cons_self _ _),
      ih fun x hx => h x (List.mem_cons_of_mem _ hx)]

/-- When no two entries have the same name, the assignment through the pointer that
`picolGetCommand` returned changes the one entry of that name and no other. -/
theorem picolUpdateCmd_eq_map (f : picolCmd → picolCmd) (cs : List picolCmd) (name : CStr)
    (hnd : (cs.map fun c => c.name).Nodup) :
    picolUpdateCmd f cs name = cs.map fun d => if d.name = name then f d else d := by
  induction cs with
  | nil => rfl
  | cons c cs ih =>
    simp only [List.map_cons, List.nodup_cons] at hnd
    simp only [picolUpdateCmd, List.map_cons]
    by_cases h : c.name = name
    · rw [if_pos h, if_pos h]
      congr 1
      symm
      apply map_eq_self_of_forall
      intro d hd
      have : d.name ≠ name := by
        intro e
        apply hnd.1
        rw [h, ← e]
        exact List.mem_map_of_mem (fun c => c.name) hd
      rw [if_neg this]
    · rw [if_neg h, if_neg h, ih hnd.2]

/-- `picolRegisterCommand` keeps the names of the table distinct. -/
theorem picolRegisterCommand_nodup (i : picolInterp) (name : CStr) (f : picolCmdFunc)
    (h : picolNamesNodup i) : picolNamesNodup (picolRegisterCommand i name f) := by
  unfold picolNamesNodup at h ⊢
  unfold picolRegisterCommand
  cases hg : picolGetCommand i name with
  | none =>
    simp only [List.map_cons, List.nodup_cons]
    exact ⟨(picolFindCmd_eq_none _ _).mp hg, h⟩
  | some c =>
    simp only
    rw [picolUpdateCmd_names (fun c => { name := c.name, func := f, arglist := none, body := none }) (fun _ => rfl)]
    exact h

/-- What `picolRegisterCommand` does to the table when the name is in it. -/
theorem picolRegisterCommand_existing (i : picolInterp) (name : CStr) (f : picolCmdFunc)
    (c : picolCmd) (h : picolNamesNodup i) (hc : picolGetCommand i name = some c) :
    (picolRegisterCommand i name f).commands =
      picolReplaceCmd i.commands name
        { name := name, func := f, arglist := none, body := none } := by
  unfold picolRegisterCommand
  rw [hc]
  simp only
  rw [picolUpdateCmd_eq_map _ _ _ h]
  unfold picolReplaceCmd
  apply List.map_congr_left
  intro d _
  by_cases hd : d.name = name
  · rw [if_pos hd, if_pos hd, hd]
  · rw [if_neg hd, if_neg hd]

theorem picolGetCommand_register (i : picolInterp) (name : CStr) (f : picolCmdFunc) :
    picolGetCommand (picolRegisterCommand i name f) name =
      some { name := name, func := f, arglist := none, body := none } := by
  unfold picolRegisterCommand
  cases hg : picolGetCommand i name with
  | none => simp [picolGetCommand, picolFindCmd]
  | some c =>
    simp only
    unfold picolGetCommand at hg ⊢
    simp only
    rw [picolFindCmd_updateCmd_self (fun c => { name := c.name, func := f, arglist := none, body := none }) (fun _ => rfl), hg]
    simp only [Option.map_some', (picolFindCmd_name _ _ _ hg).1]

theorem picolGetCommand_register_ne (i : picolInterp) (name other : CStr) (f : picolCmdFunc)
    (hne : other ≠ name) :
    picolGetCommand (picolRegisterCommand i name f) other = picolGetCommand i other := by
  unfold picolRegisterCommand
  cases hg : picolGetCommand i name with
  | none =>
    simp only [picolGetCommand, picolFindCmd]
    rw [if_neg (fun e => hne e.symm)]
  | some c =>
    simp only
    unfold picolGetCommand
    simp only
    rw [picolFindCmd_updateCmd_ne (fun c => { name := c.name, func := f, arglist := none, body := none }) (fun _ => rfl) _ _ _ hne]

/-- The table after `proc name alist body` (a call of `picolCommandProc` with four
words). -/
theorem picolCommandProc_ok (i : picolInterp) (argv : List CStr) (h : argv.length = 4) :
    (picolCommandProc i argv).1 = PICOL_OK ∧
    picolGetCommand (picolCommandProc i argv).2 (argv.getD 1 []) =
      some { name := argv.getD 1 [], func := .picolCommandCallProc,
             arglist := some (argv.getD 2 []), body := some (argv.getD 3 []) } ∧
    (∀ other, other ≠ argv.getD 1 [] →
      picolGetCommand (picolCommandProc i argv).2 other = picolGetCommand i other) ∧
    (picolCommandProc i argv).2.level = i.level ∧
    (picolCommandProc i argv).2.callframe = i.callframe ∧
    (picolCommandProc i argv).2.result = i.result := by
  unfold picolCommandProc
  rw [if_neg (by omega)]
  simp only
  refine ⟨trivial, ?_, ?_, ?_, ?_, ?_⟩
  · have := picolGetCommand_register i (argv.getD 1 []) .picolCommandCallProc
    unfold picolGetCommand at this ⊢
    simp only
    rw [picolFindCmd_updateCmd_self (fun c => picolCmd.mk c.name c.func (some (argv.getD 2 [])) (some (argv.getD 3 []))) (fun _ => rfl), this]
    rfl
  · intro other hne
    have := picolGetCommand_register_ne i (argv.getD 1 []) other .picolCommandCallProc hne
    unfold picolGetCommand at this ⊢
    simp only
    rw [picolFindCmd_updateCmd_ne (fun c => picolCmd.mk c.name c.func (some (argv.getD 2 [])) (some (argv.getD 3 []))) (fun _ => rfl) _ _ _ hne, this]
  · unfold picolRegisterCommand
    split <;> rfl
  · unfold picolRegisterCommand
    split <;> rfl
  · unfold picolRegisterCommand
    split <;> rfl

theorem picolCommandProc_nodup (i : picolInterp) (argv : List CStr)
    (h : picolNamesNodup i) : picolNamesNodup (picolCommandProc i argv).2 := by
  unfold picolCommandProc
  split_ifs
  · exact h
  · have := picolRegisterCommand_nodup i (argv.getD 1 []) .picolCommandCallProc h
    unfold picolNamesNodup at this ⊢
    simp only
    rw [picolUpdateCmd_names (fun c => picolCmd.mk c.name c.func (some (argv.getD 2 [])) (some (argv.getD 3 []))) (fun _ => rfl)]
    exact this

/-- What `proc` does to the table when the name is in it. -/
theorem picolCommandProc_existing (i : picolInterp) (argv : List CStr) (c : picolCmd)
    (h4 : argv.length = 4) (h : picolNamesNodup i)
    (hc : picolGetCommand i (argv.getD 1 []) = some c) :
    (picolCommandProc i argv).2.commands =
      picolReplaceCmd i.commands (argv.getD 1 [])
        { name := argv.getD 1 [], func := .picolCommandCallProc,
          arglist := some (argv.getD 2 []), body := some (argv.getD 3 []) } := by
  have hr := picolRegisterCommand_existing i (argv.getD 1 []) .picolCommandCallProc c h hc
  have hn := picolRegisterCommand_nodup i (argv.getD 1 []) .picolCommandCallProc h
  unfold picolCommandProc
  rw [if_neg (by omega)]
  simp only
  rw [picolUpdateCmd_eq_map _ _ _ hn, hr]
  unfold picolReplaceCmd
  rw [List.map_map]
  apply List.map_congr_left
  intro d _
  simp only [Function.comp]
  by_cases hd : d.name = argv.getD 1 []
  · rw [if_pos hd, if_pos hd, if_pos rfl]
  · rw [if_neg hd, if_neg hd, if_neg hd]

/-- Every step of the evaluator keeps the names of the table distinct. -/
theorem namesNodupKept_closed : EvalClosed NamesNodupKept where
  refl := fun _ h => h
  trans := fun _ _ _ h1 h2 h => h2 (h1 h)
  result := fun _ _ h => h
  setVar := fun i name val h => by
    unfold picolNamesNodup at h ⊢
    unfold picolSetVar
    split <;> exact h
  proc := fun i argv h => picolCommandProc_nodup i argv h
  level := fun _ _ h k => h k
  frame := fun i j k h hd hi => by
    have hj := h hi
    unfold picolDropCallFrame at hd
    cases hc : j.callframe with
    | top vs => rw [hc] at hd; cases hd
    | child vs p =>
      rw [hc] at hd
      simp only [Option.some.injEq] at hd
      subst hd
      exact hj

theorem snprintf_1024 (s : CStr) : snprintf 1024 s = s.take 1023 := rfl

theorem snprintf_of_le (s : CStr) (h : s.length ≤ 1023) : snprintf 1024 s = s := by
  rw [snprintf_1024]
  exact List.take_of_length_le h

theorem snprintf_length_of_gt (s : CStr) (h : 1023 < s.length) :
    (snprintf 1024 s).length = 1023 := by
  rw [snprintf_1024, List.length_take]
  omega

section
variable {D : Type} (F : DoubleOps D)

/-- **C11 (amended).** For every procedure whose argument list holds `k`
space-separated parameter names, none with an uppercase first letter, every call
with a number of arguments other than `k` returns `PICOL_ERR`, given fuel for the
parameter loop only and whatever the body is (it is not evaluated); the interpreter
returned is the one of the caller with nothing but the result changed, and the
result is the text `Proc '<name>' called with wrong arg num` cut to its first 1023
bytes, which is the whole text when the name has at most 990 bytes. -/
theorem C11_wrong_arg_num (i : picolInterp) (name : CStr) (args : List CStr)
    (cmd : picolCmd) (alist : CStr) (ha : cmd.arglist = some alist)
    (hnul : ∀ c ∈ alist, c ≠ '\x00')
    (hlow : ∀ w ∈ picolParams alist, isupper (charAt w 0) = false)
    (hm : (picolParams alist).length ≠ args.length) :
    (∀ n, alist.length + 3 ≤ n →
      picolCommandCallProc F n i (name :: args) cmd =
        some (PICOL_ERR, { i with result :=
          ("Proc '".toList ++ name ++ "' called with wrong arg num".toList).take 1023 })) ∧
    (name.length ≤ 990 →
      ("Proc '".toList ++ name ++ "' called with wrong arg num".toList).take 1023 =
        "Proc '".toList ++ name ++ "' called with wrong arg num".toList) := by
  constructor
  · intro n hn
    exact picolCommandCallProc_arity F i name args cmd alist ha hnul hlow hm n hn
  · intro h
    apply List.take_of_length_le
    simp only [List.length_append]
    have e1 : "Proc '".toList.length = 6 := by decide
    have e2 : "' called with wrong arg num".toList.length = 27 := by decide
    omega

end

/-- Witness of C11: the procedure `g` of the test `proc wrong arity`, with the
parameters `a b`, called with one argument. -/
theorem C11_witness :
    (∀ n, "a b".toList.length + 3 ≤ n →
      picolCommandCallProc intDouble n picolCoreInterp ("g".toList :: ["1".toList])
          (picolCmd.mk "g".toList .picolCommandCallProc (some "a b".toList)
            (some " expr $a+$b ".toList)) =
        some (PICOL_ERR, { picolCoreInterp with result :=
          ("Proc '".toList ++ "g".toList ++ "' called with wrong arg num".toList).take 1023 })) ∧
    ("g".toList.length ≤ 990 →
      ("Proc '".toList ++ "g".toList ++ "' called with wrong arg num".toList).take 1023 =
        "Proc '".toList ++ "g".toList ++ "' called with wrong arg num".toList) :=
  C11_wrong_arg_num intDouble picolCoreInterp "g".toList ["1".toList]
    (picolCmd.mk "g".toList .picolCommandCallProc (some "a b".toList)
      (some " expr $a+$b ".toList))
    "a b".toList rfl (by decide) (by decide) (by decide)

/-- The test `proc wrong arity`, run. -/
theorem picolEval_proc_wrong_arity :
    (picolEval intDouble 40 picolCoreInterp "proc g {a b} { expr $a+$b }; g 1".toList).bind
        (fun r => some (r.1, r.2.result)) =
      some (PICOL_ERR, "Proc 'g' called with wrong arg num".toList) := by
  decide!

/-- Counterexample to C11 as stated: a procedure with one parameter whose name is
made of 991 characters `p`, called without argument, returns `PICOL_ERR` with a
result of 1023 bytes, which is not the text `Proc '<name>' called with wrong arg
num` (1024 bytes). -/
theorem C11_counterexample :
    ∃ r, picolCommandCallProc intDouble 5 picolCoreInterp [List.replicate 991 'p']
        (picolCmd.mk (List.replicate 991 'p') .picolCommandCallProc (some "a".toList)
          (some [])) = some (PICOL_ERR, r) ∧
      r.result ≠ "Proc '".toList ++ List.replicate 991 'p' ++
        "' called with wrong arg num".toList := by
  refine ⟨_, picolCommandCallProc_arity intDouble picolCoreInterp (List.replicate 991 'p') []
    _ "a".toList rfl (by decide) (by decide) (by decide) 5 (by decide), ?_⟩
  intro h
  have h2 := congrArg List.length h
  simp only [picolSetResult, picolWrongArgNum, snprintf_1024, List.length_take,
    List.length_append, List.length_replicate] at h2
  have e1 : "Proc '".toList.length = 6 := by decide
  have e2 : "' called with wrong arg num".toList.length = 27 := by decide
  omega


/-! ## C12: a parameter with an uppercase first letter -/

section
variable {D : Type} (F : DoubleOps D)

/-- **C12 (amended).** Let the parameter list `alist` hold a name `u` with an uppercase
first letter, after names `pre` without one.  Defining a procedure with `alist`
succeeds: `picolCommandProc` returns `PICOL_OK` and the table then holds the
procedure with that parameter list and body.  Every call of a procedure with that
parameter list, with any arguments and whatever the body is (it is not evaluated),
returns `PICOL_ERR` and the interpreter of the caller with nothing but the result
changed, so no variable of any frame is changed.  When the call has an argument for
`u` the result is the text `Procedure parameter '<u>' can't be a global (upcase first
character)` cut to its first 1023 bytes, which is the whole text when `u` has at most
958 bytes; when it has not, the result is the text of the arity error, cut
likewise. -/
theorem C12_uppercase_parameter (i : picolInterp) (w name alist body : CStr)
    (pre post : List CStr) (u : CStr) (hnul : ∀ c ∈ alist, c ≠ '\x00')
    (hp : picolParams alist = pre ++ u :: post)
    (hlow : ∀ x ∈ pre, isupper (charAt x 0) = false) (hu : isupper (charAt u 0) = true) :
    (picolCommandProc i [w, name, alist, body]).1 = PICOL_OK ∧
    picolGetCommand (picolCommandProc i [w, name, alist, body]).2 name =
      some (picolCmd.mk name .picolCommandCallProc (some alist) (some body)) ∧
    (∀ (j : picolInterp) (cmd : picolCmd) (args : List CStr) (n : Nat),
      cmd.arglist = some alist → alist.length + 3 ≤ n →
      picolCommandCallProc F n j (name :: args) cmd =
        some (PICOL_ERR, { j with result :=
          if pre.length + 1 ≤ args.length then
            ("Procedure parameter '".toList ++ u ++
              "' can't be a global (upcase first character)".toList).take 1023
          else ("Proc '".toList ++ name ++ "' called with wrong arg num".toList).take 1023 })) ∧
    (u.length ≤ 958 →
      ("Procedure parameter '".toList ++ u ++
          "' can't be a global (upcase first character)".toList).take 1023 =
        "Procedure parameter '".toList ++ u ++
          "' can't be a global (upcase first character)".toList) := by
  have hproc := picolCommandProc_ok i [w, name, alist, body] rfl
  refine ⟨hproc.1, hproc.2.1, ?_, ?_⟩
  · intro j cmd args n ha hn
    exact picolCommandCallProc_upcase F j name args cmd alist pre post u ha hnul hp hlow hu n hn
  · intro h
    apply List.take_of_length_le
    simp only [List.length_append]
    have e1 : "Procedure parameter '".toList.length = 21 := by decide
    have e2 : "' can't be a global (upcase first character)".toList.length = 44 := by decide
    omega

end

/-- Witness of C12: the procedure `bad` of the test `proc uppercase param rejected`,
with the parameter list `X`. -/
theorem C12_witness :
    (picolCommandProc picolCoreInterp
        ["proc".toList, "bad".toList, "X".toList, " set X 1 ".toList]).1 = PICOL_OK ∧
    picolGetCommand (picolCommandProc picolCoreInterp
        ["proc".toList, "bad".toList, "X".toList, " set X 1 ".toList]).2 "bad".toList =
      some (picolCmd.mk "bad".toList .picolCommandCallProc (some "X".toList)
        (some " set X 1 ".toList)) ∧
    (∀ (j : picolInterp) (cmd : picolCmd) (args : List CStr) (n : Nat),
      cmd.arglist = some "X".toList → "X".toList.length + 3 ≤ n →
      picolCommandCallProc intDouble n j ("bad".toList :: args) cmd =
        some (PICOL_ERR, { j with result :=
          if ([] : List CStr).length + 1 ≤ args.length then
            ("Procedure parameter '".toList ++ "X".toList ++
              "' can't be a global (upcase first character)".toList).take 1023
          else ("Proc '".toList ++ "bad".toList ++
            "' called with wrong arg num".toList).take 1023 })) ∧
    ("X".toList.length ≤ 958 →
      ("Procedure parameter '".toList ++ "X".toList ++
          "' can't be a global (upcase first character)".toList).take 1023 =
        "Procedure parameter '".toList ++ "X".toList ++
          "' can't be a global (upcase first character)".toList) :=
  C12_uppercase_parameter intDouble picolCoreInterp "proc".toList "bad".toList "X".toList
    " set X 1 ".toList [] [] "X".toList (by decide) (by decide) (by decide) (by decide)

/-- The test `proc uppercase param rejected`, run. -/
theorem picolEval_proc_uppercase_param :
    (picolEvalSeq intDouble 40 picolCoreInterp
        ["proc bad {X} { set X 1 }".toList, "bad 1".toList]).bind
        (fun r => some (r.1, r.2.result, r.2.callframe)) =
      some ([PICOL_OK, PICOL_ERR],
        "Procedure parameter 'X' can't be a global (upcase first character)".toList,
        picolCallFrame.top []) := by
  decide!

/-- Counterexample to C12 as stated: with a parameter made of `X` and 958 characters
`x`, a call with one argument returns `PICOL_ERR` with a result of 1023 bytes, which
is not the text `Procedure parameter '<name>' can't be a global (upcase first
character)` (1024 bytes). -/
theorem C12_counterexample :
    ∃ r, picolCommandCallProc intDouble 970 picolCoreInterp ["f".toList, "1".toList]
        (picolCmd.mk "f".toList .picolCommandCallProc
          (some ('X' :: List.replicate 958 'x')) (some [])) = some (PICOL_ERR, r) ∧
      r.result ≠ "Procedure parameter '".toList ++ ('X' :: List.replicate 958 'x') ++
        "' can't be a global (upcase first character)".toList := by
  have hsp : ∀ c ∈ ('X' :: List.replicate 958 'x'), ¬ c = ' ' := by
    intro c hc
    rw [List.mem_cons] at hc
    rcases hc with e | e
    · rw [e]; decide
    · rw [List.eq_of_mem_replicate e]; decide
  have hnul : ∀ c ∈ ('X' :: List.replicate 958 'x'), c ≠ '\x00' := by
    intro c hc
    rw [List.mem_cons] at hc
    rcases hc with e | e
    · rw [e]; decide
    · rw [List.eq_of_mem_replicate e]; decide
  refine ⟨_, picolCommandCallProc_upcase intDouble picolCoreInterp "f".toList ["1".toList]
    _ ('X' :: List.replicate 958 'x') [] [] ('X' :: List.replicate 958 'x') rfl hnul
    (picolParams_single _ (List.cons_ne_nil _ _) hsp) (by decide) rfl 970
    (by simp only [List.length_cons, List.length_replicate]; omega), ?_⟩
  intro h
  have h2 := congrArg List.length h
  rw [if_pos (by decide)] at h2
  simp only [picolSetResult, picolUpcaseParam, snprintf_1024, List.length_take,
    List.length_append, List.length_replicate, List.length_cons] at h2
  have e1 : "Procedure parameter '".toList.length = 21 := by decide
  have e2 : "' can't be a global (upcase first character)".toList.length = 44 := by decide
  omega


/-! ## The token loop, one iteration at a time -/

section
variable {D : Type} (F : DoubleOps D)

attribute [local irreducible] picolEval picolEvalLoop picolCallFunc picolGetToken in
/-- The loop of `picolEval` is the iteration `picolEvalIter`, repeated until it
leaves the loop. -/
theorem picolEvalLoop_iter (n : Nat) (i : picolInterp) (p0 : picolParser) (argv : List CStr) :
    picolEvalLoop F (n + 1) i p0 argv =
      (picolEvalIter F n i p0 argv).bind fun x =>
        match x with
        | .goOn j p a => picolEvalLoop F n j p a
        | .stop r => some r := by
  rw [picolEvalLoop_succ]
  unfold picolEvalIter
  cases hg : picolGetToken n p0 with
  | none => rfl
  | some p =>
    simp only [Option.some_bind]
    by_cases h1 : p.type = PT_EOF
    · rw [if_pos h1, if_pos h1]
      rfl
    · rw [if_neg h1, if_neg h1]
      by_cases h2 : p.type = PT_VAR
      · rw [if_pos h2, if_pos h2]
        cases hv : picolGetVar i p.token with
        | none => rfl
        | some v =>
          simp only
          cases ha : picolAppendArg argv p0.type v.val with
          | none => rfl
          | some argv1 => rfl
      · rw [if_neg h2, if_neg h2]
        by_cases h3 : p.type = PT_CMD
        · rw [if_pos h3, if_pos h3]
          cases he : picolEval F n i p.token with
          | none => rfl
          | some r =>
            simp only [Option.some_bind]
            by_cases hr : r.1 ≠ PICOL_OK
            · rw [if_pos hr, if_pos hr]
              rfl
            · rw [if_neg hr, if_neg hr]
              cases ha : picolAppendArg argv p0.type r.2.result with
              | none => rfl
              | some argv1 => rfl
        · rw [if_neg h3, if_neg h3]
          by_cases h4 : p.type = PT_ESC
          · rw [if_pos h4, if_pos h4]
            cases ha : picolAppendArg argv p0.type (picolEscape p.token) with
            | none => rfl
            | some argv1 => rfl
          · rw [if_neg h4, if_neg h4]
            by_cases h5 : p.type = PT_SEP
            · rw [if_pos h5, if_pos h5]
              rfl
            · rw [if_neg h5, if_neg h5]
              by_cases h6 : p.type = PT_EOL
              · rw [if_pos h6, if_pos h6]
                by_cases h7 : argv.length ≠ 0
                · rw [if_pos h7, if_pos h7]
                  cases hc : picolGetCommand i (argv.getD 0 []) with
                  | none => rfl
                  | some c =>
                    simp only
                    cases hf : picolCallFunc F n i argv c with
                    | none => rfl
                    | some r =>
                      simp only [Option.some_bind]
                      by_cases hr : r.1 ≠ PICOL_OK
                      · rw [if_pos hr, if_pos hr]
                        rfl
                      · rw [if_neg hr, if_neg hr]
                        rfl
                · rw [if_neg h7, if_neg h7]
                  rfl
              · rw [if_neg h6, if_neg h6]
                cases ha : picolAppendArg argv p0.type p.token with
                | none => rfl
                | some argv1 => rfl

attribute [local irreducible] picolEval picolEvalLoop picolCallFunc picolGetToken in
theorem picolEvalIter_mono {n m : Nat} (hnm : n ≤ m) (i : picolInterp) (p0 : picolParser)
    (argv : List CStr) : OLe (picolEvalIter F n i p0 argv) (picolEvalIter F m i p0 argv) := by
  have hT : ∀ p, OLe (picolGetToken n p) (picolGetToken m p) :=
    fun p => ⟨fun r h => picolGetToken_mono h hnm⟩
  have hE : ∀ i t, OLe (picolEval F n i t) (picolEval F m i t) :=
    fun i t => ⟨fun r h => picolEval_mono F h hnm⟩
  have hF : ∀ i a c, OLe (picolCallFunc F n i a c) (picolCallFunc F m i a c) :=
    fun i a c => ⟨fun r h => picolCallFunc_mono F h hnm⟩
  unfold picolEvalIter
  repeat' first
    | exact OLe_refl _
    | apply hE
    | apply hF
    | apply hT
    | apply OLe_bind
    | apply OLe_ite
    | intro _
    | split

/-- When the loop comes from one state to another, what it returns from the second
it returns from the first. -/
theorem picolEvalLoop_of_reaches {i j : picolInterp} {p q : picolParser}
    {argv words : List CStr} (h : picolEvalReaches F i p argv j q words)
    {n : Nat} {r : picolRetCode × picolInterp} (hr : picolEvalLoop F n j q words = some r) :
    ∃ m, picolEvalLoop F m i p argv = some r := by
  induction h with
  | here i p argv => exact ⟨n, hr⟩
  | next k i p argv i1 p1 argv1 j q words hstep _ ih =>
    obtain ⟨m, hm⟩ := ih hr
    refine ⟨max k m + 1, ?_⟩
    rw [picolEvalLoop_iter, (picolEvalIter_mono F (le_max_left k m) i p argv).le _ hstep,
      Option.some_bind]
    exact picolEvalLoop_mono F hm (le_max_right k m)

theorem picolEvalReaches_trans {i j k : picolInterp} {p q s : picolParser}
    {a b c : List CStr} (h1 : picolEvalReaches F i p a j q b)
    (h2 : picolEvalReaches F j q b k s c) : picolEvalReaches F i p a k s c := by
  induction h1 with
  | here i p argv => exact h2
  | next n i p argv i1 p1 argv1 j q words hstep _ ih =>
    exact picolEvalReaches.next n i p argv i1 p1 argv1 _ _ _ hstep (ih h2)

theorem picolEvalReaches_step {i j : picolInterp} {p q : picolParser} {a b : List CStr}
    {n : Nat} (h : picolEvalIter F n i p a = some (.goOn j q b)) :
    picolEvalReaches F i p a j q b :=
  picolEvalReaches.next n i p a j q b j q b h (picolEvalReaches.here j q b)

theorem picolEvalReaches_of_trace (n : Nat) :
    ∀ (k : Nat) (i : picolInterp) (p : picolParser) (a : List CStr)
      (s : picolInterp × picolParser × List CStr),
      picolEvalTrace F n k i p a = some s → picolEvalReaches F i p a s.1 s.2.1 s.2.2 := by
  intro k
  induction k with
  | zero =>
    intro i p a s h
    simp only [picolEvalTrace, Option.some.injEq] at h
    subst h
    exact picolEvalReaches.here i p a
  | succ k ih =>
    intro i p a s h
    rw [picolEvalTrace] at h
    cases hx : picolEvalIter F n i p a with
    | none => rw [hx] at h; cases h
    | some x =>
      rw [hx] at h
      cases x with
      | stop r => cases h
      | goOn i1 p1 a1 =>
        exact picolEvalReaches.next n i p a i1 p1 a1 _ _ _ hx (ih i1 p1 a1 s h)

/-- When the evaluation of a text comes to a state of its token loop from which an
iteration leaves the loop with the code and interpreter `r`, `picolEval` returns
that code, with that interpreter at the level of entry. -/
theorem picolEval_of_comesTo {i j : picolInterp} {t : CStr} {q : picolParser}
    {words : List CStr} (h : picolEvalComesTo F i t j q words) {n : Nat}
    {r : picolRetCode × picolInterp} (hr : picolEvalIter F n j q words = some (.stop r)) :
    ∃ m, picolEval F m i t = some (r.1, { r.2 with level := r.2.level - 1 }) := by
  obtain ⟨hlev, hreach⟩ := h
  have hl : picolEvalLoop F (n + 1) j q words = some r := by
    rw [picolEvalLoop_iter, hr]
    rfl
  obtain ⟨m, hm⟩ := picolEvalLoop_of_reaches F hreach hl
  refine ⟨m + 1, ?_⟩
  rw [picolEval_succ, if_neg (by omega), hm]
  rfl

theorem picolCallFunc_return (n : Nat) (i : picolInterp) (argv : List CStr) (c : picolCmd)
    (h : c.func = .picolCommandReturn) :
    picolCallFunc F (n + 1) i argv c = some (picolCommandReturn i argv) := by
  simp only [picolCallFunc_succ, h]

theorem picolCallFunc_retCodes (n : Nat) (i : picolInterp) (argv : List CStr) (c : picolCmd)
    (h : c.func = .picolCommandRetCodes) :
    picolCallFunc F (n + 1) i argv c = some (picolCommandRetCodes i argv) := by
  simp only [picolCallFunc_succ, h]

theorem picolCallFunc_set (n : Nat) (i : picolInterp) (argv : List CStr) (c : picolCmd)
    (h : c.func = .picolCommandSet) :
    picolCallFunc F (n + 1) i argv c = some (picolCommandSet i argv) := by
  simp only [picolCallFunc_succ, h]

theorem picolCallFunc_callProc (n : Nat) (i : picolInterp) (argv : List CStr) (c : picolCmd)
    (h : c.func = .picolCommandCallProc) :
    picolCallFunc F (n + 1) i argv c = picolCommandCallProc F n i argv c := by
  simp only [picolCallFunc_succ, h]

theorem picolCallFunc_if (n : Nat) (i : picolInterp) (argv : List CStr) (c : picolCmd)
    (h : c.func = .picolCommandIf) :
    picolCallFunc F (n + 1) i argv c = picolCommandIf F n i argv 1 := by
  simp only [picolCallFunc_succ, h]

theorem picolCallFunc_while (n : Nat) (i : picolInterp) (argv : List CStr) (c : picolCmd)
    (h : c.func = .picolCommandWhile) :
    picolCallFunc F (n + 1) i argv c = picolCommandWhile F n i argv := by
  simp only [picolCallFunc_succ, h]

attribute [local irreducible] picolEval picolCallFunc picolGetToken in
/-- The iteration at the end of a command whose first word is the name of a command:
the command is called; a code other than `PICOL_OK` leaves the loop. -/
theorem picolEvalIter_call {n : Nat} {i : picolInterp} {p0 p : picolParser}
    {argv : List CStr} {c : picolCmd} {r : picolRetCode × picolInterp}
    (hg : picolGetToken n p0 = some p) (ht : p.type = PT_EOL) (ha : argv ≠ [])
    (hc : picolGetCommand i (argv.getD 0 []) = some c)
    (hf : picolCallFunc F n i argv c = some r) :
    picolEvalIter F n i p0 argv =
      some (if r.1 ≠ PICOL_OK then .stop r else .goOn r.2 p []) := by
  unfold picolEvalIter
  rw [hg, Option.some_bind, if_neg (by rw [ht]; decide), if_neg (by rw [ht]; decide),
    if_neg (by rw [ht]; decide), if_neg (by rw [ht]; decide), if_neg (by rw [ht]; decide),
    if_pos ht, if_pos (by simpa using ha), hc]
  simp only
  rw [hf, Option.some_bind]
  split <;> rfl

attribute [local irreducible] picolEval picolCallFunc picolGetToken in
/-- The iteration at the end of a command whose first word is not the name of a
command. -/
theorem picolEvalIter_nocmd {n : Nat} {i : picolInterp} {p0 p : picolParser}
    {argv : List CStr} (hg : picolGetToken n p0 = some p) (ht : p.type = PT_EOL)
    (ha : argv ≠ []) (hc : picolGetCommand i (argv.getD 0 []) = none) :
    picolEvalIter F n i p0 argv =
      some (.stop (PICOL_ERR, picolSetResult i (picolNoSuchCmd (argv.getD 0 [])))) := by
  unfold picolEvalIter
  rw [hg, Option.some_bind, if_neg (by rw [ht]; decide), if_neg (by rw [ht]; decide),
    if_neg (by rw [ht]; decide), if_neg (by rw [ht]; decide), if_neg (by rw [ht]; decide),
    if_pos ht, if_pos (by simpa using ha), hc]

attribute [local irreducible] picolEval picolCallFunc picolGetToken in
/-- The iteration at a variable token whose name is not bound. -/
theorem picolEvalIter_novar (argv : List CStr) {n : Nat} {i : picolInterp}
    {p0 p : picolParser} (hg : picolGetToken n p0 = some p) (ht : p.type = PT_VAR)
    (hv : picolGetVar i p.token = none) :
    picolEvalIter F n i p0 argv =
      some (.stop (PICOL_ERR, picolSetResult i (picolNoSuchVar p.token))) := by
  unfold picolEvalIter
  rw [hg, Option.some_bind, if_neg (by rw [ht]; decide), if_pos ht, hv]

attribute [local irreducible] picolEval picolCallFunc picolGetToken in
/-- The iteration at a command substitution. -/
theorem picolEvalIter_subst (argv : List CStr) {n : Nat} {i : picolInterp}
    {p0 p : picolParser} {r : picolRetCode × picolInterp}
    (hg : picolGetToken n p0 = some p) (ht : p.type = PT_CMD)
    (he : picolEval F n i p.token = some r) :
    picolEvalIter F n i p0 argv =
      if r.1 ≠ PICOL_OK then some (.stop r)
      else (picolAppendArg argv p0.type r.2.result).bind fun argv1 =>
        some (.goOn r.2 p argv1) := by
  unfold picolEvalIter
  rw [hg, Option.some_bind, if_neg (by rw [ht]; decide), if_neg (by rw [ht]; decide),
    if_pos ht, he, Option.some_bind]

/-- A command that returns a code other than `PICOL_OK` ends the evaluation of the
text with that code and the interpreter it left, at the level of entry. -/
theorem picolEval_stops_at_call {i j : picolInterp} {t : CStr} {q p : picolParser}
    {words : List CStr} (h : picolEvalComesTo F i t j q words) {k : Nat}
    {c : picolCmd} {r : picolRetCode × picolInterp}
    (hg : picolGetToken k q = some p) (ht : p.type = PT_EOL) (ha : words ≠ [])
    (hc : picolGetCommand j (words.getD 0 []) = some c)
    (hf : picolCallReturns F j words c r) (hr : r.1 ≠ PICOL_OK) :
    picolEvalReturns F i t (r.1, { r.2 with level := r.2.level - 1 }) := by
  obtain ⟨k2, hf⟩ := hf
  have h1 := picolEvalIter_call F (picolGetToken_mono hg (le_max_left k k2)) ht ha hc
    (picolCallFunc_mono F hf (le_max_right k k2))
  rw [if_pos hr] at h1
  exact picolEval_of_comesTo F h h1

/-- A command substitution that returns a code other than `PICOL_OK` ends the
evaluation of the text with that code and the interpreter it left, at the level of
entry. -/
theorem picolEval_stops_at_subst {i j : picolInterp} {t : CStr} {q p : picolParser}
    {words : List CStr} (h : picolEvalComesTo F i t j q words) {k : Nat}
    {r : picolRetCode × picolInterp}
    (hg : picolGetToken k q = some p) (ht : p.type = PT_CMD)
    (he : picolEvalReturns F j p.token r) (hr : r.1 ≠ PICOL_OK) :
    picolEvalReturns F i t (r.1, { r.2 with level := r.2.level - 1 }) := by
  obtain ⟨k2, he⟩ := he
  have h1 := picolEvalIter_subst F words (picolGetToken_mono hg (le_max_left k k2)) ht
    (picolEval_mono F he (le_max_right k k2))
  rw [if_pos hr] at h1
  exact picolEval_of_comesTo F h h1

end


/-! ## The evaluation of a procedure body and the bodies freed -/

theorem picolSetVar_freed (i : picolInterp) (name val : CStr) :
    (picolSetVar i name val).freed = i.freed := by
  unfold picolSetVar
  split <;> rfl

theorem picolRegisterCommand_freed (i : picolInterp) (name : CStr) (f : picolCmdFunc) :
    (picolRegisterCommand i name f).freed =
      if (picolGetCommand i name).isSome then name :: i.freed else i.freed := by
  unfold picolRegisterCommand
  cases picolGetCommand i name <;> rfl

/-- What `proc` adds to the list of the bodies freed: the name it defines, when a
command of that name exists. -/
theorem picolCommandProc_freed (i : picolInterp) (argv : List CStr) :
    (picolCommandProc i argv).2.freed =
      if argv.length = 4 ∧ (picolGetCommand i (argv.getD 1 [])).isSome then
        argv.getD 1 [] :: i.freed
      else i.freed := by
  unfold picolCommandProc
  by_cases h : argv.length = 4
  · rw [if_neg (by simp [h])]
    simp only [h, true_and]
    exact picolRegisterCommand_freed i _ _
  · rw [if_pos h, if_neg (fun hh => h hh.1)]
    rfl

theorem picolDropCallFrame_freed {i k : picolInterp} (h : picolDropCallFrame i = some k) :
    k.freed = i.freed := by
  unfold picolDropCallFrame at h
  split at h
  · cases h
  · cases h
    rfl

/-- Every step of the evaluator keeps what has been freed, or adds to it. -/
theorem freedGrows_closed : EvalClosed FreedGrows where
  refl := fun _ _ => le_refl _
  trans := fun _ _ _ h1 h2 name => le_trans (h1 name) (h2 name)
  result := fun _ _ _ => le_refl _
  setVar := fun i name val x => by rw [picolSetVar_freed]
  proc := fun i argv x => by
    rw [picolCommandProc_freed]
    split
    · exact List.count_le_count_cons _ _ _
    · exact le_refl _
  level := fun _ _ h name => h name
  frame := fun i j k h hd name => by
    rw [picolDropCallFrame_freed hd]
    exact h name

theorem picolBodyFreed_of_count (i : picolInterp) (name : CStr) (k : Nat) (p : picolParser)
    (h : i.freed.count name = k) : picolBodyFreed i name k p = false := by
  unfold picolBodyFreed
  simp [h]

section
variable {D : Type} (F : DoubleOps D)

attribute [local irreducible] picolEval picolEvalLoop picolEvalBodyLoop picolCallFunc picolGetToken in
/-- The loop of `picolEval` over the body of a command is the iteration
`picolEvalIter`, repeated until it leaves the loop, as long as no iteration is about
to read a body that has been freed. -/
theorem picolEvalBodyLoop_iter (n : Nat) (i : picolInterp) (p0 : picolParser)
    (argv : List CStr) (name : CStr) (k : Nat) :
    picolEvalBodyLoop F (n + 1) i p0 argv name k =
      if picolBodyFreed i name k p0 then none
      else
        (picolEvalIter F n i p0 argv).bind fun x =>
          match x with
          | .goOn j p a => picolEvalBodyLoop F n j p a name k
          | .stop r => some r := by
  rw [picolEvalBodyLoop_succ]
  congr 1
  unfold picolEvalIter
  cases hg : picolGetToken n p0 with
  | none => rfl
  | some p =>
    simp only [Option.some_bind]
    by_cases h1 : p.type = PT_EOF
    · rw [if_pos h1, if_pos h1]
      rfl
    · rw [if_neg h1, if_neg h1]
      by_cases h2 : p.type = PT_VAR
      · rw [if_pos h2, if_pos h2]
        cases hv : picolGetVar i p.token with
        | none => rfl
        | some v =>
          simp only
          cases ha : picolAppendArg argv p0.type v.val with
          | none => rfl
          | some argv1 => rfl
      · rw [if_neg h2, if_neg h2]
        by_cases h3 : p.type = PT_CMD
        · rw [if_pos h3, if_pos h3]
          cases he : picolEval F n i p.token with
          | none => rfl
          | some r =>
            simp only [Option.some_bind]
            by_cases hr : r.1 ≠ PICOL_OK
            · rw [if_pos hr, if_pos hr]
              rfl
            · rw [if_neg hr, if_neg hr]
              cases ha : picolAppendArg argv p0.type r.2.result with
              | none => rfl
              | some argv1 => rfl
        · rw [if_neg h3, if_neg h3]
          by_cases h4 : p.type = PT_ESC
          · rw [if_pos h4, if_pos h4]
            cases ha : picolAppendArg argv p0.type (picolEscape p.token) with
            | none => rfl
            | some argv1 => rfl
          · rw [if_neg h4, if_neg h4]
            by_cases h5 : p.type = PT_SEP
            · rw [if_pos h5, if_pos h5]
              rfl
            · rw [if_neg h5, if_neg h5]
              by_cases h6 : p.type = PT_EOL
              · rw [if_pos h6, if_pos h6]
                by_cases h7 : argv.length ≠ 0
                · rw [if_pos h7, if_pos h7]
                  cases hc : picolGetCommand i (argv.getD 0 []) with
                  | none => rfl
                  | some c =>
                    simp only
                    cases hf : picolCallFunc F n i argv c with
                    | none => rfl
                    | some r =>
                      simp only [Option.some_bind]
                      by_cases hr : r.1 ≠ PICOL_OK
                      · rw [if_pos hr, if_pos hr]
                        rfl
                      · rw [if_neg hr, if_neg hr]
                        rfl
                · rw [if_neg h7, if_neg h7]
                  rfl
              · rw [if_neg h6, if_neg h6]
                cases ha : picolAppendArg argv p0.type p.token with
                | none => rfl
                | some argv1 => rfl

attribute [local irreducible] picolEval picolCallFunc picolGetToken in
/-- One iteration of the token loop relates the interpreter it starts from to the
one it goes on with, or leaves the loop with, by every relation that the steps of
the evaluator keep. -/
theorem picolEvalIter_keeps {R : picolInterp → picolInterp → Prop} (hR : EvalClosed R)
    (n : Nat) (i : picolInterp) (p0 : picolParser) (argv : List CStr) :
    Post (picolEvalIter F n i p0 argv) fun x =>
      match x with
      | .goOn j _ _ => R i j
      | .stop r => R i r.2 := by
  have ihE := (eval_keeps F hR n).1
  have ihF := (eval_keeps F hR n).2.2.1
  unfold picolEvalIter
  refine Post_bind (Post_trivial _) fun p _ => ?_
  refine Post_ite (fun _ => Post_some (hR.refl _)) fun _ => ?_
  refine Post_ite (fun _ => ?_) fun _ => ?_
  · split
    · exact Post_some (hR.result _ _)
    · exact Post_bind (Post_trivial _) fun argv1 _ => Post_some (hR.refl _)
  refine Post_ite (fun _ => ?_) fun _ => ?_
  · refine Post_bind (ihE _ _) fun r hr => ?_
    refine Post_ite (fun _ => Post_some hr) fun _ => ?_
    exact Post_bind (Post_trivial _) fun argv1 _ => Post_some hr
  refine Post_ite (fun _ => ?_) fun _ => ?_
  · exact Post_bind (Post_trivial _) fun argv1 _ => Post_some (hR.refl _)
  refine Post_ite (fun _ => Post_some (hR.refl _)) fun _ => ?_
  refine Post_ite (fun _ => ?_) fun _ => ?_
  · refine Post_ite (fun _ => ?_) fun _ => Post_some (hR.refl _)
    split
    · exact Post_some (hR.result _ _)
    · refine Post_bind (ihF _ _ _) fun r hr => ?_
      exact Post_ite (fun _ => Post_some hr) fun _ => Post_some hr
  · exact Post_bind (Post_trivial _) fun argv1 _ => Post_some (hR.refl _)

attribute [local irreducible] picolEval picolEvalLoop picolEvalBodyLoop picolCallFunc picolGetToken in
/-- While the body is not freed, its loop is the loop of `picolEval`: when
`picolEvalLoop` returns and the body has been freed as often at the end as at the
start, the loop over the body returns the same. -/
theorem picolEvalBodyLoop_of_loop (name : CStr) (n : Nat) :
    ∀ (i : picolInterp) (p : picolParser) (argv : List CStr)
      (r : picolRetCode × picolInterp),
      picolEvalLoop F n i p argv = some r →
      r.2.freed.count name = i.freed.count name →
      picolEvalBodyLoop F n i p argv name (r.2.freed.count name) = some r := by
  induction n with
  | zero =>
    intro i p argv r h
    rw [picolEvalLoop_zero] at h
    cases h
  | succ n ih =>
    intro i p argv r h hc
    rw [picolEvalLoop_iter] at h
    rw [picolEvalBodyLoop_iter, picolBodyFreed_of_count _ _ _ _ hc.symm]
    simp only [Bool.false_eq_true, if_false]
    cases hx : picolEvalIter F n i p argv with
    | none => rw [hx] at h; cases h
    | some x =>
      rw [hx, Option.some_bind] at h
      rw [Option.some_bind]
      cases x with
      | stop r2 => exact h
      | goOn j q a =>
        simp only at h ⊢
        have h1 : i.freed.count name ≤ j.freed.count name :=
          (picolEvalIter_keeps F freedGrows_closed n i p argv).out _ hx name
        have h2 : j.freed.count name ≤ r.2.freed.count name :=
          ((eval_keeps F freedGrows_closed n).2.1 j q a).out r h name
        exact ih j q a r h (by omega)

attribute [local irreducible] picolEval picolEvalLoop picolEvalBodyLoop picolCallFunc picolGetToken in
/-- What the loop over a body returns, the loop of `picolEval` returns. -/
theorem picolEvalLoop_of_bodyLoop (name : CStr) (k : Nat) (n : Nat) :
    ∀ (i : picolInterp) (p : picolParser) (argv : List CStr)
      (r : picolRetCode × picolInterp),
      picolEvalBodyLoop F n i p argv name k = some r →
      picolEvalLoop F n i p argv = some r := by
  induction n with
  | zero =>
    intro i p argv r h
    rw [picolEvalBodyLoop_zero] at h
    cases h
  | succ n ih =>
    intro i p argv r h
    rw [picolEvalBodyLoop_iter] at h
    rw [picolEvalLoop_iter]
    split_ifs at h
    cases hx : picolEvalIter F n i p argv with
    | none => rw [hx] at h; cases h
    | some x =>
      rw [hx, Option.some_bind] at h
      rw [Option.some_bind]
      cases x with
      | stop r2 => exact h
      | goOn j q a => exact ih j q a r h

attribute [local irreducible] picolEvalLoop picolEvalBodyLoop in
/-- The evaluation of a body that is not freed meanwhile: when `picolEval` on the
text of the body returns and the command called `name` has been freed as often at
the end as at the start, the evaluation of the body in place returns the same. -/
theorem picolEvalBody_of_eval {n : Nat} {i : picolInterp} {name t : CStr}
    {r : picolRetCode × picolInterp} (h : picolEval F n i t = some r)
    (hc : r.2.freed.count name = i.freed.count name) :
    picolEvalBody F n i name t = some r := by
  cases n with
  | zero => rw [picolEval_zero] at h; cases h
  | succ n =>
    rw [picolEval_succ] at h
    rw [picolEvalBody_succ]
    split_ifs at h ⊢
    · exact h
    · cases hl : picolEvalLoop F n { picolSetResult i [] with level := i.level + 1 }
          (picolInitParser t) [] with
      | none => rw [hl] at h; cases h
      | some r0 =>
        rw [hl, Option.some_bind] at h
        have e : r0.2.freed = r.2.freed := by
          cases h
          rfl
        have hb := picolEvalBodyLoop_of_loop F name n _ _ _ r0 hl (by rw [e]; exact hc)
        rw [e, hc] at hb
        rw [hb]
        exact h

attribute [local irreducible] picolEvalLoop picolEvalBodyLoop in
/-- What the evaluation of a body in place returns, `picolEval` on its text
returns. -/
theorem picolEval_of_evalBody {n : Nat} {i : picolInterp} {name t : CStr}
    {r : picolRetCode × picolInterp} (h : picolEvalBody F n i name t = some r) :
    picolEval F n i t = some r := by
  cases n with
  | zero => rw [picolEvalBody_zero] at h; cases h
  | succ n =>
    rw [picolEvalBody_succ] at h
    rw [picolEval_succ]
    split_ifs at h ⊢
    · exact h
    · cases hl : picolEvalBodyLoop F n { picolSetResult i [] with level := i.level + 1 }
          (picolInitParser t) [] name (i.freed.count name) with
      | none => rw [hl] at h; cases h
      | some r0 =>
        rw [hl, Option.some_bind] at h
        rw [picolEvalLoop_of_bodyLoop F name _ n _ _ _ r0 hl]
        exact h

theorem picolEvalBodyReturns_of_eval {i : picolInterp} {name t : CStr}
    {r : picolRetCode × picolInterp} (h : picolEvalReturns F i t r)
    (hc : r.2.freed.count name = i.freed.count name) :
    picolEvalBodyReturns F i name t r :=
  h.elim fun n hn => ⟨n, picolEvalBody_of_eval F hn hc⟩

theorem picolEvalReturns_of_body {i : picolInterp} {name t : CStr}
    {r : picolRetCode × picolInterp} (h : picolEvalBodyReturns F i name t r) :
    picolEvalReturns F i t r :=
  h.elim fun n hn => ⟨n, picolEval_of_evalBody F hn⟩

end

section
variable {D : Type} (F : DoubleOps D)

attribute [local irreducible] picolEval picolEvalLoop picolEvalBodyLoop picolCallFunc picolGetToken in
/-- The loop over a body has no result, whatever the fuel, from a state in which the
body has been freed and would be read. -/
theorem picolEvalBodyLoop_freed (i : picolInterp) (p : picolParser) (argv : List CStr)
    (name : CStr) (k : Nat) (h : picolBodyFreed i name k p = true) (n : Nat) :
    picolEvalBodyLoop F n i p argv name k = none := by
  cases n with
  | zero => exact picolEvalBodyLoop_zero F i p argv name k
  | succ n => rw [picolEvalBodyLoop_succ, if_pos h]

attribute [local irreducible] picolEval picolEvalLoop picolEvalBodyLoop picolCallFunc picolGetToken in
/-- When the loop over a body returns, it returns the same from every state that the
token loop comes to. -/
theorem picolEvalBodyLoop_reaches {i j : picolInterp} {p q : picolParser}
    {argv words : List CStr} (h : picolEvalReaches F i p argv j q words) (name : CStr)
    (k : Nat) (r : picolRetCode × picolInterp) :
    ∀ n, picolEvalBodyLoop F n i p argv name k = some r →
      ∃ m, picolEvalBodyLoop F m j q words name k = some r := by
  induction h with
  | here i p argv => exact fun n hn => ⟨n, hn⟩
  | next f i p argv i1 p1 argv1 j q words hstep _ ih =>
    intro n hn
    cases n with
    | zero => rw [picolEvalBodyLoop_zero] at hn; cases hn
    | succ n =>
      rw [picolEvalBodyLoop_iter] at hn
      split_ifs at hn
      cases hx : picolEvalIter F n i p argv with
      | none => rw [hx] at hn; cases hn
      | some x =>
        rw [hx, Option.some_bind] at hn
        have e1 := (picolEvalIter_mono F (le_max_left f n) i p argv).le _ hstep
        have e2 := (picolEvalIter_mono F (le_max_right f n) i p argv).le _ hx
        rw [e1] at e2
        cases e2
        exact ih n hn

/-- The evaluation of a body in place has no result, whatever the fuel, when its
token loop comes to a state in which the body has been freed and would be read. -/
theorem picolEvalBody_none_of_reaches {i j : picolInterp} {name t : CStr} {q : picolParser}
    {words : List CStr} (h : picolEvalComesTo F i t j q words)
    (hf : picolBodyFreed j name (i.freed.count name) q = true) (n : Nat) :
    picolEvalBody F n i name t = none := by
  cases n with
  | zero => exact picolEvalBody_zero F i name t
  | succ n =>
    rw [picolEvalBody_succ, if_neg (not_lt.mpr h.1)]
    cases hl : picolEvalBodyLoop F n { picolSetResult i [] with level := i.level + 1 }
        (picolInitParser t) [] name (i.freed.count name) with
    | none => rfl
    | some r =>
      obtain ⟨m, hm⟩ := picolEvalBodyLoop_reaches F h.2 name _ r n hl
      rw [picolEvalBodyLoop_freed F j q words name _ hf m] at hm
      cases hm

end

/-- A procedure that defines itself again.  (1) The body of the first conjunct goes
on after the definition: the evaluation of the body in place, in the frame of a call
and in the interpreter where `f` has this body, has no result whatever the fuel,
since the C program then parses a text that it has freed; (2) `picolEval` on a copy
of the same text returns `PICOL_RETURN` with the result `old`.  (3) When the
definition is the last command of the body and nothing follows it, the text is not
read again: the call returns, and the next call runs the new body. -/
theorem picolEvalBody_redefine_examples :
    (∀ n, picolEvalBody intDouble n
      { (picolCommandProc picolCoreInterp ["proc".toList, "f".toList, [],
          "proc f \x7b\x7d \x7breturn new\x7d; return old".toList]).2 with
        callframe := .child [] (.top []) }
      "f".toList "proc f \x7b\x7d \x7breturn new\x7d; return old".toList = none) ∧
    (picolEval intDouble 40
      { (picolCommandProc picolCoreInterp ["proc".toList, "f".toList, [],
          "proc f \x7b\x7d \x7breturn new\x7d; return old".toList]).2 with
        callframe := .child [] (.top []) }
      "proc f \x7b\x7d \x7breturn new\x7d; return old".toList).map
        (fun r => (r.1, r.2.result)) = some (PICOL_RETURN, "old".toList) ∧
    (picolEval intDouble 60 picolCoreInterp
      "proc f \x7b\x7d \x7bproc f \x7b\x7d \x7breturn new\x7d\x7d; f; f".toList).map
        (fun r => (r.1, r.2.result, r.2.freed)) =
      some (PICOL_OK, "new".toList, ["f".toList]) := by
  refine ⟨?_, by decide!, by decide!⟩
  have ht : (picolEvalTrace intDouble 20 8
      { picolSetResult { (picolCommandProc picolCoreInterp ["proc".toList, "f".toList, [],
          "proc f \x7b\x7d \x7breturn new\x7d; return old".toList]).2 with
        callframe := .child [] (.top []) } [] with level := 0 + 1 }
      (picolInitParser "proc f \x7b\x7d \x7breturn new\x7d; return old".toList) []).map
      (fun s => picolBodyFreed s.1 "f".toList 0 s.2.1) = some true := by decide!
  cases hs : picolEvalTrace intDouble 20 8
      { picolSetResult { (picolCommandProc picolCoreInterp ["proc".toList, "f".toList, [],
          "proc f \x7b\x7d \x7breturn new\x7d; return old".toList]).2 with
        callframe := .child [] (.top []) } [] with level := 0 + 1 }
      (picolInitParser "proc f \x7b\x7d \x7breturn new\x7d; return old".toList) [] with
  | none => rw [hs] at ht; cases ht
  | some s =>
    rw [hs] at ht
    have hreach := picolEvalReaches_of_trace intDouble 20 8 _ _ _ s hs
    exact picolEvalBody_none_of_reaches intDouble
      (i := { (picolCommandProc picolCoreInterp ["proc".toList, "f".toList, [],
          "proc f \x7b\x7d \x7breturn new\x7d; return old".toList]).2 with
        callframe := .child [] (.top []) })
      ⟨by decide, hreach⟩ (Option.some.inj ht)

/-! ## C20: a code other than `PICOL_OK` ends the evaluation -/

section
variable {D : Type} (F : DoubleOps D)

/-- **C20.** Let the evaluation of the text `t` come, in the token loop, to the
interpreter `j` with the words `words` gathered.  If the next token ends the command
and the command called returns a code other than `PICOL_OK`, then `picolEval`
returns that code and the interpreter that the command left, so its result, with
only the level decremented: nothing that follows in the text is read.  The same
holds when the next token is a command substitution whose evaluation returns a code
other than `PICOL_OK`.  In particular the command `return v` (and `return`) makes
`picolEval` return `PICOL_RETURN` with the result `v` (the empty text), and the
commands `break` and `continue` make it return `PICOL_BREAK` and `PICOL_CONTINUE`. -/
theorem C20_stops_at_non_ok (i j : picolInterp) (t : CStr) (q p : picolParser)
    (words : List CStr) (k : Nat) (h : picolEvalComesTo F i t j q words)
    (hg : picolGetToken k q = some p) :
    (∀ (c : picolCmd) (r : picolRetCode × picolInterp),
      p.type = PT_EOL → words ≠ [] → picolGetCommand j (words.getD 0 []) = some c →
      picolCallReturns F j words c r → r.1 ≠ PICOL_OK →
      picolEvalReturns F i t (r.1, { r.2 with level := r.2.level - 1 })) ∧
    (∀ (r : picolRetCode × picolInterp),
      p.type = PT_CMD → picolEvalReturns F j p.token r → r.1 ≠ PICOL_OK →
      picolEvalReturns F i t (r.1, { r.2 with level := r.2.level - 1 })) ∧
    (∀ (c : picolCmd) (w v : CStr),
      p.type = PT_EOL → picolGetCommand j w = some c → c.func = .picolCommandReturn →
      (words = [w, v] →
        picolEvalReturns F i t (PICOL_RETURN, { j with level := j.level - 1, result := v })) ∧
      (words = [w] →
        picolEvalReturns F i t (PICOL_RETURN, { j with level := j.level - 1, result := [] }))) ∧
    (∀ (c : picolCmd),
      p.type = PT_EOL → c.func = .picolCommandRetCodes →
      (words = ["break".toList] → picolGetCommand j "break".toList = some c →
        picolEvalReturns F i t (PICOL_BREAK, { j with level := j.level - 1 })) ∧
      (words = ["continue".toList] → picolGetCommand j "continue".toList = some c →
        picolEvalReturns F i t (PICOL_CONTINUE, { j with level := j.level - 1 }))) := by
  refine ⟨?_, ?_, ?_, ?_⟩
  · intro c r ht ha hc hf hr
    exact picolEval_stops_at_call F h hg ht ha hc hf hr
  · intro r ht he hr
    exact picolEval_stops_at_subst F h hg ht he hr
  · intro c w v ht hc hfun
    constructor
    · intro hw
      subst hw
      have hf : picolCallReturns F j [w, v] c (PICOL_RETURN, picolSetResult j v) :=
        ⟨1, picolCallFunc_return F 0 j _ c hfun⟩
      exact picolEval_stops_at_call F h hg ht (by simp) hc hf (fun e => picolRetCode.noConfusion e)
    · intro hw
      subst hw
      have hf : picolCallReturns F j [w] c (PICOL_RETURN, picolSetResult j []) :=
        ⟨1, picolCallFunc_return F 0 j _ c hfun⟩
      exact picolEval_stops_at_call F h hg ht (by simp) hc hf (fun e => picolRetCode.noConfusion e)
  · intro c ht hfun
    constructor
    · intro hw hc
      subst hw
      have hf : picolCallReturns F j ["break".toList] c (PICOL_BREAK, j) :=
        ⟨1, picolCallFunc_retCodes F 0 j _ c hfun⟩
      exact picolEval_stops_at_call F h hg ht (by simp) hc hf (fun e => picolRetCode.noConfusion e)
    · intro hw hc
      subst hw
      have hf : picolCallReturns F j ["continue".toList] c (PICOL_CONTINUE, j) :=
        ⟨1, picolCallFunc_retCodes F 0 j _ c hfun⟩
      exact picolEval_stops_at_call F h hg ht (by simp) hc hf (fun e => picolRetCode.noConfusion e)

end

/-- Witness of C20: in the text `return 5; set x 1`, evaluated in the interpreter of
the test program, the loop comes to the words `return 5`; `picolEval` returns
`PICOL_RETURN` with the result `5`, and `x` is not set. -/
theorem C20_witness :
    picolEvalReturns intDouble picolCoreInterp "return 5; set x 1".toList
      (PICOL_RETURN, { picolCoreInterp with result := "5".toList }) :=
  ((C20_stops_at_non_ok intDouble picolCoreInterp
    { picolCoreInterp with level := 1, result := [] } "return 5; set x 1".toList
    (picolParser.mk "return 5; set x 1".toList 8 9 7 7 PT_ESC false)
    (picolParser.mk "return 5; set x 1".toList 10 7 8 9 PT_EOL false)
    ["return".toList, "5".toList] 5
    ⟨by decide, picolEvalReaches_of_trace intDouble 10 3 _ _ _
      ({ picolCoreInterp with level := 1, result := [] },
        picolParser.mk "return 5; set x 1".toList 8 9 7 7 PT_ESC false,
        ["return".toList, "5".toList]) (by decide!)⟩
    (by decide!)).2.2.1
    (picolCmd.mk "return".toList .picolCommandReturn none none) "return".toList "5".toList
    rfl (by decide!) rfl).1 rfl

/-- The particular cases of C20, run in the interpreter of the test program. -/
theorem picolEval_top_level_codes :
    (picolEval intDouble 20 picolCoreInterp "return 5; set x 1".toList).bind
        (fun r => some (r.1, r.2.result, r.2.callframe)) =
      some (PICOL_RETURN, "5".toList, picolCallFrame.top []) ∧
    (picolEval intDouble 20 picolCoreInterp "break; set x 1".toList).bind
        (fun r => some (r.1, r.2.callframe)) = some (PICOL_BREAK, picolCallFrame.top []) ∧
    (picolEval intDouble 20 picolCoreInterp "continue; set x 1".toList).bind
        (fun r => some (r.1, r.2.callframe)) = some (PICOL_CONTINUE, picolCallFrame.top []) ∧
    (picolEval intDouble 20 picolCoreInterp "set y [break]; set x 1".toList).bind
        (fun r => some (r.1, r.2.callframe)) = some (PICOL_BREAK, picolCallFrame.top []) := by
  decide!


/-! ## C13: `return` inside a procedure body -/

section
variable {D : Type} (F : DoubleOps D)

theorem SameFrame_child_left {vs : List picolVar} {par g : picolCallFrame}
    (h : SameFrame (.child vs par) g) : ∃ ws q, g = .child ws q := by
  cases g with
  | top ws => exact h.elim
  | child ws q => exact ⟨ws, q, rfl⟩

/-- A call whose arguments are bound to the parameters evaluates the body in the
frame of the call, drops that frame and returns the code of the body, with
`PICOL_RETURN` turned into `PICOL_OK`; the result is the one the body left.  The
body is evaluated in place (`picolEvalBody`), as the C code does. -/
theorem picolCommandCallProc_body (i : picolInterp) (name : CStr) (args : List CStr)
    (cmd : picolCmd) (alist body : CStr) (i2 : picolInterp)
    (r : picolRetCode × picolInterp)
    (ha : cmd.arglist = some alist) (hb : cmd.body = some body)
    (hnul : ∀ c ∈ alist, c ≠ '\x00')
    (hbind : picolBindParams (name :: args) { i with callframe := .child [] i.callframe } 0
      (picolParams alist) = .done i2 (args.length : Int))
    (he : picolEvalBodyReturns F i2 cmd.name body r) :
    ∃ k, picolDropCallFrame r.2 = some k ∧ k.result = r.2.result ∧
      ∃ n, picolCommandCallProc F n i (name :: args) cmd =
        some (if r.1 = PICOL_RETURN then PICOL_OK else r.1, k) := by
  obtain ⟨m, hm⟩ := he
  have hloop := picolArgsLoop_params alist hnul (name :: args) _ 0 (max m (alist.length + 2))
    { i with callframe := .child [] i.callframe } 0 (le_refl _) (le_max_right _ _)
  rw [List.drop_zero, hbind] at hloop
  have h1 := (picolArgsLoop_keeps levelFrameKept_closed _ _ _ _ _ _).out _ hloop
  obtain ⟨ws, q, hq⟩ := SameFrame_child_left h1.2
  have h2 :=
    ((eval_keeps F levelFrameKept_closed m).2.2.2.2.2.2.2.2.1 i2 cmd.name body).out r hm
  have h3 : SameFrame (.child ws q) r.2.callframe := by
    have := h2.2
    rw [show i2.callframe = .child ws q from hq] at this
    exact this
  obtain ⟨ws2, q2, hq2⟩ := SameFrame_child_left h3
  have hdrop : picolDropCallFrame r.2 = some { r.2 with callframe := q2 } := by
    unfold picolDropCallFrame
    rw [hq2]
  refine ⟨_, hdrop, rfl, max m (alist.length + 2) + 1, ?_⟩
  rw [picolCommandCallProc_succ, ha, Option.some_bind, hloop, Option.some_bind]
  simp only
  rw [if_neg (by simp), hb, Option.some_bind, picolEvalBody_mono F hm (le_max_left _ _),
    Option.some_bind, hdrop, Option.some_bind]

theorem picolWhile_body_return (i : picolInterp) (w c b : CStr)
    (r r2 : picolRetCode × picolInterp) (hc : picolCondReturns F i c r) (hr : r.1 = PICOL_OK)
    (ht : picolTruth F r.2.result = true) (hb : picolEvalReturns F r.2 b r2)
    (h2 : r2.1 = PICOL_RETURN) : picolWhileReturns F i [w, c, b] r2 := by
  obtain ⟨n, hn⟩ := hc
  obtain ⟨m, hm⟩ := hb
  have hc1 : ([w, c, b] : List CStr).getD 1 [] = c := rfl
  have hb2 : ([w, c, b] : List CStr).getD 2 [] = b := rfl
  apply picolWhile_of_loop F (n := max n m + 1)
  unfold picolTruth at ht
  rw [picolWhileLoop_succ, hc1, hb2, picolExprExpansion_mono F hn (le_max_left n m),
    Option.some_bind, if_neg (by simp [hr]), if_neg (by simp [ht]),
    picolEval_mono F hm (le_max_right n m), Option.some_bind,
    if_neg (by simp [h2]), if_neg (by simp [h2])]

theorem picolWhile_body_again (i : picolInterp) (w c b : CStr)
    (r r2 r3 : picolRetCode × picolInterp) (hc : picolCondReturns F i c r)
    (hr : r.1 = PICOL_OK) (ht : picolTruth F r.2.result = true)
    (hb : picolEvalReturns F r.2 b r2) (h2 : r2.1 = PICOL_OK ∨ r2.1 = PICOL_CONTINUE)
    (h3 : picolWhileReturns F r2.2 [w, c, b] r3) : picolWhileReturns F i [w, c, b] r3 := by
  obtain ⟨n, hn⟩ := hc
  obtain ⟨m, hm⟩ := hb
  obtain ⟨k, hk⟩ := h3
  have hc1 : ([w, c, b] : List CStr).getD 1 [] = c := rfl
  have hb2 : ([w, c, b] : List CStr).getD 2 [] = b := rfl
  unfold picolTruth at ht
  cases k with
  | zero => rw [picolCommandWhile_zero] at hk; cases hk
  | succ k =>
    rw [picolWhile_unfold] at hk
    apply picolWhile_of_loop F (n := max (max n m) k + 1)
    rw [picolWhileLoop_succ, hc1, hb2,
      picolExprExpansion_mono F hn (le_trans (le_max_left n m) (le_max_left _ k)),
      Option.some_bind, if_neg (by simp [hr]), if_neg (by simp [ht]),
      picolEval_mono F hm (le_trans (le_max_right n m) (le_max_left _ k)),
      Option.some_bind, if_pos h2.symm]
    exact picolWhileLoop_mono F hk (le_max_right _ k)

/-- **C13.** How `return` ends a procedure call.
(1) The command `return v` sets the result to `v`, the command `return` sets it to
the empty text, and both return `PICOL_RETURN`.
(2) When the evaluation of a text comes to a command that returns `PICOL_RETURN`
(the command `return`, or an `if` or a `while` that returns this code), `picolEval`
returns `PICOL_RETURN` with the interpreter this command left: nothing that follows
in the text is read.
(3) An `if` whose branch taken (the body of the first condition that is not zero, or
the body of `else`) returns `PICOL_RETURN` returns what this body returns.
(4) A `while` whose body returns `PICOL_RETURN` returns what this body returns, in
the first turn of the loop and, after turns whose body returned `PICOL_OK` or
`PICOL_CONTINUE`, in a later one.
(5) A procedure call whose body returns `PICOL_RETURN` returns `PICOL_OK`, and its
result is the one that the body left, the value given to `return`.  The body is
evaluated as the call evaluates it: in place, the text `cmd->body` itself
(`picolEvalBody`).
(6) That evaluation returns what `picolEval` returns on the text of the body
whenever the body is not freed meanwhile, that is, when no command that the body
runs defines the procedure again; and whatever it returns, `picolEval` on the text
of the body returns. -/
theorem C13_return_ends_procedure :
    (∀ (i : picolInterp) (w v : CStr),
      picolCommandReturn i [w, v] = (PICOL_RETURN, { i with result := v }) ∧
      picolCommandReturn i [w] = (PICOL_RETURN, { i with result := [] })) ∧
    (∀ (i j : picolInterp) (t : CStr) (q p : picolParser) (words : List CStr) (k : Nat)
      (c : picolCmd) (r : picolRetCode × picolInterp),
      picolEvalComesTo F i t j q words → picolGetToken k q = some p → p.type = PT_EOL →
      words ≠ [] → picolGetCommand j (words.getD 0 []) = some c →
      picolCallReturns F j words c r → r.1 = PICOL_RETURN →
      picolEvalReturns F i t (PICOL_RETURN, { r.2 with level := r.2.level - 1 })) ∧
    (∀ (i j : picolInterp) (pre : List (CStr × CStr)) (c b : CStr)
      (r r2 : picolRetCode × picolInterp),
      picolIfZeros F i pre j → picolCondReturns F j c r → r.1 = PICOL_OK →
      r2.1 = PICOL_RETURN →
      (∀ rest, picolTruth F r.2.result = true → picolEvalReturns F r.2 b r2 →
        picolIfReturns F i ("if".toList :: (picolIfSkipped pre ++ c :: b :: rest)) r2) ∧
      (∀ e, picolTruth F r.2.result = false → picolEvalReturns F r.2 e r2 →
        picolIfReturns F i
          ("if".toList :: (picolIfSkipped pre ++ [c, b, "else".toList, e])) r2)) ∧
    (∀ (i : picolInterp) (w c b : CStr) (r r2 : picolRetCode × picolInterp),
      picolCondReturns F i c r → r.1 = PICOL_OK → picolTruth F r.2.result = true →
      picolEvalReturns F r.2 b r2 →
      (r2.1 = PICOL_RETURN → picolWhileReturns F i [w, c, b] r2) ∧
      (∀ r3, (r2.1 = PICOL_OK ∨ r2.1 = PICOL_CONTINUE) →
        picolWhileReturns F r2.2 [w, c, b] r3 → picolWhileReturns F i [w, c, b] r3)) ∧
    (∀ (i : picolInterp) (name : CStr) (args : List CStr) (cmd : picolCmd)
      (alist body : CStr) (i2 : picolInterp) (r : picolRetCode × picolInterp),
      cmd.arglist = some alist → cmd.body = some body → (∀ c ∈ alist, c ≠ '\x00') →
      picolBindParams (name :: args) { i with callframe := .child [] i.callframe } 0
        (picolParams alist) = .done i2 (args.length : Int) →
      picolEvalBodyReturns F i2 cmd.name body r → r.1 = PICOL_RETURN →
      ∃ k, picolDropCallFrame r.2 = some k ∧ k.result = r.2.result ∧
        ∃ n, picolCommandCallProc F n i (name :: args) cmd = some (PICOL_OK, k)) ∧
    (∀ (i2 : picolInterp) (name body : CStr) (r : picolRetCode × picolInterp),
      (picolEvalReturns F i2 body r → r.2.freed.count name = i2.freed.count name →
        picolEvalBodyReturns F i2 name body r) ∧
      (picolEvalBodyReturns F i2 name body r → picolEvalReturns F i2 body r)) := by
  refine ⟨fun i w v => ⟨rfl, rfl⟩, ?_, ?_, ?_, ?_,
    fun i2 name body r => ⟨fun h hc => picolEvalBodyReturns_of_eval F h hc,
      fun h => picolEvalReturns_of_body F h⟩⟩
  · intro i j t q p words k c r h hg ht ha hc hf hr
    have := picolEval_stops_at_call F h hg ht ha hc hf (by rw [hr]; decide)
    rw [hr] at this
    exact this
  · intro i j pre c b r r2 hz hc hr h2
    constructor
    · intro rest ht hb
      have h0 := picolIfWords_getD pre (c :: b :: rest) 0
      rw [Nat.add_zero] at h0
      have h1 := picolIfWords_getD pre (c :: b :: rest) 1
      have h := picolIf_taken F j ("if".toList :: (picolIfSkipped pre ++ c :: b :: rest))
        (1 + 3 * pre.length) r r2 (by rw [picolIfWords_length]; simp)
        (by rw [h0]; exact hc) hr ht (by rw [h1]; exact hb)
      exact picolIf_after_skip F i j pre hz _ _ h
    · intro e ht hb
      have h0 := picolIfWords_getD pre [c, b, "else".toList, e] 0
      rw [Nat.add_zero] at h0
      have h2 := picolIfWords_getD pre [c, b, "else".toList, e] 2
      have h3 := picolIfWords_getD pre [c, b, "else".toList, e] (2 + 1)
      have h := picolIf_zero_else F j
        ("if".toList :: (picolIfSkipped pre ++ [c, b, "else".toList, e]))
        (1 + 3 * pre.length) r r2 (by rw [picolIfWords_length]; simp)
        (by rw [h0]; exact hc) hr ht (by rw [h2]; rfl)
        (by rw [← Nat.add_assoc] at h3; rw [h3]; exact hb)
      exact picolIf_after_skip F i j pre hz _ _ h
  · intro i w c b r r2 hc hr ht hb
    exact ⟨fun h2 => picolWhile_body_return F i w c b r r2 hc hr ht hb h2,
      fun r3 h2 h3 => picolWhile_body_again F i w c b r r2 r3 hc hr ht hb h2 h3⟩
  · intro i name args cmd alist body i2 r ha hb hnul hbind he hr
    obtain ⟨k, h1, h2, n, h3⟩ :=
      picolCommandCallProc_body F i name args cmd alist body i2 r ha hb hnul hbind he
    rw [if_pos hr] at h3
    exact ⟨k, h1, h2, n, h3⟩

end

/-- Witness of C13: the procedure `retnil` of the test `return no value`, whose body
is `return`; the call returns `PICOL_OK` with the empty result. -/
theorem C13_witness :
    ∃ k, picolDropCallFrame
        (PICOL_RETURN, picolInterp.mk 0 (.child [] (.top [])) picolCoreInterp.commands [] []).2
          = some k ∧
      k.result =
        (PICOL_RETURN, picolInterp.mk 0 (.child [] (.top [])) picolCoreInterp.commands [] []).2.result ∧
      ∃ n, picolCommandCallProc intDouble n picolCoreInterp ("retnil".toList :: [])
        (picolCmd.mk "retnil".toList .picolCommandCallProc (some []) (some " return ".toList))
        = some (PICOL_OK, k) :=
  (C13_return_ends_procedure intDouble).2.2.2.2.1 picolCoreInterp "retnil".toList []
    (picolCmd.mk "retnil".toList .picolCommandCallProc (some []) (some " return ".toList))
    [] " return ".toList
    (picolInterp.mk 0 (.child [] (.top [])) picolCoreInterp.commands [] [])
    (PICOL_RETURN, picolInterp.mk 0 (.child [] (.top [])) picolCoreInterp.commands [] [])
    rfl rfl (by decide) rfl ⟨20, by decide!⟩ rfl

/-- The tests `proc with return`, `return no value` and `return inside while`, run:
the commands after the `return` reached are not executed. -/
theorem picolEval_return_examples :
    (picolEval intDouble 60 picolCoreInterp
        "proc f {x} { if {$x > 0} { return yes }; return no }; f 1".toList).bind
        (fun r => some (r.1, r.2.result)) = some (PICOL_OK, "yes".toList) ∧
    (picolEval intDouble 60 picolCoreInterp
        "proc retnil {} { return }; retnil".toList).bind
        (fun r => some (r.1, r.2.result)) = some (PICOL_OK, []) ∧
    (picolEval intDouble 120 picolCoreInterp
        "proc findthree {} { set i 0; while {1} { set i [expr $i+1]; if {$i == 3} { return $i } } }; findthree".toList).bind
        (fun r => some (r.1, r.2.result)) = some (PICOL_OK, "3".toList) := by
  decide!


/-! ## C14: the names of the command table are distinct -/

theorem picolReplaceCmd_length (cs : List picolCmd) (name : CStr) (c : picolCmd) :
    (picolReplaceCmd cs name c).length = cs.length := by
  unfold picolReplaceCmd
  rw [List.length_map]

section
variable {D : Type} (F : DoubleOps D)

/-- **C14.** The command table never holds two entries with the same name: this
holds in the interpreter made by `picolInitInterp` and in the one of the test program,
and it is kept by `picolRegisterCommand`, by `proc` and by every evaluation that
returns (a procedure whose body is freed while it is still parsed has no defined
behaviour in C and no result here, see `picolEvalBody`).  When the table has no two entries with the same name and holds the name
`name`, `picolRegisterCommand` leaves a table of the same length in which the entry
of that name is replaced, in place, by the name with the new handler and without
`arglist` and `body`, every other entry being the same; `proc` leaves the table in
which that entry is replaced by the procedure with the new parameter list and body.
In both cases a later lookup of the name finds the new entry, which is the one the
evaluator calls, and a lookup of another name finds what it found before. -/
theorem C14_command_names_unique :
    (picolNamesNodup picolInitInterp ∧ picolNamesNodup picolCoreInterp) ∧
    (∀ (i : picolInterp) (name : CStr) (f : picolCmdFunc),
      picolNamesNodup i → picolNamesNodup (picolRegisterCommand i name f)) ∧
    (∀ (i : picolInterp) (argv : List CStr),
      picolNamesNodup i → picolNamesNodup (picolCommandProc i argv).2) ∧
    (∀ (n : Nat) (i : picolInterp) (t : CStr) (r : picolRetCode × picolInterp),
      picolNamesNodup i → picolEval F n i t = some r → picolNamesNodup r.2) ∧
    (∀ (i : picolInterp) (name : CStr) (f : picolCmdFunc) (c : picolCmd),
      picolNamesNodup i → picolGetCommand i name = some c →
      (picolRegisterCommand i name f).commands =
        picolReplaceCmd i.commands name (picolCmd.mk name f none none) ∧
      (picolRegisterCommand i name f).commands.length = i.commands.length ∧
      picolGetCommand (picolRegisterCommand i name f) name =
        some (picolCmd.mk name f none none) ∧
      ∀ other, other ≠ name →
        picolGetCommand (picolRegisterCommand i name f) other = picolGetCommand i other) ∧
    (∀ (i : picolInterp) (w name alist body : CStr) (c : picolCmd),
      picolNamesNodup i → picolGetCommand i name = some c →
      (picolCommandProc i [w, name, alist, body]).2.commands =
        picolReplaceCmd i.commands name
          (picolCmd.mk name .picolCommandCallProc (some alist) (some body)) ∧
      (picolCommandProc i [w, name, alist, body]).2.commands.length = i.commands.length ∧
      picolGetCommand (picolCommandProc i [w, name, alist, body]).2 name =
        some (picolCmd.mk name .picolCommandCallProc (some alist) (some body)) ∧
      ∀ other, other ≠ name →
        picolGetCommand (picolCommandProc i [w, name, alist, body]).2 other =
          picolGetCommand i other) := by
  have hinit : picolNamesNodup picolInitInterp := List.nodup_nil
  have hcore : picolNamesNodup picolCoreInterp := by
    unfold picolCoreInterp picolRegisterCoreCommands
    simp only
    repeat' apply picolRegisterCommand_nodup
    exact hinit
  refine ⟨⟨hinit, hcore⟩, picolRegisterCommand_nodup, picolCommandProc_nodup, ?_, ?_, ?_⟩
  · intro n i t r hi h
    exact ((eval_keeps F namesNodupKept_closed n).1 i t).out r h hi
  · intro i name f c hi hc
    have h1 := picolRegisterCommand_existing i name f c hi hc
    refine ⟨h1, ?_, picolGetCommand_register i name f,
      fun other hne => picolGetCommand_register_ne i name other f hne⟩
    rw [h1, picolReplaceCmd_length]
  · intro i w name alist body c hi hc
    have h1 := picolCommandProc_existing i [w, name, alist, body] c rfl hi hc
    have h2 := picolCommandProc_ok i [w, name, alist, body] rfl
    refine ⟨h1, ?_, h2.2.1, h2.2.2.1⟩
    rw [h1, picolReplaceCmd_length]

end

/-- Witness of C14: `proc puts {x} { return got_$x }` in the interpreter of the test
program replaces the entry of the built-in `puts`. -/
theorem C14_witness :
    (picolCommandProc picolCoreInterp
        ["proc".toList, "puts".toList, "x".toList, " return got_$x ".toList]).2.commands =
      picolReplaceCmd picolCoreInterp.commands "puts".toList
        (picolCmd.mk "puts".toList .picolCommandCallProc (some "x".toList)
          (some " return got_$x ".toList)) ∧
    (picolCommandProc picolCoreInterp
        ["proc".toList, "puts".toList, "x".toList, " return got_$x ".toList]).2.commands.length =
      picolCoreInterp.commands.length ∧
    picolGetCommand (picolCommandProc picolCoreInterp
        ["proc".toList, "puts".toList, "x".toList, " return got_$x ".toList]).2 "puts".toList =
      some (picolCmd.mk "puts".toList .picolCommandCallProc (some "x".toList)
        (some " return got_$x ".toList)) ∧
    ∀ other, other ≠ "puts".toList →
      picolGetCommand (picolCommandProc picolCoreInterp
        ["proc".toList, "puts".toList, "x".toList, " return got_$x ".toList]).2 other =
        picolGetCommand picolCoreInterp other :=
  (C14_command_names_unique intDouble).2.2.2.2.2 picolCoreInterp "proc".toList "puts".toList
    "x".toList " return got_$x ".toList
    (picolCmd.mk "puts".toList .picolCommandPuts none none)
    (C14_command_names_unique intDouble).1.2 (by decide!)

/-- The tests `proc redefine` and `redefine builtin`, run: the call uses the newest
definition, and the table keeps its nine entries. -/
theorem picolEval_redefine_examples :
    (picolEval intDouble 60 picolCoreInterp
        "proc h {} { return 1 }; proc h {} { return 2 }; h".toList).bind
        (fun r => some (r.1, r.2.result, r.2.commands.length)) =
      some (PICOL_OK, "2".toList, 10) ∧
    (picolEval intDouble 60 picolCoreInterp
        "proc puts {x} { return got_$x }; puts hello".toList).bind
        (fun r => some (r.1, r.2.result, r.2.commands.length)) =
      some (PICOL_OK, "got_hello".toList, 9) := by
  decide!


/-! ## C17: escape processing -/

theorem picolEscape_cons_cons (c d : Char) (rest : CStr) :
    picolEscape (c :: d :: rest) =
      if c = '\\' then picolEscapeChar d :: picolEscape rest
      else c :: picolEscape (d :: rest) := by
  rw [picolEscape]
  rfl

theorem picolEscape_cons_of_ne (c : Char) (rest : CStr) (h : c ≠ '\\') :
    picolEscape (c :: rest) = c :: picolEscape rest := by
  cases rest with
  | nil => rfl
  | cons d rest => rw [picolEscape_cons_cons, if_neg h]

theorem picolDecodeRef_cons_cons (c d : Char) (rest : CStr) :
    picolDecodeRef (c :: d :: rest) =
      if c = '\\' then picolEscapeChar d :: picolDecodeRef rest
      else c :: picolDecodeRef (d :: rest) := by
  rw [picolDecodeRef]
  unfold picolEscapeChar
  repeat' split
  all_goals rfl

theorem picolEscape_eq_aux (n : Nat) :
    ∀ s : CStr, s.length ≤ n → picolEscape s = picolDecodeRef s ∧
      (picolEscape s).length ≤ s.length := by
  induction n with
  | zero =>
    intro s hs
    cases s with
    | nil => exact ⟨rfl, le_refl _⟩
    | cons c rest => simp at hs
  | succ n ih =>
    intro s hs
    cases s with
    | nil => exact ⟨rfl, le_refl _⟩
    | cons c rest =>
      cases rest with
      | nil => exact ⟨rfl, le_refl _⟩
      | cons d rest =>
        simp only [List.length_cons] at hs
        rw [picolEscape_cons_cons, picolDecodeRef_cons_cons]
        by_cases h : c = '\\'
        · rw [if_pos h, if_pos h, (ih rest (by omega)).1]
          refine ⟨rfl, ?_⟩
          have := (ih rest (by omega)).2
          rw [(ih rest (by omega)).1] at this
          simp only [List.length_cons]
          omega
        · rw [if_neg h, if_neg h, (ih (d :: rest) (by simp only [List.length_cons]; omega)).1]
          refine ⟨rfl, ?_⟩
          have := (ih (d :: rest) (by simp only [List.length_cons]; omega)).2
          rw [(ih (d :: rest) (by simp only [List.length_cons]; omega)).1] at this
          simp only [List.length_cons] at this ⊢
          omega

/-- The escape processing of the evaluator is the reference decoder. -/
theorem picolEscape_eq_decodeRef (s : CStr) : picolEscape s = picolDecodeRef s :=
  (picolEscape_eq_aux s.length s (le_refl _)).1

theorem picolEscape_length (s : CStr) : (picolEscape s).length ≤ s.length :=
  (picolEscape_eq_aux s.length s (le_refl _)).2

theorem take_succ_set {α : Type} (l : List α) (n : Nat) (a : α) (h : n < l.length) :
    (l.set n a).take (n + 1) = l.take n ++ [a] := by
  rw [List.set_eq_take_append_cons_drop, if_pos h]
  have hl : (l.take n).length = n := List.length_take_of_le (Nat.le_of_lt h)
  rw [List.take_append_eq_append_take, hl, List.take_of_length_le (by omega)]
  simp

theorem charAt_mem_of_lt (s : CStr) (p : Nat) (h : p < s.length) : charAt s p ∈ s := by
  unfold charAt
  rw [List.getD_eq_getElem?_getD, List.getElem?_eq_getElem h]
  exact List.getElem_mem h

/-- The in-place loop of the source computes the escape processing of the model: from
offsets `dst ≤ src`, it leaves the `dst` bytes already written followed by the
processing of the bytes from `src` on. -/
theorem picolEscapeLoop_eq (n : Nat) :
    ∀ (t : CStr) (src dst : Nat), dst ≤ src → src ≤ t.length →
      (∀ c ∈ t.drop src, c ≠ '\x00') → t.length - src < n →
      picolEscapeLoop n t src dst = some (t.take dst ++ picolEscape (t.drop src)) := by
  induction n with
  | zero => intro t src dst _ _ _ h; omega
  | succ n ih =>
    intro t src dst hds hsl hnul hn
    rw [picolEscapeLoop]
    rcases Nat.lt_or_ge src t.length with hlt | hge
    · have hd := drop_eq_charAt_cons t src hlt
      have hc0 : charAt t src ≠ '\x00' := hnul _ (by rw [hd]; exact List.mem_cons_self _ _)
      rw [if_pos hc0]
      by_cases hb : charAt t src = '\\' ∧ charAt t (src + 1) ≠ '\x00'
      · rw [if_pos hb]
        have hlt2 : src + 1 < t.length := by
          by_contra hge
          exact hb.2 (charAt_of_length_le t _ (by omega))
        have hd2 := drop_eq_charAt_cons t (src + 1) hlt2
        rw [ih _ _ _ (by omega) (by rw [List.length_set]; omega)
          (by
            rw [List.drop_set_of_lt _ _ (by omega)]
            intro c hc
            apply hnul
            rw [hd, hd2]
            exact List.mem_cons_of_mem _ (List.mem_cons_of_mem _ hc))
          (by rw [List.length_set]; omega)]
        rw [take_succ_set t dst _ (by omega), List.drop_set_of_lt _ _ (by omega), hd, hd2,
          picolEscape_cons_cons, if_pos hb.1, List.append_assoc]
        rfl
      · rw [if_neg hb]
        rw [ih _ _ _ (by omega) (by rw [List.length_set]; omega)
          (by
            rw [List.drop_set_of_lt _ _ (by omega)]
            intro c hc
            apply hnul
            rw [hd]
            exact List.mem_cons_of_mem _ hc)
          (by rw [List.length_set]; omega)]
        rw [take_succ_set t dst _ (by omega), List.drop_set_of_lt _ _ (by omega), hd,
          List.append_assoc]
        congr 2
        by_cases hbs : charAt t src = '\\'
        · have hend : t.length ≤ src + 1 := by
            by_contra hlt2
            have hlt3 : src + 1 < t.length := by omega
            have hm : charAt t (src + 1) ∈ t.drop src := by
              rw [hd, drop_eq_charAt_cons t (src + 1) hlt3]
              exact List.mem_cons_of_mem _ (List.mem_cons_self _ _)
            exact hb ⟨hbs, hnul _ hm⟩
          rw [List.drop_of_length_le hend]
          rfl
        · rw [picolEscape_cons_of_ne _ _ hbs]
          rfl
    · have h0 : charAt t src = '\x00' := charAt_of_length_le t src hge
      rw [if_neg (by rw [h0]; exact fun h => h rfl), List.drop_of_length_le hge]
      show some (t.take dst) = some (t.take dst ++ picolEscape [])
      rw [picolEscape, List.append_nil]

section
variable {D : Type} (F : DoubleOps D)

attribute [local irreducible] picolEval picolCallFunc picolGetToken in
/-- The iteration at a token of type `PT_ESC`. -/
theorem picolEvalIter_esc {n : Nat} {i : picolInterp} {p0 p : picolParser}
    (argv : List CStr) (hg : picolGetToken n p0 = some p) (ht : p.type = PT_ESC) :
    picolEvalIter F n i p0 argv =
      (picolAppendArg argv p0.type (picolEscape p.token)).bind fun argv1 =>
        some (.goOn i p argv1) := by
  unfold picolEvalIter
  rw [hg, Option.some_bind, if_neg (by rw [ht]; decide), if_neg (by rw [ht]; decide),
    if_neg (by rw [ht]; decide), if_pos ht]

/-- **C17.** For every text `s` (a C string: no NUL byte in it), the loop of the
`PT_ESC` branch of `picolEval`, run in place on `s`, returns given more fuel than
`s` has bytes, and what it leaves is the text that the reference decoder
`picolDecodeRef` gives for `s`; this text is never longer than `s`.  The evaluator
appends to the words the text so decoded of every token of type `PT_ESC`. -/
theorem C17_escape_decoding (s : CStr) (hs : ∀ c ∈ s, c ≠ '\x00') :
    (∀ n, s.length < n → picolEscapeLoop n s 0 0 = some (picolDecodeRef s)) ∧
    picolEscape s = picolDecodeRef s ∧
    (picolDecodeRef s).length ≤ s.length ∧
    (∀ (n : Nat) (i : picolInterp) (p0 p : picolParser) (argv : List CStr),
      picolGetToken n p0 = some p → p.type = PT_ESC → p.token = s →
      picolEvalIter F n i p0 argv =
        (picolAppendArg argv p0.type (picolDecodeRef s)).bind fun argv1 =>
          some (.goOn i p argv1)) := by
  refine ⟨?_, picolEscape_eq_decodeRef s, ?_, ?_⟩
  · intro n hn
    rw [picolEscapeLoop_eq n s 0 0 (le_refl _) (Nat.zero_le _) (by simpa using hs)
      (by omega), ← picolEscape_eq_decodeRef]
    rfl
  · rw [← picolEscape_eq_decodeRef]
    exact picolEscape_length s
  · intro n i p0 p argv hg ht hp
    rw [picolEvalIter_esc F argv hg ht, hp, picolEscape_eq_decodeRef]

end

/-- Witness of C17: the fragment `a\nb\"c\\d\ze\` (it ends with a backslash). -/
theorem C17_witness :
    (∀ n, "a\\nb\\\"c\\\\d\\ze\\".toList.length < n →
      picolEscapeLoop n "a\\nb\\\"c\\\\d\\ze\\".toList 0 0 =
        some (picolDecodeRef "a\\nb\\\"c\\\\d\\ze\\".toList)) ∧
    picolEscape "a\\nb\\\"c\\\\d\\ze\\".toList = picolDecodeRef "a\\nb\\\"c\\\\d\\ze\\".toList ∧
    (picolDecodeRef "a\\nb\\\"c\\\\d\\ze\\".toList).length ≤ "a\\nb\\\"c\\\\d\\ze\\".toList.length ∧
    (∀ (n : Nat) (i : picolInterp) (p0 p : picolParser) (argv : List CStr),
      picolGetToken n p0 = some p → p.type = PT_ESC →
      p.token = "a\\nb\\\"c\\\\d\\ze\\".toList →
      picolEvalIter intDouble n i p0 argv =
        (picolAppendArg argv p0.type (picolDecodeRef "a\\nb\\\"c\\\\d\\ze\\".toList)).bind
          fun argv1 => some (.goOn i p argv1)) :=
  C17_escape_decoding intDouble "a\\nb\\\"c\\\\d\\ze\\".toList (by decide)

/-- The examples of C17, computed: the reference decoder and the loop of the source
on `a\nb`, `a\tb`, `a\rb`, `a\"b`, `a\\b`, `a\zb` and on a text that ends with a
backslash. -/
theorem picolDecodeRef_examples :
    picolDecodeRef "a\\nb".toList = "a\nb".toList ∧
    picolDecodeRef "a\\tb".toList = "a\tb".toList ∧
    picolDecodeRef "a\\rb".toList = "a\rb".toList ∧
    picolDecodeRef "a\\\"b".toList = "a\"b".toList ∧
    picolDecodeRef "a\\\\b".toList = "a\\b".toList ∧
    picolDecodeRef "a\\zb".toList = "azb".toList ∧
    picolDecodeRef "ab\\".toList = "ab\\".toList ∧
    picolEscapeLoop 10 "a\\\\b".toList 0 0 = some "a\\b".toList ∧
    picolEscapeLoop 10 "ab\\".toList 0 0 = some "ab\\".toList := by
  decide


/-! ## C18 and C19: names that are not bound -/

theorem picolParseVarLoop_run (name : CStr) :
    ∀ (fuel : Nat) (p : picolParser) (rest : CStr),
      p.text.drop p.p = name ++ rest → (∀ c ∈ name, isVarChar c = true) →
      (∀ c, rest.head? = some c → isVarChar c = false) → name.length < fuel →
      picolParseVarLoop fuel p = some (p.advN name.length) := by
  induction name with
  | nil =>
    intro fuel p rest hd _ hr hf
    obtain ⟨k, rfl⟩ : ∃ k, fuel = k + 1 := ⟨fuel - 1, by simp at hf; omega⟩
    have hc : isVarChar p.cur = false := by
      have := charAt_of_drop hd 0
      rw [Nat.add_zero] at this
      unfold picolParser.cur
      rw [this, List.nil_append]
      cases rest with
      | nil => decide
      | cons c rest => exact hr c rfl
    rw [picolParseVarLoop, hc, List.length_nil, advN_zero]
    rfl
  | cons c name ih =>
    intro fuel p rest hd hv hr hf
    obtain ⟨k, rfl⟩ : ∃ k, fuel = k + 1 := ⟨fuel - 1, by simp at hf; omega⟩
    have hc : isVarChar p.cur = true := by
      have := charAt_of_drop hd 0
      rw [Nat.add_zero] at this
      unfold picolParser.cur
      rw [this]
      exact hv c (List.mem_cons_self _ _)
    rw [picolParseVarLoop, hc, if_pos rfl]
    have hd2 : p.adv.text.drop p.adv.p = name ++ rest := drop_of_drop_cons hd
    rw [ih k p.adv rest hd2 (fun x hx => hv x (List.mem_cons_of_mem _ hx)) hr
      (by simp only [List.length_cons] at hf; omega), advN_succ]
    rfl

/-- Where the text holds `$`, then an identifier, then a character that cannot be
part of an identifier (or nothing), the next token is a variable token whose text is
the identifier. -/
theorem picolGetToken_var (q : picolParser) (name rest : CStr) (hl : q.len ≠ 0)
    (hd : q.text.drop q.p = '$' :: (name ++ rest)) (hne : name ≠ [])
    (hv : ∀ c ∈ name, isVarChar c = true)
    (hr : ∀ c, rest.head? = some c → isVarChar c = false) :
    ∃ p, picolGetToken (name.length + 2) q = some p ∧ p.type = PT_VAR ∧ p.token = name := by
  have hc : q.cur = '$' := by
    have := charAt_of_drop hd 0
    rw [Nat.add_zero] at this
    exact this
  have hd1 : q.text.drop (q.p + 1) = name ++ rest := drop_of_drop_cons hd
  have hlen : 0 < name.length := List.length_pos.mpr hne
  have hloop := picolParseVarLoop_run name (name.length + 1)
    { q.adv with start := (q.adv.p : Int) } rest hd1 hv hr (Nat.lt_succ_self _)
  have hg : picolGetToken (name.length + 2) q =
      some (picolParser.mk q.text (q.p + 1 + name.length) (q.len - 1 - name.length)
        ((q.p + 1 : Nat) : Int) (((q.p + 1 + name.length : Nat) : Int) - 1) PT_VAR
        q.insidequote) := by
    rw [picolGetToken]
    simp only [hl, if_false, hc, Char.reduceEq, or_self, if_true]
    unfold picolParseVar
    simp only
    rw [hloop, Option.map_some']
    simp only [picolParser.advN, picolParser.adv]
    rw [if_neg (by push_cast; omega)]
  refine ⟨_, hg, rfl, ?_⟩
  unfold picolParser.token
  simp only
  have e1 : ((q.p + 1 : Nat) : Int).toNat = q.p + 1 := Int.toNat_natCast _
  have e2 : ((((q.p + 1 + name.length : Nat) : Int) - 1 - ((q.p + 1 : Nat) : Int) + 1)).toNat
      = name.length := by
    have : (((q.p + 1 + name.length : Nat) : Int) - 1 - ((q.p + 1 : Nat) : Int) + 1) =
        ((name.length : Nat) : Int) := by
      push_cast
      omega
    rw [this]
    exact Int.toNat_natCast _
  rw [e1, e2, hd1, List.take_left]

section
variable {D : Type} (F : DoubleOps D)

/-- With the interpreter `j` reached at `$n` and `n` not bound, `picolEval` returns
`PICOL_ERR` and `j` with the message stored by `snprintf`. -/
theorem picolEval_novar_at (i j : picolInterp) (t : CStr) (q : picolParser)
    (words : List CStr) (n rest : CStr) (h : picolEvalComesTo F i t j q words)
    (hl : q.len ≠ 0) (hd : q.text.drop q.p = '$' :: (n ++ rest)) (hne : n ≠ [])
    (hid : ∀ c ∈ n, isVarChar c = true)
    (hr : ∀ c, rest.head? = some c → isVarChar c = false)
    (hv : picolGetVar j n = none) :
    picolEvalReturns F i t
      (PICOL_ERR, { j with level := j.level - 1, result := picolNoSuchVar n }) := by
  obtain ⟨p, hg, ht, hp⟩ := picolGetToken_var q n rest hl hd hne hid hr
  have hv2 : picolGetVar j p.token = none := by
    rw [hp]
    exact hv
  have := picolEval_of_comesTo F h (picolEvalIter_novar F words hg ht hv2)
  rw [hp] at this
  exact this

/-- **C18 (amended).** Let the evaluation of a text come, in the token loop, to the
interpreter `j` at a place where the text holds `$`, the identifier `n` and then a
character that cannot be part of an identifier (or nothing).  If `n` is not bound in
the frame selected for it (the parentless frame if `n` starts with an uppercase
letter, the current frame otherwise), `picolEval` returns `PICOL_ERR`, and the
interpreter returned is `j` with the level decremented and nothing else but the
result changed: the handler of the command is not invoked, no variable and no
command is created or changed from the moment the token is reached.  The result is
the text `No such variable '<n>'` cut to its first 1023 bytes, which is the whole
text when `n` has at most 1004 bytes. -/
theorem C18_no_such_variable (i j : picolInterp) (t : CStr) (q : picolParser)
    (words : List CStr) (n rest : CStr) (h : picolEvalComesTo F i t j q words)
    (hl : q.len ≠ 0) (hd : q.text.drop q.p = '$' :: (n ++ rest)) (hne : n ≠ [])
    (hid : ∀ c ∈ n, isVarChar c = true)
    (hr : ∀ c, rest.head? = some c → isVarChar c = false)
    (hv : picolFindVar
      (if isupper (charAt n 0) then j.callframe.topFrame else j.callframe).vars n = none) :
    picolEvalReturns F i t (PICOL_ERR, { j with level := j.level - 1, result :=
      ("No such variable '".toList ++ n ++ "'".toList).take 1023 }) ∧
    (n.length ≤ 1004 →
      ("No such variable '".toList ++ n ++ "'".toList).take 1023 =
        "No such variable '".toList ++ n ++ "'".toList) := by
  constructor
  · exact picolEval_novar_at F i j t q words n rest h hl hd hne hid hr hv
  · intro hlen
    apply List.take_of_length_le
    simp only [List.length_append]
    have e1 : "No such variable '".toList.length = 18 := by decide
    have e2 : "'".toList.length = 1 := by decide
    omega

/-- **C19 (amended).** Let the evaluation of a text come, in the token loop, to the end
of a command whose words are gathered (every substitution of the command has
succeeded) and whose first word `w` is not a name of the command table.  Then
`picolEval` returns `PICOL_ERR`, the interpreter returned is the one at the end of the
command with the level decremented and nothing else but the result changed, and the
result is the text `No such command '<w>'` cut to its first 1023 bytes, which is the
whole text when `w` has at most 1005 bytes. -/
theorem C19_no_such_command (i j : picolInterp) (t : CStr) (q p : picolParser)
    (w : CStr) (args : List CStr) (k : Nat) (h : picolEvalComesTo F i t j q (w :: args))
    (hg : picolGetToken k q = some p) (ht : p.type = PT_EOL)
    (hc : picolGetCommand j w = none) :
    picolEvalReturns F i t (PICOL_ERR, { j with level := j.level - 1, result :=
      ("No such command '".toList ++ w ++ "'".toList).take 1023 }) ∧
    (w.length ≤ 1005 →
      ("No such command '".toList ++ w ++ "'".toList).take 1023 =
        "No such command '".toList ++ w ++ "'".toList) := by
  constructor
  · exact picolEval_of_comesTo F h
      (picolEvalIter_nocmd F hg ht (List.cons_ne_nil _ _) hc)
  · intro hlen
    apply List.take_of_length_le
    simp only [List.length_append]
    have e1 : "No such command '".toList.length = 17 := by decide
    have e2 : "'".toList.length = 1 := by decide
    omega

end

/-- Witness of C18: the test `undefined variable`, the text `set r $undefined` in the
interpreter of the test program; the variable `r` is not created. -/
theorem C18_witness :
    picolEvalReturns intDouble picolCoreInterp "set r $undefined".toList
      (PICOL_ERR, { picolInterp.mk 1 (.top []) picolCoreInterp.commands [] [] with
        level := (picolInterp.mk 1 (.top []) picolCoreInterp.commands [] []).level - 1,
        result := ("No such variable '".toList ++ "undefined".toList ++ "'".toList).take 1023 }) ∧
    ("undefined".toList.length ≤ 1004 →
      ("No such variable '".toList ++ "undefined".toList ++ "'".toList).take 1023 =
        "No such variable '".toList ++ "undefined".toList ++ "'".toList) :=
  C18_no_such_variable intDouble picolCoreInterp
    (picolInterp.mk 1 (.top []) picolCoreInterp.commands [] []) "set r $undefined".toList
    (picolParser.mk "set r $undefined".toList 6 10 5 5 PT_SEP false)
    ["set".toList, "r".toList] "undefined".toList []
    ⟨by decide, picolEvalReaches_of_trace intDouble 10 4 _ _ _
      (picolInterp.mk 1 (.top []) picolCoreInterp.commands [] [],
        picolParser.mk "set r $undefined".toList 6 10 5 5 PT_SEP false,
        ["set".toList, "r".toList]) (by decide!)⟩
    (by decide) rfl (by decide) (by decide) (by decide) rfl

/-- Counterexample to C18 as stated.  In the interpreter of the test program, where
`n` and the identifier made of 1005 characters `x` are not bound: the command
`set r [nosuchcmd] $n` contains `$n` and returns `PICOL_ERR` with the result `No such
command 'nosuchcmd'`; and the command made of `$` and the long identifier returns
`PICOL_ERR` with a result of 1023 bytes, which is not the text `No such variable
'<n>'` (1024 bytes). -/
theorem C18_counterexample :
    (picolEval intDouble 30 picolCoreInterp "set r [nosuchcmd] $n".toList).bind
        (fun r => some (r.1, r.2.result)) =
      some (PICOL_ERR, "No such command 'nosuchcmd'".toList) ∧
    ∃ r, picolEvalReturns intDouble picolCoreInterp ('$' :: List.replicate 1005 'x')
        (PICOL_ERR, r) ∧
      r.result ≠ "No such variable '".toList ++ List.replicate 1005 'x' ++ "'".toList := by
  refine ⟨by decide!, _, picolEval_novar_at intDouble picolCoreInterp
    (picolInterp.mk 1 (.top []) picolCoreInterp.commands [] [])
    ('$' :: List.replicate 1005 'x') (picolInitParser ('$' :: List.replicate 1005 'x')) []
    (List.replicate 1005 'x') [] ⟨by decide, picolEvalReaches.here _ _ _⟩ ?_ ?_ ?_ ?_ ?_ rfl, ?_⟩
  · have e : ('$' :: List.replicate 1005 'x').length = 1006 := by
      rw [List.length_cons, List.length_replicate]
    show (((('$' :: List.replicate 1005 'x').length : Nat) : Int)) ≠ 0
    rw [e]
    decide
  · show ('$' :: List.replicate 1005 'x').drop 0 = '$' :: (List.replicate 1005 'x' ++ [])
    rw [List.append_nil, List.drop_zero]
  · intro e
    have := congrArg List.length e
    rw [List.length_replicate] at this
    exact absurd this (by decide)
  · intro c hc
    rw [List.eq_of_mem_replicate hc]
    decide
  · intro c hc
    cases hc
  · intro e
    have h2 := congrArg List.length e
    simp only [picolNoSuchVar, snprintf_1024, List.length_take, List.length_append,
      List.length_replicate] at h2
    have e1 : "No such variable '".toList.length = 18 := by decide
    have e2 : "'".toList.length = 1 := by decide
    omega

/-- Witness of C19: the test `undefined command`, the text `nosuchcmd` in the
interpreter of the test program. -/
theorem C19_witness :
    picolEvalReturns intDouble picolCoreInterp "nosuchcmd".toList
      (PICOL_ERR, { picolInterp.mk 1 (.top []) picolCoreInterp.commands [] [] with
        level := (picolInterp.mk 1 (.top []) picolCoreInterp.commands [] []).level - 1,
        result := ("No such command '".toList ++ "nosuchcmd".toList ++ "'".toList).take 1023 }) ∧
    ("nosuchcmd".toList.length ≤ 1005 →
      ("No such command '".toList ++ "nosuchcmd".toList ++ "'".toList).take 1023 =
        "No such command '".toList ++ "nosuchcmd".toList ++ "'".toList) :=
  C19_no_such_command intDouble picolCoreInterp
    (picolInterp.mk 1 (.top []) picolCoreInterp.commands [] []) "nosuchcmd".toList
    (picolParser.mk "nosuchcmd".toList 9 0 0 8 PT_ESC false)
    (picolParser.mk "nosuchcmd".toList 9 0 0 8 PT_EOL false)
    "nosuchcmd".toList [] 1
    ⟨by decide, picolEvalReaches_of_trace intDouble 12 1 _ _ _
      (picolInterp.mk 1 (.top []) picolCoreInterp.commands [] [],
        picolParser.mk "nosuchcmd".toList 9 0 0 8 PT_ESC false,
        ["nosuchcmd".toList]) (by decide!)⟩
    (by decide!) rfl (by decide!)

/-- Counterexample to C19 as stated: in the interpreter of the test program the first
word of the command line `nosuchcmd $undefined` is not a name of the command table,
and `picolEval` returns `PICOL_ERR` with the result `No such variable 'undefined'`,
because the words are substituted before the command is looked up; so does a
command substitution that fails, in `nosuchcmd [nosuch2]`. -/
theorem C19_counterexample :
    picolGetCommand picolCoreInterp "nosuchcmd".toList = none ∧
    (picolEval intDouble 30 picolCoreInterp "nosuchcmd $undefined".toList).bind
        (fun r => some (r.1, r.2.result)) =
      some (PICOL_ERR, "No such variable 'undefined'".toList) ∧
    (picolEval intDouble 30 picolCoreInterp "nosuchcmd [nosuch2]".toList).bind
        (fun r => some (r.1, r.2.result)) =
      some (PICOL_ERR, "No such command 'nosuch2'".toList) := by
  decide!


/-! ## The tokenizer on plain words, separators and braces -/

theorem picolOrdinary_ne {c : Char} (h : picolOrdinary c = true) :
    c ≠ '\\' ∧ c ≠ '$' ∧ c ≠ '[' ∧ c ≠ ' ' ∧ c ≠ '\t' ∧ c ≠ '\n' ∧ c ≠ '\r' ∧
      c ≠ ';' ∧ c ≠ '"' := by
  unfold picolOrdinary at h
  exact of_decide_eq_true h

/-- `picolParseString`'s loop over a plain word that a space follows. -/
theorem picolParseStringLoop_word (w : CStr) :
    ∀ (T : CStr) (k : Nat) (L st en : Int) (ty : picolTokenType) (rest : CStr) (fuel : Nat),
      T.drop k = w ++ ' ' :: rest → (∀ c ∈ w, picolOrdinary c = true) →
      L = ((w.length + 1 + rest.length : Nat) : Int) → w.length < fuel →
      picolParseStringLoop fuel (picolParser.mk T k L st en ty false) =
        some (picolParser.mk T (k + w.length) (L - w.length) st
          (((k + w.length : Nat) : Int) - 1) PT_ESC false) := by
  induction w with
  | nil =>
    intro T k L st en ty rest fuel hd _ hL hf
    obtain ⟨f, rfl⟩ : ∃ f, fuel = f + 1 := ⟨fuel - 1, by simp at hf; omega⟩
    have hc : charAt T k = ' ' := by
      have := charAt_of_drop hd 0
      rw [Nat.add_zero] at this
      exact this
    have hL0 : L ≠ 0 := by
      rw [hL]
      push_cast
      omega
    rw [picolParseStringLoop]
    simp only [picolParser.cur, hc, hL0, if_false, Char.reduceEq, or_self, true_or,
      if_true, Bool.false_eq_true, not_false_eq_true, List.length_nil, Nat.add_zero]
    congr 2
    simp
  | cons c w ih =>
    intro T k L st en ty rest fuel hd hw hL hf
    obtain ⟨f, rfl⟩ : ∃ f, fuel = f + 1 := ⟨fuel - 1, by simp at hf; omega⟩
    have hc : charAt T k = c := by
      have := charAt_of_drop hd 0
      rw [Nat.add_zero] at this
      exact this
    have hL0 : L ≠ 0 := by
      rw [hL]
      push_cast
      omega
    obtain ⟨n1, n2, n3, n4, n5, n6, n7, n8, n9⟩ :=
      picolOrdinary_ne (hw c (List.mem_cons_self _ _))
    rw [picolParseStringLoop]
    simp only [picolParser.cur, hc, hL0, if_false, n1, n2, n3, n4, n5, n6, n7, n8, n9,
      or_self, picolParser.adv]
    rw [ih T (k + 1) (L - 1) st en ty rest f (drop_of_drop_cons hd)
      (fun x hx => hw x (List.mem_cons_of_mem _ hx))
      (by rw [hL]; simp only [List.length_cons]; push_cast; omega)
      (by simp only [List.length_cons] at hf; omega)]
    simp only [List.length_cons]
    congr 2
    · omega
    · push_cast
      omega
    · push_cast
      omega

/-- The token of a plain word that a space follows. -/
theorem picolGetToken_word (T : CStr) (k : Nat) (L st en : Int) (ty : picolTokenType)
    (c : Char) (w rest : CStr) (hd : T.drop k = (c :: w) ++ ' ' :: rest)
    (hw : ∀ x ∈ c :: w, picolOrdinary x = true) (hc1 : c ≠ '{') (hc2 : c ≠ '#')
    (hL : L = (((c :: w).length + 1 + rest.length : Nat) : Int)) :
    picolGetToken ((c :: w).length + 2) (picolParser.mk T k L st en ty false) =
      some (picolParser.mk T (k + (c :: w).length) (L - (c :: w).length) k
        (((k + (c :: w).length : Nat) : Int) - 1) PT_ESC false) := by
  have hc : charAt T k = c := by
    have := charAt_of_drop hd 0
    rw [Nat.add_zero] at this
    exact this
  have hL0 : L ≠ 0 := by
    rw [hL]
    push_cast
    omega
  obtain ⟨n1, n2, n3, n4, n5, n6, n7, n8, n9⟩ :=
    picolOrdinary_ne (hw c (List.mem_cons_self _ _))
  rw [picolGetToken]
  simp only [picolParser.cur, hc, hL0, if_false, n2, n3, n4, n5, n6, n7, n8, hc2, or_self]
  unfold picolParseString
  simp only [picolParser.cur, hc, hc1, n9, and_false, if_false]
  exact picolParseStringLoop_word (c :: w) T k L k en ty rest _ hd hw hL (Nat.lt_succ_self _)

theorem picolParser_token_mk (T : CStr) (k : Nat) (L : Int) (a : Nat) (ty : picolTokenType)
    (iq : Bool) (x rest : CStr) (hd : T.drop a = x ++ rest) :
    (picolParser.mk T k L (a : Int) (((a + x.length : Nat) : Int) - 1) ty iq).token = x := by
  unfold picolParser.token
  simp only
  have e1 : ((a : Nat) : Int).toNat = a := Int.toNat_natCast _
  have e2 : ((((a + x.length : Nat) : Int) - 1 - (a : Int) + 1)).toNat = x.length := by
    have : (((a + x.length : Nat) : Int) - 1 - (a : Int) + 1) = ((x.length : Nat) : Int) := by
      push_cast
      omega
    rw [this]
    exact Int.toNat_natCast _
  rw [e1, e2, hd, List.take_left]

/-- The token of one space between words. -/
theorem picolGetToken_space (T : CStr) (k : Nat) (L st en : Int) (ty : picolTokenType)
    (rest : CStr) (hd : T.drop k = ' ' :: rest)
    (hr : ∀ c, rest.head? = some c → c ≠ ' ' ∧ c ≠ '\t') (hL : L ≠ 0) (n : Nat) :
    picolGetToken (n + 3) (picolParser.mk T k L st en ty false) =
      some (picolParser.mk T (k + 1) (L - 1) k k PT_SEP false) := by
  have hc : charAt T k = ' ' := by
    have := charAt_of_drop hd 0
    rw [Nat.add_zero] at this
    exact this
  have hc2 : charAt T (k + 1) ≠ ' ' ∧ charAt T (k + 1) ≠ '\t' := by
    have := charAt_of_drop (drop_of_drop_cons hd) 0
    rw [Nat.add_zero] at this
    rw [this]
    cases rest with
    | nil => exact ⟨by decide, by decide⟩
    | cons c rest => exact hr c rfl
  rw [picolGetToken]
  simp only [picolParser.cur, hc, hL, if_false, true_or, if_true, Bool.false_eq_true]
  unfold picolParseSep
  simp only
  rw [picolParseSepLoop]
  simp only [picolParser.cur, hc, true_or, if_true, picolParser.adv]
  rw [picolParseSepLoop]
  simp only [picolParser.cur, hc2.1, hc2.2, or_self, if_false, Option.map_some']
  congr 2
  push_cast
  omega

/-- The token at the end of the text. -/
theorem picolGetToken_end (T : CStr) (k : Nat) (L st en : Int) (ty : picolTokenType)
    (iq : Bool) (hL : L = 0) (n : Nat) :
    picolGetToken (n + 1) (picolParser.mk T k L st en ty iq) =
      some (picolParser.mk T k L st en
        (if ty ≠ PT_EOL ∧ ty ≠ PT_EOF then PT_EOL else PT_EOF) iq) := by
  rw [picolGetToken]
  simp only [hL, if_true]

theorem picolBraceScan_cons (c : Char) (rest : CStr) (depth : Nat) :
    picolBraceScan (c :: rest) depth =
      if c = '\\' then
        match rest with
        | [] => false
        | _ :: rest2 => picolBraceScan rest2 depth
      else if c = '{' then picolBraceScan rest (depth + 1)
      else if c = '}' then decide (depth ≠ 0) && picolBraceScan rest (depth - 1)
      else picolBraceScan rest depth := by
  rw [picolBraceScan.eq_def]
  rfl

theorem picolBraceScan_nil (depth : Nat) : picolBraceScan [] depth = decide (depth = 0) := by
  rw [picolBraceScan.eq_def]

/-- `picolParseBrace`'s loop over a text that the brace scanner accepts, up to the
closing brace that follows it. -/
theorem picolParseBraceLoop_scan (m : Nat) :
    ∀ (Y : CStr), Y.length ≤ m →
    ∀ (T : CStr) (k : Nat) (L st en : Int) (ty : picolTokenType) (iq : Bool) (rest : CStr)
      (depth fuel : Nat),
      T.drop k = Y ++ '}' :: rest → picolBraceScan Y depth = true →
      L = ((Y.length + 1 + rest.length : Nat) : Int) → Y.length < fuel →
      picolParseBraceLoop fuel (picolParser.mk T k L st en ty iq) ((depth : Int) + 1) =
        some (picolParser.mk T (k + Y.length + 1) (L - Y.length - 1) st
          (((k + Y.length : Nat) : Int) - 1) PT_STR iq) := by
  induction m with
  | zero =>
    intro Y hY T k L st en ty iq rest depth fuel hd hs hL hf
    have hY0 : Y = [] := List.length_eq_zero.mp (by omega)
    subst hY0
    obtain ⟨f, rfl⟩ : ∃ f, fuel = f + 1 := ⟨fuel - 1, by simp at hf; omega⟩
    have hc : charAt T k = '}' := by
      have := charAt_of_drop hd 0
      rw [Nat.add_zero] at this
      exact this
    have hL0 : L ≠ 0 := by
      rw [hL]
      push_cast
      omega
    have hdep : depth = 0 := by
      rw [picolBraceScan_nil] at hs
      exact of_decide_eq_true hs
    subst hdep
    rw [picolParseBraceLoop]
    simp only [picolParser.cur, hc, Char.reduceEq, and_false, if_false, or_true, if_true,
      hL0, picolParser.adv, List.length_nil]
    simp [hL0]
  | succ m ih =>
    intro Y hY T k L st en ty iq rest depth fuel hd hs hL hf
    cases Y with
    | nil => exact ih [] (Nat.zero_le _) T k L st en ty iq rest depth fuel hd hs hL hf
    | cons c Y =>
      obtain ⟨f, rfl⟩ : ∃ f, fuel = f + 1 := ⟨fuel - 1, by simp at hf; omega⟩
      simp only [List.length_cons] at hY hf hL
      have hc : charAt T k = c := by
        have := charAt_of_drop hd 0
        rw [Nat.add_zero] at this
        exact this
      have hL0 : L ≠ 0 := by
        rw [hL]
        push_cast
        omega
      have hd1 : T.drop (k + 1) = Y ++ '}' :: rest := drop_of_drop_cons hd
      rw [picolBraceScan_cons] at hs
      rw [picolParseBraceLoop]
      by_cases h1 : c = '\\'
      · rw [if_pos h1] at hs
        cases Y with
        | nil => simp at hs
        | cons c2 Y =>
          simp only at hs
          simp only [List.length_cons] at hY hf hL
          have hL2 : L ≥ 2 := by
            rw [hL]
            push_cast
            omega
          simp only [picolParser.cur, hc, h1, hL2, and_self, if_true, picolParser.adv]
          rw [ih Y (by omega) T (k + 1 + 1) (L - 1 - 1) st en ty iq rest depth f
            (drop_of_drop_cons hd1) hs (by rw [hL]; push_cast; omega) (by omega)]
          simp only [List.length_cons]
          congr 2
          · omega
          · push_cast
            omega
          · push_cast
            omega
      · rw [if_neg h1] at hs
        by_cases h2 : c = '{'
        · rw [if_pos h2] at hs
          simp only [picolParser.cur, hc, h1, and_false, if_false, hL0, h2, Char.reduceEq,
            or_self, if_true, picolParser.adv]
          have := ih Y (by omega) T (k + 1) (L - 1) st en ty iq rest (depth + 1) f hd1 hs
            (by rw [hL]; push_cast; omega) (by omega)
          push_cast at this
          rw [this]
          simp only [List.length_cons]
          congr 2
          · omega
          · push_cast
            omega
          · push_cast
            omega
        · rw [if_neg h2] at hs
          by_cases h3 : c = '}'
          · rw [if_pos h3] at hs
            simp only [Bool.and_eq_true, decide_eq_true_eq] at hs
            obtain ⟨hdep, hs⟩ := hs
            have hlev : ¬ ((depth : Int) + 1 - 1 = 0 ∨ L = 0) := by
              intro h
              rcases h with h | h
              · omega
              · exact hL0 h
            simp only [picolParser.cur, hc, h3, Char.reduceEq, and_false, if_false, or_true,
              if_true, hlev, picolParser.adv]
            have := ih Y (by omega) T (k + 1) (L - 1) st en ty iq rest (depth - 1) f hd1 hs
              (by rw [hL]; push_cast; omega) (by omega)
            have e : (((depth - 1 : Nat) : Int) + 1) = (depth : Int) + 1 - 1 := by omega
            rw [e] at this
            rw [this]
            simp only [List.length_cons]
            congr 2
            all_goals omega
          · rw [if_neg h3] at hs
            simp only [picolParser.cur, hc, h1, and_false, if_false, hL0, h2, h3, or_self,
              picolParser.adv]
            rw [ih Y (by omega) T (k + 1) (L - 1) st en ty iq rest depth f hd1 hs
              (by rw [hL]; push_cast; omega) (by omega)]
            simp only [List.length_cons]
            congr 2
            · omega
            · push_cast
              omega
            · push_cast
              omega

/-- At the start of a word, a brace-quoted text that the brace scanner accepts and its
closing brace make one token of type `PT_STR`, whose text is the text between the
braces. -/
theorem picolGetToken_brace (T : CStr) (k : Nat) (L st en : Int) (ty : picolTokenType)
    (iq : Bool) (X rest : CStr) (hty : ty = PT_SEP ∨ ty = PT_EOL ∨ ty = PT_STR)
    (hd : T.drop k = '{' :: (X ++ '}' :: rest)) (hX : picolBalanced X)
    (hL : L = ((X.length + 2 + rest.length : Nat) : Int)) :
    picolGetToken (X.length + 2) (picolParser.mk T k L st en ty iq) =
      some (picolParser.mk T (k + X.length + 2) (L - X.length - 2) ((k + 1 : Nat) : Int)
        (((k + 1 + X.length : Nat) : Int) - 1) PT_STR iq) := by
  have hc : charAt T k = '{' := by
    have := charAt_of_drop hd 0
    rw [Nat.add_zero] at this
    exact this
  have hL0 : L ≠ 0 := by
    rw [hL]
    push_cast
    omega
  rw [picolGetToken]
  simp only [picolParser.cur, hc, hL0, if_false, Char.reduceEq, or_self]
  unfold picolParseString
  simp only [picolParser.cur, hc, hty, true_and, if_true]
  unfold picolParseBrace
  simp only [picolParser.adv]
  have := picolParseBraceLoop_scan X.length X (le_refl _) T (k + 1) (L - 1) ((k + 1 : Nat) : Int)
    en ty iq rest 0 (X.length + 1) (drop_of_drop_cons hd) hX
    (by rw [hL]; push_cast; omega) (Nat.lt_succ_self _)
  simp only [Nat.cast_zero, zero_add] at this
  rw [this]
  congr 2
  · omega
  · omega


/-! ## C16: brace-quoted words -/

section
variable {D : Type} (F : DoubleOps D)

attribute [local irreducible] picolEval picolCallFunc picolGetToken in
/-- The iteration at a separator. -/
theorem picolEvalIter_sep {n : Nat} {i : picolInterp} {p0 p : picolParser}
    (argv : List CStr) (hg : picolGetToken n p0 = some p) (ht : p.type = PT_SEP) :
    picolEvalIter F n i p0 argv = some (.goOn i p argv) := by
  unfold picolEvalIter
  rw [hg, Option.some_bind, if_neg (by rw [ht]; decide), if_neg (by rw [ht]; decide),
    if_neg (by rw [ht]; decide), if_neg (by rw [ht]; decide), if_pos ht]

attribute [local irreducible] picolEval picolCallFunc picolGetToken in
/-- The iteration at a token of type `PT_STR`: its text is appended as it is. -/
theorem picolEvalIter_str {n : Nat} {i : picolInterp} {p0 p : picolParser}
    (argv : List CStr) (hg : picolGetToken n p0 = some p) (ht : p.type = PT_STR) :
    picolEvalIter F n i p0 argv =
      (picolAppendArg argv p0.type p.token).bind fun argv1 => some (.goOn i p argv1) := by
  unfold picolEvalIter
  rw [hg, Option.some_bind, if_neg (by rw [ht]; decide), if_neg (by rw [ht]; decide),
    if_neg (by rw [ht]; decide), if_neg (by rw [ht]; decide), if_neg (by rw [ht]; decide),
    if_neg (by rw [ht]; decide)]

attribute [local irreducible] picolEval picolCallFunc picolGetToken in
/-- The iteration at the end of the text. -/
theorem picolEvalIter_eof {n : Nat} {i : picolInterp} {p0 p : picolParser}
    (argv : List CStr) (hg : picolGetToken n p0 = some p) (ht : p.type = PT_EOF) :
    picolEvalIter F n i p0 argv = some (.stop (PICOL_OK, i)) := by
  unfold picolEvalIter
  rw [hg, Option.some_bind, if_pos ht]

attribute [local irreducible] picolEval picolCallFunc picolGetToken in
/-- The iteration at a variable token whose name is bound. -/
theorem picolEvalIter_var {n : Nat} {i : picolInterp} {p0 p : picolParser} {v : picolVar}
    (argv : List CStr) (hg : picolGetToken n p0 = some p) (ht : p.type = PT_VAR)
    (hv : picolGetVar i p.token = some v) :
    picolEvalIter F n i p0 argv =
      (picolAppendArg argv p0.type v.val).bind fun argv1 => some (.goOn i p argv1) := by
  unfold picolEvalIter
  rw [hg, Option.some_bind, if_neg (by rw [ht]; decide), if_pos ht, hv]

theorem picolEscape_ordinary (w : CStr) (hw : ∀ x ∈ w, picolOrdinary x = true) :
    picolEscape w = w := by
  induction w with
  | nil => rfl
  | cons c w ih =>
    rw [picolEscape_cons_of_ne c w (picolOrdinary_ne (hw c (List.mem_cons_self _ _))).1,
      ih (fun x hx => hw x (List.mem_cons_of_mem _ hx))]

/-- A plain word and the space after it, at the start of a word: the loop comes to
the words with the word appended. -/
theorem picolEvalReaches_word (i : picolInterp) (argv : List CStr) (T : CStr) (k : Nat)
    (L st en : Int) (ty : picolTokenType) (c : Char) (w rest : CStr)
    (hty : ty = PT_SEP ∨ ty = PT_EOL)
    (hd : T.drop k = (c :: w) ++ ' ' :: rest)
    (hw : ∀ x ∈ c :: w, picolOrdinary x = true) (hc1 : c ≠ '{') (hc2 : c ≠ '#')
    (hr : ∀ x, rest.head? = some x → x ≠ ' ' ∧ x ≠ '\t')
    (hL : L = (((c :: w).length + 1 + rest.length : Nat) : Int)) :
    picolEvalReaches F i (picolParser.mk T k L st en ty false) argv i
      (picolParser.mk T (k + (c :: w).length + 1) (L - (c :: w).length - 1)
        ((k + (c :: w).length : Nat) : Int) ((k + (c :: w).length : Nat) : Int) PT_SEP false)
      (argv ++ [c :: w]) := by
  have hg1 := picolGetToken_word T k L st en ty c w rest hd hw hc1 hc2 hL
  have ht1 := picolParser_token_mk T (k + (c :: w).length) (L - (c :: w).length) k PT_ESC false
    (c :: w) (' ' :: rest) hd
  have h1 := picolEvalIter_esc F (i := i) argv hg1 rfl
  rw [ht1, picolEscape_ordinary _ hw] at h1
  have ha : picolAppendArg argv ty (c :: w) = some (argv ++ [c :: w]) := by
    unfold picolAppendArg
    rw [if_pos hty]
  simp only [ha, Option.some_bind] at h1
  have hd2 : T.drop (k + (c :: w).length) = ' ' :: rest := drop_of_drop_append hd
  have hg2 := picolGetToken_space T (k + (c :: w).length) (L - (c :: w).length) k
    (((k + (c :: w).length : Nat) : Int) - 1) PT_ESC rest hd2 hr
    (by rw [hL]; push_cast; omega) 0
  have h2 := picolEvalIter_sep F (i := i) (argv ++ [c :: w]) hg2 rfl
  exact picolEvalReaches.next _ _ _ _ _ _ _ _ _ _ h1 (picolEvalReaches_step F h2)

/-- The evaluation of `set r {X}` for a text `X` that the brace scanner accepts. -/
theorem picolEval_set_brace (X : CStr) (hX : picolBalanced X) (i : picolInterp) (c : picolCmd)
    (hlev : i.level + 1 ≤ PICOL_MAX_RECURSION_LEVEL)
    (hc : picolGetCommand i "set".toList = some c) (hf : c.func = .picolCommandSet) :
    ∃ n, picolEval F n i ("set r \x7b".toList ++ X ++ "\x7d".toList) =
      some (PICOL_OK, picolSetResult (picolSetVar i "r".toList X) X) := by
  have hT : "set r \x7b".toList ++ X ++ "\x7d".toList =
      's' :: 'e' :: 't' :: ' ' :: 'r' :: ' ' :: '{' :: (X ++ ['}']) := by
    simp
  rw [hT]
  generalize hTd : 's' :: 'e' :: 't' :: ' ' :: 'r' :: ' ' :: '{' :: (X ++ ['}']) = T
  have hlen : T.length = X.length + 8 := by
    rw [← hTd]
    simp
  have hd0 : T.drop 0 = ('s' :: ['e', 't']) ++ ' ' :: ('r' :: ' ' :: '{' :: (X ++ ['}'])) := by
    rw [← hTd]
    rfl
  have hd4 : T.drop (0 + ('s' :: ['e', 't']).length + 1) =
      ('r' :: []) ++ ' ' :: ('{' :: (X ++ ['}'])) := by
    rw [← hTd]
    rfl
  have hd6 : T.drop (0 + ('s' :: ['e', 't']).length + 1 + ('r' :: ([] : CStr)).length + 1) =
      '{' :: (X ++ '}' :: []) := by
    rw [← hTd]
    rfl
  have hd7 : T.drop (0 + ('s' :: ['e', 't']).length + 1 + ('r' :: ([] : CStr)).length + 1 + 1) =
      X ++ '}' :: [] := drop_of_drop_cons hd6
  generalize hi0 : ({ picolSetResult i [] with level := i.level + 1 } : picolInterp) = i0
  have hA := picolEvalReaches_word F i0 [] T 0 (T.length : Int) 0 0 PT_EOL 's' ['e', 't']
    ('r' :: ' ' :: '{' :: (X ++ ['}'])) (Or.inr rfl) hd0 (by decide) (by decide) (by decide)
    (by intro x hx; cases hx; decide)
    (by rw [hlen]; simp only [List.length_cons, List.length_append, List.length_nil]
        push_cast; omega)
  have hB := picolEvalReaches_word F i0 ([] ++ ['s' :: ['e', 't']]) T
    (0 + ('s' :: ['e', 't']).length + 1) ((T.length : Int) - ('s' :: ['e', 't']).length - 1)
    ((0 + ('s' :: ['e', 't']).length : Nat) : Int) ((0 + ('s' :: ['e', 't']).length : Nat) : Int)
    PT_SEP 'r' [] ('{' :: (X ++ ['}'])) (Or.inl rfl) hd4 (by decide) (by decide) (by decide)
    (by intro x hx; cases hx; decide)
    (by rw [hlen]; simp only [List.length_cons, List.length_append, List.length_nil]
        push_cast; omega)
  have hAB := picolEvalReaches_trans F hA hB
  have hg5 := picolGetToken_brace T
    (0 + ('s' :: ['e', 't']).length + 1 + ('r' :: ([] : CStr)).length + 1)
    ((T.length : Int) - ('s' :: ['e', 't']).length - 1 - ('r' :: ([] : CStr)).length - 1)
    ((0 + ('s' :: ['e', 't']).length + 1 + ('r' :: ([] : CStr)).length : Nat) : Int)
    ((0 + ('s' :: ['e', 't']).length + 1 + ('r' :: ([] : CStr)).length : Nat) : Int)
    PT_SEP false X [] (Or.inl rfl) hd6 hX
    (by rw [hlen]; simp only [List.length_cons, List.length_nil]; push_cast; omega)
  have ht5 := picolParser_token_mk T
    (0 + ('s' :: ['e', 't']).length + 1 + ('r' :: ([] : CStr)).length + 1 + X.length + 2)
    ((T.length : Int) - ('s' :: ['e', 't']).length - 1 - ('r' :: ([] : CStr)).length - 1 -
      X.length - 2)
    (0 + ('s' :: ['e', 't']).length + 1 + ('r' :: ([] : CStr)).length + 1 + 1)
    PT_STR false X ('}' :: []) hd7
  have h5 := picolEvalIter_str F (i := i0) ([] ++ ['s' :: ['e', 't']] ++ ['r' :: []]) hg5 rfl
  rw [ht5] at h5
  have h5a : picolAppendArg ([] ++ ['s' :: ['e', 't']] ++ ['r' :: []]) PT_SEP X =
      some ["set".toList, "r".toList, X] := rfl
  simp only [h5a, Option.some_bind] at h5
  have hg6 := picolGetToken_end T
    (0 + ('s' :: ['e', 't']).length + 1 + ('r' :: ([] : CStr)).length + 1 + X.length + 2)
    ((T.length : Int) - ('s' :: ['e', 't']).length - 1 - ('r' :: ([] : CStr)).length - 1 -
      X.length - 2)
    ((0 + ('s' :: ['e', 't']).length + 1 + ('r' :: ([] : CStr)).length + 1 + 1 : Nat) : Int)
    (((0 + ('s' :: ['e', 't']).length + 1 + ('r' :: ([] : CStr)).length + 1 + 1 + X.length : Nat)
      : Int) - 1) PT_STR false
    (by rw [hlen]; simp only [List.length_cons, List.length_nil]; push_cast; omega) 0
  have hc0 : picolGetCommand i0 (["set".toList, "r".toList, X].getD 0 []) = some c := by
    rw [← hi0]
    exact hc
  have h6 := picolEvalIter_call F hg6 rfl (by simp) hc0
    (picolCallFunc_set F 0 i0 ["set".toList, "r".toList, X] c hf)
  have h6a : (picolCommandSet i0 ["set".toList, "r".toList, X]) =
      (PICOL_OK, picolSetResult (picolSetVar i0 "r".toList X) X) := rfl
  rw [h6a] at h6
  simp only [ne_eq, not_true_eq_false, if_false] at h6
  have hg7 := picolGetToken_end T
    (0 + ('s' :: ['e', 't']).length + 1 + ('r' :: ([] : CStr)).length + 1 + X.length + 2)
    ((T.length : Int) - ('s' :: ['e', 't']).length - 1 - ('r' :: ([] : CStr)).length - 1 -
      X.length - 2)
    ((0 + ('s' :: ['e', 't']).length + 1 + ('r' :: ([] : CStr)).length + 1 + 1 : Nat) : Int)
    (((0 + ('s' :: ['e', 't']).length + 1 + ('r' :: ([] : CStr)).length + 1 + 1 + X.length : Nat)
      : Int) - 1) PT_EOL false
    (by rw [hlen]; simp only [List.length_cons, List.length_nil]; push_cast; omega) 0
  have h7 := picolEvalIter_eof F (i := picolSetResult (picolSetVar i0 "r".toList X) X) [] hg7 rfl
  have hreach := picolEvalReaches_trans F hAB
    (picolEvalReaches.next _ _ _ _ _ _ _ _ _ _ h5 (picolEvalReaches_step F h6))
  subst hi0
  obtain ⟨m, hm⟩ := picolEval_of_comesTo F (i := i) (t := T)
    (show picolEvalComesTo F i T _ _ _ from ⟨hlev, hreach⟩) h7
  refine ⟨m, ?_⟩
  rw [hm]
  have hu : isupper (charAt "r".toList 0) = false := by decide
  simp only [picolSetVar, picolSetResult, hu, Bool.false_eq_true, if_false, add_sub_cancel_right]

/-- **C16.** For every text `X` that the brace scanner `picolBraceScan` accepts
(braces nest properly, a backslash hides the character after it): (1) at the start of
a word (the previous token is a separator, an end of command or a `PT_STR` token),
the tokenizer makes of `{X}` one token of type `PT_STR` whose text is `X`, and leaves
the parser right after the closing brace; (2) the evaluator appends the text of such
a token to the words as it is, with no substitution and no escape decoding;
(3) in any interpreter where `set` is the built-in and the level is below the limit,
`set r {X}` returns `PICOL_OK`, given enough fuel, with the result exactly `X` and
`r` bound to `X`. -/
theorem C16_brace_quoted_word (X : CStr) (hX : picolBalanced X) :
    (∀ (T : CStr) (k : Nat) (st en : Int) (ty : picolTokenType) (iq : Bool) (rest : CStr),
      ty = PT_SEP ∨ ty = PT_EOL ∨ ty = PT_STR →
      T.drop k = '{' :: (X ++ '}' :: rest) →
      ∃ q, picolGetToken (X.length + 2)
          (picolParser.mk T k ((T.length - k : Nat) : Int) st en ty iq) = some q ∧
        q.type = PT_STR ∧ q.token = X ∧ T.drop q.p = rest ∧ q.len = (rest.length : Int)) ∧
    (∀ (n : Nat) (i : picolInterp) (p0 p : picolParser) (argv : List CStr),
      picolGetToken n p0 = some p → p.type = PT_STR → p.token = X →
      picolEvalIter F n i p0 argv =
        (picolAppendArg argv p0.type X).bind fun argv1 => some (.goOn i p argv1)) ∧
    (∀ (i : picolInterp) (c : picolCmd), i.level + 1 ≤ PICOL_MAX_RECURSION_LEVEL →
      picolGetCommand i "set".toList = some c → c.func = .picolCommandSet →
      (∃ n, picolEval F n i ("set r \x7b".toList ++ X ++ "\x7d".toList) =
        some (PICOL_OK, picolSetResult (picolSetVar i "r".toList X) X)) ∧
      (picolSetResult (picolSetVar i "r".toList X) X).result = X ∧
      picolGetVar (picolSetResult (picolSetVar i "r".toList X) X) "r".toList =
        some (picolVar.mk "r".toList X)) := by
  refine ⟨?_, ?_, ?_⟩
  · intro T k st en ty iq rest hty hd
    have hlen : T.length - k = X.length + 2 + rest.length := by
      have := congrArg List.length hd
      rw [List.length_drop] at this
      rw [this]
      simp only [List.length_cons, List.length_append]
      omega
    refine ⟨_, picolGetToken_brace T k _ st en ty iq X rest hty hd hX (by rw [hlen]), rfl, ?_, ?_, ?_⟩
    · exact picolParser_token_mk T _ _ (k + 1) PT_STR iq X ('}' :: rest) (drop_of_drop_cons hd)
    · show T.drop (k + X.length + 2) = rest
      have h1 : T.drop (k + 1) = X ++ '}' :: rest := drop_of_drop_cons hd
      have h2 : T.drop (k + 1 + X.length) = '}' :: rest := drop_of_drop_append h1
      have h3 := drop_of_drop_cons h2
      rw [← h3]
      congr 1
      omega
    · show ((T.length - k : Nat) : Int) - X.length - 2 = (rest.length : Int)
      rw [hlen]
      push_cast
      omega
  · intro n i p0 p argv hg ht hp
    rw [picolEvalIter_str F argv hg ht, hp]
  · intro i c hlev hc hf
    exact ⟨picolEval_set_brace F X hX i c hlev hc hf, rfl,
      picolGetVar_setVar_self i "r".toList X⟩

end

/-- Witness of C16: the text `a{$x [y]}\}b`, whose braces nest and whose last closing
brace is hidden by a backslash. -/
theorem C16_witness :
    picolBalanced "a\x7b$x [y]\x7d\\\x7db".toList ∧
    (∃ n, picolEval intDouble n picolCoreInterp
        ("set r \x7b".toList ++ "a\x7b$x [y]\x7d\\\x7db".toList ++ "\x7d".toList) =
      some (PICOL_OK, picolSetResult
        (picolSetVar picolCoreInterp "r".toList "a\x7b$x [y]\x7d\\\x7db".toList)
        "a\x7b$x [y]\x7d\\\x7db".toList)) :=
  ⟨by decide,
    ((C16_brace_quoted_word intDouble "a\x7b$x [y]\x7d\\\x7db".toList (by decide)).2.2
      picolCoreInterp (picolCmd.mk "set".toList .picolCommandSet none none)
      (by decide) (by decide) rfl).1⟩

/-- The examples of C16, computed with the core commands: `set r {$notavar}`,
`set r {a\nb}` (the backslash and the `n` are kept) and `set r {}`. -/
theorem picolEval_brace_examples :
    (picolEval intDouble 20 picolCoreInterp "set r \x7b$notavar\x7d".toList).map
        (fun r => (r.1, r.2.result, (picolGetVar r.2 "r".toList).map fun v => v.val)) =
      some (PICOL_OK, "$notavar".toList, some "$notavar".toList) ∧
    (picolEval intDouble 20 picolCoreInterp "set r \x7ba\\nb\x7d".toList).map
        (fun r => (r.1, r.2.result, (picolGetVar r.2 "r".toList).map fun v => v.val)) =
      some (PICOL_OK, ['a', '\\', 'n', 'b'], some ['a', '\\', 'n', 'b']) ∧
    (picolEval intDouble 20 picolCoreInterp "set r \x7b\x7d".toList).map
        (fun r => (r.1, r.2.result, (picolGetVar r.2 "r".toList).map fun v => v.val)) =
      some (PICOL_OK, [], some []) := by
  refine ⟨?_, ?_, ?_⟩ <;> decide!

/-! ## C15: the fragments of a word -/

section
variable {D : Type} (F : DoubleOps D)

attribute [local irreducible] picolEval picolCallFunc picolGetToken in
/-- An iteration of the token loop at a fragment appends the text of the fragment;
the token of a fragment is no separator and no end of command. -/
theorem picolEvalIter_fragment {n : Nat} {i j : picolInterp} {p0 q : picolParser} {x : CStr}
    (argv : List CStr) (h : picolFragment F n i p0 = some (x, j, q)) :
    picolEvalIter F n i p0 argv =
      ((picolAppendArg argv p0.type x).bind fun argv1 => some (.goOn j q argv1)) ∧
    q.type ≠ PT_SEP ∧ q.type ≠ PT_EOL := by
  unfold picolFragment at h
  unfold picolEvalIter
  cases hg : picolGetToken n p0 with
  | none => rw [hg] at h; cases h
  | some p =>
    rw [hg, Option.some_bind] at h
    rw [Option.some_bind]
    by_cases h1 : p.type = PT_VAR
    · rw [if_pos h1] at h
      rw [if_neg (by rw [h1]; decide), if_pos h1]
      cases hv : picolGetVar i p.token with
      | none => rw [hv] at h; cases h
      | some v =>
        rw [hv] at h
        simp only [Option.map_some', Option.some.injEq, Prod.mk.injEq] at h
        obtain ⟨rfl, rfl, rfl⟩ := h
        exact ⟨rfl, by rw [h1]; decide, by rw [h1]; decide⟩
    · rw [if_neg h1] at h
      by_cases h2 : p.type = PT_CMD
      · rw [if_pos h2] at h
        rw [if_neg (by rw [h2]; decide), if_neg h1, if_pos h2]
        cases he : picolEval F n i p.token with
        | none => rw [he] at h; cases h
        | some r =>
          rw [he, Option.some_bind] at h
          rw [Option.some_bind]
          by_cases hr : r.1 = PICOL_OK
          · rw [if_pos hr] at h
            simp only [Option.some.injEq, Prod.mk.injEq] at h
            obtain ⟨rfl, rfl, rfl⟩ := h
            rw [if_neg (by simpa using hr)]
            exact ⟨rfl, by rw [h2]; decide, by rw [h2]; decide⟩
          · rw [if_neg hr] at h
            cases h
      · rw [if_neg h2] at h
        by_cases h3 : p.type = PT_ESC
        · rw [if_pos h3] at h
          simp only [Option.some.injEq, Prod.mk.injEq] at h
          obtain ⟨rfl, rfl, rfl⟩ := h
          rw [if_neg (by rw [h3]; decide), if_neg h1, if_neg h2, if_pos h3]
          exact ⟨rfl, by rw [h3]; decide, by rw [h3]; decide⟩
        · rw [if_neg h3] at h
          by_cases h4 : p.type = PT_STR
          · rw [if_pos h4] at h
            simp only [Option.some.injEq, Prod.mk.injEq] at h
            obtain ⟨rfl, rfl, rfl⟩ := h
            rw [if_neg (by rw [h4]; decide), if_neg h1, if_neg h2, if_neg h3,
              if_neg (by rw [h4]; decide), if_neg (by rw [h4]; decide)]
            exact ⟨rfl, by rw [h4]; decide, by rw [h4]; decide⟩
          · rw [if_neg h4] at h
            cases h

theorem picolAppendArg_last (argv : List CStr) (last x : CStr) (ty : picolTokenType)
    (h1 : ty ≠ PT_SEP) (h2 : ty ≠ PT_EOL) :
    picolAppendArg (argv ++ [last]) ty x = some (argv ++ [last ++ x]) := by
  unfold picolAppendArg
  rw [if_neg (by rintro (h | h); exact h1 h; exact h2 h)]
  simp

/-- Fragments that follow a fragment are concatenated to the last word. -/
theorem picolEvalReaches_fragments_last {i j : picolInterp} {p q : picolParser}
    {xs : List CStr} (h : picolFragments F i p xs j q) :
    p.type ≠ PT_SEP → p.type ≠ PT_EOL → ∀ (argv : List CStr) (last : CStr),
      picolEvalReaches F i p (argv ++ [last]) j q (argv ++ [last ++ xs.flatten]) ∧
      q.type ≠ PT_SEP ∧ q.type ≠ PT_EOL := by
  induction h with
  | nil i p =>
    intro h1 h2 argv last
    rw [List.flatten_nil, List.append_nil]
    exact ⟨picolEvalReaches.here _ _ _, h1, h2⟩
  | cons n i p x i1 p1 xs j q hx _ ih =>
    intro h1 h2 argv last
    obtain ⟨hit, h3, h4⟩ := picolEvalIter_fragment F (argv ++ [last]) hx
    rw [picolAppendArg_last argv last x p.type h1 h2, Option.some_bind] at hit
    obtain ⟨hr, h5, h6⟩ := ih h3 h4 argv (last ++ x)
    rw [List.flatten_cons, ← List.append_assoc]
    exact ⟨picolEvalReaches.next _ _ _ _ _ _ _ _ _ _ hit hr, h5, h6⟩

/-- Fragments at the start of a word make one new word, the concatenation of their
texts. -/
theorem picolEvalReaches_fragments {i j : picolInterp} {p q : picolParser}
    {xs : List CStr} (h : picolFragments F i p xs j q) (hne : xs ≠ [])
    (hty : p.type = PT_SEP ∨ p.type = PT_EOL) (argv : List CStr) :
    picolEvalReaches F i p argv j q (argv ++ [xs.flatten]) := by
  cases h with
  | nil => exact absurd rfl hne
  | cons n _ _ x i1 p1 xs _ _ hx hrest =>
    obtain ⟨hit, h3, h4⟩ := picolEvalIter_fragment F argv hx
    have ha : picolAppendArg argv p.type x = some (argv ++ [x]) := by
      unfold picolAppendArg
      rw [if_pos hty]
    rw [ha, Option.some_bind] at hit
    obtain ⟨hr, _, _⟩ := picolEvalReaches_fragments_last F hrest h3 h4 argv x
    rw [List.flatten_cons]
    exact picolEvalReaches.next _ _ _ _ _ _ _ _ _ _ hit hr

/-- The evaluation of `set r $v` where `v` is bound to `V`: the words are `set`, `r`
and `V`, and the command `set` is called with them. -/
theorem picolEval_set_var (V : CStr) (i : picolInterp) (c : picolCmd)
    (hlev : i.level + 1 ≤ PICOL_MAX_RECURSION_LEVEL)
    (hc : picolGetCommand i "set".toList = some c) (hf : c.func = .picolCommandSet)
    (hv : picolGetVar i "v".toList = some (picolVar.mk "v".toList V)) :
    picolEvalComesTo F i "set r $v".toList { picolSetResult i [] with level := i.level + 1 }
      (picolParser.mk "set r $v".toList 8 0 7 7 PT_VAR false)
      ["set".toList, "r".toList, V] ∧
    ∃ n, picolEval F n i "set r $v".toList =
      some (PICOL_OK, picolSetResult (picolSetVar i "r".toList V) V) := by
  generalize hi0 : ({ picolSetResult i [] with level := i.level + 1 } : picolInterp) = i0
  have hc0 : picolGetCommand i0 "set".toList = some c := by
    rw [← hi0]
    exact hc
  have hv0 : picolGetVar i0 "v".toList = some (picolVar.mk "v".toList V) := by
    rw [← hi0]
    exact hv
  have hg1 : picolGetToken 10 (picolInitParser "set r $v".toList) =
      some (picolParser.mk "set r $v".toList 3 5 0 2 PT_ESC false) := by decide!
  have hg2 : picolGetToken 10 (picolParser.mk "set r $v".toList 3 5 0 2 PT_ESC false) =
      some (picolParser.mk "set r $v".toList 4 4 3 3 PT_SEP false) := by decide!
  have hg3 : picolGetToken 10 (picolParser.mk "set r $v".toList 4 4 3 3 PT_SEP false) =
      some (picolParser.mk "set r $v".toList 5 3 4 4 PT_ESC false) := by decide!
  have hg4 : picolGetToken 10 (picolParser.mk "set r $v".toList 5 3 4 4 PT_ESC false) =
      some (picolParser.mk "set r $v".toList 6 2 5 5 PT_SEP false) := by decide!
  have hg5 : picolGetToken 10 (picolParser.mk "set r $v".toList 6 2 5 5 PT_SEP false) =
      some (picolParser.mk "set r $v".toList 8 0 7 7 PT_VAR false) := by decide!
  have hg6 : picolGetToken 10 (picolParser.mk "set r $v".toList 8 0 7 7 PT_VAR false) =
      some (picolParser.mk "set r $v".toList 8 0 7 7 PT_EOL false) := by decide!
  have hg7 : picolGetToken 10 (picolParser.mk "set r $v".toList 8 0 7 7 PT_EOL false) =
      some (picolParser.mk "set r $v".toList 8 0 7 7 PT_EOF false) := by decide!
  have h1 : picolEvalIter F 10 i0 (picolInitParser "set r $v".toList) [] =
      some (.goOn i0 (picolParser.mk "set r $v".toList 3 5 0 2 PT_ESC false) ["set".toList]) := by
    rw [picolEvalIter_esc F [] hg1 rfl]
    rfl
  have h2 := picolEvalIter_sep F (i := i0) ["set".toList] hg2 rfl
  have h3 : picolEvalIter F 10 i0 (picolParser.mk "set r $v".toList 4 4 3 3 PT_SEP false) ["set".toList] =
      some (.goOn i0 (picolParser.mk "set r $v".toList 5 3 4 4 PT_ESC false)
        ["set".toList, "r".toList]) := by
    rw [picolEvalIter_esc F _ hg3 rfl]
    rfl
  have h4 := picolEvalIter_sep F (i := i0) ["set".toList, "r".toList] hg4 rfl
  have h5 : picolEvalIter F 10 i0 (picolParser.mk "set r $v".toList 6 2 5 5 PT_SEP false)
        ["set".toList, "r".toList] =
      some (.goOn i0 (picolParser.mk "set r $v".toList 8 0 7 7 PT_VAR false)
        ["set".toList, "r".toList, V]) := by
    rw [picolEvalIter_var F _ hg5 rfl (show picolGetVar i0 _ = _ from hv0)]
    rfl
  have h6 := picolEvalIter_call F hg6 rfl (by simp) hc0
    (picolCallFunc_set F 9 i0 ["set".toList, "r".toList, V] c hf)
  have h6a : (picolCommandSet i0 ["set".toList, "r".toList, V]) =
      (PICOL_OK, picolSetResult (picolSetVar i0 "r".toList V) V) := rfl
  rw [h6a] at h6
  simp only [ne_eq, not_true_eq_false, if_false] at h6
  have h7 := picolEvalIter_eof F (i := picolSetResult (picolSetVar i0 "r".toList V) V) [] hg7 rfl
  have hr5 : picolEvalReaches F i0 (picolInitParser "set r $v".toList) [] i0
      (picolParser.mk "set r $v".toList 8 0 7 7 PT_VAR false) ["set".toList, "r".toList, V] :=
    picolEvalReaches.next _ _ _ _ _ _ _ _ _ _ h1
      (picolEvalReaches.next _ _ _ _ _ _ _ _ _ _ h2
        (picolEvalReaches.next _ _ _ _ _ _ _ _ _ _ h3
          (picolEvalReaches.next _ _ _ _ _ _ _ _ _ _ h4 (picolEvalReaches_step F h5))))
  have hr6 := picolEvalReaches_trans F hr5 (picolEvalReaches_step F h6)
  subst hi0
  refine ⟨⟨hlev, hr5⟩, ?_⟩
  obtain ⟨m, hm⟩ := picolEval_of_comesTo F (i := i) (t := "set r $v".toList)
    (show picolEvalComesTo F i _ _ _ _ from ⟨hlev, hr6⟩) h7
  refine ⟨m, ?_⟩
  rw [hm]
  have hu : isupper (charAt "r".toList 0) = false := by decide
  simp only [picolSetVar, picolSetResult, hu, Bool.false_eq_true, if_false, add_sub_cancel_right]

/-- The evaluation of `set v` where `v` is bound to `V`. -/
theorem picolEval_set_v (V : CStr) (i : picolInterp) (c : picolCmd)
    (hlev : i.level + 1 ≤ PICOL_MAX_RECURSION_LEVEL)
    (hc : picolGetCommand i "set".toList = some c) (hf : c.func = .picolCommandSet)
    (hv : picolGetVar i "v".toList = some (picolVar.mk "v".toList V)) :
    picolEval F 10 i "set v".toList = some (PICOL_OK, picolSetResult i V) := by
  have hs : picolSingleCommand 9 "set v".toList = some (5, ["set".toList, "v".toList]) := by
    decide!
  rw [picolEval_succ, if_neg (by omega), picolEvalLoop_singleCommand F 9 _ _ 5 _ hs]
  have hc1 : picolGetCommand { picolSetResult i [] with level := i.level + 1 }
      (["set".toList, "v".toList].getD 0 []) = some c := hc
  rw [hc1]
  simp only
  rw [picolCallFunc_set F 4 _ _ c hf]
  have hv1 : picolGetVar { picolSetResult i [] with level := i.level + 1 }
      (["set".toList, "v".toList].getD 1 []) = some (picolVar.mk "v".toList V) := hv
  have h2 : picolCommandSet { picolSetResult i [] with level := i.level + 1 }
      ["set".toList, "v".toList] =
      (PICOL_OK, picolSetResult { picolSetResult i [] with level := i.level + 1 } V) := by
    unfold picolCommandSet
    rw [if_neg (by decide), if_pos (by decide), hv1]
  rw [h2]
  simp only [Option.some_bind, picolSetResult, add_sub_cancel_right]

/-- The evaluation of `set r [set v]` where `v` is bound to `V`: the words are `set`,
`r` and `V`, and the command `set` is called with them. -/
theorem picolEval_set_subst (V : CStr) (i : picolInterp) (c : picolCmd)
    (hlev : i.level + 2 ≤ PICOL_MAX_RECURSION_LEVEL)
    (hc : picolGetCommand i "set".toList = some c) (hf : c.func = .picolCommandSet)
    (hv : picolGetVar i "v".toList = some (picolVar.mk "v".toList V)) :
    picolEvalComesTo F i "set r [set v]".toList
      { picolSetResult i V with level := i.level + 1 }
      (picolParser.mk "set r [set v]".toList 13 0 7 11 PT_CMD false) ["set".toList, "r".toList, V] ∧
    ∃ n, picolEval F n i "set r [set v]".toList =
      some (PICOL_OK, picolSetResult (picolSetVar i "r".toList V) V) := by
  generalize hi0 : ({ picolSetResult i [] with level := i.level + 1 } : picolInterp) = i0
  generalize hi1 : ({ picolSetResult i V with level := i.level + 1 } : picolInterp) = i1
  have hi01 : picolSetResult i0 V = i1 := by
    rw [← hi0, ← hi1]
    rfl
  have hc1 : picolGetCommand i1 "set".toList = some c := by
    rw [← hi1]
    exact hc
  have he : picolEval F 10 i0 "set v".toList = some (PICOL_OK, i1) := by
    rw [← hi01]
    refine picolEval_set_v F V i0 c ?_ ?_ hf ?_
    · rw [← hi0]
      show i.level + 1 + 1 ≤ PICOL_MAX_RECURSION_LEVEL
      omega
    · rw [← hi0]
      exact hc
    · rw [← hi0]
      exact hv
  have hg1 : picolGetToken 10 (picolInitParser "set r [set v]".toList) =
      some (picolParser.mk "set r [set v]".toList 3 10 0 2 PT_ESC false) := by decide!
  have hg2 : picolGetToken 10 (picolParser.mk "set r [set v]".toList 3 10 0 2 PT_ESC false) =
      some (picolParser.mk "set r [set v]".toList 4 9 3 3 PT_SEP false) := by decide!
  have hg3 : picolGetToken 10 (picolParser.mk "set r [set v]".toList 4 9 3 3 PT_SEP false) =
      some (picolParser.mk "set r [set v]".toList 5 8 4 4 PT_ESC false) := by decide!
  have hg4 : picolGetToken 10 (picolParser.mk "set r [set v]".toList 5 8 4 4 PT_ESC false) =
      some (picolParser.mk "set r [set v]".toList 6 7 5 5 PT_SEP false) := by decide!
  have hg5 : picolGetToken 10 (picolParser.mk "set r [set v]".toList 6 7 5 5 PT_SEP false) =
      some (picolParser.mk "set r [set v]".toList 13 0 7 11 PT_CMD false) := by decide!
  have hg6 : picolGetToken 10 (picolParser.mk "set r [set v]".toList 13 0 7 11 PT_CMD false) =
      some (picolParser.mk "set r [set v]".toList 13 0 7 11 PT_EOL false) := by decide!
  have hg7 : picolGetToken 10 (picolParser.mk "set r [set v]".toList 13 0 7 11 PT_EOL false) =
      some (picolParser.mk "set r [set v]".toList 13 0 7 11 PT_EOF false) := by decide!
  have h1 : picolEvalIter F 10 i0 (picolInitParser "set r [set v]".toList) [] =
      some (.goOn i0 (picolParser.mk "set r [set v]".toList 3 10 0 2 PT_ESC false) ["set".toList]) := by
    rw [picolEvalIter_esc F [] hg1 rfl]
    rfl
  have h2 := picolEvalIter_sep F (i := i0) ["set".toList] hg2 rfl
  have h3 : picolEvalIter F 10 i0 (picolParser.mk "set r [set v]".toList 4 9 3 3 PT_SEP false) ["set".toList] =
      some (.goOn i0 (picolParser.mk "set r [set v]".toList 5 8 4 4 PT_ESC false)
        ["set".toList, "r".toList]) := by
    rw [picolEvalIter_esc F _ hg3 rfl]
    rfl
  have h4 := picolEvalIter_sep F (i := i0) ["set".toList, "r".toList] hg4 rfl
  have h5 : picolEvalIter F 10 i0 (picolParser.mk "set r [set v]".toList 6 7 5 5 PT_SEP false)
        ["set".toList, "r".toList] =
      some (.goOn i1 (picolParser.mk "set r [set v]".toList 13 0 7 11 PT_CMD false)
        ["set".toList, "r".toList, V]) := by
    rw [picolEvalIter_subst F _ hg5 rfl (show picolEval F 10 i0 _ = _ from he)]
    rw [if_neg (by simp)]
    rw [← hi1]
    rfl
  have h6 := picolEvalIter_call F hg6 rfl (by simp) hc1
    (picolCallFunc_set F 9 i1 ["set".toList, "r".toList, V] c hf)
  have h6a : (picolCommandSet i1 ["set".toList, "r".toList, V]) =
      (PICOL_OK, picolSetResult (picolSetVar i1 "r".toList V) V) := rfl
  rw [h6a] at h6
  simp only [ne_eq, not_true_eq_false, if_false] at h6
  have h7 := picolEvalIter_eof F (i := picolSetResult (picolSetVar i1 "r".toList V) V) [] hg7 rfl
  have hr5 : picolEvalReaches F i0 (picolInitParser "set r [set v]".toList) [] i1
      (picolParser.mk "set r [set v]".toList 13 0 7 11 PT_CMD false) ["set".toList, "r".toList, V] :=
    picolEvalReaches.next _ _ _ _ _ _ _ _ _ _ h1
      (picolEvalReaches.next _ _ _ _ _ _ _ _ _ _ h2
        (picolEvalReaches.next _ _ _ _ _ _ _ _ _ _ h3
          (picolEvalReaches.next _ _ _ _ _ _ _ _ _ _ h4 (picolEvalReaches_step F h5))))
  have hr6 := picolEvalReaches_trans F hr5 (picolEvalReaches_step F h6)
  subst hi0
  have hlev1 : i.level + 1 ≤ PICOL_MAX_RECURSION_LEVEL := by omega
  refine ⟨⟨hlev1, hr5⟩, ?_⟩
  obtain ⟨m, hm⟩ := picolEval_of_comesTo F (i := i) (t := "set r [set v]".toList)
    (show picolEvalComesTo F i _ _ _ _ from ⟨hlev1, hr6⟩) h7
  refine ⟨m, ?_⟩
  rw [hm, ← hi1]
  have hu : isupper (charAt "r".toList 0) = false := by decide
  simp only [picolSetVar, picolSetResult, hu, Bool.false_eq_true, if_false, add_sub_cancel_right]

/-- **C15.** (1) An iteration of the token loop of `picolEval` at a fragment (a
variable, a command substitution that returns `PICOL_OK`, a `PT_ESC` or a `PT_STR`
token) appends the substituted text of the fragment: as a new word after a separator
or an end of command, onto the last word otherwise.  (2) Fragments that follow one
another from the start of a word, with substituted texts `xs`, bring the loop to the
words with the one word `xs.flatten` appended, the concatenation of the texts in
order.  (3) A substituted value is not tokenized again: for every value `V`, in any
interpreter where `set` is the built-in, `v` is bound to `V` and the level is below
the limit, the evaluation of `set r $v` comes to the three words `set`, `r`, `V` and
returns `PICOL_OK`, given enough fuel, with the result `V` and `r` bound to exactly
`V`; and so does `set r [set v]`, where `V` is the result of a command (with two
levels below the limit). -/
theorem C15_fragments_concatenate :
    (∀ (n : Nat) (i j : picolInterp) (p0 q : picolParser) (x : CStr) (argv : List CStr),
      picolFragment F n i p0 = some (x, j, q) →
      picolEvalIter F n i p0 argv =
        (if p0.type = PT_SEP ∨ p0.type = PT_EOL then some (argv ++ [x])
          else argv.getLast?.map fun last => argv.dropLast ++ [last ++ x]).bind
          fun argv1 => some (.goOn j q argv1)) ∧
    (∀ (i j : picolInterp) (p q : picolParser) (xs : List CStr) (argv : List CStr),
      picolFragments F i p xs j q → xs ≠ [] → p.type = PT_SEP ∨ p.type = PT_EOL →
      picolEvalReaches F i p argv j q (argv ++ [xs.flatten])) ∧
    (∀ (V : CStr) (i : picolInterp) (c : picolCmd),
      picolGetCommand i "set".toList = some c → c.func = .picolCommandSet →
      picolGetVar i "v".toList = some (picolVar.mk "v".toList V) →
      (i.level + 1 ≤ PICOL_MAX_RECURSION_LEVEL →
        picolEvalComesTo F i "set r $v".toList
          { picolSetResult i [] with level := i.level + 1 }
          (picolParser.mk "set r $v".toList 8 0 7 7 PT_VAR false)
          ["set".toList, "r".toList, V] ∧
        ∃ n, picolEval F n i "set r $v".toList =
          some (PICOL_OK, picolSetResult (picolSetVar i "r".toList V) V)) ∧
      (i.level + 2 ≤ PICOL_MAX_RECURSION_LEVEL →
        picolEvalComesTo F i "set r [set v]".toList
          { picolSetResult i V with level := i.level + 1 }
          (picolParser.mk "set r [set v]".toList 13 0 7 11 PT_CMD false)
          ["set".toList, "r".toList, V] ∧
        ∃ n, picolEval F n i "set r [set v]".toList =
          some (PICOL_OK, picolSetResult (picolSetVar i "r".toList V) V)) ∧
      (picolSetResult (picolSetVar i "r".toList V) V).result = V ∧
      picolGetVar (picolSetResult (picolSetVar i "r".toList V) V) "r".toList =
        some (picolVar.mk "r".toList V)) := by
  refine ⟨?_, ?_, ?_⟩
  · intro n i j p0 q x argv h
    rw [(picolEvalIter_fragment F argv h).1]
    unfold picolAppendArg
    congr 1
    split
    · rfl
    · cases argv.getLast? <;> rfl
  · intro i j p q xs argv h hne hty
    exact picolEvalReaches_fragments F h hne hty argv
  · intro V i c hc hf hv
    exact ⟨fun hlev => picolEval_set_var F V i c hlev hc hf hv,
      fun hlev => picolEval_set_subst F V i c hlev hc hf hv, rfl,
      picolGetVar_setVar_self i "r".toList V⟩

end

/-- Witness of C15: the value `a b;$c[d` of `v`, in the interpreter with the core
commands. -/
theorem C15_witness :
    ∃ n, picolEval intDouble n (picolSetVar picolCoreInterp "v".toList "a b;$c[d".toList)
        "set r $v".toList =
      some (PICOL_OK, picolSetResult
        (picolSetVar (picolSetVar picolCoreInterp "v".toList "a b;$c[d".toList) "r".toList
          "a b;$c[d".toList) "a b;$c[d".toList) :=
  ((C15_fragments_concatenate intDouble).2.2 "a b;$c[d".toList
    (picolSetVar picolCoreInterp "v".toList "a b;$c[d".toList)
    (picolCmd.mk "set".toList .picolCommandSet none none) (by decide) rfl (by decide)).1
    (by decide) |>.2

/-- The examples of C15, computed with the core commands: `$p$q`, `"$p$q"`,
`pre$v-post`, `val=[expr 1+1]end`, and a value with a space, a `;`, a `$` and a `[`
read back through `$v` and through `[set v]`. -/
theorem picolEval_concat_examples :
    (picolEval intDouble 40 picolCoreInterp "set p hello; set q world; set r $p$q".toList).map
        (fun r => (r.1, r.2.result, (picolGetVar r.2 "r".toList).map fun v => v.val)) =
      some (PICOL_OK, "helloworld".toList, some "helloworld".toList) ∧
    (picolEval intDouble 40 picolCoreInterp "set p aa; set q bb; set r \"$p$q\"".toList).map
        (fun r => (r.1, r.2.result, (picolGetVar r.2 "r".toList).map fun v => v.val)) =
      some (PICOL_OK, "aabb".toList, some "aabb".toList) ∧
    (picolEval intDouble 40 picolCoreInterp "set v X; set r pre$v-post".toList).map
        (fun r => (r.1, r.2.result, (picolGetVar r.2 "r".toList).map fun v => v.val)) =
      some (PICOL_OK, "preX-post".toList, some "preX-post".toList) ∧
    (picolEval intDouble 40 picolCoreInterp "set r val=[expr 1+1]end".toList).map
        (fun r => (r.1, r.2.result, (picolGetVar r.2 "r".toList).map fun v => v.val)) =
      some (PICOL_OK, "val=2end".toList, some "val=2end".toList) ∧
    (picolEval intDouble 40 picolCoreInterp
        "set v \x7ba b;$c[d\x7d; set r $v; set s [set v]".toList).map
        (fun r => (r.1, (picolGetVar r.2 "r".toList).map (fun v => v.val),
          (picolGetVar r.2 "s".toList).map fun v => v.val)) =
      some (PICOL_OK, some "a b;$c[d".toList, some "a b;$c[d".toList) := by
  refine ⟨?_, ?_, ?_, ?_, ?_⟩ <;> decide!

/-! ## C30: `break` and `continue` pass through a procedure call -/

section
variable {D : Type} (F : DoubleOps D)

theorem picolWhile_body_break (i : picolInterp) (w c b : CStr)
    (r r2 : picolRetCode × picolInterp) (hc : picolCondReturns F i c r) (hr : r.1 = PICOL_OK)
    (ht : picolTruth F r.2.result = true) (hb : picolEvalReturns F r.2 b r2)
    (h2 : r2.1 = PICOL_BREAK) : picolWhileReturns F i [w, c, b] (PICOL_OK, r2.2) := by
  obtain ⟨n, hn⟩ := hc
  obtain ⟨m, hm⟩ := hb
  have hc1 : ([w, c, b] : List CStr).getD 1 [] = c := rfl
  have hb2 : ([w, c, b] : List CStr).getD 2 [] = b := rfl
  apply picolWhile_of_loop F (n := max n m + 1)
  unfold picolTruth at ht
  rw [picolWhileLoop_succ, hc1, hb2, picolExprExpansion_mono F hn (le_max_left n m),
    Option.some_bind, if_neg (by simp [hr]), if_neg (by simp [ht]),
    picolEval_mono F hm (le_max_right n m), Option.some_bind,
    if_neg (by simp [h2]), if_pos h2]

theorem picolWhile_body_before (i : picolInterp) (w c b : CStr)
    (r r2 r3 : picolRetCode × picolInterp) (hc : picolCondReturns F i c r)
    (hr : r.1 = PICOL_OK) (ht : picolTruth F r.2.result = true)
    (hb : picolEvalReturns F r.2 b r2) (h2 : r2.1 = PICOL_OK ∨ r2.1 = PICOL_CONTINUE)
    (h3 : picolWhileReturns F i [w, c, b] r3) : picolWhileReturns F r2.2 [w, c, b] r3 := by
  have hc1 : ([w, c, b] : List CStr).getD 1 [] = c := rfl
  have hb2 : ([w, c, b] : List CStr).getD 2 [] = b := rfl
  have h2' : r2.1 = PICOL_CONTINUE ∨ r2.1 = PICOL_OK := h2.symm
  unfold picolTruth at ht
  obtain ⟨k, hk⟩ := h3
  cases k with
  | zero => rw [picolCommandWhile_zero] at hk; cases hk
  | succ k =>
    rw [picolWhile_unfold] at hk
    cases k with
    | zero => rw [picolWhileLoop_zero] at hk; cases hk
    | succ k =>
      rw [picolWhileLoop_succ, hc1, hb2] at hk
      cases hx : picolExprExpansion F k i c with
      | none => rw [hx] at hk; cases hk
      | some x =>
        have ex : x = r := picolCondReturns_unique F ⟨k, hx⟩ hc
        subst ex
        rw [hx, Option.some_bind, if_neg (by simp [hr]), if_neg (by simp [ht])] at hk
        cases hy : picolEval F k x.2 b with
        | none => rw [hy] at hk; cases hk
        | some y =>
          have ey : y = r2 := picolEvalReturns_unique F ⟨k, hy⟩ hb
          subst ey
          rw [hy, Option.some_bind, if_pos h2'] at hk
          exact picolWhile_of_loop F hk

/-- **C30.** A procedure call turns only `PICOL_RETURN` into `PICOL_OK`.
(1) When the arguments are bound to the parameters and the evaluation of the body
(as the call makes it: in place, on the text `cmd->body` itself, `picolEvalBody`)
returns the code `c`, the call drops its frame and returns `PICOL_OK` if `c` is
`PICOL_RETURN` and `c` itself otherwise; so `PICOL_BREAK` and `PICOL_CONTINUE` are
returned unchanged.
(2) The code acts on the `while` of the caller: when the condition of `while c b` is
not zero and the evaluation of `b` comes to the call of a procedure whose body
returns `PICOL_BREAK`, `while` returns `PICOL_OK` with the interpreter that the call
left; when the body of the procedure returns `PICOL_CONTINUE`, the rest of `b` is
not evaluated and `while` returns exactly what it returns when started again from the
interpreter that the call left.
(3) The evaluation of the body in place returns what `picolEval` returns on the
text of the body whenever the body is not freed meanwhile, that is, when no command
that the body runs defines the procedure again; and whatever it returns, `picolEval`
on the text of the body returns. -/
theorem C30_call_passes_break :
    (∀ (i : picolInterp) (name : CStr) (args : List CStr) (cmd : picolCmd)
      (alist body : CStr) (i2 : picolInterp) (r : picolRetCode × picolInterp),
      cmd.arglist = some alist → cmd.body = some body → (∀ c ∈ alist, c ≠ '\x00') →
      picolBindParams (name :: args) { i with callframe := .child [] i.callframe } 0
        (picolParams alist) = .done i2 (args.length : Int) →
      picolEvalBodyReturns F i2 cmd.name body r →
      ∃ k, picolDropCallFrame r.2 = some k ∧ k.result = r.2.result ∧
        (∃ n, picolCommandCallProc F n i (name :: args) cmd =
          some (if r.1 = PICOL_RETURN then PICOL_OK else r.1, k)) ∧
        (r.1 = PICOL_BREAK →
          ∃ n, picolCommandCallProc F n i (name :: args) cmd = some (PICOL_BREAK, k)) ∧
        (r.1 = PICOL_CONTINUE →
          ∃ n, picolCommandCallProc F n i (name :: args) cmd = some (PICOL_CONTINUE, k))) ∧
    (∀ (i j i2 : picolInterp) (w c b : CStr) (q p : picolParser) (g : Nat) (name : CStr)
      (args : List CStr) (cmd : picolCmd) (alist body : CStr)
      (r rb : picolRetCode × picolInterp),
      picolCondReturns F i c r → r.1 = PICOL_OK → picolTruth F r.2.result = true →
      picolEvalComesTo F r.2 b j q (name :: args) → picolGetToken g q = some p →
      p.type = PT_EOL → picolGetCommand j name = some cmd →
      cmd.func = .picolCommandCallProc → cmd.arglist = some alist → cmd.body = some body →
      (∀ x ∈ alist, x ≠ '\x00') →
      picolBindParams (name :: args) { j with callframe := .child [] j.callframe } 0
        (picolParams alist) = .done i2 (args.length : Int) →
      picolEvalBodyReturns F i2 cmd.name body rb →
      ∃ k, picolDropCallFrame rb.2 = some k ∧
        (rb.1 = PICOL_BREAK →
          picolWhileReturns F i [w, c, b] (PICOL_OK, { k with level := k.level - 1 })) ∧
        (rb.1 = PICOL_CONTINUE → ∀ r3,
          (picolWhileReturns F i [w, c, b] r3 ↔
            picolWhileReturns F { k with level := k.level - 1 } [w, c, b] r3))) ∧
    (∀ (i2 : picolInterp) (name body : CStr) (r : picolRetCode × picolInterp),
      (picolEvalReturns F i2 body r → r.2.freed.count name = i2.freed.count name →
        picolEvalBodyReturns F i2 name body r) ∧
      (picolEvalBodyReturns F i2 name body r → picolEvalReturns F i2 body r)) := by
  refine ⟨?_, ?_, fun i2 name body r => ⟨fun h hc => picolEvalBodyReturns_of_eval F h hc,
    fun h => picolEvalReturns_of_body F h⟩⟩
  · intro i name args cmd alist body i2 r ha hb hnul hbind he
    obtain ⟨k, h1, h2, n, h3⟩ :=
      picolCommandCallProc_body F i name args cmd alist body i2 r ha hb hnul hbind he
    refine ⟨k, h1, h2, ⟨n, h3⟩, ?_, ?_⟩
    · intro hr
      refine ⟨n, ?_⟩
      rw [h3, hr]
      rfl
    · intro hr
      refine ⟨n, ?_⟩
      rw [h3, hr]
      rfl
  · intro i j i2 w c b q p g name args cmd alist body r rb hc hr ht hcomes hg hty hcmd hf
      ha hb hnul hbind he
    obtain ⟨k, h1, _, n, h3⟩ :=
      picolCommandCallProc_body F j name args cmd alist body i2 rb ha hb hnul hbind he
    have hcall : picolCallReturns F j (name :: args) cmd
        (if rb.1 = PICOL_RETURN then PICOL_OK else rb.1, k) :=
      ⟨n + 1, by rw [picolCallFunc_callProc F n j _ cmd hf]; exact h3⟩
    refine ⟨k, h1, ?_, ?_⟩
    · intro hbr
      rw [hbr] at hcall
      have hcall2 : picolCallReturns F j (name :: args) cmd (PICOL_BREAK, k) := hcall
      have hev := picolEval_stops_at_call F hcomes hg hty (by simp) hcmd hcall2
        (fun e => picolRetCode.noConfusion e)
      exact picolWhile_body_break F i w c b r _ hc hr ht hev rfl
    · intro hco r3
      rw [hco] at hcall
      have hcall2 : picolCallReturns F j (name :: args) cmd (PICOL_CONTINUE, k) := hcall
      have hev := picolEval_stops_at_call F hcomes hg hty (by simp) hcmd hcall2
        (fun e => picolRetCode.noConfusion e)
      exact ⟨fun h => picolWhile_body_before F i w c b r _ r3 hc hr ht hev (Or.inr rfl) h,
        fun h => picolWhile_body_again F i w c b r _ r3 hc hr ht hev (Or.inr rfl) h⟩

end

/-- Witness of C30: the procedure `b` whose body is `break`, called in the interpreter
of the test program; the call returns `PICOL_BREAK`. -/
theorem C30_witness :
    ∃ k, picolDropCallFrame
        (PICOL_BREAK, picolInterp.mk 0 (.child [] (.top [])) picolCoreInterp.commands [] []).2
          = some k ∧
      ∃ n, picolCommandCallProc intDouble n picolCoreInterp ("b".toList :: [])
        (picolCmd.mk "b".toList .picolCommandCallProc (some []) (some " break ".toList))
        = some (PICOL_BREAK, k) :=
  have h := (C30_call_passes_break intDouble).1 picolCoreInterp "b".toList []
    (picolCmd.mk "b".toList .picolCommandCallProc (some []) (some " break ".toList))
    [] " break ".toList
    (picolInterp.mk 0 (.child [] (.top [])) picolCoreInterp.commands [] [])
    (PICOL_BREAK, picolInterp.mk 0 (.child [] (.top [])) picolCoreInterp.commands [] [])
    rfl rfl (by decide) rfl ⟨20, by decide!⟩
  h.elim fun k hk => ⟨k, hk.1, hk.2.2.2.1 rfl⟩

/-- The example of C30 and its companions, run: a `break` and a `continue` inside a
procedure act on the `while` of the caller, and an error passes through too. -/
theorem picolEval_proc_break_examples :
    (picolEval intDouble 60 picolCoreInterp
        "proc b \x7b\x7d \x7b break \x7d; while \x7b1\x7d \x7b b \x7d".toList).bind
        (fun r => some r.1) = some PICOL_OK ∧
    (picolEval intDouble 200 picolCoreInterp
        "set n 0; proc c \x7b\x7d \x7b continue \x7d; while \x7b$n < 3\x7d \x7b set n [expr $n+1]; c; set n 100 \x7d".toList).bind
        (fun r => some (r.1, (picolGetVar r.2 "n".toList).map fun v => v.val)) =
      some (PICOL_OK, some "3".toList) ∧
    (picolEval intDouble 60 picolCoreInterp "proc b \x7b\x7d \x7b break \x7d; b; set x 1".toList).bind
        (fun r => some (r.1, picolGetVar r.2 "x".toList)) = some (PICOL_BREAK, none) := by
  refine ⟨?_, ?_, ?_⟩ <;> decide!

/-! ## C25: the arity errors of the built-in commands -/

section
variable {D : Type} (F : DoubleOps D)

theorem picolArityErr_eq (i : picolInterp) (name : CStr) :
    picolArityErr i name =
      (PICOL_ERR, { i with result := ("Wrong number of args for ".toList ++ name).take 1023 }) :=
  rfl

/-- **C25 (amended).** Each built-in called with the words `name :: args` in a
number that it does not allow (`set` with other than 2 or 3 words, `expr` with less
than 2, `while` with other than 3, `proc` with other than 4, `return` with other than
1 or 2, `break` and `continue` with other than 1) returns `PICOL_ERR` and the
interpreter of the call with nothing but the result changed, so all variables and
all commands are as before; the result is the text `Wrong number of args for <name>`
cut to its first 1023 bytes, which is the whole text when `name` has at most 998
bytes.  `expr` and `while` do so with any fuel.  `break` and `continue` called with
one word return `PICOL_BREAK` and `PICOL_CONTINUE` and leave the interpreter as it
is. -/
theorem C25_builtin_arity_errors (i : picolInterp) (name : CStr) (args : List CStr) :
    ((name :: args).length ≠ 2 → (name :: args).length ≠ 3 →
      picolCommandSet i (name :: args) =
        (PICOL_ERR, { i with result :=
          ("Wrong number of args for ".toList ++ name).take 1023 })) ∧
    ((name :: args).length < 2 → ∀ n,
      picolCommandExpr F n i (name :: args) =
        some (PICOL_ERR, { i with result :=
          ("Wrong number of args for ".toList ++ name).take 1023 })) ∧
    ((name :: args).length ≠ 3 → ∀ n,
      picolCommandWhile F (n + 1) i (name :: args) =
        some (PICOL_ERR, { i with result :=
          ("Wrong number of args for ".toList ++ name).take 1023 })) ∧
    ((name :: args).length ≠ 4 →
      picolCommandProc i (name :: args) =
        (PICOL_ERR, { i with result :=
          ("Wrong number of args for ".toList ++ name).take 1023 })) ∧
    ((name :: args).length ≠ 1 → (name :: args).length ≠ 2 →
      picolCommandReturn i (name :: args) =
        (PICOL_ERR, { i with result :=
          ("Wrong number of args for ".toList ++ name).take 1023 })) ∧
    ((name :: args).length ≠ 1 →
      picolCommandRetCodes i (name :: args) =
        (PICOL_ERR, { i with result :=
          ("Wrong number of args for ".toList ++ name).take 1023 })) ∧
    (name.length ≤ 998 →
      ("Wrong number of args for ".toList ++ name).take 1023 =
        "Wrong number of args for ".toList ++ name) ∧
    picolCommandRetCodes i ["break".toList] = (PICOL_BREAK, i) ∧
    picolCommandRetCodes i ["continue".toList] = (PICOL_CONTINUE, i) := by
  refine ⟨?_, ?_, ?_, ?_, ?_, ?_, ?_, rfl, rfl⟩
  · intro h2 h3
    unfold picolCommandSet
    rw [if_neg h3, if_neg h2]
    rfl
  · intro h n
    unfold picolCommandExpr
    rw [if_pos h]
    rfl
  · intro h n
    rw [picolCommandWhile_succ, if_pos h]
    rfl
  · intro h
    unfold picolCommandProc
    rw [if_pos h]
    rfl
  · intro h1 h2
    unfold picolCommandReturn
    rw [if_pos ⟨h1, h2⟩]
    rfl
  · intro h
    unfold picolCommandRetCodes
    rw [if_pos h]
    rfl
  · intro h
    apply List.take_of_length_le
    simp only [List.length_append]
    have e1 : "Wrong number of args for ".toList.length = 25 := by decide
    omega

end

/-- Witness of C25: `set` called with the one word `set`, in the interpreter of the
test program. -/
theorem C25_witness :
    picolCommandSet picolCoreInterp ("set".toList :: []) =
      (PICOL_ERR, { picolCoreInterp with result :=
        ("Wrong number of args for ".toList ++ "set".toList).take 1023 }) :=
  (C25_builtin_arity_errors intDouble picolCoreInterp "set".toList []).1
    (by decide) (by decide)

/-- The arity errors of C25, run through `picolEval` in the interpreter of the test
program, where the names are those of the core commands: the result is the whole
message, and the variable `x` set before is as it was. -/
theorem picolEval_arity_examples :
    (picolEval intDouble 30 picolCoreInterp "set x 1; set".toList).bind
        (fun r => some (r.1, r.2.result, (picolGetVar r.2 "x".toList).map fun v => v.val)) =
      some (PICOL_ERR, "Wrong number of args for set".toList, some "1".toList) ∧
    (picolEval intDouble 30 picolCoreInterp "set x 1; set a b c".toList).bind
        (fun r => some (r.1, r.2.result, (picolGetVar r.2 "x".toList).map fun v => v.val)) =
      some (PICOL_ERR, "Wrong number of args for set".toList, some "1".toList) ∧
    (picolEval intDouble 30 picolCoreInterp "expr".toList).bind
        (fun r => some (r.1, r.2.result)) =
      some (PICOL_ERR, "Wrong number of args for expr".toList) ∧
    (picolEval intDouble 30 picolCoreInterp "while 1".toList).bind
        (fun r => some (r.1, r.2.result)) =
      some (PICOL_ERR, "Wrong number of args for while".toList) ∧
    (picolEval intDouble 30 picolCoreInterp "proc f x".toList).bind
        (fun r => some (r.1, r.2.result, picolGetCommand r.2 "f".toList)) =
      some (PICOL_ERR, "Wrong number of args for proc".toList, none) ∧
    (picolEval intDouble 30 picolCoreInterp "return a b".toList).bind
        (fun r => some (r.1, r.2.result)) =
      some (PICOL_ERR, "Wrong number of args for return".toList) ∧
    (picolEval intDouble 30 picolCoreInterp "break 1".toList).bind
        (fun r => some (r.1, r.2.result)) =
      some (PICOL_ERR, "Wrong number of args for break".toList) ∧
    (picolEval intDouble 30 picolCoreInterp "continue 1".toList).bind
        (fun r => some (r.1, r.2.result)) =
      some (PICOL_ERR, "Wrong number of args for continue".toList) := by
  refine ⟨?_, ?_, ?_, ?_, ?_, ?_, ?_, ?_⟩ <;> decide!

/-- Counterexample to C25 as stated: `set` called with one word of 999 bytes returns
`PICOL_ERR` with a result of 1023 bytes, which is not the text `Wrong number of args
for <argv[0]>` (1024 bytes). -/
theorem C25_counterexample :
    (picolCommandSet picolCoreInterp [List.replicate 999 'x']).1 = PICOL_ERR ∧
    (picolCommandSet picolCoreInterp [List.replicate 999 'x']).2.result ≠
      "Wrong number of args for ".toList ++ List.replicate 999 'x' := by
  have h : picolCommandSet picolCoreInterp [List.replicate 999 'x'] =
      picolArityErr picolCoreInterp (List.replicate 999 'x') := by
    unfold picolCommandSet
    rw [if_neg (by decide), if_neg (by decide)]
    rfl
  rw [h, picolArityErr_eq]
  refine ⟨rfl, ?_⟩
  intro h
  have h2 := congrArg List.length h
  simp only [List.length_take, List.length_append, List.length_replicate] at h2
  have e1 : "Wrong number of args for ".toList.length = 25 := by decide
  omega

/-! ## C26: the token that ends a command -/

theorem picolParseEolLoop_run (run : CStr) :
    ∀ (fuel : Nat) (p : picolParser) (rest : CStr),
      p.text.drop p.p = run ++ rest → (∀ c ∈ run, picolEolChar c = true) →
      (∀ c, rest.head? = some c → picolEolChar c = false) → run.length < fuel →
      picolParseEolLoop fuel p = some (p.advN run.length) := by
  induction run with
  | nil =>
    intro fuel p rest hd _ hr hf
    obtain ⟨k, rfl⟩ : ∃ k, fuel = k + 1 := ⟨fuel - 1, by simp at hf; omega⟩
    have hc : picolEolChar p.cur = false := by
      have := charAt_of_drop hd 0
      rw [Nat.add_zero] at this
      unfold picolParser.cur
      rw [this, List.nil_append]
      cases rest with
      | nil => decide
      | cons c rest => exact hr c rfl
    have hc2 : ¬ (p.cur = ' ' ∨ p.cur = '\t' ∨ p.cur = '\n' ∨ p.cur = '\r' ∨ p.cur = ';') := by
      intro h
      unfold picolEolChar at hc
      rw [decide_eq_false_iff_not] at hc
      exact hc h
    rw [picolParseEolLoop, if_neg hc2, List.length_nil, advN_zero]
  | cons c run ih =>
    intro fuel p rest hd hv hr hf
    obtain ⟨k, rfl⟩ : ∃ k, fuel = k + 1 := ⟨fuel - 1, by simp at hf; omega⟩
    have hc : picolEolChar p.cur = true := by
      have := charAt_of_drop hd 0
      rw [Nat.add_zero] at this
      unfold picolParser.cur
      rw [this]
      exact hv c (List.mem_cons_self _ _)
    have hc2 : p.cur = ' ' ∨ p.cur = '\t' ∨ p.cur = '\n' ∨ p.cur = '\r' ∨ p.cur = ';' := by
      unfold picolEolChar at hc
      exact of_decide_eq_true hc
    rw [picolParseEolLoop, if_pos hc2]
    have hd2 : p.adv.text.drop p.adv.p = run ++ rest := drop_of_drop_cons hd
    rw [ih k p.adv rest hd2 (fun x hx => hv x (List.mem_cons_of_mem _ hx)) hr
      (by simp only [List.length_cons] at hf; omega), advN_succ]
    rfl

/-- **C26 (amended).** When the tokenizer is not inside quotes, input remains and the
current character `c` is a newline, a carriage return or a semicolon, `picolGetToken`
consumes `c` and the maximal run after it of the five characters space, tab,
newline, carriage return and semicolon: it stops at the first character that is
none of the five (or at the end of the text), and emits one token of type `PT_EOL`
whose text is what it consumed. -/
theorem C26_eol_token (p : picolParser) (c : Char) (run rest : CStr)
    (hq : p.insidequote = false) (hl : p.len ≠ 0)
    (hd : p.text.drop p.p = (c :: run) ++ rest)
    (hc : c = '\n' ∨ c = '\r' ∨ c = ';')
    (hrun : ∀ x ∈ run, picolEolChar x = true)
    (hrest : ∀ x, rest.head? = some x → picolEolChar x = false) :
    picolGetToken ((c :: run).length + 2) p =
      some (picolParser.mk p.text (p.p + (c :: run).length) (p.len - (c :: run).length)
        (p.p : Int) (((p.p + (c :: run).length : Nat) : Int) - 1) PT_EOL false) ∧
    (picolParser.mk p.text (p.p + (c :: run).length) (p.len - (c :: run).length)
        (p.p : Int) (((p.p + (c :: run).length : Nat) : Int) - 1) PT_EOL false).token
      = c :: run := by
  have hcur : p.cur = c := by
    have := charAt_of_drop hd 0
    rw [Nat.add_zero] at this
    exact this
  have hall : ∀ x ∈ c :: run, picolEolChar x = true := by
    intro x hx
    rcases List.mem_cons.mp hx with h | h
    · rw [h]
      rcases hc with h | h | h <;> rw [h] <;> decide
    · exact hrun x h
  have hloop := picolParseEolLoop_run (c :: run) ((c :: run).length + 1)
    { p with start := (p.p : Int) } rest hd hall hrest (Nat.lt_succ_self _)
  have h1 : ¬ (p.cur = ' ' ∨ p.cur = '\t') := by
    rw [hcur]
    rcases hc with h | h | h <;> rw [h] <;> decide
  have h2 : p.cur = '\n' ∨ p.cur = '\r' ∨ p.cur = ';' := by
    rw [hcur]
    exact hc
  constructor
  · rw [picolGetToken, if_neg hl, if_neg h1, if_pos h2, hq]
    simp only [Bool.false_eq_true, if_false]
    unfold picolParseEol
    rw [hloop, Option.map_some']
    simp only [picolParser.advN, hq]
  · exact picolParser_token_mk p.text _ _ p.p PT_EOL false (c :: run) rest hd

/-- Witness of C26: the text `;` newline space `;` tab `x` is consumed up to the
`x`. -/
theorem C26_witness :
    picolGetToken ((';' :: "\n ;\t".toList).length + 2) (picolInitParser ";\n ;\tx".toList) =
      some (picolParser.mk ";\n ;\tx".toList 5 1 0 4 PT_EOL false) :=
  (C26_eol_token (picolInitParser ";\n ;\tx".toList) ';' "\n ;\t".toList "x".toList
    rfl (by decide) rfl (Or.inr (Or.inr rfl)) (by decide)
    (by intro x hx; cases hx; decide)).1

/-- Counterexample to C26 as stated: on the text `; x` the run of newlines, carriage
returns and semicolons at the cursor is the semicolon alone and a space follows it,
yet the token of type `PT_EOL` takes the space too and the cursor stops at `x`. -/
theorem C26_counterexample :
    (picolInitParser "; x".toList).insidequote = false ∧
    (picolInitParser "; x".toList).cur = ';' ∧
    charAt "; x".toList 1 = ' ' ∧
    (picolGetToken 5 (picolInitParser "; x".toList)).map
        (fun q => (q.type, q.p, q.token)) = some (PT_EOL, 2, "; ".toList) := by
  decide

/-! ## C28: the tokenizer consumes its input and ends -/

/-- Under the invariant, a character that is not NUL at the cursor means that input
remains. -/
theorem picolParserOk_cur (p : picolParser) (h : picolParserOk p) (hc : p.cur ≠ '\x00') :
    1 ≤ p.len := by
  by_contra hlt
  apply hc
  unfold picolParser.cur
  apply charAt_of_length_le
  have := h.2
  have := h.1
  omega

theorem picolParserOk_len (p : picolParser) (h : picolParserOk p) (hl : p.len ≠ 0) :
    1 ≤ p.len := by
  have := h.1
  omega

theorem picolParserOk_adv (p : picolParser) (h : picolParserOk p) (h1 : 1 ≤ p.len) :
    picolParserOk p.adv := by
  unfold picolParserOk picolParser.adv
  have := h.1
  have := h.2
  simp only
  push_cast
  omega

theorem picolParser_adv_p (p : picolParser) : p.adv.p = p.p + 1 := rfl

theorem picolParser_adv_len (p : picolParser) : p.adv.len = p.len - 1 := rfl

theorem picolParser_adv_text (p : picolParser) : p.adv.text = p.text := rfl

theorem picolParseSepLoop_ok (n : Nat) :
    ∀ p : picolParser, picolParserOk p → p.len < (n : Int) →
      ∃ q, picolParseSepLoop n p = some q ∧ picolParserOk q ∧ q.text = p.text ∧ p.p ≤ q.p := by
  induction n with
  | zero =>
    intro p h hn
    have := h.1
    simp at hn
    omega
  | succ n ih =>
    intro p h hn
    rw [picolParseSepLoop]
    split
    · next hc =>
      have h1 : 1 ≤ p.len := picolParserOk_cur p h (by rcases hc with e | e <;> rw [e] <;> decide)
      obtain ⟨q, hq, hok, ht, hp⟩ := ih p.adv (picolParserOk_adv p h h1)
        (by rw [picolParser_adv_len]; push_cast at hn; omega)
      exact ⟨q, hq, hok, ht, by rw [picolParser_adv_p] at hp; omega⟩
    · exact ⟨p, rfl, h, rfl, le_refl _⟩

theorem picolParseEolLoop_ok (n : Nat) :
    ∀ p : picolParser, picolParserOk p → p.len < (n : Int) →
      ∃ q, picolParseEolLoop n p = some q ∧ picolParserOk q ∧ q.text = p.text ∧ p.p ≤ q.p := by
  induction n with
  | zero =>
    intro p h hn
    have := h.1
    simp at hn
    omega
  | succ n ih =>
    intro p h hn
    rw [picolParseEolLoop]
    split
    · next hc =>
      have h1 : 1 ≤ p.len := picolParserOk_cur p h
        (by rcases hc with e | e | e | e | e <;> rw [e] <;> decide)
      obtain ⟨q, hq, hok, ht, hp⟩ := ih p.adv (picolParserOk_adv p h h1)
        (by rw [picolParser_adv_len]; push_cast at hn; omega)
      exact ⟨q, hq, hok, ht, by rw [picolParser_adv_p] at hp; omega⟩
    · exact ⟨p, rfl, h, rfl, le_refl _⟩

theorem picolParseVarLoop_ok (n : Nat) :
    ∀ p : picolParser, picolParserOk p → p.len < (n : Int) →
      ∃ q, picolParseVarLoop n p = some q ∧ picolParserOk q ∧ q.text = p.text ∧ p.p ≤ q.p := by
  induction n with
  | zero =>
    intro p h hn
    have := h.1
    simp at hn
    omega
  | succ n ih =>
    intro p h hn
    rw [picolParseVarLoop]
    split
    · next hc =>
      have h1 : 1 ≤ p.len := picolParserOk_cur p h
        (by intro e; rw [e] at hc; exact absurd hc (by decide))
      obtain ⟨q, hq, hok, ht, hp⟩ := ih p.adv (picolParserOk_adv p h h1)
        (by rw [picolParser_adv_len]; push_cast at hn; omega)
      exact ⟨q, hq, hok, ht, by rw [picolParser_adv_p] at hp; omega⟩
    · exact ⟨p, rfl, h, rfl, le_refl _⟩

theorem picolParseCommentLoop_ok (n : Nat) :
    ∀ p : picolParser, picolParserOk p → p.len < (n : Int) →
      ∃ q, picolParseCommentLoop n p = some q ∧ picolParserOk q ∧ q.text = p.text ∧
        p.p ≤ q.p ∧ q.type = p.type := by
  induction n with
  | zero =>
    intro p h hn
    have := h.1
    simp at hn
    omega
  | succ n ih =>
    intro p h hn
    rw [picolParseCommentLoop]
    split
    · next hc =>
      have h1 : 1 ≤ p.len := picolParserOk_len p h hc.1
      obtain ⟨q, hq, hok, ht, hp, hty⟩ := ih p.adv (picolParserOk_adv p h h1)
        (by rw [picolParser_adv_len]; push_cast at hn; omega)
      exact ⟨q, hq, hok, ht, by rw [picolParser_adv_p] at hp; omega, hty⟩
    · exact ⟨p, rfl, h, rfl, le_refl _, rfl⟩

theorem picolParseCommandLoop_ok (n : Nat) :
    ∀ (p : picolParser) (level blevel : Int), picolParserOk p → p.len < (n : Int) →
      ∃ q, picolParseCommandLoop n p level blevel = some q ∧ picolParserOk q ∧
        q.text = p.text ∧ p.p ≤ q.p := by
  induction n with
  | zero =>
    intro p _ _ h hn
    have := h.1
    simp at hn
    omega
  | succ n ih =>
    intro p level blevel h hn
    have step : ∀ (l b : Int), p.len ≠ 0 →
        ∃ q, picolParseCommandLoop n p.adv l b = some q ∧ picolParserOk q ∧
          q.text = p.text ∧ p.p ≤ q.p := by
      intro l b hl
      have h1 : 1 ≤ p.len := picolParserOk_len p h hl
      obtain ⟨q, hq, hok, ht, hp⟩ := ih p.adv l b (picolParserOk_adv p h h1)
        (by rw [picolParser_adv_len]; push_cast at hn; omega)
      exact ⟨q, hq, hok, ht, by rw [picolParser_adv_p] at hp; omega⟩
    rw [picolParseCommandLoop]
    by_cases hl : p.len = 0
    · rw [if_pos hl]
      exact ⟨p, rfl, h, rfl, le_refl _⟩
    rw [if_neg hl]
    split
    · exact step _ _ hl
    split
    · split
      · exact ⟨p, rfl, h, rfl, le_refl _⟩
      · exact step _ _ hl
    split
    · have h1 : 1 ≤ p.len := picolParserOk_len p h hl
      by_cases h2 : p.len ≥ 2
      · rw [if_pos h2]
        have hok1 := picolParserOk_adv p h h1
        obtain ⟨q, hq, hok, ht, hp⟩ := ih p.adv.adv level blevel
          (picolParserOk_adv p.adv hok1 (by rw [picolParser_adv_len]; omega))
          (by rw [picolParser_adv_len, picolParser_adv_len]; push_cast at hn; omega)
        exact ⟨q, hq, hok, ht, by
          rw [picolParser_adv_p, picolParser_adv_p] at hp; omega⟩
      · rw [if_neg h2]
        exact step _ _ hl
    split
    · exact step _ _ hl
    split
    · exact step _ _ hl
    · exact step _ _ hl

theorem picolParseBraceLoop_ok (n : Nat) :
    ∀ (p : picolParser) (level : Int), picolParserOk p → p.len < (n : Int) →
      ∃ q, picolParseBraceLoop n p level = some q ∧ picolParserOk q ∧
        q.text = p.text ∧ p.p ≤ q.p := by
  induction n with
  | zero =>
    intro p _ h hn
    have := h.1
    simp at hn
    omega
  | succ n ih =>
    intro p level h hn
    have step : ∀ (l : Int), p.len ≠ 0 →
        ∃ q, picolParseBraceLoop n p.adv l = some q ∧ picolParserOk q ∧
          q.text = p.text ∧ p.p ≤ q.p := by
      intro l hl
      have h1 : 1 ≤ p.len := picolParserOk_len p h hl
      obtain ⟨q, hq, hok, ht, hp⟩ := ih p.adv l (picolParserOk_adv p h h1)
        (by rw [picolParser_adv_len]; push_cast at hn; omega)
      exact ⟨q, hq, hok, ht, by rw [picolParser_adv_p] at hp; omega⟩
    rw [picolParseBraceLoop]
    split
    · next hc =>
      have h1 : 1 ≤ p.len := by omega
      have hok1 := picolParserOk_adv p h h1
      obtain ⟨q, hq, hok, ht, hp⟩ := ih p.adv.adv level
        (picolParserOk_adv p.adv hok1 (by rw [picolParser_adv_len]; omega))
        (by rw [picolParser_adv_len, picolParser_adv_len]; push_cast at hn; omega)
      exact ⟨q, hq, hok, ht, by
        rw [picolParser_adv_p, picolParser_adv_p] at hp; omega⟩
    split
    · next hc2 =>
      split
      · by_cases hl : p.len = 0
        · refine ⟨_, rfl, ?_, ?_, ?_⟩
          · simp only [hl, ne_eq, not_true_eq_false, if_false]
            exact ⟨le_refl _, by have := h.2; rw [hl] at this; exact this⟩
          · simp only [hl, ne_eq, not_true_eq_false, if_false]
          · simp only [hl, ne_eq, not_true_eq_false, if_false]
            exact le_refl _
        · have h1 : 1 ≤ p.len := picolParserOk_len p h hl
          refine ⟨_, rfl, ?_, ?_, ?_⟩
          · simp only [ne_eq, hl, not_false_eq_true, if_true]
            exact picolParserOk_adv p h h1
          · simp only [ne_eq, hl, not_false_eq_true, if_true]
            rfl
          · simp only [ne_eq, hl, not_false_eq_true, if_true]
            show p.p ≤ p.p + 1
            omega
      · next hc3 =>
        exact step _ (fun e => hc3 (Or.inr e))
    · next hc2 =>
      have hl : p.len ≠ 0 := fun e => hc2 (Or.inl e)
      split
      · exact step _ hl
      · exact step _ hl

theorem picolParseStringLoop_ok (n : Nat) :
    ∀ (p : picolParser), picolParserOk p → p.len < (n : Int) →
      ∃ q, picolParseStringLoop n p = some q ∧ picolParserOk q ∧
        q.text = p.text ∧ p.p ≤ q.p := by
  induction n with
  | zero =>
    intro p h hn
    have := h.1
    simp at hn
    omega
  | succ n ih =>
    intro p h hn
    have step : p.len ≠ 0 →
        ∃ q, picolParseStringLoop n p.adv = some q ∧ picolParserOk q ∧
          q.text = p.text ∧ p.p ≤ q.p := by
      intro hl
      have h1 : 1 ≤ p.len := picolParserOk_len p h hl
      obtain ⟨q, hq, hok, ht, hp⟩ := ih p.adv (picolParserOk_adv p h h1)
        (by rw [picolParser_adv_len]; push_cast at hn; omega)
      exact ⟨q, hq, hok, ht, by rw [picolParser_adv_p] at hp; omega⟩
    rw [picolParseStringLoop]
    by_cases hl : p.len = 0
    · rw [if_pos hl]
      exact ⟨_, rfl, h, rfl, le_refl _⟩
    rw [if_neg hl]
    have h1 : 1 ≤ p.len := picolParserOk_len p h hl
    split
    · by_cases h2 : p.len ≥ 2
      · rw [if_pos h2]
        have hok1 := picolParserOk_adv p h h1
        obtain ⟨q, hq, hok, ht, hp⟩ := ih p.adv.adv
          (picolParserOk_adv p.adv hok1 (by rw [picolParser_adv_len]; omega))
          (by rw [picolParser_adv_len, picolParser_adv_len]; push_cast at hn; omega)
        exact ⟨q, hq, hok, ht, by
          rw [picolParser_adv_p, picolParser_adv_p] at hp; omega⟩
      · rw [if_neg h2]
        exact step hl
    split
    · exact ⟨_, rfl, h, rfl, le_refl _⟩
    split
    · split
      · exact ⟨_, rfl, h, rfl, le_refl _⟩
      · exact step hl
    split
    · split
      · exact ⟨_, rfl, picolParserOk_adv p h h1, rfl, Nat.le_succ _⟩
      · exact step hl
    · exact step hl

theorem picolParseSep_ok (n : Nat) (p : picolParser) (h : picolParserOk p)
    (hc : p.cur = ' ' ∨ p.cur = '\t') (hn : p.len < (n : Int)) :
    ∃ q, picolParseSep n p = some q ∧ picolParserOk q ∧ q.text = p.text ∧ p.p < q.p := by
  have h1 : 1 ≤ p.len := picolParserOk_cur p h (by rcases hc with e | e <;> rw [e] <;> decide)
  obtain ⟨m, rfl⟩ : ∃ m, n = m + 1 := ⟨n - 1, by omega⟩
  obtain ⟨q, hq, hok, ht, hp⟩ := picolParseSepLoop_ok m
    ({ p with start := (p.p : Int) } : picolParser).adv
    (picolParserOk_adv _ h h1) (by show p.len - 1 < (m : Int); push_cast at hn; omega)
  refine ⟨{ q with end_ := (q.p : Int) - 1, type := PT_SEP }, ?_, hok, ht, hp⟩
  have e : picolParseSepLoop (m + 1) { p with start := (p.p : Int) } =
      picolParseSepLoop m ({ p with start := (p.p : Int) } : picolParser).adv := by
    rw [picolParseSepLoop]
    exact if_pos hc
  unfold picolParseSep
  rw [e, hq]
  rfl

theorem picolParseEol_ok (n : Nat) (p : picolParser) (h : picolParserOk p)
    (hc : p.cur = '\n' ∨ p.cur = '\r' ∨ p.cur = ';') (hn : p.len < (n : Int)) :
    ∃ q, picolParseEol n p = some q ∧ picolParserOk q ∧ q.text = p.text ∧ p.p < q.p := by
  have h1 : 1 ≤ p.len := picolParserOk_cur p h
    (by rcases hc with e | e | e <;> rw [e] <;> decide)
  obtain ⟨m, rfl⟩ : ∃ m, n = m + 1 := ⟨n - 1, by omega⟩
  obtain ⟨q, hq, hok, ht, hp⟩ := picolParseEolLoop_ok m
    ({ p with start := (p.p : Int) } : picolParser).adv
    (picolParserOk_adv _ h h1) (by show p.len - 1 < (m : Int); push_cast at hn; omega)
  refine ⟨{ q with end_ := (q.p : Int) - 1, type := PT_EOL }, ?_, hok, ht, hp⟩
  have e : picolParseEolLoop (m + 1) { p with start := (p.p : Int) } =
      picolParseEolLoop m ({ p with start := (p.p : Int) } : picolParser).adv := by
    rw [picolParseEolLoop]
    exact if_pos (Or.inr (Or.inr hc))
  unfold picolParseEol
  rw [e, hq]
  rfl

theorem picolParseCommand_ok (n : Nat) (p : picolParser) (h : picolParserOk p)
    (hl : p.len ≠ 0) (hn : p.len < (n : Int)) :
    ∃ q, picolParseCommand n p = some q ∧ picolParserOk q ∧ q.text = p.text ∧ p.p < q.p := by
  have h1 : 1 ≤ p.len := picolParserOk_len p h hl
  obtain ⟨q, hq, hok, ht, hp⟩ := picolParseCommandLoop_ok n
    { p.adv with start := (p.adv.p : Int) } 1 0
    (picolParserOk_adv _ h h1) (by show p.adv.len < (n : Int); rw [picolParser_adv_len]; omega)
  have hp2 : p.p + 1 ≤ q.p := hp
  unfold picolParseCommand
  simp only
  rw [hq, Option.map_some']
  split
  · next hc =>
    have hq1 : 1 ≤ q.len := picolParserOk_cur q hok
      (by intro e; rw [show q.cur = ']' from hc] at e; exact absurd e (by decide))
    refine ⟨_, rfl, picolParserOk_adv _ hok hq1, ht, ?_⟩
    show p.p < q.p + 1
    omega
  · exact ⟨_, rfl, hok, ht, by show p.p < q.p; omega⟩

theorem picolParseVar_ok (n : Nat) (p : picolParser) (h : picolParserOk p)
    (hl : p.len ≠ 0) (hn : p.len < (n : Int)) :
    ∃ q, picolParseVar n p = some q ∧ picolParserOk q ∧ q.text = p.text ∧ p.p < q.p := by
  have h1 : 1 ≤ p.len := picolParserOk_len p h hl
  obtain ⟨q, hq, hok, ht, hp⟩ := picolParseVarLoop_ok n
    { p.adv with start := (p.adv.p : Int) }
    (picolParserOk_adv _ h h1) (by show p.adv.len < (n : Int); rw [picolParser_adv_len]; omega)
  have hp2 : p.p + 1 ≤ q.p := hp
  unfold picolParseVar
  simp only
  rw [hq, Option.map_some']
  split
  · exact ⟨_, rfl, hok, ht, by show p.p < q.p; omega⟩
  · exact ⟨_, rfl, hok, ht, by show p.p < q.p; omega⟩

theorem picolParseBrace_ok (n : Nat) (p : picolParser) (h : picolParserOk p)
    (hl : p.len ≠ 0) (hn : p.len < (n : Int)) :
    ∃ q, picolParseBrace n p = some q ∧ picolParserOk q ∧ q.text = p.text ∧ p.p < q.p := by
  have h1 : 1 ≤ p.len := picolParserOk_len p h hl
  obtain ⟨q, hq, hok, ht, hp⟩ := picolParseBraceLoop_ok n
    { p.adv with start := (p.adv.p : Int) } 1
    (picolParserOk_adv _ h h1) (by show p.adv.len < (n : Int); rw [picolParser_adv_len]; omega)
  have hp2 : p.p + 1 ≤ q.p := hp
  exact ⟨q, hq, hok, ht, by omega⟩

/-- From a character that does not end a word at once, the loop of `picolParseString`
consumes at least one character. -/
theorem picolParseStringLoop_strict (n : Nat) (p : picolParser) (h : picolParserOk p)
    (hl : p.len ≠ 0) (hn : p.len < (n : Int)) (hc1 : p.cur ≠ '$') (hc2 : p.cur ≠ '[')
    (hc3 : p.cur = ' ' ∨ p.cur = '\t' ∨ p.cur = '\n' ∨ p.cur = '\r' ∨ p.cur = ';' →
      p.insidequote = true) :
    ∃ q, picolParseStringLoop n p = some q ∧ picolParserOk q ∧ q.text = p.text ∧
      p.p < q.p := by
  have h1 : 1 ≤ p.len := picolParserOk_len p h hl
  obtain ⟨m, rfl⟩ : ∃ m, n = m + 1 := ⟨n - 1, by omega⟩
  have step : ∃ q, picolParseStringLoop m p.adv = some q ∧ picolParserOk q ∧
      q.text = p.text ∧ p.p < q.p := by
    obtain ⟨q, hq, hok, ht, hp⟩ := picolParseStringLoop_ok m p.adv (picolParserOk_adv p h h1)
      (by rw [picolParser_adv_len]; push_cast at hn; omega)
    exact ⟨q, hq, hok, ht, by rw [picolParser_adv_p] at hp; omega⟩
  rw [picolParseStringLoop, if_neg hl]
  split
  · by_cases h2 : p.len ≥ 2
    · rw [if_pos h2]
      have hok1 := picolParserOk_adv p h h1
      obtain ⟨q, hq, hok, ht, hp⟩ := picolParseStringLoop_ok m p.adv.adv
        (picolParserOk_adv p.adv hok1 (by rw [picolParser_adv_len]; omega))
        (by rw [picolParser_adv_len, picolParser_adv_len]; push_cast at hn; omega)
      exact ⟨q, hq, hok, ht, by
        rw [picolParser_adv_p, picolParser_adv_p] at hp; omega⟩
    · rw [if_neg h2]
      exact step
  rw [if_neg (by rintro (e | e); exact hc1 e; exact hc2 e)]
  split
  · next hs =>
    rw [if_neg (by rw [hc3 hs]; simp)]
    exact step
  split
  · split
    · exact ⟨_, rfl, picolParserOk_adv p h h1, rfl, Nat.lt_succ_self _⟩
    · exact step
  · exact step

theorem picolParseString_ok (n : Nat) (p : picolParser) (h : picolParserOk p)
    (hl : p.len ≠ 0) (hn : p.len < (n : Int)) (hc1 : p.cur ≠ '$') (hc2 : p.cur ≠ '[')
    (hc3 : p.cur = ' ' ∨ p.cur = '\t' ∨ p.cur = '\n' ∨ p.cur = '\r' ∨ p.cur = ';' →
      p.insidequote = true) :
    ∃ q, picolParseString n p = some q ∧ picolParserOk q ∧ q.text = p.text ∧ p.p < q.p := by
  have h1 : 1 ≤ p.len := picolParserOk_len p h hl
  unfold picolParseString
  simp only
  split
  · exact picolParseBrace_ok n p h hl hn
  split
  · obtain ⟨q, hq, hok, ht, hp⟩ := picolParseStringLoop_ok n
      { ({ p.adv with insidequote := true } : picolParser) with start := (p.adv.p : Int) }
      (picolParserOk_adv _ h h1)
      (by show p.adv.len < (n : Int); rw [picolParser_adv_len]; omega)
    have hp2 : p.p + 1 ≤ q.p := hp
    exact ⟨q, hq, hok, ht, by omega⟩
  · exact picolParseStringLoop_strict n { p with start := (p.p : Int) } h hl hn hc1 hc2 hc3

theorem picolParseCommentLoop_strict (n : Nat) (p : picolParser) (h : picolParserOk p)
    (hl : p.len ≠ 0) (hc : p.cur ≠ '\n') (hn : p.len < (n : Int)) :
    ∃ q, picolParseCommentLoop n p = some q ∧ picolParserOk q ∧ q.text = p.text ∧
      p.p < q.p ∧ q.type = p.type := by
  have h1 : 1 ≤ p.len := picolParserOk_len p h hl
  obtain ⟨m, rfl⟩ : ∃ m, n = m + 1 := ⟨n - 1, by omega⟩
  obtain ⟨q, hq, hok, ht, hp, hty⟩ := picolParseCommentLoop_ok m p.adv
    (picolParserOk_adv p h h1) (by rw [picolParser_adv_len]; push_cast at hn; omega)
  rw [picolParseCommentLoop, if_pos ⟨hl, hc⟩]
  exact ⟨q, hq, hok, ht, by rw [picolParser_adv_p] at hp; omega, hty⟩

/-- With fuel for the remaining length, `picolGetToken` returns; it keeps the
invariant and the text; while input remains it moves the cursor forward, and at the
end of the input it only changes the type. -/
theorem picolGetToken_ok (n : Nat) :
    ∀ p : picolParser, picolParserOk p → p.len + 2 ≤ (n : Int) →
      ∃ q, picolGetToken n p = some q ∧ picolParserOk q ∧ q.text = p.text ∧
        (p.len ≠ 0 → p.p < q.p) ∧
        (p.len = 0 → q = { p with type :=
          if p.type ≠ PT_EOL ∧ p.type ≠ PT_EOF then PT_EOL else PT_EOF }) := by
  induction n with
  | zero =>
    intro p h hn
    have := h.1
    simp at hn
    omega
  | succ n ih =>
    intro p h hn
    have hn1 : p.len < (n : Int) := by push_cast at hn; omega
    rw [picolGetToken]
    by_cases hl : p.len = 0
    · rw [if_pos hl]
      exact ⟨_, rfl, h, rfl, fun e => absurd hl e, fun _ => rfl⟩
    rw [if_neg hl]
    have wrap : ∀ {f : Option picolParser},
        (∃ q, f = some q ∧ picolParserOk q ∧ q.text = p.text ∧ p.p < q.p) →
        ∃ q, f = some q ∧ picolParserOk q ∧ q.text = p.text ∧
          (p.len ≠ 0 → p.p < q.p) ∧
          (p.len = 0 → q = { p with type :=
            if p.type ≠ PT_EOL ∧ p.type ≠ PT_EOF then PT_EOL else PT_EOF }) := by
      rintro f ⟨q, hq, hok, ht, hp⟩
      exact ⟨q, hq, hok, ht, fun _ => hp, fun e => absurd e hl⟩
    split
    · next hc =>
      split
      · next hq =>
        exact wrap (picolParseString_ok n p h hl hn1
          (by rcases hc with e | e <;> rw [e] <;> decide)
          (by rcases hc with e | e <;> rw [e] <;> decide) (fun _ => hq))
      · exact wrap (picolParseSep_ok n p h hc hn1)
    split
    · next hc =>
      split
      · next hq =>
        exact wrap (picolParseString_ok n p h hl hn1
          (by rcases hc with e | e | e <;> rw [e] <;> decide)
          (by rcases hc with e | e | e <;> rw [e] <;> decide) (fun _ => hq))
      · exact wrap (picolParseEol_ok n p h hc hn1)
    split
    · exact wrap (picolParseCommand_ok n p h hl hn1)
    split
    · exact wrap (picolParseVar_ok n p h hl hn1)
    next hs1 hs2 hs3 hs4 =>
    have hstr := picolParseString_ok n p h hl hn1 hs4 hs3
      (fun e => by
        rcases e with e | e | e | e | e
        · exact absurd (Or.inl e) hs1
        · exact absurd (Or.inr e) hs1
        · exact absurd (Or.inl e) hs2
        · exact absurd (Or.inr (Or.inl e)) hs2
        · exact absurd (Or.inr (Or.inr e)) hs2)
    split
    · next hh =>
      split
      · obtain ⟨q1, hq1, hok1, ht1, hp1, _⟩ := picolParseCommentLoop_strict n p h hl
          (by rw [hh]; decide) hn1
        have e1 := hok1.2
        have e2 := h.2
        rw [ht1] at e1
        obtain ⟨q2, hq2, hok2, ht2, hp2, hz2⟩ := ih q1 hok1 (by push_cast at hn; omega)
        refine ⟨q2, ?_, hok2, by rw [ht2, ht1], fun _ => ?_, fun e => absurd e hl⟩
        · unfold picolParseComment
          rw [hq1, Option.some_bind, hq2]
        · by_cases hz : q1.len = 0
          · rw [hz2 hz]
            exact hp1
          · exact lt_trans hp1 (hp2 hz)
      · exact wrap hstr
    · exact wrap hstr

theorem picolParserOk_init (t : CStr) : picolParserOk (picolInitParser t) := by
  unfold picolParserOk picolInitParser
  simp

/-- A call of `picolGetToken` brings the state at least one call nearer to `PT_EOF`. -/
theorem picolGetToken_callsLeft (n : Nat) (p : picolParser) (h : picolParserOk p)
    (hn : p.len + 2 ≤ (n : Int)) :
    ∃ q, picolGetToken n p = some q ∧ picolParserOk q ∧ q.text = p.text ∧
      picolCallsLeft q ≤ picolCallsLeft p - 1 ∧ q.len ≤ p.len := by
  obtain ⟨q, hq, hok, ht, hp, hz⟩ := picolGetToken_ok n p h hn
  refine ⟨q, hq, hok, ht, ?_, ?_⟩
  · by_cases hl : p.len = 0
    · rw [hz hl]
      unfold picolCallsLeft
      simp only [hl, if_true]
      by_cases h1 : p.type = PT_EOF
      · simp [h1]
      · by_cases h2 : p.type = PT_EOL
        · simp [h2]
        · simp [h1, h2]
    · have h1 := hp hl
      have e1 := hok.2
      have e2 := h.2
      have e3 := hok.1
      rw [ht] at e1
      unfold picolCallsLeft
      rw [if_neg hl]
      split
      · split
        · omega
        · split <;> omega
      · omega
  · by_cases hl : p.len = 0
    · rw [hz hl]
    · have h1 := hp hl
      have e1 := hok.2
      have e2 := h.2
      rw [ht] at e1
      omega

theorem picolTokenStream_ok (n : Nat) :
    ∀ (k : Nat) (p : picolParser), picolParserOk p → p.len + 2 ≤ (n : Int) →
      ∃ q, picolTokenStream n k p = some q ∧ picolParserOk q ∧ q.text = p.text ∧
        picolCallsLeft q ≤ picolCallsLeft p - k ∧ q.len ≤ p.len := by
  intro k
  induction k with
  | zero =>
    intro p h _
    exact ⟨p, rfl, h, rfl, by omega, le_refl _⟩
  | succ k ih =>
    intro p h hn
    obtain ⟨q1, hq1, hok1, ht1, hc1, hl1⟩ := picolGetToken_callsLeft n p h hn
    obtain ⟨q, hq, hok, ht, hc, hl⟩ := ih q1 hok1 (by omega)
    refine ⟨q, ?_, hok, by rw [ht, ht1], by omega, by omega⟩
    rw [picolTokenStream, hq1, Option.some_bind, hq]

theorem picolCallsLeft_zero (p : picolParser) (h : picolCallsLeft p = 0) :
    p.type = PT_EOF ∧ p.len = 0 := by
  unfold picolCallsLeft at h
  split at h
  · next hl =>
    split at h
    · next ht => exact ⟨ht, hl⟩
    · split at h <;> omega
  · omega

theorem picolCallsLeft_init (t : CStr) : picolCallsLeft (picolInitParser t) ≤ t.length + 2 := by
  unfold picolCallsLeft picolInitParser
  simp only
  split
  · simp
  · simp

/-- **C28.** For every text: (1) the parser made by `picolInitParser` has the
invariant (the remaining length is not negative, cursor offset plus remaining length
is the length of the text); (2) from every state with the invariant, a call of
`picolGetToken` with fuel for the remaining length returns, keeps the text and the
invariant, moves the cursor forward by at least one character while input remains,
and at the end of the input only turns the type into `PT_EOL` (when it was neither
`PT_EOL` nor `PT_EOF`) or `PT_EOF`; (3) every number of calls from the start of a
text returns, and from the call number (length of the text + 2) on the type is
`PT_EOF` with no input left; (4) at the end of the input, when the type is neither
`PT_EOL` nor `PT_EOF` the next call emits `PT_EOL` and the one after emits `PT_EOF`,
and when it is one of them the next call emits `PT_EOF`. -/
theorem C28_tokenizer_terminates :
    (∀ t : CStr, picolParserOk (picolInitParser t)) ∧
    (∀ (n : Nat) (p : picolParser), picolParserOk p → p.len + 2 ≤ (n : Int) →
      ∃ q, picolGetToken n p = some q ∧ picolParserOk q ∧ q.text = p.text ∧
        (p.len ≠ 0 → p.p < q.p ∧ q.len < p.len) ∧
        (p.len = 0 → q = { p with type :=
          if p.type ≠ PT_EOL ∧ p.type ≠ PT_EOF then PT_EOL else PT_EOF })) ∧
    (∀ (t : CStr) (n k : Nat), t.length + 2 ≤ n →
      ∃ q, picolTokenStream n k (picolInitParser t) = some q ∧ picolParserOk q ∧
        q.text = t ∧ (t.length + 2 ≤ k → q.type = PT_EOF ∧ q.len = 0)) ∧
    (∀ (n : Nat) (p : picolParser), p.len = 0 →
      (p.type ≠ PT_EOL → p.type ≠ PT_EOF →
        picolTokenStream (n + 1) 1 p = some { p with type := PT_EOL } ∧
        picolTokenStream (n + 1) 2 p = some { p with type := PT_EOF }) ∧
      (p.type = PT_EOL ∨ p.type = PT_EOF →
        picolTokenStream (n + 1) 1 p = some { p with type := PT_EOF })) := by
  refine ⟨picolParserOk_init, ?_, ?_, ?_⟩
  · intro n p h hn
    obtain ⟨q, hq, hok, ht, hp, hz⟩ := picolGetToken_ok n p h hn
    refine ⟨q, hq, hok, ht, fun hl => ⟨hp hl, ?_⟩, hz⟩
    have h1 := hp hl
    have e1 := hok.2
    have e2 := h.2
    rw [ht] at e1
    omega
  · intro t n k hn
    obtain ⟨q, hq, hok, ht, hc, _⟩ := picolTokenStream_ok n k (picolInitParser t)
      (picolParserOk_init t) (by show ((t.length : Nat) : Int) + 2 ≤ (n : Int); omega)
    refine ⟨q, hq, hok, ht, fun hk => picolCallsLeft_zero q ?_⟩
    have := picolCallsLeft_init t
    omega
  · intro n p hl
    constructor
    · intro h1 h2
      constructor
      · rw [picolTokenStream, picolGetToken, if_pos hl, if_pos ⟨h1, h2⟩]
        rfl
      · rw [picolTokenStream, picolGetToken, if_pos hl, if_pos ⟨h1, h2⟩, Option.some_bind,
          picolTokenStream, picolGetToken, if_pos hl]
        rfl
    · intro h
      rw [picolTokenStream, picolGetToken, if_pos hl,
        if_neg (by rintro ⟨h1, h2⟩; rcases h with e | e; exact h1 e; exact h2 e)]
      rfl

/-- Witness of C28: the text `[\` of the test `parse cmd trailing backslash no crash`;
after four calls the type is `PT_EOF` and no input is left. -/
theorem C28_witness :
    ∃ q, picolTokenStream 4 4 (picolInitParser "[\\".toList) = some q ∧
      q.type = PT_EOF ∧ q.len = 0 :=
  (C28_tokenizer_terminates.2.2.1 "[\\".toList 4 4 (by decide)).elim
    fun q h => ⟨q, h.1, h.2.2.2 (by decide)⟩

/-- The token streams of texts that end inside a bracket, a brace, a quote or after a
backslash, computed: type, cursor offset and remaining length after each call. -/
theorem picolTokenStream_examples :
    ((List.range 4).map fun k =>
      (picolTokenStream 5 k (picolInitParser "[\\".toList)).map fun q => (q.type, q.p, q.len)) =
      [some (PT_EOL, 0, 2), some (PT_CMD, 2, 0), some (PT_EOL, 2, 0), some (PT_EOF, 2, 0)] ∧
    ((List.range 4).map fun k =>
      (picolTokenStream 9 k (picolInitParser "\x7bab".toList)).map fun q => (q.type, q.p, q.len)) =
      [some (PT_EOL, 0, 3), some (PT_STR, 3, 0), some (PT_EOL, 3, 0), some (PT_EOF, 3, 0)] ∧
    ((List.range 4).map fun k =>
      (picolTokenStream 9 k (picolInitParser "\"a b".toList)).map fun q => (q.type, q.p, q.len)) =
      [some (PT_EOL, 0, 4), some (PT_ESC, 4, 0), some (PT_EOL, 4, 0), some (PT_EOF, 4, 0)] ∧
    ((List.range 5).map fun k =>
      (picolTokenStream 9 k (picolInitParser "a [b".toList)).map fun q => (q.type, q.p, q.len)) =
      [some (PT_EOL, 0, 4), some (PT_ESC, 1, 3), some (PT_SEP, 2, 2), some (PT_CMD, 4, 0),
        some (PT_EOL, 4, 0)] ∧
    ((List.range 4).map fun k =>
      (picolTokenStream 9 k (picolInitParser "ab\\".toList)).map fun q => (q.type, q.p, q.len)) =
      [some (PT_EOL, 0, 3), some (PT_ESC, 3, 0), some (PT_EOL, 3, 0), some (PT_EOF, 3, 0)] := by
  refine ⟨?_, ?_, ?_, ?_, ?_⟩ <;> decide

/-! ## C24: comments -/

theorem picolParserOk_advN (p : picolParser) (m : Nat) (h : picolParserOk p)
    (hm : (m : Int) ≤ p.len) : picolParserOk (p.advN m) := by
  unfold picolParserOk picolParser.advN
  have := h.1
  have := h.2
  simp only
  push_cast
  omega

/-- The loop of `picolParseComment` over a text without newline that a newline or the
end of the input follows. -/
theorem picolParseCommentLoop_run (body : CStr) :
    ∀ (fuel : Nat) (p : picolParser) (rest : CStr),
      p.text.drop p.p = body ++ rest → (∀ x ∈ body, x ≠ '\n') →
      (rest = [] ∨ rest.head? = some '\n') →
      p.len = ((body.length + rest.length : Nat) : Int) → body.length < fuel →
      picolParseCommentLoop fuel p = some (p.advN body.length) := by
  induction body with
  | nil =>
    intro fuel p rest hd _ hr hl hf
    obtain ⟨k, rfl⟩ : ∃ k, fuel = k + 1 := ⟨fuel - 1, by simp at hf; omega⟩
    have hstop : ¬ (p.len ≠ 0 ∧ p.cur ≠ '\n') := by
      rintro ⟨h1, h2⟩
      rcases hr with hr | hr
      · apply h1
        rw [hl, hr]
        rfl
      · apply h2
        have := charAt_of_drop hd 0
        rw [Nat.add_zero, List.nil_append] at this
        unfold picolParser.cur
        rw [this]
        cases rest with
        | nil => cases hr
        | cons x rest =>
          simp only [List.head?_cons, Option.some.injEq] at hr
          rw [hr]
          rfl
    rw [picolParseCommentLoop, if_neg hstop, List.length_nil, advN_zero]
  | cons c body ih =>
    intro fuel p rest hd hb hr hl hf
    obtain ⟨k, rfl⟩ : ∃ k, fuel = k + 1 := ⟨fuel - 1, by simp at hf; omega⟩
    have hc : p.cur = c := by
      have := charAt_of_drop hd 0
      rw [Nat.add_zero] at this
      exact this
    have hgo : p.len ≠ 0 ∧ p.cur ≠ '\n' := by
      constructor
      · rw [hl]
        simp only [List.length_cons]
        push_cast
        omega
      · rw [hc]
        exact hb c (List.mem_cons_self _ _)
    rw [picolParseCommentLoop, if_pos hgo]
    have hd2 : p.adv.text.drop p.adv.p = body ++ rest := drop_of_drop_cons hd
    rw [ih k p.adv rest hd2 (fun x hx => hb x (List.mem_cons_of_mem _ hx)) hr
      (by rw [picolParser_adv_len, hl]; simp only [List.length_cons]; push_cast; omega)
      (by simp only [List.length_cons] at hf; omega), advN_succ]
    rfl

/-- A comment at the start of a command: the token that `picolGetToken` returns is the
one it returns from the end of the comment. -/
theorem picolGetToken_comment (p : picolParser) (c rest : CStr) (n : Nat)
    (hty : p.type = PT_EOL) (hok : picolParserOk p)
    (hd : p.text.drop p.p = '#' :: (c ++ rest)) (hc : ∀ x ∈ c, x ≠ '\n')
    (hr : rest = [] ∨ rest.head? = some '\n') (hn : p.len + 2 ≤ (n : Int)) :
    picolGetToken n p = picolGetToken n (p.advN (c.length + 1)) := by
  have hlen : p.len = (((c.length + 1) + rest.length : Nat) : Int) := by
    have e1 := hok.2
    have e2 := congrArg List.length hd
    rw [List.length_drop] at e2
    simp only [List.length_cons, List.length_append] at e2
    have e3 := hok.1
    push_cast
    omega
  have hcur : p.cur = '#' := by
    have := charAt_of_drop hd 0
    rw [Nat.add_zero] at this
    exact this
  obtain ⟨m, rfl⟩ : ∃ m, n = m + 1 := ⟨n - 1, by have := hok.1; omega⟩
  have hloop := picolParseCommentLoop_run ('#' :: c) m p rest hd
    (by
      intro x hx
      rcases List.mem_cons.mp hx with e | e
      · rw [e]
        decide
      · exact hc x e)
    hr (by rw [hlen]; simp only [List.length_cons])
    (by simp only [List.length_cons]; push_cast at hn; omega)
  simp only [List.length_cons] at hloop
  have hok1 : picolParserOk (p.advN (c.length + 1)) :=
    picolParserOk_advN p _ hok (by rw [hlen]; push_cast; omega)
  obtain ⟨q, hq, _⟩ := picolGetToken_ok m (p.advN (c.length + 1)) hok1
    (by
      show p.len - ((c.length + 1 : Nat) : Int) + 2 ≤ (m : Int)
      push_cast at hn ⊢
      omega)
  rw [picolGetToken_mono hq (Nat.le_succ m), ← hq, picolGetToken, if_neg (by rw [hlen]; push_cast; omega)]
  simp only [hcur, Char.reduceEq, or_self, if_false, if_true, hty]
  unfold picolParseComment
  rw [hloop, Option.some_bind]

/-- At the start of a word a `#` that does not start a comment, and anywhere after
the start, `#` is a character of the word as any other. -/
theorem picolGetToken_word_hash (T : CStr) (k : Nat) (L st en : Int) (ty : picolTokenType)
    (c : Char) (w rest : CStr) (hd : T.drop k = (c :: w) ++ ' ' :: rest)
    (hw : ∀ x ∈ c :: w, picolOrdinary x = true) (hc1 : c ≠ '{')
    (hc2 : c = '#' → ty ≠ PT_EOL)
    (hL : L = (((c :: w).length + 1 + rest.length : Nat) : Int)) :
    picolGetToken ((c :: w).length + 2) (picolParser.mk T k L st en ty false) =
      some (picolParser.mk T (k + (c :: w).length) (L - (c :: w).length) k
        (((k + (c :: w).length : Nat) : Int) - 1) PT_ESC false) := by
  by_cases hh : c = '#'
  · have hc : charAt T k = '#' := by
      have := charAt_of_drop hd 0
      rw [Nat.add_zero, hh] at this
      exact this
    have hL0 : L ≠ 0 := by
      rw [hL]
      push_cast
      omega
    rw [picolGetToken]
    simp only [picolParser.cur, hc, hL0, if_false, Char.reduceEq, or_self, if_true, hc2 hh]
    unfold picolParseString
    simp only [picolParser.cur, hc, Char.reduceEq, and_false, if_false]
    exact picolParseStringLoop_word (c :: w) T k L k en ty rest _ hd hw hL (Nat.lt_succ_self _)
  · exact picolGetToken_word T k L st en ty c w rest hd hw hc1 hh hL

section
variable {D : Type} (F : DoubleOps D)

/-- **C24.** (1) When the type of the previous token is `PT_EOL` and the text at the
cursor is `#`, then a text `c` without newline, then a newline or the end of the
input, `picolGetToken` skips `#` and `c` and nothing more: it returns the token that
it returns from the state whose cursor is at that newline or end, everything else
being the same; so does an iteration of the token loop of `picolEval`, whatever the
interpreter and the words: the comment has no effect and what follows it is
evaluated.  (2) A `#` met when the type of the previous token is not `PT_EOL` is
handed to `picolParseString`, and (3) it is an ordinary character of a word: a word
made of characters none of which is a backslash, `$`, `[`, a white space, `;` or a
quote, with `#` at its start (not after `PT_EOL`) or after its start, is one token
of type `PT_ESC` whose text is the word. -/
theorem C24_comments :
    (∀ (p : picolParser) (c rest : CStr) (n : Nat),
      p.type = PT_EOL → picolParserOk p → p.text.drop p.p = '#' :: (c ++ rest) →
      (∀ x ∈ c, x ≠ '\n') → (rest = [] ∨ rest.head? = some '\n') →
      p.len + 2 ≤ (n : Int) →
      picolGetToken n p = picolGetToken n (p.advN (c.length + 1)) ∧
      (p.advN (c.length + 1)).text.drop (p.advN (c.length + 1)).p = rest ∧
      ∀ (i : picolInterp) (argv : List CStr),
        picolEvalIter F n i p argv = picolEvalIter F n i (p.advN (c.length + 1)) argv) ∧
    (∀ (p : picolParser) (n : Nat), p.len ≠ 0 → p.cur = '#' → p.type ≠ PT_EOL →
      picolGetToken (n + 1) p = picolParseString n p) ∧
    (∀ (T : CStr) (k : Nat) (st en : Int) (ty : picolTokenType) (c : Char) (w rest : CStr),
      T.drop k = (c :: w) ++ ' ' :: rest → (∀ x ∈ c :: w, picolOrdinary x = true) →
      c ≠ '{' → (c = '#' → ty ≠ PT_EOL) → picolOrdinary '#' = true ∧
      ∃ q, picolGetToken ((c :: w).length + 2)
          (picolParser.mk T k ((T.length - k : Nat) : Int) st en ty false) = some q ∧
        q.type = PT_ESC ∧ q.token = c :: w ∧ T.drop q.p = ' ' :: rest) := by
  refine ⟨?_, ?_, ?_⟩
  · intro p c rest n hty hok hd hc hr hn
    have hg := picolGetToken_comment p c rest n hty hok hd hc hr hn
    refine ⟨hg, ?_, ?_⟩
    · show p.text.drop (p.p + (c.length + 1)) = rest
      have h1 : p.text.drop (p.p + 1) = c ++ rest := drop_of_drop_cons hd
      have h2 := drop_of_drop_append h1
      rw [← h2]
      congr 1
      omega
    · intro i argv
      unfold picolEvalIter
      rw [hg]
      rfl
  · intro p n hl hc hty
    rw [picolGetToken, if_neg hl]
    simp only [hc, Char.reduceEq, or_self, if_false, if_true, hty]
  · intro T k st en ty c w rest hd hw hc1 hc2
    have hlen : T.length - k = (c :: w).length + 1 + rest.length := by
      have := congrArg List.length hd
      rw [List.length_drop] at this
      rw [this]
      simp only [List.length_cons, List.length_append]
      omega
    refine ⟨by decide, _, picolGetToken_word_hash T k _ st en ty c w rest hd hw hc1 hc2
      (by rw [hlen]), rfl, ?_, ?_⟩
    · exact picolParser_token_mk T _ _ k PT_ESC false (c :: w) (' ' :: rest) hd
    · exact drop_of_drop_append hd

end

/-- Witness of C24: the text of the test `comment at start of line`; the first token
is the one found from the newline that ends the comment. -/
theorem C24_witness :
    picolGetToken 40 (picolInitParser "# this is a comment\nset r 1".toList) =
      picolGetToken 40
        ((picolInitParser "# this is a comment\nset r 1".toList).advN
          (" this is a comment".toList.length + 1)) :=
  ((C24_comments intDouble).1 (picolInitParser "# this is a comment\nset r 1".toList)
    " this is a comment".toList "\nset r 1".toList 40 rfl (by decide) rfl (by decide)
    (Or.inr rfl) (by decide)).1

/-- The tests of C24 and its companions, run: comments at the start of a line and
after a command are skipped and the commands after them are executed; `#` inside a
word and at the start of a word that is not the first of a command is kept as a
character; a `#` after leading spaces of the first line follows a separator, so it
is taken as the name of a command. -/
theorem picolEval_comment_examples :
    (picolEval intDouble 40 picolCoreInterp "# this is a comment\nset r 1".toList).bind
        (fun r => some (r.1, r.2.result)) = some (PICOL_OK, "1".toList) ∧
    (picolEval intDouble 40 picolCoreInterp "set r 2\n# comment\nset r 3".toList).bind
        (fun r => some (r.1, r.2.result)) = some (PICOL_OK, "3".toList) ∧
    (picolEval intDouble 40 picolCoreInterp "set r 2\n# set r 3".toList).bind
        (fun r => some (r.1, r.2.result)) = some (PICOL_OK, "2".toList) ∧
    (picolEval intDouble 40 picolCoreInterp "set r a#b".toList).bind
        (fun r => some (r.1, r.2.result)) = some (PICOL_OK, "a#b".toList) ∧
    (picolEval intDouble 40 picolCoreInterp "set r #b".toList).bind
        (fun r => some (r.1, r.2.result)) = some (PICOL_OK, "#b".toList) ∧
    (picolEval intDouble 40 picolCoreInterp " # set r 3".toList).bind
        (fun r => some (r.1, r.2.result)) = some (PICOL_ERR, "No such command '#'".toList) := by
  refine ⟨?_, ?_, ?_, ?_, ?_, ?_⟩ <;> decide!

/-! ## C23: `||`, `&&` and the comparisons -/

section
variable {D : Type} (F : DoubleOps D)

/-- The operators `||`, `&&` and the comparisons give 0 or 1. -/
theorem picolExprApply_zero_one (o : CStr × Char × Int) (ho : o ∈ picolSpecBinOps)
    (hp : o.2.2 ≤ 2) (a b : D) :
    picolExprApply F o.2.1 a b = F.ofInt 0 ∨ picolExprApply F o.2.1 a b = F.ofInt 1 := by
  simp only [picolSpecBinOps, List.mem_cons, List.mem_singleton, List.not_mem_nil,
    or_false] at ho
  rcases ho with e | e | e | e | e | e | e | e | e | e | e | e <;> subst e
  all_goals first
    | exact absurd hp (by decide)
    | (simp only [picolExprApply, Char.reduceEq, if_false, if_true]
       split
       · exact Or.inr rfl
       · exact Or.inl rfl)

/-- The expression `a op b`. -/
theorem ExprDeriv_binText {a b : CStr} {va vb : D} (o : CStr × Char × Int)
    (ha : picolUnsignedLiteral F a va) (hb : picolUnsignedLiteral F b vb)
    (ho : o ∈ picolSpecBinOps) :
    ExprDeriv F (picolBinText a o.1 b) none 0 0 (picolExprApply F o.2.1 va vb)
      (picolBinText a o.1 b).length 2 := by
  have d0 : (picolBinText a o.1 b).drop 0 = a ++ ' ' :: (o.1 ++ ' ' :: b) := rfl
  have d2 := drop_of_drop_cons (drop_of_drop_append d0)
  have d3 := drop_of_drop_append d2
  have d3n : (picolBinText a o.1 b).drop (0 + a.length + 1 + o.1.length) = ' ' :: (b ++ []) := by
    rw [List.append_nil]; exact d3
  have d4 := drop_of_drop_cons d3
  have d4n : (picolBinText a o.1 b).drop (0 + a.length + 1 + o.1.length + 1) = b ++ [] := by
    rw [List.append_nil]; exact d4
  have d5 := drop_of_drop_append d4n
  have hlen : (picolBinText a o.1 b).length = 0 + a.length + 1 + o.1.length + 1 + b.length := by
    simp only [picolBinText, List.length_append, List.length_cons]
    omega
  rw [hlen]
  have e : (2 : Nat) = max (0 + 1) 0 + 1 := by decide
  rw [e]
  refine ExprDeriv_literal_op (r := ' ' :: b) F o ho (picolSkip_literal F d0 ha) d0 ha ?_
  exact ExprDeriv_step_of_op F o ho d2 va 0 (by have := (picolSpecBinOps_prec o ho).1; omega)
    (ExprDeriv_literal_end F _ (picolSkip_space_literal F d3n hb) d4 hb)
    (picolSkip_end d5) (ExprDeriv_stop_of_end F d5 _ 0)

/-- The text `a op )` is no expression: the right operand is missing. -/
theorem ExprDeriv_binText_paren {a : CStr} {va : D} (o : CStr × Char × Int)
    (ha : picolUnsignedLiteral F a va) (ho : o ∈ picolSpecBinOps)
    (hF : (F.strtod ")".toList).2 = 0) (v : D) (q d : Nat) :
    ¬ ExprDeriv F (picolBinText a o.1 ")".toList) none 0 0 v q d := by
  intro hD
  have d0 : (picolBinText a o.1 ")".toList).drop 0 = a ++ ' ' :: (o.1 ++ ' ' :: ")".toList) :=
    rfl
  have d1 := drop_of_drop_append d0
  have d2 := drop_of_drop_cons d1
  have d3 := drop_of_drop_append d2
  have d4 := drop_of_drop_cons d3
  have hs0 : picolSkip (picolBinText a o.1 ")".toList) 0 = 0 := picolSkip_literal F d0 ha
  have hc0 := charAt_of_drop d0 0
  obtain ⟨_, k1, k2, k3⟩ := picolUnsignedLiteral_head ha.1 ha.2.1 (' ' :: (o.1 ++ ' ' :: ")".toList))
  rw [Nat.add_zero] at hc0
  have hst : F.strtod ((picolBinText a o.1 ")".toList).drop 0) = (va, a.length) := by
    rw [d0]
    exact ha.2.2.2 _
  have hs1 : picolSkip (picolBinText a o.1 ")".toList) (0 + a.length) = 0 + a.length + 1 := by
    rw [picolSkip_of_drop d1]
    show 0 + a.length + (if isExprSpace ' ' then
      picolCountSpaces (o.1 ++ ' ' :: ")".toList) + 1 else 0) = _
    rw [picolCountSpaces_specBinOps o ho]
    rfl
  have hop := picolExprOp_specBinOps o ho d2
  have hs3 : picolSkip (picolBinText a o.1 ")".toList) (0 + a.length + 1 + o.1.length) =
      0 + a.length + 1 + o.1.length + 1 := by
    rw [picolSkip_of_drop d3]
    rfl
  have hc4 : charAt (picolBinText a o.1 ")".toList) (0 + a.length + 1 + o.1.length + 1) = ')' := by
    have := charAt_of_drop d4 0
    rw [Nat.add_zero] at this
    exact this
  generalize hs : picolBinText a o.1 ")".toList = s at *
  cases hD with
  | literal _ _ _ _ d1 _ _ _ _ hnext =>
    rw [hs0, hst] at hnext
    simp only at hnext
    rw [hs1] at hnext
    generalize hpos : 0 + a.length + 1 = pos at hnext hop
    cases hnext with
    | stop _ _ _ hlow =>
      have := hlow _ hop
      have := (picolSpecBinOps_prec o ho).1
      simp only at *
      omega
    | step _ _ _ o1 b q1 d1 _ _ _ hop1 _ hright _ =>
      rw [hop] at hop1
      cases hop1
      simp only at hright
      rw [← hpos] at hright
      cases hright with
      | literal _ _ _ _ _ _ _ _ hne _ =>
        rw [hs3, d4] at hne
        exact hne hF
      | paren _ _ _ _ _ _ _ _ hch _ _ _ =>
        rw [hs3, hc4] at hch
        exact absurd hch (by decide)
      | neg _ _ _ _ _ _ _ _ hch _ _ =>
        rw [hs3, hc4] at hch
        exact absurd hch (by decide)
      | pos _ _ _ _ _ _ _ _ hch _ _ =>
        rw [hs3, hc4] at hch
        exact absurd hch (by decide)
  | paren _ _ _ _ _ _ _ _ hch _ _ _ =>
    rw [hs0, hc0] at hch
    exact k1 hch
  | neg _ _ _ _ _ _ _ _ hch _ _ =>
    rw [hs0, hc0] at hch
    exact k2 hch
  | pos _ _ _ _ _ _ _ _ hch _ _ =>
    rw [hs0, hc0] at hch
    exact k3 hch

/-- When `picolExpr` returns on the text of `expr` with the error flag raised, the
command returns `PICOL_ERR` with the result `Error in expression`. -/
theorem picolCommandExpr_of_err (i : picolInterp) (argv : List CStr) (h : 2 ≤ argv.length)
    {n1 : Nat} {r1 : picolExprResult D}
    (h1 : picolExpr F n1 i (picolExprJoin (argv.drop 1)) 0 false 0 = some r1)
    (he : r1.err = true) :
    ∃ n, picolCommandExpr F n i argv =
      some (PICOL_ERR, picolSetResult i "Error in expression".toList) := by
  obtain ⟨n2, q, h2, _⟩ :=
    picolExprTrail_total (picolExprJoin (argv.drop 1)) _ r1.p (le_refl _)
  obtain ⟨hi, _, _⟩ := (picolExpr_sound F n1).1 _ _ _ _ _ _ h1
  refine ⟨n1 + n2, ?_⟩
  unfold picolCommandExpr
  rw [if_neg (by omega)]
  simp only
  rw [picolExpr_mono F h1 (by omega), Option.some_bind,
    picolExprTrail_mono h2 (by omega), Option.some_bind, hi, he]
  simp

/-- When `picolExpr` returns on the text of `expr` without error at the end of the
text, the command returns `PICOL_OK` with the formatted value. -/
theorem picolCommandExpr_of_ok (i : picolInterp) (argv : List CStr) (h : 2 ≤ argv.length)
    {n1 : Nat} {v : D}
    (h1 : picolExpr F n1 i (picolExprJoin (argv.drop 1)) 0 false 0 =
      some { val := v, interp := i, p := (picolExprJoin (argv.drop 1)).length, err := false }) :
    ∃ n, picolCommandExpr F n i argv =
      some (PICOL_OK, picolSetResult i (snprintf 64 (F.fmt12g v))) := by
  have hend : charAt (picolExprJoin (argv.drop 1)) (picolExprJoin (argv.drop 1)).length
      = '\x00' := charAt_of_length_le _ _ (le_refl _)
  refine ⟨n1 + 1, ?_⟩
  unfold picolCommandExpr
  rw [if_neg (by omega)]
  simp only
  rw [picolExpr_mono F h1 (by omega), Option.some_bind]
  simp only
  rw [picolExprTrail, if_neg (by rw [hend]; decide), Option.some_bind, hend]
  simp

attribute [local irreducible] picolExpr picolExprLoop in
/-- An error in the right operand of an operator that is applied stays in what the
loop of `picolExpr` returns. -/
theorem picolExprLoop_right_err {n m : Nat} {i : picolInterp} {s : CStr} {p : Nat}
    {err : Bool} {prec : Int} {a : D} {o : Char × Int × Nat}
    {rr r : picolExprResult D} (hop : picolExprOp s p = some o) (hp : ¬ o.2.1 < prec)
    (hright : picolExpr F m i s (p + o.2.2) err (o.2.1 + 1) = some rr) (he : rr.err = true)
    (h : picolExprLoop F n i s p err prec a = some r) : r.err = true := by
  cases n with
  | zero => rw [picolExprLoop_zero] at h; cases h
  | succ k =>
    rw [picolExprLoop_succ, hop] at h
    simp only at h
    rw [if_neg hp] at h
    cases hx : picolExpr F k i s (p + o.2.2) err (o.2.1 + 1) with
    | none => rw [hx] at h; cases h
    | some x =>
      have e1 := picolExpr_mono F hx (le_max_left k m)
      have e2 := picolExpr_mono F hright (le_max_right k m)
      rw [e1] at e2
      have ex : x = rr := Option.some.inj e2
      have he2 : x.err = true := by rw [ex]; exact he
      rw [hx, Option.some_bind] at h
      cases hy : picolExprSkip k s x.p with
      | none => rw [hy] at h; cases h
      | some p1 =>
        rw [hy, Option.some_bind] at h
        exact ((picolExpr_sound F k).2 _ _ _ _ _ _ _ h).2.1 he2

/-- **C23.** (1) For all operand values `a` and `b`, each of `||`, `&&`, `<`, `>`,
`<=`, `>=`, `==`, `!=` (the operators of the table with precedence at most 2) gives
the `double` 0 or the `double` 1; `||` gives 1 exactly when one of the operands is
not zero, `&&` exactly when both are not.
(2) For unsigned decimal literals `a` and `b`, with room for two nested invocations,
`picolExpr` reads the whole text `a op b` without error and returns that value, and
`expr` returns `PICOL_OK` with it formatted.
(3) The right operand is always parsed and evaluated: where the loop of `picolExpr`
finds an operator whose precedence is not below the minimum, it calls `picolExpr` at
the text after the operator, whatever the value read so far; and if that call
returns with the error flag raised, so does the loop.
(4) So an error in the right operand makes the whole expression fail also when the
left operand decides the result: for every literal `a` and every one of these
operators, `expr` on the text `a op )` returns `PICOL_ERR` with the result `Error in
expression` (the C library reads no number from `)`). -/
theorem C23_logic_and_comparisons :
    (∀ (o : CStr × Char × Int), o ∈ picolSpecBinOps → o.2.2 ≤ 2 → ∀ a b : D,
      picolExprApply F o.2.1 a b = F.ofInt 0 ∨ picolExprApply F o.2.1 a b = F.ofInt 1) ∧
    (∀ a b : D,
      picolExprApply F 'o' a b = F.ofInt (if F.nonzero a || F.nonzero b then 1 else 0) ∧
      picolExprApply F 'a' a b = F.ofInt (if F.nonzero a && F.nonzero b then 1 else 0)) ∧
    (∀ (i : picolInterp) (w a b : CStr) (va vb : D) (o : CStr × Char × Int),
      picolUnsignedLiteral F a va → picolUnsignedLiteral F b vb → o ∈ picolSpecBinOps →
      i.level + 2 ≤ PICOL_MAX_RECURSION_LEVEL →
      (∃ n, picolExpr F n i (picolBinText a o.1 b) 0 false 0 =
        some { val := picolExprApply F o.2.1 va vb, interp := i,
               p := (picolBinText a o.1 b).length, err := false }) ∧
      (∃ n, picolCommandExpr F n i [w, picolBinText a o.1 b] =
        some (PICOL_OK, picolSetResult i
          (snprintf 64 (F.fmt12g (picolExprApply F o.2.1 va vb)))))) ∧
    (∀ (n : Nat) (i : picolInterp) (s : CStr) (p : Nat) (err : Bool) (prec : Int) (a : D)
      (o : Char × Int × Nat), picolExprOp s p = some o → ¬ o.2.1 < prec →
      picolExprLoop F (n + 1) i s p err prec a =
        ((picolExpr F n i s (p + o.2.2) err (o.2.1 + 1)).bind fun r =>
          (picolExprSkip n s r.p).bind fun p1 =>
          picolExprLoop F n r.interp s p1 r.err prec (picolExprApply F o.1 a r.val)) ∧
      ∀ (m k : Nat) (rr r : picolExprResult D),
        picolExpr F m i s (p + o.2.2) err (o.2.1 + 1) = some rr → rr.err = true →
        picolExprLoop F k i s p err prec a = some r → r.err = true) ∧
    (∀ (i : picolInterp) (w a : CStr) (va : D) (o : CStr × Char × Int),
      picolUnsignedLiteral F a va → o ∈ picolSpecBinOps → (F.strtod ")".toList).2 = 0 →
      ∃ n, picolCommandExpr F n i [w, picolBinText a o.1 ")".toList] =
        some (PICOL_ERR, picolSetResult i "Error in expression".toList)) := by
  refine ⟨fun o ho hp a b => picolExprApply_zero_one F o ho hp a b,
    fun a b => ⟨rfl, rfl⟩, ?_, ?_, ?_⟩
  · intro i w a b va vb o ha hb ho hlev
    obtain ⟨n, hn⟩ := picolExpr_complete F (ExprDeriv_binText F o ha hb ho) i false
      (by push_cast; omega)
    exact ⟨⟨n, hn⟩, picolCommandExpr_of_ok F i [w, picolBinText a o.1 b] (by simp) hn⟩
  · intro n i s p err prec a o hop hp
    constructor
    · rw [picolExprLoop_succ, hop]
      simp only
      rw [if_neg hp]
    · intro m k rr r hright he h
      exact picolExprLoop_right_err F hop hp hright he h
  · intro i w a va o ha ho hF
    obtain ⟨n1, r1, h1⟩ := picolExpr_total F i (picolBinText a o.1 ")".toList) 0 false 0
    have he : r1.err = true := by
      cases hb : r1.err with
      | true => rfl
      | false =>
        obtain ⟨d, hd, _⟩ := ((picolExpr_sound F n1).1 _ _ _ _ _ _ h1).2.2 hb
        exact absurd hd (ExprDeriv_binText_paren F o ha ho hF _ _ _)
    exact picolCommandExpr_of_err F i [w, picolBinText a o.1 ")".toList] (by simp) h1 he

end

/-- Witness of C23: `1 || )` in the interpreter of the test program. -/
theorem C23_witness :
    ∃ n, picolCommandExpr intDouble n picolCoreInterp
        ["expr".toList, picolBinText "1".toList "||".toList ")".toList] =
      some (PICOL_ERR, picolSetResult picolCoreInterp "Error in expression".toList) :=
  (C23_logic_and_comparisons intDouble).2.2.2.2 picolCoreInterp "expr".toList "1".toList 1
    ("||".toList, 'o', 0) ⟨by decide, by decide, rfl, fun _ => rfl⟩ (by decide) (by decide)

/-- The examples of C23, run: `1 || )` and `0 && )` are errors although the left
operand decides the result; the operators give 0 or 1. -/
theorem picolEval_logic_examples :
    (picolEval intDouble 40 picolCoreInterp "expr 1 || )".toList).bind
        (fun r => some (r.1, r.2.result)) =
      some (PICOL_ERR, "Error in expression".toList) ∧
    (picolEval intDouble 40 picolCoreInterp "expr 0 && )".toList).bind
        (fun r => some (r.1, r.2.result)) =
      some (PICOL_ERR, "Error in expression".toList) ∧
    (picolEval intDouble 40 picolCoreInterp "expr 1 || 0".toList).bind
        (fun r => some (r.1, r.2.result)) = some (PICOL_OK, "1".toList) ∧
    (picolEval intDouble 40 picolCoreInterp "expr 5 && 7".toList).bind
        (fun r => some (r.1, r.2.result)) = some (PICOL_OK, "1".toList) ∧
    (picolEval intDouble 40 picolCoreInterp "expr 1 && 0".toList).bind
        (fun r => some (r.1, r.2.result)) = some (PICOL_OK, "0".toList) ∧
    (picolEval intDouble 40 picolCoreInterp "expr 3 > 2".toList).bind
        (fun r => some (r.1, r.2.result)) = some (PICOL_OK, "1".toList) ∧
    (picolEval intDouble 40 picolCoreInterp "expr 2 >= 3".toList).bind
        (fun r => some (r.1, r.2.result)) = some (PICOL_OK, "0".toList) ∧
    (picolEval intDouble 40 picolCoreInterp "expr 7 != 7".toList).bind
        (fun r => some (r.1, r.2.result)) = some (PICOL_OK, "0".toList) := by
  refine ⟨?_, ?_, ?_, ?_, ?_, ?_, ?_, ?_⟩ <;> decide!

/-! ## The tokenizer on a plain word that ends the text -/

/-- `picolParseString`'s loop over a plain word that ends the text. -/
theorem picolParseStringLoop_word_end (w : CStr) :
    ∀ (T : CStr) (k : Nat) (L st en : Int) (ty : picolTokenType) (fuel : Nat),
      T.drop k = w → (∀ c ∈ w, picolOrdinary c = true) →
      L = ((w.length : Nat) : Int) → w.length < fuel →
      picolParseStringLoop fuel (picolParser.mk T k L st en ty false) =
        some (picolParser.mk T (k + w.length) (L - w.length) st
          (((k + w.length : Nat) : Int) - 1) PT_ESC false) := by
  induction w with
  | nil =>
    intro T k L st en ty fuel _ _ hL hf
    obtain ⟨f, rfl⟩ : ∃ f, fuel = f + 1 := ⟨fuel - 1, by simp at hf; omega⟩
    have hL0 : L = 0 := by
      rw [hL]
      rfl
    rw [picolParseStringLoop]
    simp only [hL0, if_true, List.length_nil, Nat.add_zero]
    congr 2
  | cons c w ih =>
    intro T k L st en ty fuel hd hw hL hf
    obtain ⟨f, rfl⟩ : ∃ f, fuel = f + 1 := ⟨fuel - 1, by simp at hf; omega⟩
    have hc : charAt T k = c := by
      have := charAt_of_drop hd 0
      rw [Nat.add_zero] at this
      exact this
    have hL0 : L ≠ 0 := by
      rw [hL]
      simp only [List.length_cons]
      push_cast
      omega
    obtain ⟨n1, n2, n3, n4, n5, n6, n7, n8, n9⟩ :=
      picolOrdinary_ne (hw c (List.mem_cons_self _ _))
    rw [picolParseStringLoop]
    simp only [picolParser.cur, hc, hL0, if_false, n1, n2, n3, n4, n5, n6, n7, n8, n9,
      or_self, picolParser.adv]
    rw [ih T (k + 1) (L - 1) st en ty f (drop_of_drop_cons hd)
      (fun x hx => hw x (List.mem_cons_of_mem _ hx))
      (by rw [hL]; simp only [List.length_cons]; push_cast; omega)
      (by simp only [List.length_cons] at hf; omega)]
    simp only [List.length_cons]
    congr 2
    · omega
    · push_cast
      omega
    · push_cast
      omega

/-- The token of a plain word that ends the text. -/
theorem picolGetToken_word_end (T : CStr) (k : Nat) (L st en : Int) (ty : picolTokenType)
    (c : Char) (w : CStr) (hd : T.drop k = c :: w)
    (hw : ∀ x ∈ c :: w, picolOrdinary x = true) (hc1 : c ≠ '{')
    (hc2 : c = '#' → ty ≠ PT_EOL) (hL : L = (((c :: w).length : Nat) : Int)) :
    picolGetToken ((c :: w).length + 2) (picolParser.mk T k L st en ty false) =
      some (picolParser.mk T (k + (c :: w).length) (L - (c :: w).length) k
        (((k + (c :: w).length : Nat) : Int) - 1) PT_ESC false) := by
  have hc : charAt T k = c := by
    have := charAt_of_drop hd 0
    rw [Nat.add_zero] at this
    exact this
  have hL0 : L ≠ 0 := by
    rw [hL]
    simp only [List.length_cons]
    push_cast
    omega
  obtain ⟨n1, n2, n3, n4, n5, n6, n7, n8, n9⟩ :=
    picolOrdinary_ne (hw c (List.mem_cons_self _ _))
  have hloop := picolParseStringLoop_word_end (c :: w) T k L k en ty _ hd hw hL
    (Nat.lt_succ_self _)
  rw [picolGetToken]
  by_cases hh : c = '#'
  · subst hh
    simp only [picolParser.cur, hc, hL0, if_false, Char.reduceEq, or_self, if_true, hc2 rfl]
    unfold picolParseString
    simp only [picolParser.cur, hc, Char.reduceEq, and_false, if_false]
    exact hloop
  · simp only [picolParser.cur, hc, hL0, if_false, n2, n3, n4, n5, n6, n7, n8, hh, or_self]
    unfold picolParseString
    simp only [picolParser.cur, hc, hc1, n9, and_false, if_false]
    exact hloop

section
variable {D : Type} (F : DoubleOps D)

/-- A plain word that ends the text, at the start of a word: the loop comes to the
words with the word appended, at the end of the input. -/
theorem picolEvalReaches_word_end (i : picolInterp) (argv : List CStr) (T : CStr) (k : Nat)
    (L st en : Int) (ty : picolTokenType) (c : Char) (w : CStr)
    (hty : ty = PT_SEP ∨ ty = PT_EOL) (hd : T.drop k = c :: w)
    (hw : ∀ x ∈ c :: w, picolOrdinary x = true) (hc1 : c ≠ '{')
    (hc2 : c = '#' → ty ≠ PT_EOL) (hL : L = (((c :: w).length : Nat) : Int)) :
    picolEvalReaches F i (picolParser.mk T k L st en ty false) argv i
      (picolParser.mk T (k + (c :: w).length) (L - (c :: w).length) k
        (((k + (c :: w).length : Nat) : Int) - 1) PT_ESC false)
      (argv ++ [c :: w]) := by
  have hg1 := picolGetToken_word_end T k L st en ty c w hd hw hc1 hc2 hL
  have ht1 := picolParser_token_mk T (k + (c :: w).length) (L - (c :: w).length) k PT_ESC false
    (c :: w) [] (by rw [List.append_nil]; exact hd)
  have h1 := picolEvalIter_esc F (i := i) argv hg1 rfl
  rw [ht1, picolEscape_ordinary _ hw] at h1
  have ha : picolAppendArg argv ty (c :: w) = some (argv ++ [c :: w]) := by
    unfold picolAppendArg
    rw [if_pos hty]
  simp only [ha, Option.some_bind] at h1
  exact picolEvalReaches_step F h1

theorem picolCallFunc_expr (n : Nat) (i : picolInterp) (argv : List CStr) (c : picolCmd)
    (h : c.func = .picolCommandExpr) :
    picolCallFunc F (n + 1) i argv c = picolCommandExpr F n i argv := by
  simp only [picolCallFunc_succ, h]

theorem picolCallFunc_proc (n : Nat) (i : picolInterp) (argv : List CStr) (c : picolCmd)
    (h : c.func = .picolCommandProc) :
    picolCallFunc F (n + 1) i argv c = some (picolCommandProc i argv) := by
  simp only [picolCallFunc_succ, h]

end

/-! ## C22: nesting of parentheses beyond the limit -/

theorem picolParenText_charAt_open (N k : Nat) (h : k < N) :
    charAt (picolParenText N) k = '(' := by
  unfold picolParenText
  rw [charAt_append_left _ _ _ (by rw [List.length_replicate]; exact h),
    charAt_replicate _ _ _ h]

theorem picolParenText_charAt_one (N : Nat) : charAt (picolParenText N) N = '1' := by
  unfold picolParenText
  rw [charAt_append_right _ _ _ (by rw [List.length_replicate]), List.length_replicate,
    Nat.sub_self]
  rfl

theorem picolParenText_skip (N k : Nat) (h : k ≤ N) :
    picolSkip (picolParenText N) k = k := by
  apply picolSkip_of_not_space
  rcases Nat.lt_or_ge k N with hl | hl
  · rw [picolParenText_charAt_open N k hl]
    rfl
  · have e : k = N := by omega
    rw [e, picolParenText_charAt_one]
    rfl

theorem picolParenText_ordinary (N : Nat) : ∀ x ∈ picolParenText N, picolOrdinary x = true := by
  intro x hx
  unfold picolParenText at hx
  rcases List.mem_append.mp hx with h | h
  · rw [(List.mem_replicate.mp h).2]
    decide
  · rcases List.mem_cons.mp h with h | h
    · rw [h]
      decide
    · rw [(List.mem_replicate.mp h).2]
      decide

theorem picolParenText_cons (N : Nat) :
    ∃ c w, picolParenText N = c :: w ∧ c ≠ '{' ∧ c ≠ '#' ∧ c ≠ ' ' ∧ c ≠ '\t' := by
  cases N with
  | zero => exact ⟨'1', [], rfl, by decide, by decide, by decide, by decide⟩
  | succ N =>
    exact ⟨'(', List.replicate N '(' ++ '1' :: List.replicate (N + 1) ')', rfl,
      by decide, by decide, by decide, by decide⟩

section
variable {D : Type} (F : DoubleOps D)

/-- Reading the text of `N` parentheses as an expression from the `k`-th of them takes
more nested invocations than parentheses are left. -/
theorem ExprDeriv_parenText_depth (N : Nat) :
    ∀ (m k : Nat), k + m = N → ∀ (prec : Int) (v : D) (q d : Nat),
      ExprDeriv F (picolParenText N) none prec k v q d → m + 1 ≤ d := by
  intro m
  induction m with
  | zero =>
    intro k _ prec v q d hD
    cases hD <;> omega
  | succ m ih =>
    intro k hk prec v q d hD
    have hsk : picolSkip (picolParenText N) k = k := picolParenText_skip N k (by omega)
    have hch : charAt (picolParenText N) k = '(' := picolParenText_charAt_open N k (by omega)
    cases hD with
    | literal _ _ _ _ _ h1 _ _ _ _ =>
      rw [hsk, hch] at h1
      exact absurd rfl h1
    | paren _ _ v1 q1 d1 _ _ d2 _ hin _ _ =>
      rw [hsk] at hin
      have := ih (k + 1) (by omega) 0 v1 q1 d1 hin
      omega
    | neg _ _ _ _ _ _ _ _ h1 _ _ =>
      rw [hsk, hch] at h1
      exact absurd h1 (by decide)
    | pos _ _ _ _ _ _ _ _ h1 _ _ =>
      rw [hsk, hch] at h1
      exact absurd h1 (by decide)

/-- On the text of `N ≥ 128` parentheses `picolExpr` returns with the error flag
raised, from every level that is not negative. -/
theorem picolExpr_parenText (N : Nat) (hN : 128 ≤ N) (i : picolInterp) (hl : 0 ≤ i.level) :
    ∃ n r, picolExpr F n i (picolParenText N) 0 false 0 = some r ∧ r.err = true ∧
      r.interp = i := by
  obtain ⟨n1, r1, h1⟩ := picolExpr_total F i (picolParenText N) 0 false 0
  obtain ⟨hi, _, hd⟩ := (picolExpr_sound F n1).1 _ _ _ _ _ _ h1
  refine ⟨n1, r1, h1, ?_, hi⟩
  cases hb : r1.err with
  | true => rfl
  | false =>
    obtain ⟨d, hd1, hd2⟩ := hd hb
    have := ExprDeriv_parenText_depth F N N 0 (by omega) 0 _ _ _ hd1
    unfold PICOL_MAX_RECURSION_LEVEL at hd2
    omega

/-- The command `expr` on the text of `N ≥ 128` parentheses. -/
theorem picolCommandExpr_parenText (N : Nat) (hN : 128 ≤ N) (i : picolInterp)
    (hl : 0 ≤ i.level) (w : CStr) :
    ∃ n, picolCommandExpr F n i [w, picolParenText N] =
      some (PICOL_ERR, picolSetResult i "Error in expression".toList) := by
  obtain ⟨n1, r1, h1, he, _⟩ := picolExpr_parenText F N hN i hl
  exact picolCommandExpr_of_err F i [w, picolParenText N] (by simp) h1 he

/-- The evaluation of the text `expr (((...1...)))` with `N ≥ 128` parentheses. -/
theorem picolEval_expr_parenText (N : Nat) (hN : 128 ≤ N) (i : picolInterp) (c : picolCmd)
    (hl : 0 ≤ i.level) (hlev : i.level + 1 ≤ PICOL_MAX_RECURSION_LEVEL)
    (hc : picolGetCommand i "expr".toList = some c) (hf : c.func = .picolCommandExpr) :
    ∃ n, picolEval F n i ("expr ".toList ++ picolParenText N) =
      some (PICOL_ERR, picolSetResult i "Error in expression".toList) := by
  obtain ⟨c0, w0, hs, k1, k2, k3, k4⟩ := picolParenText_cons N
  have hord := picolParenText_ordinary N
  generalize hsT : picolParenText N = s at hs hord
  have hT : "expr ".toList ++ s = 'e' :: 'x' :: 'p' :: 'r' :: ' ' :: s := rfl
  rw [hT]
  generalize hTd : 'e' :: 'x' :: 'p' :: 'r' :: ' ' :: s = T
  have hlen : T.length = s.length + 5 := by
    rw [← hTd]
    simp
  have hd0 : T.drop 0 = ('e' :: ['x', 'p', 'r']) ++ ' ' :: s := by
    rw [← hTd]
    rfl
  have hd5 : T.drop (0 + ('e' :: ['x', 'p', 'r']).length + 1) = c0 :: w0 := by
    rw [← hTd, ← hs]
    rfl
  generalize hi0 : ({ picolSetResult i [] with level := i.level + 1 } : picolInterp) = i0
  have hA := picolEvalReaches_word F i0 [] T 0 (T.length : Int) 0 0 PT_EOL 'e' ['x', 'p', 'r']
    s (Or.inr rfl) hd0 (by decide) (by decide) (by decide)
    (by
      intro x hx
      rw [hs] at hx
      simp only [List.head?_cons, Option.some.injEq] at hx
      rw [← hx]
      exact ⟨k3, k4⟩)
    (by rw [hlen]; simp only [List.length_cons, List.length_nil]
        push_cast; omega)
  have hB := picolEvalReaches_word_end F i0 ([] ++ ['e' :: ['x', 'p', 'r']]) T
    (0 + ('e' :: ['x', 'p', 'r']).length + 1)
    ((T.length : Int) - ('e' :: ['x', 'p', 'r']).length - 1)
    ((0 + ('e' :: ['x', 'p', 'r']).length : Nat) : Int)
    ((0 + ('e' :: ['x', 'p', 'r']).length : Nat) : Int)
    PT_SEP c0 w0 (Or.inl rfl) hd5 (by rw [← hs]; exact hord) k1
    (fun e => absurd e k2)
    (by rw [hlen, ← hs]; simp only [List.length_cons, List.length_nil]
        push_cast; omega)
  have hAB := picolEvalReaches_trans F hA hB
  have hi0l : 0 ≤ i0.level := by
    rw [← hi0]
    show 0 ≤ i.level + 1
    omega
  obtain ⟨m, hm⟩ := picolCommandExpr_parenText F N hN i0 hi0l "expr".toList
  rw [hsT, hs] at hm
  have hg6 := picolGetToken_end T
    (0 + ('e' :: ['x', 'p', 'r']).length + 1 + (c0 :: w0).length)
    ((T.length : Int) - ('e' :: ['x', 'p', 'r']).length - 1 - (c0 :: w0).length)
    ((0 + ('e' :: ['x', 'p', 'r']).length + 1 : Nat) : Int)
    (((0 + ('e' :: ['x', 'p', 'r']).length + 1 + (c0 :: w0).length : Nat) : Int) - 1)
    PT_ESC false
    (by rw [hlen, ← hs]; simp only [List.length_cons, List.length_nil]; push_cast; omega)
    m
  have hc0 : picolGetCommand i0
      (([] ++ ['e' :: ['x', 'p', 'r']] ++ [c0 :: w0] : List CStr).getD 0 []) = some c := by
    rw [← hi0]
    exact hc
  have h6 := picolEvalIter_call F hg6 rfl (by simp) hc0
    (by rw [picolCallFunc_expr F m i0 _ c hf]; exact hm)
  simp only [ne_eq, reduceCtorEq, not_false_eq_true, if_true] at h6
  subst hi0
  obtain ⟨k, hk⟩ := picolEval_of_comesTo F (i := i) (t := T)
    (show picolEvalComesTo F i T _ _ _ from ⟨hlev, hAB⟩) h6
  refine ⟨k, ?_⟩
  rw [hk]
  simp only [picolSetResult, add_sub_cancel_right]

/-- **C22.** For every `N ≥ 128`, in every interpreter whose level is not negative,
the command `expr` applied to the text made of `N` characters `(`, then `1`, then `N`
characters `)` returns, given enough fuel, `PICOL_ERR` and the interpreter of the
call with nothing but the result changed: the result is `Error in expression` and the
level is what it was before.  So does the evaluation of the text `expr ` followed by
that text, at a level below the limit, where `expr` is the built-in. -/
theorem C22_deep_parentheses (N : Nat) (hN : 128 ≤ N) (i : picolInterp) (hl : 0 ≤ i.level) :
    (∀ w : CStr, ∃ n, picolCommandExpr F n i [w, picolParenText N] =
      some (PICOL_ERR, picolSetResult i "Error in expression".toList)) ∧
    (picolSetResult i "Error in expression".toList).level = i.level ∧
    (∀ c : picolCmd, i.level + 1 ≤ PICOL_MAX_RECURSION_LEVEL →
      picolGetCommand i "expr".toList = some c → c.func = .picolCommandExpr →
      ∃ n, picolEval F n i ("expr ".toList ++ picolParenText N) =
        some (PICOL_ERR, picolSetResult i "Error in expression".toList)) :=
  ⟨fun w => picolCommandExpr_parenText F N hN i hl w, rfl,
    fun c hlev hc hf => picolEval_expr_parenText F N hN i c hl hlev hc hf⟩

end

/-- Witness of C22: 2000 parentheses, as in the test `deep expr nesting returns
error`, in the interpreter of the test program. -/
theorem C22_witness :
    ∃ n, picolEval intDouble n picolCoreInterp ("expr ".toList ++ picolParenText 2000) =
      some (PICOL_ERR, picolSetResult picolCoreInterp "Error in expression".toList) :=
  (C22_deep_parentheses intDouble 2000 (by decide) picolCoreInterp (by decide)).2.2
    (picolCmd.mk "expr".toList .picolCommandExpr none none) (by decide) (by decide) rfl

/-- The boundary of C22 on the integer instance: from level 0, 127 parentheses are
read and 128 are not. -/
theorem picolCommandExpr_paren_examples :
    (picolCommandExpr intDouble 400 picolCoreInterp ["expr".toList, picolParenText 127]).map
        (fun r => (r.1, r.2.result, r.2.level)) = some (PICOL_OK, "1".toList, 0) ∧
    (picolCommandExpr intDouble 400 picolCoreInterp ["expr".toList, picolParenText 128]).map
        (fun r => (r.1, r.2.result, r.2.level)) =
      some (PICOL_ERR, "Error in expression".toList, 0) := by
  constructor <;> decide!

/-! ## C27: the token of a command substitution -/

theorem picolCmdScan_nil (level blevel : Nat) : picolCmdScan [] level blevel = none := by
  rw [picolCmdScan.eq_def]

theorem picolCmdScan_cons (c : Char) (rest : CStr) (level blevel : Nat) :
    picolCmdScan (c :: rest) level blevel =
      if c = '[' ∧ blevel = 0 then (picolCmdScan rest (level + 1) blevel).map fun m => m + 1
      else if c = ']' ∧ blevel = 0 then
        if level = 0 then some 0
        else (picolCmdScan rest (level - 1) blevel).map fun m => m + 1
      else if c = '\\' then
        match rest with
        | [] => none
        | _ :: rest2 => (picolCmdScan rest2 level blevel).map fun m => m + 2
      else if c = '{' then (picolCmdScan rest level (blevel + 1)).map fun m => m + 1
      else if c = '}' then
        (picolCmdScan rest level (if blevel ≠ 0 then blevel - 1 else blevel)).map
          fun m => m + 1
      else (picolCmdScan rest level blevel).map fun m => m + 1 := by
  rw [picolCmdScan.eq_def]
  rfl

theorem picolCmdEnd_nil (l b : Nat) : picolCmdEnd [] l b = 0 := by
  unfold picolCmdEnd
  rw [picolCmdScan_nil]
  rfl

theorem getD_map_succ (x : Option Nat) (len : Nat) :
    (x.map fun m => m + 1).getD (len + 1) = x.getD len + 1 := by
  cases x <;> rfl

theorem getD_map_succ2 (x : Option Nat) (len : Nat) :
    (x.map fun m => m + 2).getD (len + 1 + 1) = x.getD len + 2 := by
  cases x <;> rfl

theorem picolCmdEnd_open (rest : CStr) (l b : Nat) (hb : b = 0) :
    picolCmdEnd ('[' :: rest) l b = picolCmdEnd rest (l + 1) b + 1 := by
  unfold picolCmdEnd
  rw [picolCmdScan_cons, if_pos ⟨rfl, hb⟩, List.length_cons, getD_map_succ]

theorem picolCmdEnd_close_zero (rest : CStr) (b : Nat) (hb : b = 0) :
    picolCmdEnd (']' :: rest) 0 b = 0 := by
  unfold picolCmdEnd
  rw [picolCmdScan_cons, if_neg (by simp), if_pos ⟨rfl, hb⟩, if_pos rfl]
  rfl

theorem picolCmdEnd_close (rest : CStr) (l b : Nat) (hb : b = 0) (hl : l ≠ 0) :
    picolCmdEnd (']' :: rest) l b = picolCmdEnd rest (l - 1) b + 1 := by
  unfold picolCmdEnd
  rw [picolCmdScan_cons, if_neg (by simp), if_pos ⟨rfl, hb⟩, if_neg hl, List.length_cons,
    getD_map_succ]

theorem picolCmdEnd_backslash_end (l b : Nat) : picolCmdEnd ['\\'] l b = 1 := by
  unfold picolCmdEnd
  rw [picolCmdScan_cons, if_neg (by simp), if_neg (by simp), if_pos rfl]
  rfl

theorem picolCmdEnd_backslash (d : Char) (rest : CStr) (l b : Nat) :
    picolCmdEnd ('\\' :: d :: rest) l b = picolCmdEnd rest l b + 2 := by
  unfold picolCmdEnd
  rw [picolCmdScan_cons, if_neg (by simp), if_neg (by simp), if_pos rfl]
  simp only [List.length_cons]
  rw [getD_map_succ2]

theorem picolCmdEnd_lbrace (rest : CStr) (l b : Nat) :
    picolCmdEnd ('{' :: rest) l b = picolCmdEnd rest l (b + 1) + 1 := by
  unfold picolCmdEnd
  rw [picolCmdScan_cons, if_neg (by simp), if_neg (by simp), if_neg (by decide), if_pos rfl,
    List.length_cons, getD_map_succ]

theorem picolCmdEnd_rbrace (rest : CStr) (l b : Nat) :
    picolCmdEnd ('}' :: rest) l b =
      picolCmdEnd rest l (if b ≠ 0 then b - 1 else b) + 1 := by
  unfold picolCmdEnd
  rw [picolCmdScan_cons, if_neg (by simp), if_neg (by simp), if_neg (by decide),
    if_neg (by decide), if_pos rfl, List.length_cons, getD_map_succ]

theorem picolCmdEnd_other (c : Char) (rest : CStr) (l b : Nat)
    (h1 : ¬ (c = '[' ∧ b = 0)) (h2 : ¬ (c = ']' ∧ b = 0)) (h3 : c ≠ '\\') (h4 : c ≠ '{')
    (h5 : c ≠ '}') : picolCmdEnd (c :: rest) l b = picolCmdEnd rest l b + 1 := by
  unfold picolCmdEnd
  rw [picolCmdScan_cons, if_neg h1, if_neg h2, if_neg h3, if_neg h4, if_neg h5,
    List.length_cons, getD_map_succ]

theorem picolCmdEnd_le (body : CStr) : ∀ (n : Nat), body.length ≤ n → ∀ (l b : Nat),
    picolCmdEnd body l b ≤ body.length := by
  intro n
  induction n generalizing body with
  | zero =>
    intro h l b
    have : body = [] := List.length_eq_zero.mp (by omega)
    rw [this, picolCmdEnd_nil]
    exact Nat.zero_le _
  | succ n ih =>
    intro h l b
    cases body with
    | nil => rw [picolCmdEnd_nil]; exact Nat.zero_le _
    | cons c rest =>
      simp only [List.length_cons] at h ⊢
      by_cases h1 : c = '[' ∧ b = 0
      · rw [h1.1, picolCmdEnd_open rest l b h1.2]
        have := ih rest (by omega) (l + 1) b
        omega
      by_cases h2 : c = ']' ∧ b = 0
      · rw [h2.1]
        by_cases hl : l = 0
        · rw [hl, picolCmdEnd_close_zero rest b h2.2]
          omega
        · rw [picolCmdEnd_close rest l b h2.2 hl]
          have := ih rest (by omega) (l - 1) b
          omega
      by_cases h3 : c = '\\'
      · rw [h3]
        cases rest with
        | nil => rw [picolCmdEnd_backslash_end]; simp
        | cons d rest2 =>
          rw [picolCmdEnd_backslash]
          simp only [List.length_cons] at h ⊢
          have := ih rest2 (by omega) l b
          omega
      by_cases h4 : c = '{'
      · rw [h4, picolCmdEnd_lbrace]
        have := ih rest (by omega) l (b + 1)
        omega
      by_cases h5 : c = '}'
      · rw [h5, picolCmdEnd_rbrace]
        have := ih rest (by omega) l (if b ≠ 0 then b - 1 else b)
        omega
      · rw [picolCmdEnd_other c rest l b h1 h2 h3 h4 h5]
        have := ih rest (by omega) l b
        omega

/-- The loop of `picolParseCommand` stops where the command scanner stops. -/
theorem picolParseCommandLoop_scan (n : Nat) :
    ∀ (body : CStr), body.length ≤ n →
    ∀ (T : CStr) (k : Nat) (L st en : Int) (ty : picolTokenType) (iq : Bool)
      (level blevel fuel : Nat),
      T.drop k = body → L = ((body.length : Nat) : Int) → body.length < fuel →
      picolParseCommandLoop fuel (picolParser.mk T k L st en ty iq) ((level : Int) + 1)
          (blevel : Int) =
        some (picolParser.mk T (k + picolCmdEnd body level blevel)
          (L - (picolCmdEnd body level blevel : Nat)) st en ty iq) := by
  induction n with
  | zero =>
    intro body hb T k L st en ty iq level blevel fuel hd hL hf
    have hb0 : body = [] := List.length_eq_zero.mp (by omega)
    subst hb0
    obtain ⟨f, rfl⟩ : ∃ f, fuel = f + 1 := ⟨fuel - 1, by simp at hf; omega⟩
    have hL0 : L = 0 := by rw [hL]; rfl
    rw [picolParseCommandLoop, if_pos hL0, picolCmdEnd_nil]
    simp
  | succ n ih =>
    intro body hb T k L st en ty iq level blevel fuel hd hL hf
    cases body with
    | nil => exact ih [] (Nat.zero_le _) T k L st en ty iq level blevel fuel hd hL hf
    | cons c rest =>
      obtain ⟨f, rfl⟩ : ∃ f, fuel = f + 1 := ⟨fuel - 1, by simp at hf; omega⟩
      simp only [List.length_cons] at hb hf hL
      have hc : charAt T k = c := by
        have := charAt_of_drop hd 0
        rw [Nat.add_zero] at this
        exact this
      have hL0 : L ≠ 0 := by
        rw [hL]
        push_cast
        omega
      have hd1 : T.drop (k + 1) = rest := drop_of_drop_cons hd
      have hL1 : L - 1 = ((rest.length : Nat) : Int) := by
        rw [hL]
        push_cast
        omega
      have hbz : ((blevel : Int) = 0) ↔ blevel = 0 := by omega
      have fin : ∀ (e : Nat) (l b : Nat), picolCmdEnd (c :: rest) level blevel = e + 1 →
          e = picolCmdEnd rest l b →
          some (picolParser.mk T (k + 1 + picolCmdEnd rest l b)
            (L - 1 - (picolCmdEnd rest l b : Nat)) st en ty iq) =
          some (picolParser.mk T (k + picolCmdEnd (c :: rest) level blevel)
            (L - (picolCmdEnd (c :: rest) level blevel : Nat)) st en ty iq) := by
        intro e l b h1 h2
        rw [h1, ← h2]
        congr 2
        · omega
        · push_cast
          omega
      rw [picolParseCommandLoop, if_neg hL0]
      simp only [picolParser.cur, hc, picolParser.adv]
      by_cases h1 : c = '[' ∧ blevel = 0
      · rw [if_pos ⟨h1.1, hbz.mpr h1.2⟩]
        have := ih rest (by omega) T (k + 1) (L - 1) st en ty iq (level + 1) blevel f hd1 hL1
          (by omega)
        push_cast at this
        rw [this]
        refine fin _ (level + 1) blevel ?_ rfl
        rw [h1.1, picolCmdEnd_open rest level blevel h1.2]
      rw [if_neg (fun h => h1 ⟨h.1, hbz.mp h.2⟩)]
      by_cases h2 : c = ']' ∧ blevel = 0
      · rw [if_pos ⟨h2.1, hbz.mpr h2.2⟩]
        by_cases hl : level = 0
        · rw [if_pos (by omega)]
          rw [h2.1, hl, picolCmdEnd_close_zero rest blevel h2.2]
          simp
        · rw [if_neg (by omega)]
          have := ih rest (by omega) T (k + 1) (L - 1) st en ty iq (level - 1) blevel f hd1 hL1
            (by omega)
          have e : (((level - 1 : Nat) : Int) + 1) = (level : Int) + 1 - 1 := by omega
          rw [e] at this
          rw [this]
          refine fin _ (level - 1) blevel ?_ rfl
          rw [h2.1, picolCmdEnd_close rest level blevel h2.2 hl]
      rw [if_neg (fun h => h2 ⟨h.1, hbz.mp h.2⟩)]
      by_cases h3 : c = '\\'
      · rw [if_pos h3]
        cases rest with
        | nil =>
          have hL2 : ¬ L ≥ 2 := by
            rw [hL]
            simp
          rw [if_neg hL2]
          simp only
          have := ih [] (Nat.zero_le _) T (k + 1) (L - 1) st en ty iq level blevel f hd1 hL1
            (by simp at hf ⊢; omega)
          rw [this]
          refine fin _ level blevel ?_ rfl
          rw [h3, picolCmdEnd_backslash_end, picolCmdEnd_nil]
        | cons d rest2 =>
          simp only [List.length_cons] at hb hf hL hL1
          have hL2 : L ≥ 2 := by
            rw [hL]
            push_cast
            omega
          rw [if_pos hL2]
          simp only
          have := ih rest2 (by omega) T (k + 1 + 1) (L - 1 - 1) st en ty iq level blevel f
            (drop_of_drop_cons hd1) (by rw [hL]; push_cast; omega) (by omega)
          rw [this, h3, picolCmdEnd_backslash]
          congr 2
          · omega
          · push_cast
            omega
      rw [if_neg h3]
      by_cases h4 : c = '{'
      · rw [if_pos h4]
        have := ih rest (by omega) T (k + 1) (L - 1) st en ty iq level (blevel + 1) f hd1 hL1
          (by omega)
        push_cast at this
        rw [this]
        refine fin _ level (blevel + 1) ?_ rfl
        rw [h4, picolCmdEnd_lbrace]
      rw [if_neg h4]
      by_cases h5 : c = '}'
      · rw [if_pos h5]
        have := ih rest (by omega) T (k + 1) (L - 1) st en ty iq level
          (if blevel ≠ 0 then blevel - 1 else blevel) f hd1 hL1 (by omega)
        have e : (((if blevel ≠ 0 then blevel - 1 else blevel : Nat)) : Int) =
            (if (blevel : Int) ≠ 0 then (blevel : Int) - 1 else (blevel : Int)) := by
          by_cases hz : blevel = 0
          · rw [if_neg (by simpa using hz), if_neg (by simpa using hz)]
          · rw [if_pos hz, if_pos (by omega)]
            omega
        rw [e] at this
        rw [this]
        refine fin _ level (if blevel ≠ 0 then blevel - 1 else blevel) ?_ rfl
        rw [h5, picolCmdEnd_rbrace]
      · rw [if_neg h5]
        have := ih rest (by omega) T (k + 1) (L - 1) st en ty iq level blevel f hd1 hL1
          (by omega)
        rw [this]
        refine fin _ level blevel ?_ rfl
        rw [picolCmdEnd_other c rest level blevel h1 h2 h3 h4 h5]

/-- Where the command scanner finds the matching bracket, a `]` stands. -/
theorem picolCmdScan_some (n : Nat) : ∀ (body : CStr), body.length ≤ n →
    ∀ (l b m : Nat), picolCmdScan body l b = some m → ∃ rest, body.drop m = ']' :: rest := by
  induction n with
  | zero =>
    intro body hb l b m h
    have hb0 : body = [] := List.length_eq_zero.mp (by omega)
    rw [hb0, picolCmdScan_nil] at h
    cases h
  | succ n ih =>
    intro body hb l b m h
    cases body with
    | nil => rw [picolCmdScan_nil] at h; cases h
    | cons c rest =>
      simp only [List.length_cons] at hb
      have next : ∀ (l2 b2 : Nat),
          (picolCmdScan rest l2 b2).map (fun m => m + 1) = some m →
          ∃ r, (c :: rest).drop m = ']' :: r := by
        intro l2 b2 h2
        cases hx : picolCmdScan rest l2 b2 with
        | none => rw [hx] at h2; cases h2
        | some m2 =>
          rw [hx] at h2
          simp only [Option.map_some', Option.some.injEq] at h2
          obtain ⟨r, hr⟩ := ih rest (by omega) l2 b2 m2 hx
          exact ⟨r, by rw [← h2]; exact hr⟩
      rw [picolCmdScan_cons] at h
      split at h
      · exact next _ _ h
      split at h
      · next h2 =>
        split at h
        · simp only [Option.some.injEq] at h
          rw [← h, h2.1]
          exact ⟨rest, rfl⟩
        · exact next _ _ h
      split at h
      · cases rest with
        | nil => cases h
        | cons d rest2 =>
          simp only at h
          simp only [List.length_cons] at hb
          cases hx : picolCmdScan rest2 l b with
          | none => rw [hx] at h; cases h
          | some m2 =>
            rw [hx] at h
            simp only [Option.map_some', Option.some.injEq] at h
            obtain ⟨r, hr⟩ := ih rest2 (by omega) l b m2 hx
            exact ⟨r, by rw [← h]; exact hr⟩
      split at h
      · exact next _ _ h
      split at h
      · exact next _ _ h
      · exact next _ _ h

/-- The token that `picolGetToken` makes of a command substitution: its text ends
where the command scanner stops, and the cursor passes the matching `]`. -/
theorem picolGetToken_cmd (T : CStr) (k : Nat) (L st en : Int) (ty : picolTokenType)
    (iq : Bool) (body : CStr) (hd : T.drop k = '[' :: body)
    (hL : L = ((body.length + 1 : Nat) : Int)) :
    picolGetToken (body.length + 3) (picolParser.mk T k L st en ty iq) =
      some (picolParser.mk T
        (k + 1 + picolCmdEnd body 0 0 + (if (picolCmdScan body 0 0).isSome then 1 else 0))
        (L - 1 - (picolCmdEnd body 0 0 : Nat) -
          (if (picolCmdScan body 0 0).isSome then 1 else 0))
        ((k + 1 : Nat) : Int) (((k + 1 + picolCmdEnd body 0 0 : Nat) : Int) - 1) PT_CMD iq) := by
  have hc : charAt T k = '[' := by
    have := charAt_of_drop hd 0
    rw [Nat.add_zero] at this
    exact this
  have hL0 : L ≠ 0 := by
    rw [hL]
    push_cast
    omega
  have hd1 : T.drop (k + 1) = body := drop_of_drop_cons hd
  have hloop := picolParseCommandLoop_scan body.length body (le_refl _) T (k + 1) (L - 1)
    ((k + 1 : Nat) : Int) en ty iq 0 0 (body.length + 2) hd1
    (by rw [hL]; push_cast; omega) (by omega)
  simp only [Nat.cast_zero, zero_add] at hloop
  rw [picolGetToken]
  simp only [picolParser.cur, hc, hL0, if_false, Char.reduceEq, or_self, if_true]
  unfold picolParseCommand
  simp only [picolParser.adv]
  rw [hloop, Option.map_some']
  simp only [picolParser.cur]
  cases hs : picolCmdScan body 0 0 with
  | some m =>
    obtain ⟨r, hr⟩ := picolCmdScan_some body.length body (le_refl _) 0 0 m hs
    have he : picolCmdEnd body 0 0 = m := by
      unfold picolCmdEnd
      rw [hs]
      rfl
    have hch : charAt T (k + 1 + picolCmdEnd body 0 0) = ']' := by
      rw [he]
      have := charAt_of_drop hd1 m
      rw [this]
      have h2 := charAt_of_drop hr 0
      rw [Nat.add_zero] at h2
      exact h2
    rw [if_pos hch]
    simp only [Option.isSome_some, if_true, picolParser.adv]
  | none =>
    have he : picolCmdEnd body 0 0 = body.length := by
      unfold picolCmdEnd
      rw [hs]
      rfl
    have hch : charAt T (k + 1 + picolCmdEnd body 0 0) ≠ ']' := by
      rw [he, charAt_of_drop hd1 body.length, charAt_of_length_le body _ (le_refl _)]
      decide
    rw [if_neg hch]
    simp only [Option.isSome_none, Bool.false_eq_true, if_false]
    congr 2
    omega

/-- **C27.** Where the text at the cursor is `[` followed by the text `body` up to the
end of the input, `picolGetToken` returns a token of type `PT_CMD`.  When the command
scanner of the claim (`[` and `]` counted only while no brace is open, a backslash
skips the character after it, `}` ignored when no brace is open) finds the matching
`]` after `m` characters, the text of the token is exactly these `m` characters, a
`]` stands after them and the cursor is left just after it.  When there is no
matching `]`, the text of the token is all of `body` and the cursor is left at the
end of the input. -/
theorem C27_command_token (T : CStr) (k : Nat) (st en : Int) (ty : picolTokenType)
    (iq : Bool) (body : CStr) (hd : T.drop k = '[' :: body) :
    ∃ q, picolGetToken (body.length + 3)
        (picolParser.mk T k ((T.length - k : Nat) : Int) st en ty iq) = some q ∧
      q.type = PT_CMD ∧ q.text = T ∧ q.insidequote = iq ∧
      (∀ m, picolCmdScan body 0 0 = some m →
        q.token = body.take m ∧ (∃ rest, body.drop m = ']' :: rest) ∧
        q.p = k + 1 + m + 1 ∧ T.drop q.p = body.drop (m + 1) ∧
        q.len = ((body.length - (m + 1) : Nat) : Int)) ∧
      (picolCmdScan body 0 0 = none →
        q.token = body ∧ q.p = T.length ∧ q.len = 0) := by
  have hlen : T.length - k = body.length + 1 := by
    have := congrArg List.length hd
    rw [List.length_drop] at this
    rw [this]
    rfl
  have hd1 : T.drop (k + 1) = body := drop_of_drop_cons hd
  have hg := picolGetToken_cmd T k ((T.length - k : Nat) : Int) st en ty iq body hd
    (by rw [hlen])
  refine ⟨_, hg, rfl, rfl, rfl, ?_, ?_⟩
  · intro m hs
    obtain ⟨r, hr⟩ := picolCmdScan_some body.length body (le_refl _) 0 0 m hs
    have he : picolCmdEnd body 0 0 = m := by
      unfold picolCmdEnd
      rw [hs]
      rfl
    have hm : m < body.length := by
      by_contra hge
      rw [List.drop_eq_nil_of_le (by omega)] at hr
      cases hr
    have hsplit : T.drop (k + 1) = body.take m ++ body.drop m := by
      rw [List.take_append_drop]
      exact hd1
    refine ⟨?_, ⟨r, hr⟩, ?_, ?_, ?_⟩
    · rw [he]
      have := picolParser_token_mk T
        (k + 1 + m + (if (picolCmdScan body 0 0).isSome then 1 else 0))
        (((T.length - k : Nat) : Int) - 1 - (m : Nat) -
          (if (picolCmdScan body 0 0).isSome then 1 else 0))
        (k + 1) PT_CMD iq (body.take m) (body.drop m) hsplit
      rw [List.length_take, Nat.min_eq_left (by omega)] at this
      exact this
    · show k + 1 + picolCmdEnd body 0 0 + (if (picolCmdScan body 0 0).isSome then 1 else 0) = _
      rw [he, hs]
      rfl
    · show T.drop (k + 1 + picolCmdEnd body 0 0 +
        (if (picolCmdScan body 0 0).isSome then 1 else 0)) = _
      rw [he, hs]
      simp only [Option.isSome_some, if_true]
      rw [← hd1, List.drop_drop]
      congr 1
    · show ((T.length - k : Nat) : Int) - 1 - (picolCmdEnd body 0 0 : Nat) -
        (if (picolCmdScan body 0 0).isSome then 1 else 0) = _
      rw [he, hs, hlen]
      simp only [Option.isSome_some, if_true]
      push_cast
      omega
  · intro hs
    have he : picolCmdEnd body 0 0 = body.length := by
      unfold picolCmdEnd
      rw [hs]
      rfl
    have hkl : k ≤ T.length := by omega
    refine ⟨?_, ?_, ?_⟩
    · rw [he]
      exact picolParser_token_mk T _ _ (k + 1) PT_CMD iq body []
        (by rw [List.append_nil]; exact hd1)
    · show k + 1 + picolCmdEnd body 0 0 + (if (picolCmdScan body 0 0).isSome then 1 else 0) = _
      rw [he, hs]
      simp only [Option.isSome_none, Bool.false_eq_true, if_false]
      omega
    · show ((T.length - k : Nat) : Int) - 1 - (picolCmdEnd body 0 0 : Nat) -
        (if (picolCmdScan body 0 0).isSome then 1 else 0) = _
      rw [he, hs, hlen]
      simp only [Option.isSome_none, Bool.false_eq_true, if_false]
      push_cast
      omega

/-- Witness of C27: the text `[set v {a]b}]` of the example, followed by ` x`; the
text of the token is `set v {a]b}` and the cursor is left at the space. -/
theorem C27_witness :
    ∃ q, picolGetToken ("set v \x7ba]b\x7d] x".toList.length + 3)
        (picolParser.mk "[set v \x7ba]b\x7d] x".toList 0
          (("[set v \x7ba]b\x7d] x".toList.length - 0 : Nat) : Int) 0 0 PT_EOL false) = some q ∧
      q.token = "set v \x7ba]b\x7d".toList ∧ q.p = 0 + 1 + 11 + 1 :=
  (C27_command_token "[set v \x7ba]b\x7d] x".toList 0 0 0 PT_EOL false
    "set v \x7ba]b\x7d] x".toList rfl).elim
    fun q h => ⟨q, h.1, (h.2.2.2.2.1 11 (by decide)).1,
      (h.2.2.2.2.1 11 (by decide)).2.2.1⟩

/-- The command scanner and the tokenizer on the examples, computed: a `]` inside
braces, nested brackets, an escaped `]`, a `}` with no brace open, and texts without
matching `]`. -/
theorem picolCmdScan_examples :
    picolCmdScan "set v \x7ba]b\x7d] x".toList 0 0 = some 11 ∧
    picolCmdScan "a [b] c] d".toList 0 0 = some 7 ∧
    picolCmdScan "a\\]b]".toList 0 0 = some 4 ∧
    picolCmdScan "a\x7db]".toList 0 0 = some 3 ∧
    picolCmdScan "a\x7bb]".toList 0 0 = none ∧
    picolCmdScan "\\".toList 0 0 = none ∧
    (picolGetToken 20 (picolInitParser "[expr 2 > 1] x".toList)).map
        (fun q => (q.type, q.token, q.p)) = some (PT_CMD, "expr 2 > 1".toList, 12) ∧
    (picolGetToken 20 (picolInitParser "[a\x7bb]".toList)).map
        (fun q => (q.type, q.token, q.p, q.len)) = some (PT_CMD, "a\x7bb]".toList, 5, 0) := by
  decide

/-! ## C29: the nesting limit is exact -/

/-- The command scanner passes over a character that is no bracket, brace or
backslash. -/
theorem picolCmdScan_plain_char (c : Char) (rest : CStr) (l b : Nat) (h1 : c ≠ '[')
    (h2 : c ≠ ']') (h3 : c ≠ '\\') (h4 : c ≠ '{') (h5 : c ≠ '}') :
    picolCmdScan (c :: rest) l b = (picolCmdScan rest l b).map fun m => m + 1 := by
  rw [picolCmdScan_cons, if_neg (fun h => h1 h.1), if_neg (fun h => h2 h.1), if_neg h3,
    if_neg h4, if_neg h5]

theorem option_map_add (x : Option Nat) (a b : Nat) :
    (x.map fun m => m + a).map (fun m => m + b) = x.map fun m => m + (a + b) := by
  cases x with
  | none => rfl
  | some v => simp only [Option.map_some', Option.some.injEq]; omega

/-- The brackets of `picolNestText k` are balanced: the command scanner passes over
the text and keeps its bracket level. -/
theorem picolCmdScan_nestText (k : Nat) : ∀ (l : Nat) (rest : CStr),
    picolCmdScan (picolNestText k ++ rest) l 0 =
      (picolCmdScan rest l 0).map fun m => m + (picolNestText k).length := by
  induction k with
  | zero =>
    intro l rest
    show picolCmdScan ('s' :: 'e' :: 't' :: ' ' :: 'x' :: ' ' :: '1' :: rest) l 0 = _
    rw [picolCmdScan_plain_char _ _ _ _ (by decide) (by decide) (by decide) (by decide) (by decide),
      picolCmdScan_plain_char _ _ _ _ (by decide) (by decide) (by decide) (by decide) (by decide),
      picolCmdScan_plain_char _ _ _ _ (by decide) (by decide) (by decide) (by decide) (by decide),
      picolCmdScan_plain_char _ _ _ _ (by decide) (by decide) (by decide) (by decide) (by decide),
      picolCmdScan_plain_char _ _ _ _ (by decide) (by decide) (by decide) (by decide) (by decide),
      picolCmdScan_plain_char _ _ _ _ (by decide) (by decide) (by decide) (by decide) (by decide),
      picolCmdScan_plain_char _ _ _ _ (by decide) (by decide) (by decide) (by decide) (by decide)]
    simp only [option_map_add]
    rfl
  | succ k ih =>
    intro l rest
    have e : picolNestText (k + 1) ++ rest =
        's' :: 'e' :: 't' :: ' ' :: 'x' :: ' ' :: '[' :: (picolNestText k ++ ']' :: rest) := by
      show ("set x [".toList ++ picolNestText k ++ "]".toList) ++ rest = _
      simp
    have hlen : (picolNestText (k + 1)).length = (picolNestText k).length + 8 := by
      show ("set x [".toList ++ picolNestText k ++ "]".toList).length = _
      simp
    rw [e,
      picolCmdScan_plain_char _ _ _ _ (by decide) (by decide) (by decide) (by decide) (by decide),
      picolCmdScan_plain_char _ _ _ _ (by decide) (by decide) (by decide) (by decide) (by decide),
      picolCmdScan_plain_char _ _ _ _ (by decide) (by decide) (by decide) (by decide) (by decide),
      picolCmdScan_plain_char _ _ _ _ (by decide) (by decide) (by decide) (by decide) (by decide),
      picolCmdScan_plain_char _ _ _ _ (by decide) (by decide) (by decide) (by decide) (by decide),
      picolCmdScan_plain_char _ _ _ _ (by decide) (by decide) (by decide) (by decide) (by decide),
      picolCmdScan_cons '[', if_pos ⟨rfl, rfl⟩, ih (l + 1) (']' :: rest),
      picolCmdScan_cons ']', if_neg (by simp), if_pos ⟨rfl, rfl⟩, if_neg (Nat.succ_ne_zero l),
      Nat.add_sub_cancel, hlen]
    simp only [option_map_add]
    congr 1
    funext m
    omega

theorem picolCmdScan_nestText_close (k : Nat) :
    picolCmdScan (picolNestText k ++ "]".toList) 0 0 = some (picolNestText k).length := by
  rw [picolCmdScan_nestText, show "]".toList = [']'] from rfl, picolCmdScan_cons,
    if_neg (by simp), if_pos ⟨rfl, rfl⟩, if_pos rfl]
  simp

theorem picolReplaceVal_of_find (name val : CStr) : ∀ vars : List picolVar,
    picolFindVar vars name = some { name := name, val := val } →
    picolReplaceVal vars name val = vars := by
  intro vars
  induction vars with
  | nil => intro _; rfl
  | cons v vs ih =>
    intro h
    rw [picolFindVar] at h
    rw [picolReplaceVal]
    by_cases hv : v.name = name
    · rw [if_pos hv] at h
      rw [if_pos hv]
      have e : v = { name := name, val := val } := Option.some.inj h
      rw [e]
    · rw [if_neg hv] at h
      rw [if_neg hv, ih h]

theorem picolFindVar_replaceVal (name val : CStr) : ∀ (vars : List picolVar) (v : picolVar),
    picolFindVar vars name = some v →
    picolFindVar (picolReplaceVal vars name val) name = some { name := name, val := val } := by
  intro vars
  induction vars with
  | nil => intro v h; simp [picolFindVar] at h
  | cons w ws ih =>
    intro v h
    rw [picolFindVar] at h
    rw [picolReplaceVal]
    by_cases hv : w.name = name
    · rw [if_pos hv, picolFindVar, if_pos hv]
      simp only [Option.some.injEq, picolVar.mk.injEq, and_true]
      exact hv
    · rw [if_neg hv] at h
      rw [if_neg hv, picolFindVar, if_neg hv]
      exact ih v h

/-- Setting a variable twice to the same value is setting it once. -/
theorem picolSetVarIn_twice (vars : List picolVar) (name val : CStr) :
    picolSetVarIn (picolSetVarIn vars name val) name val = picolSetVarIn vars name val := by
  have hfind : picolFindVar (picolSetVarIn vars name val) name =
      some { name := name, val := val } := by
    unfold picolSetVarIn
    cases h : picolFindVar vars name with
    | none =>
      simp only
      rw [picolFindVar, if_pos rfl]
    | some v =>
      simp only
      exact picolFindVar_replaceVal name val vars v h
  generalize picolSetVarIn vars name val = vs at hfind
  unfold picolSetVarIn
  rw [hfind]
  exact picolReplaceVal_of_find name val vs hfind

theorem picolSetVar_x (i : picolInterp) (val : CStr) :
    picolSetVar i "x".toList val =
      { i with callframe :=
          i.callframe.setVars (picolSetVarIn i.callframe.vars "x".toList val) } := by
  unfold picolSetVar
  rw [if_neg (by decide)]

theorem picolCallFrame_vars_setVars (cf : picolCallFrame) (vs : List picolVar) :
    (cf.setVars vs).vars = vs := by
  cases cf <;> rfl

theorem picolCallFrame_setVars_setVars (cf : picolCallFrame) (vs ws : List picolVar) :
    (cf.setVars vs).setVars ws = cf.setVars ws := by
  cases cf <;> rfl

section
variable {D : Type} (F : DoubleOps D)

theorem picolNestText_succ (k : Nat) :
    picolNestText (k + 1) =
      's' :: 'e' :: 't' :: ' ' :: 'x' :: ' ' :: '[' :: (picolNestText k ++ [']']) := by
  show "set x [".toList ++ picolNestText k ++ "]".toList = _
  simp

/-- On the text `set x [T(k)]` the token loop collects the words `set` and `x` and
then meets the command substitution whose text is `T(k)`, which ends the text. -/
theorem picolNestText_reaches (k : Nat) (i0 : picolInterp) :
    ∃ (q : picolParser) (a : Nat) (s e : Int) (m : Nat),
      picolEvalReaches F i0 (picolInitParser (picolNestText (k + 1))) [] i0 q
        ["set".toList, "x".toList] ∧
      q.type = PT_SEP ∧
      picolGetToken m q = some (picolParser.mk (picolNestText (k + 1)) a 0 s e PT_CMD false) ∧
      (picolParser.mk (picolNestText (k + 1)) a 0 s e PT_CMD false).token = picolNestText k := by
  have hscan := picolCmdScan_nestText_close k
  rw [show "]".toList = [']'] from rfl] at hscan
  rw [picolNestText_succ]
  generalize hb : picolNestText k ++ [']'] = body at hscan
  have hbl : body.length = (picolNestText k).length + 1 := by
    rw [← hb]
    simp
  generalize hTd : 's' :: 'e' :: 't' :: ' ' :: 'x' :: ' ' :: '[' :: body = T
  have hlen : T.length = body.length + 7 := by
    rw [← hTd]
    simp
  have hd0 : T.drop 0 = ('s' :: ['e', 't']) ++ ' ' :: ('x' :: ' ' :: '[' :: body) := by
    rw [← hTd]
    rfl
  have hd4 : T.drop (0 + ('s' :: ['e', 't']).length + 1) =
      ('x' :: []) ++ ' ' :: ('[' :: body) := by
    rw [← hTd]
    rfl
  have hd6 : T.drop (0 + ('s' :: ['e', 't']).length + 1 + ('x' :: ([] : CStr)).length + 1) =
      '[' :: body := by
    rw [← hTd]
    rfl
  have hd7 : T.drop (0 + ('s' :: ['e', 't']).length + 1 + ('x' :: ([] : CStr)).length + 1 + 1) =
      picolNestText k ++ [']'] := by
    rw [← hTd, hb]
    rfl
  have hA := picolEvalReaches_word F i0 [] T 0 (T.length : Int) 0 0 PT_EOL 's' ['e', 't']
    ('x' :: ' ' :: '[' :: body) (Or.inr rfl) hd0 (by decide) (by decide) (by decide)
    (by
      intro x hx
      simp only [List.head?_cons, Option.some.injEq] at hx
      rw [← hx]
      decide)
    (by rw [hlen]; simp only [List.length_cons, List.length_nil]
        push_cast; omega)
  have hB := picolEvalReaches_word F i0 ([] ++ ['s' :: ['e', 't']]) T
    (0 + ('s' :: ['e', 't']).length + 1)
    ((T.length : Int) - ('s' :: ['e', 't']).length - 1)
    ((0 + ('s' :: ['e', 't']).length : Nat) : Int)
    ((0 + ('s' :: ['e', 't']).length : Nat) : Int)
    PT_SEP 'x' [] ('[' :: body) (Or.inl rfl) hd4 (by decide) (by decide) (by decide)
    (by
      intro x hx
      simp only [List.head?_cons, Option.some.injEq] at hx
      rw [← hx]
      decide)
    (by rw [hlen]; simp only [List.length_cons, List.length_nil]
        push_cast; omega)
  have hAB := picolEvalReaches_trans F hA hB
  have hg := picolGetToken_cmd T
    (0 + ('s' :: ['e', 't']).length + 1 + ('x' :: ([] : CStr)).length + 1)
    ((T.length : Int) - ('s' :: ['e', 't']).length - 1 - ('x' :: ([] : CStr)).length - 1)
    ((0 + ('s' :: ['e', 't']).length + 1 + ('x' :: ([] : CStr)).length : Nat) : Int)
    ((0 + ('s' :: ['e', 't']).length + 1 + ('x' :: ([] : CStr)).length : Nat) : Int)
    PT_SEP false body hd6
    (by rw [hlen]; simp only [List.length_cons, List.length_nil]
        push_cast; omega)
  have hce : picolCmdEnd body 0 0 = (picolNestText k).length := by
    unfold picolCmdEnd
    rw [hscan]
    rfl
  rw [hce, hscan] at hg
  simp only [Option.isSome_some, if_true] at hg
  have hL0 : (T.length : Int) - ('s' :: ['e', 't']).length - 1 - ('x' :: ([] : CStr)).length - 1
      - 1 - ((picolNestText k).length : Nat) - 1 = 0 := by
    rw [hlen, hbl]
    simp only [List.length_cons, List.length_nil]
    push_cast
    omega
  rw [hL0] at hg
  have htok := picolParser_token_mk T
    (0 + ('s' :: ['e', 't']).length + 1 + ('x' :: ([] : CStr)).length + 1 + 1 +
      (picolNestText k).length + 1) 0
    (0 + ('s' :: ['e', 't']).length + 1 + ('x' :: ([] : CStr)).length + 1 + 1)
    PT_CMD false (picolNestText k) [']'] hd7
  exact ⟨_, _, _, _, _, hAB, rfl, hg, htok⟩

/-- What `set x 1` leaves: the variable `x` of the current frame bound to `1`, and
the result `1`. -/
theorem picolCommandSet_x_1 (j : picolInterp) :
    picolCommandSet j ["set".toList, "x".toList, "1".toList] =
      (PICOL_OK, picolSetResult (picolSetVar j "x".toList "1".toList) "1".toList) := rfl

theorem picolSingleCommand_set_x_1 :
    picolSingleCommand 19 "set x 1".toList =
      some (13, ["set".toList, "x".toList, "1".toList]) := by decide!

/-- While the levels suffice, `T(k)` evaluates to `PICOL_OK` and leaves what a single
`set x 1` leaves. -/
theorem picolEval_nestText_ok (k : Nat) : ∀ (i : picolInterp) (c : picolCmd),
    picolGetCommand i "set".toList = some c → c.func = .picolCommandSet →
    i.level + (k : Int) + 1 ≤ PICOL_MAX_RECURSION_LEVEL →
    ∃ n, picolEval F n i (picolNestText k) =
      some (PICOL_OK, picolSetResult (picolSetVar i "x".toList "1".toList) "1".toList) := by
  induction k with
  | zero =>
    intro i c hc hf hlev
    refine ⟨20, ?_⟩
    rw [picolEval_succ, if_neg (by simp only [Nat.cast_zero, add_zero] at hlev; omega)]
    show (picolEvalLoop F 19 _ (picolInitParser "set x 1".toList) []).bind _ = _
    rw [picolEvalLoop_singleCommand F 19 _ _ 13 _ picolSingleCommand_set_x_1]
    have hc2 : picolGetCommand { picolSetResult i [] with level := i.level + 1 }
        ((["set".toList, "x".toList, "1".toList] : List CStr).getD 0 []) = some c := hc
    rw [hc2]
    simp only
    rw [picolCallFunc_succ, hf]
    simp only [Option.some_bind, picolCommandSet_x_1, picolSetVar_x, picolSetResult,
      add_sub_cancel_right]
  | succ k ih =>
    intro i c hc hf hlev
    have hlev1 : i.level + 1 ≤ PICOL_MAX_RECURSION_LEVEL := by
      push_cast at hlev
      omega
    generalize hi0 : ({ picolSetResult i [] with level := i.level + 1 } : picolInterp) = i0
    have hc0 : picolGetCommand i0 "set".toList = some c := by
      rw [← hi0]
      exact hc
    obtain ⟨q, a, s, e, m, hreach, hq, hg, htok⟩ := picolNestText_reaches F k i0
    obtain ⟨n, hn⟩ := ih i0 c hc0 hf (by
      rw [← hi0]
      show i.level + 1 + (k : Int) + 1 ≤ _
      push_cast at hlev
      omega)
    rw [← htok] at hn
    have h3 := picolEvalIter_subst F ["set".toList, "x".toList]
      (picolGetToken_mono hg (le_max_left m n)) rfl (picolEval_mono F hn (le_max_right m n))
    have ha : picolAppendArg ["set".toList, "x".toList] q.type "1".toList =
        some ["set".toList, "x".toList, "1".toList] := by
      unfold picolAppendArg
      rw [if_pos (Or.inl hq)]
      rfl
    simp only [ne_eq, not_true_eq_false, if_false, picolSetResult, ha, Option.some_bind] at h3
    generalize hj1 : ({ picolSetVar i0 "x".toList "1".toList with result := "1".toList } :
      picolInterp) = j1 at h3
    have hc1 : picolGetCommand j1
        ((["set".toList, "x".toList, "1".toList] : List CStr).getD 0 []) = some c := by
      rw [← hj1, picolSetVar_x]
      exact hc0
    have hg4 := picolGetToken_end (picolNestText (k + 1)) a 0 s e PT_CMD false rfl 0
    simp only [ne_eq, reduceCtorEq, not_false_eq_true, and_self, if_true] at hg4
    have h4 := picolEvalIter_call F hg4 rfl (by simp) hc1
      (picolCallFunc_set F 0 j1 _ c hf)
    rw [picolCommandSet_x_1] at h4
    simp only [ne_eq, not_true_eq_false, if_false] at h4
    have hg5 := picolGetToken_end (picolNestText (k + 1)) a 0 s e PT_EOL false rfl 0
    simp only [ne_eq, not_true_eq_false, false_and, if_false] at hg5
    have h5 := picolEvalIter_eof F
      (i := picolSetResult (picolSetVar j1 "x".toList "1".toList) "1".toList) [] hg5 rfl
    have hall := picolEvalReaches_trans F hreach
      (picolEvalReaches_trans F (picolEvalReaches_step F h3) (picolEvalReaches_step F h4))
    subst hi0
    obtain ⟨w, hw⟩ := picolEval_of_comesTo F (i := i) (t := picolNestText (k + 1))
      (show picolEvalComesTo F i _ _ _ _ from ⟨hlev1, hall⟩) h5
    refine ⟨w, ?_⟩
    rw [hw, ← hj1]
    simp only [picolSetVar_x, picolSetResult, picolCallFrame_vars_setVars,
      picolCallFrame_setVars_setVars, picolSetVarIn_twice, add_sub_cancel_right]

/-- When the levels do not suffice, `T(k)` evaluates to `PICOL_ERR` with the result
`Nesting too deep`, and nothing else of the interpreter changes. -/
theorem picolEval_nestText_err (k : Nat) : ∀ (i : picolInterp),
    PICOL_MAX_RECURSION_LEVEL < i.level + (k : Int) + 1 →
    ∃ n, picolEval F n i (picolNestText k) =
      some (PICOL_ERR, picolSetResult i "Nesting too deep".toList) := by
  induction k with
  | zero =>
    intro i hlev
    refine ⟨1, ?_⟩
    rw [picolEval_succ, if_pos (by simp only [Nat.cast_zero, add_zero] at hlev; omega)]
    simp only [picolSetResult, add_sub_cancel_right]
  | succ k ih =>
    intro i hlev
    by_cases hlev1 : i.level + 1 > PICOL_MAX_RECURSION_LEVEL
    · refine ⟨1, ?_⟩
      rw [picolEval_succ, if_pos hlev1]
      simp only [picolSetResult, add_sub_cancel_right]
    · generalize hi0 : ({ picolSetResult i [] with level := i.level + 1 } : picolInterp) = i0
      obtain ⟨q, a, s, e, m, hreach, _, hg, htok⟩ := picolNestText_reaches F k i0
      obtain ⟨n, hn⟩ := ih i0 (by
        rw [← hi0]
        show _ < i.level + 1 + (k : Int) + 1
        push_cast at hlev
        omega)
      rw [← htok] at hn
      have h3 := picolEvalIter_subst F ["set".toList, "x".toList]
        (picolGetToken_mono hg (le_max_left m n)) rfl (picolEval_mono F hn (le_max_right m n))
      simp only [ne_eq, reduceCtorEq, not_false_eq_true, if_true] at h3
      subst hi0
      obtain ⟨w, hw⟩ := picolEval_of_comesTo F (i := i) (t := picolNestText (k + 1))
        (show picolEvalComesTo F i _ _ _ _ from ⟨not_lt.mp hlev1, hreach⟩) h3
      refine ⟨w, ?_⟩
      rw [hw]
      simp only [picolSetResult, add_sub_cancel_right]

/-- **C29.** The nesting limit is exact.  With `T(0) = set x 1` and
`T(k+1) = set x [T(k)]`, and `set` the built-in: evaluated at the level `l ≥ 0`,
`T(N)` returns, given enough fuel, `PICOL_OK` with the result `1` (and `x` bound to
`1`) when `l + N + 1 ≤ 128`, and `PICOL_ERR` with the result `Nesting too deep` and
nothing else changed when `l + N + 1 > 128`.  From level 0: `PICOL_OK` for every
`N ≤ 127`, `PICOL_ERR` for every `N ≥ 128`, so exactly 128 evaluator levels can be
active at once. -/
theorem C29_nesting_limit_exact (N : Nat) (i : picolInterp) (c : picolCmd)
    (hc : picolGetCommand i "set".toList = some c) (hf : c.func = .picolCommandSet) :
    (i.level + (N : Int) + 1 ≤ PICOL_MAX_RECURSION_LEVEL →
      ∃ n j, picolEval F n i (picolNestText N) = some (PICOL_OK, j) ∧
        j = picolSetResult (picolSetVar i "x".toList "1".toList) "1".toList ∧
        j.result = "1".toList ∧ j.level = i.level) ∧
    (PICOL_MAX_RECURSION_LEVEL < i.level + (N : Int) + 1 →
      ∃ n j, picolEval F n i (picolNestText N) = some (PICOL_ERR, j) ∧
        j = picolSetResult i "Nesting too deep".toList ∧
        j.result = "Nesting too deep".toList ∧ j.level = i.level) ∧
    (i.level = 0 →
      (N ≤ 127 → ∃ n j, picolEval F n i (picolNestText N) = some (PICOL_OK, j) ∧
        j.result = "1".toList ∧ j.level = 0) ∧
      (128 ≤ N → ∃ n j, picolEval F n i (picolNestText N) = some (PICOL_ERR, j) ∧
        j.result = "Nesting too deep".toList ∧ j.level = 0)) := by
  have hl : ∀ v : CStr, (picolSetVar i "x".toList v).level = i.level := fun v =>
    picolSetVar_level i _ v
  refine ⟨?_, ?_, ?_⟩
  · intro h
    obtain ⟨n, hn⟩ := picolEval_nestText_ok F N i c hc hf h
    exact ⟨n, _, hn, rfl, rfl, hl "1".toList⟩
  · intro h
    obtain ⟨n, hn⟩ := picolEval_nestText_err F N i h
    exact ⟨n, _, hn, rfl, rfl, rfl⟩
  · intro h0
    constructor
    · intro h
      obtain ⟨n, hn⟩ := picolEval_nestText_ok F N i c hc hf (by
        rw [h0]
        unfold PICOL_MAX_RECURSION_LEVEL
        omega)
      exact ⟨n, _, hn, rfl, (hl "1".toList).trans h0⟩
    · intro h
      obtain ⟨n, hn⟩ := picolEval_nestText_err F N i (by
        rw [h0]
        unfold PICOL_MAX_RECURSION_LEVEL
        omega)
      exact ⟨n, _, hn, rfl, h0⟩

end

/-- Witness of C29: in the interpreter with the core commands, `T(127)` is evaluated
to `PICOL_OK` with the result `1`, and `T(128)` to `PICOL_ERR` with the result
`Nesting too deep`. -/
theorem C29_witness :
    picolGetCommand picolCoreInterp "set".toList =
      some (picolCmd.mk "set".toList .picolCommandSet none none) ∧
    (∃ n j, picolEval intDouble n picolCoreInterp (picolNestText 127) = some (PICOL_OK, j) ∧
      j.result = "1".toList ∧ j.level = 0) ∧
    (∃ n j, picolEval intDouble n picolCoreInterp (picolNestText 128) = some (PICOL_ERR, j) ∧
      j.result = "Nesting too deep".toList ∧ j.level = 0) :=
  ⟨by decide,
    ((C29_nesting_limit_exact intDouble 127 picolCoreInterp
      (picolCmd.mk "set".toList .picolCommandSet none none) (by decide) rfl).2.2 rfl).1
      (by decide),
    ((C29_nesting_limit_exact intDouble 128 picolCoreInterp
      (picolCmd.mk "set".toList .picolCommandSet none none) (by decide) rfl).2.2 rfl).2
      (by decide)⟩

/-- The first texts of the family, evaluated in the interpreter with the core
commands. -/
theorem picolEval_nestText_examples :
    picolNestText 2 = "set x [set x [set x 1]]".toList ∧
    (picolEval intDouble 60 picolCoreInterp (picolNestText 0)).map
      (fun r => (r.1, r.2.result, r.2.level)) = some (PICOL_OK, "1".toList, 0) ∧
    (picolEval intDouble 60 picolCoreInterp (picolNestText 2)).map
      (fun r => (r.1, r.2.result, r.2.level)) = some (PICOL_OK, "1".toList, 0) ∧
    (picolEval intDouble 60 { picolCoreInterp with level := 126 } (picolNestText 2)).map
      (fun r => (r.1, r.2.result, r.2.level)) =
        some (PICOL_ERR, "Nesting too deep".toList, 126) ∧
    (picolEval intDouble 60 { picolCoreInterp with level := 125 } (picolNestText 2)).map
      (fun r => (r.1, r.2.result, r.2.level)) = some (PICOL_OK, "1".toList, 125) := by
  decide!

/-! ## C21: a self-recursive procedure ends with an error -/

theorem isVarChar_ordinary (c : Char) (h : isVarChar c = true) :
    picolOrdinary c = true ∧ c ≠ '{' ∧ c ≠ '}' ∧ c ≠ '#' ∧ c ≠ ' ' ∧ c ≠ '\t' ∧ c ≠ '\\' := by
  have hne : ∀ d : Char, isVarChar d = false → c ≠ d := by
    intro d hd e
    rw [e, hd] at h
    exact Bool.false_ne_true h
  have h1 := hne '\\' (by decide)
  have h2 := hne '$' (by decide)
  have h3 := hne '[' (by decide)
  have h4 := hne ' ' (by decide)
  have h5 := hne '\t' (by decide)
  have h6 := hne '\n' (by decide)
  have h7 := hne '\r' (by decide)
  have h8 := hne ';' (by decide)
  have h9 := hne '"' (by decide)
  refine ⟨?_, hne _ (by decide), hne _ (by decide), hne _ (by decide), h4, h5, h1⟩
  unfold picolOrdinary
  exact decide_eq_true ⟨h1, h2, h3, h4, h5, h6, h7, h8, h9⟩

/-- The brace scanner passes over a text without braces and backslashes. -/
theorem picolBraceScan_plain (w : CStr) (hw : ∀ c ∈ w, c ≠ '\\' ∧ c ≠ '{' ∧ c ≠ '}')
    (rest : CStr) (d : Nat) : picolBraceScan (w ++ rest) d = picolBraceScan rest d := by
  induction w with
  | nil => rfl
  | cons c w ih =>
    have hc := hw c (List.mem_cons_self _ _)
    rw [List.cons_append, picolBraceScan_cons, if_neg hc.1, if_neg hc.2.1, if_neg hc.2.2]
    exact ih (fun x hx => hw x (List.mem_cons_of_mem _ hx))

theorem picolSelfBody_balanced (p : CStr) (hp : picolIdent p) : picolBalanced (picolSelfBody p) := by
  unfold picolBalanced picolSelfBody
  have h := picolBraceScan_plain (' ' :: (p ++ [' '])) (by
    intro c hc
    simp only [List.mem_cons, List.mem_append, List.mem_singleton, List.not_mem_nil,
      or_false] at hc
    rcases hc with rfl | hc | rfl
    · decide
    · have := isVarChar_ordinary c (hp.2 c hc)
      exact ⟨this.2.2.2.2.2.2, this.2.1, this.2.2.1⟩
    · decide) [] 0
  rw [List.append_nil] at h
  rw [h]
  rfl

section
variable {D : Type} (F : DoubleOps D)

/-- The token loop over a plain word and the space after it. -/
theorem picolEvalReaches_word_sp (i : picolInterp) (argv : List CStr) (T : CStr) (k : Nat)
    (L st en : Int) (ty : picolTokenType) (c : Char) (w rest : CStr)
    (hty : ty = PT_SEP ∨ ty = PT_EOL)
    (hd : T.drop k = (c :: w) ++ ' ' :: rest)
    (hw : ∀ x ∈ c :: w, picolOrdinary x = true) (hc1 : c ≠ '{') (hc2 : c ≠ '#')
    (hr : ∀ x, rest.head? = some x → x ≠ ' ' ∧ x ≠ '\t')
    (hL : L = (((c :: w) ++ ' ' :: rest).length : Int)) :
    ∃ (k2 : Nat) (L2 st2 en2 : Int),
      picolEvalReaches F i (picolParser.mk T k L st en ty false) argv i
        (picolParser.mk T k2 L2 st2 en2 PT_SEP false) (argv ++ [c :: w]) ∧
      T.drop k2 = rest ∧ L2 = (rest.length : Int) := by
  have h := picolEvalReaches_word F i argv T k L st en ty c w rest hty hd hw hc1 hc2 hr
    (by rw [hL]; simp only [List.length_append, List.length_cons]; push_cast; omega)
  refine ⟨_, _, _, _, h, ?_, ?_⟩
  · have := drop_of_drop_cons (drop_of_drop_append hd)
    exact this
  · rw [hL]
    simp only [List.length_append, List.length_cons]
    push_cast
    omega

/-- The token loop over one space between words. -/
theorem picolEvalReaches_space (i : picolInterp) (argv : List CStr) (T : CStr) (k : Nat)
    (L st en : Int) (ty : picolTokenType) (rest : CStr)
    (hd : T.drop k = ' ' :: rest)
    (hr : ∀ c, rest.head? = some c → c ≠ ' ' ∧ c ≠ '\t')
    (hL : L = ((' ' :: rest).length : Int)) :
    ∃ (k2 : Nat) (L2 st2 en2 : Int),
      picolEvalReaches F i (picolParser.mk T k L st en ty false) argv i
        (picolParser.mk T k2 L2 st2 en2 PT_SEP false) argv ∧
      T.drop k2 = rest ∧ L2 = (rest.length : Int) := by
  have hg := picolGetToken_space T k L st en ty rest hd hr
    (by rw [hL]; simp only [List.length_cons]; push_cast; omega) 0
  have h := picolEvalIter_sep F (i := i) argv hg rfl
  refine ⟨_, _, _, _, picolEvalReaches_step F h, drop_of_drop_cons hd, ?_⟩
  rw [hL]
  simp only [List.length_cons]
  push_cast
  omega

/-- The token loop over a brace-quoted word at the start of a word. -/
theorem picolEvalReaches_brace (i : picolInterp) (argv : List CStr) (T : CStr) (k : Nat)
    (L st en : Int) (ty : picolTokenType) (X rest : CStr)
    (hty : ty = PT_SEP ∨ ty = PT_EOL)
    (hd : T.drop k = '{' :: (X ++ '}' :: rest)) (hX : picolBalanced X)
    (hL : L = (('{' :: (X ++ '}' :: rest)).length : Int)) :
    ∃ (k2 : Nat) (L2 st2 en2 : Int),
      picolEvalReaches F i (picolParser.mk T k L st en ty false) argv i
        (picolParser.mk T k2 L2 st2 en2 PT_STR false) (argv ++ [X]) ∧
      T.drop k2 = rest ∧ L2 = (rest.length : Int) := by
  have hg := picolGetToken_brace T k L st en ty false X rest
    (hty.elim Or.inl fun h => Or.inr (Or.inl h)) hd hX
    (by rw [hL]; simp only [List.length_append, List.length_cons]; push_cast; omega)
  have ht := picolParser_token_mk T (k + X.length + 2) (L - X.length - 2) (k + 1) PT_STR false
    X ('}' :: rest) (drop_of_drop_cons hd)
  have h := picolEvalIter_str F (i := i) argv hg rfl
  rw [ht] at h
  have ha : picolAppendArg argv ty X = some (argv ++ [X]) := by
    unfold picolAppendArg
    rw [if_pos hty]
  simp only [ha, Option.some_bind] at h
  refine ⟨_, _, _, _, picolEvalReaches_step F h, ?_, ?_⟩
  · have h1 : T.drop (k + 1 + X.length) = '}' :: rest :=
      drop_of_drop_append (drop_of_drop_cons hd)
    have h2 := drop_of_drop_cons h1
    rw [show k + X.length + 2 = k + 1 + X.length + 1 by omega]
    exact h2
  · rw [hL]
    simp only [List.length_append, List.length_cons]
    push_cast
    omega

/-- The token loop over a plain word that ends the text. -/
theorem picolEvalReaches_word_last (i : picolInterp) (argv : List CStr) (T : CStr) (k : Nat)
    (L st en : Int) (ty : picolTokenType) (c : Char) (w : CStr)
    (hty : ty = PT_SEP ∨ ty = PT_EOL) (hd : T.drop k = c :: w)
    (hw : ∀ x ∈ c :: w, picolOrdinary x = true) (hc1 : c ≠ '{') (hc2 : c ≠ '#')
    (hL : L = ((c :: w).length : Int)) :
    ∃ (k2 : Nat) (st2 en2 : Int),
      picolEvalReaches F i (picolParser.mk T k L st en ty false) argv i
        (picolParser.mk T k2 0 st2 en2 PT_ESC false) (argv ++ [c :: w]) := by
  have h := picolEvalReaches_word_end F i argv T k L st en ty c w hty hd hw hc1
    (fun e => absurd e hc2) hL
  have e0 : L - ((c :: w).length : Int) = 0 := by
    rw [hL]
    omega
  rw [e0] at h
  exact ⟨_, _, _, h⟩

/-- A call of the procedure stored by `proc p {} { p }`, when the evaluation of its
body in the frame of the call ends at the nesting limit: the frame of the call is
dropped and the error is returned. -/
theorem picolCallFunc_selfCmd (p : CStr) (i0 : picolInterp) (n : Nat)
    (he : picolEval F n { i0 with callframe := .child [] i0.callframe } (picolSelfBody p) =
      some (PICOL_ERR, picolSetResult { i0 with callframe := .child [] i0.callframe }
        "Nesting too deep".toList)) :
    picolCallFunc F (max n 2 + 2) i0 [p] (picolSelfCmd p) =
      some (PICOL_ERR, picolSetResult i0 "Nesting too deep".toList) := by
  rw [picolCallFunc_callProc F _ i0 [p] (picolSelfCmd p) rfl, picolCommandCallProc]
  have ha := picolArgsLoop_params [] (by simp) [p] 0 0 (max n 2)
    { i0 with callframe := .child [] i0.callframe } 0 (by simp) (by simp)
  simp only [List.drop_nil, picolParams_nil, picolBindParams] at ha
  have hb : picolEvalBody F (max n 2) { i0 with callframe := .child [] i0.callframe } p
      (picolSelfBody p) = some (PICOL_ERR,
        picolSetResult { i0 with callframe := .child [] i0.callframe }
          "Nesting too deep".toList) :=
    picolEvalBody_of_eval F (picolEval_mono F he (le_max_left n 2)) rfl
  simp only [picolSelfCmd, Option.some_bind, ha, List.length_singleton, Nat.cast_one, sub_self,
    ne_eq, not_true_eq_false, if_false, hb]
  rfl

theorem picolGetCommand_enter (j : picolInterp) (name : CStr) :
    picolGetCommand { picolSetResult j [] with level := j.level + 1 } name =
      picolGetCommand j name := rfl

/-- With `p` bound to the procedure stored by `proc p {} { p }`, the evaluation of
the body ` p ` at a level that is `d` below the limit ends with the error of the
nesting limit and changes nothing but the result. -/
theorem picolEval_selfBody (p : CStr) (hp : picolIdent p) (d : Nat) : ∀ (j : picolInterp),
    j.level + (d : Int) = PICOL_MAX_RECURSION_LEVEL →
    picolGetCommand j p = some (picolSelfCmd p) →
    ∃ n, picolEval F n j (picolSelfBody p) =
      some (PICOL_ERR, picolSetResult j "Nesting too deep".toList) := by
  induction d with
  | zero =>
    intro j hlev _
    refine ⟨1, ?_⟩
    rw [picolEval_succ, if_pos (by simp only [Nat.cast_zero, add_zero] at hlev; omega)]
    simp only [picolSetResult, add_sub_cancel_right]
  | succ d ih =>
    intro j hlev hc
    have hlev1 : j.level + 1 ≤ PICOL_MAX_RECURSION_LEVEL := by
      push_cast at hlev
      omega
    obtain ⟨c, w, hcw⟩ : ∃ c w, p = c :: w := by
      cases p with
      | nil => exact absurd rfl hp.1
      | cons c w => exact ⟨c, w, rfl⟩
    have hc0 := isVarChar_ordinary c (hp.2 c (by rw [hcw]; exact List.mem_cons_self _ _))
    have hord : ∀ x ∈ c :: w, picolOrdinary x = true := fun x hx =>
      (isVarChar_ordinary x (hp.2 x (by rw [hcw]; exact hx))).1
    generalize hi0 : ({ picolSetResult j [] with level := j.level + 1 } : picolInterp) = i0
    obtain ⟨n, hn⟩ := ih { i0 with callframe := .child [] i0.callframe }
      (by
        rw [← hi0]
        show j.level + 1 + (d : Int) = _
        push_cast at hlev
        omega)
      (by
        rw [← hi0]
        exact hc)
    have hcall := picolCallFunc_selfCmd F p i0 n hn
    generalize hT : picolSelfBody p = T at hcall ⊢
    have hTe : T = ' ' :: ((c :: w) ++ ' ' :: []) := by
      rw [← hT, hcw]
      rfl
    obtain ⟨k1, L1, st1, en1, hr1, hd1, hL1⟩ := picolEvalReaches_space F i0 [] T 0
      (T.length : Int) 0 0 PT_EOL ((c :: w) ++ ' ' :: []) (by rw [hTe]; rfl)
      (by
        intro x hx
        simp only [List.cons_append, List.head?_cons, Option.some.injEq] at hx
        rw [← hx]
        exact ⟨hc0.2.2.2.2.1, hc0.2.2.2.2.2.1⟩)
      (by rw [hTe])
    obtain ⟨k2, L2, st2, en2, hr2, _, hL2⟩ := picolEvalReaches_word_sp F i0 [] T k1 L1 st1 en1
      PT_SEP c w [] (Or.inl rfl) hd1 hord hc0.2.1 hc0.2.2.2.1
      (by intro x hx; cases hx) hL1
    have hg := picolGetToken_end T k2 L2 st2 en2 PT_SEP false hL2 0
    simp only [ne_eq, reduceCtorEq, not_false_eq_true, and_self, if_true] at hg
    have hcmd : picolGetCommand i0 (([] ++ [c :: w] : List CStr).getD 0 []) =
        some (picolSelfCmd p) := by
      rw [← hi0, ← hcw]
      exact hc
    have h3 := picolEvalIter_call F
      (picolGetToken_mono hg (Nat.succ_le_succ (Nat.zero_le (max n 2 + 1)))) rfl (by simp) hcmd
      (by rw [← hcw]; exact hcall)
    simp only [ne_eq, reduceCtorEq, not_false_eq_true, if_true] at h3
    subst hi0
    obtain ⟨m, hm⟩ := picolEval_of_comesTo F (i := j) (t := T)
      (show picolEvalComesTo F j T _ _ _ from ⟨hlev1, picolEvalReaches_trans F hr1 hr2⟩) h3
    refine ⟨m, ?_⟩
    rw [hm]
    simp only [picolSetResult, add_sub_cancel_right]

/-- With `p` bound to the procedure stored by `proc p {} { p }`, the call `p`, at
any level, ends with the error of the nesting limit and changes nothing but the
result. -/
theorem picolEval_selfCall (p : CStr) (hp : picolIdent p) (j : picolInterp)
    (hc : picolGetCommand j p = some (picolSelfCmd p)) :
    ∃ n, picolEval F n j p = some (PICOL_ERR, picolSetResult j "Nesting too deep".toList) := by
  by_cases hlev1 : j.level + 1 > PICOL_MAX_RECURSION_LEVEL
  · refine ⟨1, ?_⟩
    rw [picolEval_succ, if_pos hlev1]
    simp only [picolSetResult, add_sub_cancel_right]
  · obtain ⟨c, w, hcw⟩ : ∃ c w, p = c :: w := by
      cases p with
      | nil => exact absurd rfl hp.1
      | cons c w => exact ⟨c, w, rfl⟩
    have hc0 := isVarChar_ordinary c (hp.2 c (by rw [hcw]; exact List.mem_cons_self _ _))
    have hord : ∀ x ∈ c :: w, picolOrdinary x = true := fun x hx =>
      (isVarChar_ordinary x (hp.2 x (by rw [hcw]; exact hx))).1
    generalize hi0 : ({ picolSetResult j [] with level := j.level + 1 } : picolInterp) = i0
    obtain ⟨d, hd⟩ : ∃ d : Nat, j.level + 1 + (d : Int) = PICOL_MAX_RECURSION_LEVEL :=
      ⟨(PICOL_MAX_RECURSION_LEVEL - (j.level + 1)).toNat, by
        rw [Int.toNat_of_nonneg (by omega)]
        omega⟩
    obtain ⟨n, hn⟩ := picolEval_selfBody F p hp d { i0 with callframe := .child [] i0.callframe }
      (by rw [← hi0]; exact hd) (by rw [← hi0]; exact hc)
    have hcall := picolCallFunc_selfCmd F p i0 n hn
    obtain ⟨k2, st2, en2, hr2⟩ := picolEvalReaches_word_last F i0 [] p 0
      (p.length : Int) 0 0 PT_EOL c w (Or.inr rfl) (by rw [hcw]; rfl) hord hc0.2.1
      hc0.2.2.2.1 (by rw [hcw])
    have hg := picolGetToken_end p k2 0 st2 en2 PT_ESC false rfl 0
    simp only [ne_eq, reduceCtorEq, not_false_eq_true, and_self, if_true] at hg
    have hcmd : picolGetCommand i0 (([] ++ [c :: w] : List CStr).getD 0 []) =
        some (picolSelfCmd p) := by
      rw [← hi0, ← hcw]
      exact hc
    have h3 := picolEvalIter_call F
      (picolGetToken_mono hg (Nat.succ_le_succ (Nat.zero_le (max n 2 + 1)))) rfl (by simp) hcmd
      (by rw [← hcw]; exact hcall)
    simp only [ne_eq, reduceCtorEq, not_false_eq_true, if_true] at h3
    subst hi0
    obtain ⟨m, hm⟩ := picolEval_of_comesTo F (i := j) (t := p)
      (show picolEvalComesTo F j p _ _ _ from ⟨not_lt.mp hlev1, hr2⟩) h3
    refine ⟨m, ?_⟩
    rw [hm]
    simp only [picolSetResult, add_sub_cancel_right]

/-- The evaluation of `proc p {} { p }`, where `proc` is the built-in: it returns
`PICOL_OK` and leaves `p` bound to the procedure without parameters whose body is
` p `; the level, the call frame and the other commands are as before. -/
theorem picolEval_selfProcText (p : CStr) (hp : picolIdent p) (i : picolInterp) (c : picolCmd)
    (hlev : i.level + 1 ≤ PICOL_MAX_RECURSION_LEVEL)
    (hc : picolGetCommand i "proc".toList = some c) (hf : c.func = .picolCommandProc) :
    ∃ n j, picolEval F n i (picolSelfProcText p) = some (PICOL_OK, j) ∧
      picolGetCommand j p = some (picolSelfCmd p) ∧ j.level = i.level ∧
      j.callframe = i.callframe ∧
      ∀ other, other ≠ p → picolGetCommand j other = picolGetCommand i other := by
  obtain ⟨c0, w, hcw⟩ : ∃ c0 w, p = c0 :: w := by
    cases p with
    | nil => exact absurd rfl hp.1
    | cons c0 w => exact ⟨c0, w, rfl⟩
  have hc0 := isVarChar_ordinary c0 (hp.2 c0 (by rw [hcw]; exact List.mem_cons_self _ _))
  have hord : ∀ x ∈ c0 :: w, picolOrdinary x = true := fun x hx =>
    (isVarChar_ordinary x (hp.2 x (by rw [hcw]; exact hx))).1
  have hbal := picolSelfBody_balanced p hp
  generalize hi0 : ({ picolSetResult i [] with level := i.level + 1 } : picolInterp) = i0
  generalize hB : picolSelfBody p = body at hbal
  have hTe : picolSelfProcText p =
      ('p' :: ['r', 'o', 'c']) ++ ' ' :: ((c0 :: w) ++ ' ' :: ('{' :: ([] ++ '}' ::
        (' ' :: ('{' :: (body ++ '}' :: [])))))) := by
    unfold picolSelfProcText
    rw [hB, hcw]
    simp
  generalize hT : picolSelfProcText p = T at hTe ⊢
  obtain ⟨k1, L1, st1, en1, hr1, hd1, hL1⟩ := picolEvalReaches_word_sp F i0 [] T 0
    (T.length : Int) 0 0 PT_EOL 'p' ['r', 'o', 'c'] _ (Or.inr rfl) (by rw [hTe]; rfl)
    (by decide) (by decide) (by decide)
    (by
      intro x hx
      simp only [List.cons_append, List.head?_cons, Option.some.injEq] at hx
      rw [← hx]
      exact ⟨hc0.2.2.2.2.1, hc0.2.2.2.2.2.1⟩)
    (by rw [hTe])
  obtain ⟨k2, L2, st2, en2, hr2, hd2, hL2⟩ := picolEvalReaches_word_sp F i0
    ([] ++ ['p' :: ['r', 'o', 'c']]) T k1 L1 st1 en1 PT_SEP c0 w _ (Or.inl rfl) hd1 hord
    hc0.2.1 hc0.2.2.2.1
    (by
      intro x hx
      simp only [List.head?_cons, Option.some.injEq] at hx
      rw [← hx]
      decide)
    hL1
  obtain ⟨k3, L3, st3, en3, hr3, hd3, hL3⟩ := picolEvalReaches_brace F i0
    ([] ++ ['p' :: ['r', 'o', 'c']] ++ [c0 :: w]) T k2 L2 st2 en2 PT_SEP [] _ (Or.inl rfl)
    hd2 (by decide) hL2
  obtain ⟨k4, L4, st4, en4, hr4, hd4, hL4⟩ := picolEvalReaches_space F i0
    ([] ++ ['p' :: ['r', 'o', 'c']] ++ [c0 :: w] ++ [[]]) T k3 L3 st3 en3 PT_STR _ hd3
    (by
      intro x hx
      simp only [List.head?_cons, Option.some.injEq] at hx
      rw [← hx]
      decide)
    hL3
  obtain ⟨k5, L5, st5, en5, hr5, _, hL5⟩ := picolEvalReaches_brace F i0
    ([] ++ ['p' :: ['r', 'o', 'c']] ++ [c0 :: w] ++ [[]]) T k4 L4 st4 en4 PT_SEP body []
    (Or.inl rfl) hd4 hbal hL4
  have hreach := picolEvalReaches_trans F hr1 (picolEvalReaches_trans F hr2
    (picolEvalReaches_trans F hr3 (picolEvalReaches_trans F hr4 hr5)))
  have hargv : ([] ++ ['p' :: ['r', 'o', 'c']] ++ [c0 :: w] ++ [[]] ++ [body] : List CStr) =
      ["proc".toList, p, [], body] := by
    rw [hcw]
    rfl
  rw [hargv] at hreach
  have hg6 := picolGetToken_end T k5 L5 st5 en5 PT_STR false hL5 0
  simp only [ne_eq, reduceCtorEq, not_false_eq_true, and_self, if_true] at hg6
  have hcmd : picolGetCommand i0 ((["proc".toList, p, [], body] : List CStr).getD 0 []) =
      some c := by
    rw [← hi0]
    exact hc
  have hok := picolCommandProc_ok i0 ["proc".toList, p, [], body] rfl
  have h6 := picolEvalIter_call F hg6 rfl (by simp) hcmd
    (picolCallFunc_proc F 0 i0 _ c hf)
  rw [if_neg (by rw [hok.1]; exact fun h => h rfl)] at h6
  have hg7 := picolGetToken_end T k5 L5 st5 en5 PT_EOL false hL5 0
  simp only [ne_eq, not_true_eq_false, false_and, if_false] at hg7
  have h7 := picolEvalIter_eof F
    (i := (picolCommandProc i0 ["proc".toList, p, [], body]).2) [] hg7 rfl
  have hall := picolEvalReaches_trans F hreach (picolEvalReaches_step F h6)
  subst hi0
  obtain ⟨m, hm⟩ := picolEval_of_comesTo F (i := i) (t := T)
    (show picolEvalComesTo F i T _ _ _ from ⟨hlev, hall⟩) h7
  refine ⟨m, _, hm, ?_, ?_, ?_, ?_⟩
  · have := hok.2.1
    rw [← hB] at this ⊢
    exact this
  · show _ - 1 = i.level
    rw [hok.2.2.2.1]
    show i.level + 1 - 1 = i.level
    omega
  · exact hok.2.2.2.2.1
  · intro other hne
    exact hok.2.2.1 other hne

/-- **C21.** For every identifier `p` (a non-empty text of letters, digits and
underscores): in an interpreter at level 0 where `proc` is the built-in,
`proc p {} { p }` returns `PICOL_OK`, given enough fuel, and binds `p` to a
procedure without parameters and with the body ` p `; after it, the call `p`
returns, given enough fuel, `PICOL_ERR` with the result `Nesting too deep`, the
level is 0 again and the current call frame is the frame of before the definition
(the top frame when that one was the top frame), with its variables untouched.  The
call ends that way at every level and in every interpreter where `p` is bound to
that procedure. -/
theorem C21_self_recursion_ends (p : CStr) (hp : picolIdent p) :
    (∀ (i : picolInterp) (c : picolCmd), i.level = 0 →
      picolGetCommand i "proc".toList = some c → c.func = .picolCommandProc →
      ∃ n j, picolEval F n i (picolSelfProcText p) = some (PICOL_OK, j) ∧
        picolGetCommand j p = some (picolSelfCmd p) ∧
        ∃ m k, picolEval F m j p = some (PICOL_ERR, k) ∧
          k.result = "Nesting too deep".toList ∧ k.level = 0 ∧
          k.callframe = i.callframe ∧
          (∀ vs, i.callframe = .top vs → k.callframe = .top vs) ∧
          k.commands = j.commands) ∧
    (∀ j : picolInterp, picolGetCommand j p = some (picolSelfCmd p) →
      ∃ m, picolEval F m j p =
        some (PICOL_ERR, picolSetResult j "Nesting too deep".toList)) := by
  refine ⟨?_, fun j hj => picolEval_selfCall F p hp j hj⟩
  intro i c hl hc hf
  obtain ⟨n, j, hn, hj, hjl, hjf, _⟩ := picolEval_selfProcText F p hp i c
    (by rw [hl]; decide) hc hf
  obtain ⟨m, hm⟩ := picolEval_selfCall F p hp j hj
  exact ⟨n, j, hn, hj, m, _, hm, rfl, hjl.trans hl, hjf, fun vs hvs => hjf.trans hvs, rfl⟩

end

/-- Witness of C21: the procedure `bomb` of the test `self-recursive proc returns
error`, in the interpreter with the core commands. -/
theorem C21_witness :
    picolIdent "bomb".toList ∧
    picolSelfProcText "bomb".toList = "proc bomb \x7b\x7d \x7b bomb \x7d".toList ∧
    ∃ n j, picolEval intDouble n picolCoreInterp "proc bomb \x7b\x7d \x7b bomb \x7d".toList =
        some (PICOL_OK, j) ∧
      ∃ m k, picolEval intDouble m j "bomb".toList = some (PICOL_ERR, k) ∧
        k.result = "Nesting too deep".toList ∧ k.level = 0 ∧
        k.callframe = picolCoreInterp.callframe := by
  refine ⟨by decide, by decide, ?_⟩
  obtain ⟨n, j, hn, _, m, k, hm, h1, h2, h3, _⟩ :=
    (C21_self_recursion_ends intDouble "bomb".toList (by decide)).1 picolCoreInterp
      (picolCmd.mk "proc".toList .picolCommandProc none none) rfl (by decide) rfl
  exact ⟨n, j, hn, m, k, hm, h1, h2, h3⟩

/-- The text of the test, `proc bomb {} { bomb }; bomb`, evaluated as a whole in the
interpreter with the core commands, three levels below the limit: the third call of
`bomb` meets the limit. -/
theorem picolEval_bomb_example :
    (picolEval intDouble 60 { picolCoreInterp with level := 125 }
        "proc bomb \x7b\x7d \x7b bomb \x7d; bomb".toList).map
      (fun r => (r.1, r.2.result, r.2.level, r.2.callframe)) =
      some (PICOL_ERR, "Nesting too deep".toList, 125, picolCoreInterp.callframe) := by
  decide!

end Picol
